import Mathlib

/-!
Verification of the trigram index engine (codesearch-rs).

Shallow embedding of the Rust sources:
  src/index/regexp.rs  (trigram query construction and regexp analysis)
  src/index/read.rs    (index reader, query executor, delta decoder)
  src/index/write.rs   (delta encoder, posts writers, heap merge, add_file)
  src/index/merge.rs   (index merger)
  src/bin/cindex.rs    (build/update driver decision logic)

Machine integers are modelled as Nat (with explicit wrap-around where the
Rust release-mode semantics wraps); Rust Strings are modelled as lists of
bytes (Rust String comparison is bytewise lexicographic).
-/

/-! ### Byte strings and ordered-set helpers (regexp.rs) -/

/-- A Rust String viewed as its byte sequence. -/
abbrev Str := List Nat

/-- Bytewise lexicographic strict order, as Rust derives for String. -/
def lexLt : Str → Str → Bool
  | [], [] => false
  | [], _ :: _ => true
  | _ :: _, [] => false
  | a :: s, b :: t => if a < b then true else if b < a then false else lexLt s t

/-- Bytewise lexicographic order (non-strict). -/
def lexLe : Str → Str → Bool
  | [], _ => true
  | _ :: _, [] => false
  | a :: s, b :: t => if a < b then true else if b < a then false else lexLe s t

/-- Three-way comparison, as Rust `String::cmp`. -/
def strCmp : Str → Str → Ordering
  | [], [] => .eq
  | [], _ :: _ => .lt
  | _ :: _, [] => .gt
  | a :: s, b :: t => if a < b then .lt else if b < a then .gt else strCmp s t

/-- Stable insertion used to model Rust's stable `sort`. -/
def insertLe (x : Str) : List Str → List Str
  | [] => [x]
  | y :: t => if lexLe x y then x :: y :: t else y :: insertLe x t

/-- Stable sort by `lexLe`; agrees with Rust `Vec::sort` on strings. -/
def sortStr : List Str → List Str
  | [] => []
  | x :: t => insertLe x (sortStr t)

/-- Rust `Vec::dedup`: collapse runs of equal adjacent elements (when
the heads are equal, recursing on either is the same list). -/
def dedupAdj : List Str → List Str
  | [] => []
  | [x] => [x]
  | x :: y :: t => if x = y then dedupAdj (y :: t) else x :: dedupAdj (y :: t)

/-- `clean_set` from regexp.rs: sort then dedup. -/
def clean_set (s : List Str) : List Str := dedupAdj (sortStr s)

/-- `union_sets` from regexp.rs. -/
def union_sets (s t : List Str) : List Str := clean_set (s ++ t)

/-- `cross_sets` from regexp.rs: all concatenations, cleaned. -/
def cross_sets (s t : List Str) : List Str :=
  clean_set (s.flatMap (fun ss => t.map (fun tt => ss ++ tt)))

/-- `is_subset` from regexp.rs (merge scan over sorted lists; the
cursor stays on a matched element, modelled here by `dropWhile`). -/
def is_subset : List Str → List Str → Bool
  | [], _ => true
  | ss :: s, t =>
    let t2 := t.dropWhile (fun u => lexLt u ss)
    match t2 with
    | [] => false
    | u :: _ => if u = ss then is_subset s t2 else false

/-- `intersection_split` from regexp.rs, fuelled by the combined
length (each step consumes at least one element, so the budget of
`intersection_split` is exact): split two sorted lists into
(common, left-only, right-only). -/
def intersection_splitF : Nat → List Str → List Str → List Str × List Str × List Str
  | 0, s, t => ([], s, t)
  | _ + 1, [], t => ([], [], t)
  | _ + 1, a :: s, [] => ([], a :: s, [])
  | n + 1, a :: s, b :: t =>
    match strCmp a b with
    | .lt =>
      match intersection_splitF n s (b :: t) with
      | (c, so, ro) => (c, a :: so, ro)
    | .gt =>
      match intersection_splitF n (a :: s) t with
      | (c, so, ro) => (c, so, b :: ro)
    | .eq =>
      match intersection_splitF n s t with
      | (c, so, ro) => (a :: c, so, ro)

/-- `intersection_split` with its sufficient budget. -/
def intersection_split (s t : List Str) : List Str × List Str × List Str :=
  intersection_splitF (s.length + t.length) s t

/-- `min_len` from regexp.rs (0 for the empty set). -/
def min_len (s : List Str) : Nat :=
  match s with
  | [] => 0
  | x :: t => (t.map List.length).foldl min x.length

/-! ### The trigram boolean Query (regexp.rs) -/

/-- Query operators, as in regexp.rs. -/
inductive QueryOp where
  | all | none | and | or
deriving DecidableEq, Repr

/-- The boolean trigram query of regexp.rs: an operator, a vector of
trigram literals and a vector of sub-queries. -/
inductive Query where
  | mk (op : QueryOp) (trigram : List Str) (sub : List Query)

/-- Operator of a query node. -/
def Query.op : Query → QueryOp
  | .mk o _ _ => o

/-- Trigram vector of a query node. -/
def Query.trigram : Query → List Str
  | .mk _ t _ => t

/-- Sub-query vector of a query node. -/
def Query.sub : Query → List Query
  | .mk _ _ s => s

/-- `Query::all()`. -/
def Query.allQ : Query := .mk .all [] []

/-- `Query::none()`. -/
def Query.noneQ : Query := .mk .none [] []

mutual

/-- `trigrams_imply` from regexp.rs. -/
def trigrams_imply (t : List Str) : Query → Bool
  | .mk .or T subs =>
    trigramsImplyAny t subs || (t.any fun s => is_subset [s] T)
  | .mk .and T subs =>
    trigramsImplyAll t subs && is_subset T t
  | .mk .all _ _ => false
  | .mk .none _ _ => false

/-- Disjunction of `trigrams_imply` over a sub-query list. -/
def trigramsImplyAny (t : List Str) : List Query → Bool
  | [] => false
  | q :: qs => trigrams_imply t q || trigramsImplyAny t qs

/-- Conjunction of `trigrams_imply` over a sub-query list. -/
def trigramsImplyAll (t : List Str) : List Query → Bool
  | [] => true
  | q :: qs => trigrams_imply t q && trigramsImplyAll t qs

end

/-- `Query::implies` from regexp.rs. -/
def Query.implies (q r : Query) : Bool :=
  if q.op = .none ∨ r.op = .all then true
  else if q.op = .all ∨ r.op = .none then false
  else if q.op = .and ∨ (q.op = .or ∧ q.trigram.length = 1 ∧ q.sub.isEmpty = true) then
    trigrams_imply q.trigram r
  else if q.op = .or ∧ r.op = .or ∧ q.trigram ≠ [] ∧ q.sub.isEmpty = true ∧
      is_subset q.trigram r.trigram then true
  else false

/-- The un-nesting prelude of `and_or`: a node with no trigrams and a
single child is replaced by that child. -/
def unwrap1 (q : Query) : Query :=
  match q with
  | .mk _ t s =>
    if t = [] then
      match s with
      | [x] => x
      | _ => q
    else q

/-- The `other_op` computed inside `and_or`'s factoring branch. -/
def otherOpOf (op : QueryOp) : QueryOp :=
  if op = .and then .or else .and

/-- `Query::and_or` from regexp.rs, with an explicit recursion budget.
The only self-call of the Rust source is in the factoring branch, which
strictly shrinks the combined trigram count, so the budget supplied by
`Query.and_or` below always suffices (see `and_orF_stable`). -/
def and_orF : Nat → Query → Query → QueryOp → Query
  | 0, _, _, _ => Query.allQ
  | n + 1, q0, r0, op =>
    let q := unwrap1 q0
    let r := unwrap1 r0
    if q.implies r then (if op = .and then q else r)
    else if r.implies q then (if op = .and then r else q)
    else
      if q.op = op ∧ (r.op = op ∨ (r.trigram.length = 1 ∧ r.sub.isEmpty = true)) then
        .mk op (union_sets q.trigram r.trigram) (q.sub ++ r.sub)
      else if r.op = op ∧ (q.trigram.length = 1 ∧ q.sub.isEmpty = true) then
        .mk op (union_sets r.trigram q.trigram) r.sub
      else if (q.trigram.length = 1 ∧ q.sub.isEmpty = true) ∧
          (r.trigram.length = 1 ∧ r.sub.isEmpty = true) then
        .mk op (q.trigram ++ r.trigram) q.sub
      else if q.op = op then
        .mk q.op q.trigram (q.sub ++ [r])
      else if r.op = op then
        .mk r.op r.trigram (r.sub ++ [q])
      else
        match intersection_split q.trigram r.trigram with
        | (common, qt, rt) =>
          if common ≠ [] then
            let s := and_orF n (.mk q.op qt q.sub) (.mk r.op rt r.sub) op
            and_orF n (.mk (otherOpOf op) common []) s (otherOpOf op)
          else
            .mk op [] [.mk q.op qt q.sub, .mk r.op rt r.sub]

/-- `Query::and_or` with the budget that always suffices. -/
def Query.and_or (q r : Query) (op : QueryOp) : Query :=
  and_orF (q.trigram.length + r.trigram.length + 1) q r op

/-- `Query::and`. -/
def Query.and (q r : Query) : Query := q.and_or r .and

/-- `Query::or`. -/
def Query.or (q r : Query) : Query := q.and_or r .or

/-- All 3-byte windows of a string, as collected by `and_trigrams`
(empty for strings shorter than 3 bytes). -/
def windows3 (s : Str) : List Str :=
  if 3 ≤ s.length then (List.range (s.length - 2)).map fun i => (s.drop i).take 3
  else []

/-- `Query::and_trigrams` from regexp.rs. -/
def Query.and_trigrams (q : Query) (t : List Str) : Query :=
  if min_len t < 3 then q
  else
    let orq := t.foldl (fun acc tt => acc.or (.mk .and (clean_set (windows3 tt)) []))
      Query.noneQ
    q.and orq

mutual

/-- Boolean evaluation of a query over a trigram predicate: a trigram
literal is satisfied when the predicate holds for it. -/
def evalQ (S : Str → Bool) : Query → Bool
  | .mk .all _ _ => true
  | .mk .none _ _ => false
  | .mk .and T subs => T.all S && evalAllQ S subs
  | .mk .or T subs => T.any S || evalAnyQ S subs

/-- Conjunction of `evalQ` over a sub-query list. -/
def evalAllQ (S : Str → Bool) : List Query → Bool
  | [] => true
  | q :: qs => evalQ S q && evalAllQ S qs

/-- Disjunction of `evalQ` over a sub-query list. -/
def evalAnyQ (S : Str → Bool) : List Query → Bool
  | [] => false
  | q :: qs => evalQ S q || evalAnyQ S qs

end

/-- Well-formedness: `All`/`None` nodes carry no trigrams and no
children.  All queries built by the analyzer satisfy this. -/
inductive WFQ : Query → Prop where
  | mk : ∀ op T subs, ((op = .all ∨ op = .none) → T = [] ∧ subs = []) →
      (∀ q ∈ subs, WFQ q) → WFQ (.mk op T subs)

/-! ### RegexpInfo and the analyzer (regexp.rs) -/

/-- `RegexpInfo` from regexp.rs.  The Rust fields `prefix`/`suffix` are
named `prefixS`/`suffixS` (the former is a Lean keyword). -/
structure RegexpInfo where
  can_empty : Bool
  exact : Option (List Str)
  prefixS : List Str
  suffixS : List Str
  match_q : Query

/-- `RegexpInfo::new`. -/
def RegexpInfo.new : RegexpInfo :=
  ⟨false, Option.none, [], [], Query.allQ⟩

/-- `RegexpInfo::any_match`. -/
def RegexpInfo.any_match : RegexpInfo :=
  ⟨true, Option.none, [[]], [[]], Query.allQ⟩

/-- `RegexpInfo::any_char`. -/
def RegexpInfo.any_char : RegexpInfo :=
  ⟨false, Option.none, [[]], [[]], Query.allQ⟩

/-- `RegexpInfo::no_match`. -/
def RegexpInfo.no_match : RegexpInfo :=
  ⟨false, Option.none, [], [], Query.noneQ⟩

/-- `RegexpInfo::empty_string`. -/
def RegexpInfo.empty_string : RegexpInfo :=
  ⟨true, some [[]], [], [], Query.allQ⟩

/-- `RegexpInfo::add_exact`. -/
def RegexpInfo.add_exact (i : RegexpInfo) : RegexpInfo :=
  match i.exact with
  | some ex => { i with match_q := i.match_q.and_trigrams ex }
  | Option.none => i

/-- One truncation pass of `simplify_set` for the current `n`:
keep the first (resp. last) `n-1` bytes of every string of length at
least `n`, then clean. -/
def truncPass (is_suffix : Bool) (n : Nat) (s : List Str) : List Str :=
  clean_set (s.map fun v =>
    if n ≤ v.length then
      if is_suffix then v.drop (v.length - (n - 1)) else v.take (n - 1)
    else v)

/-- The redundancy scan at the end of `simplify_set`: drop a string
when the previously kept string is a prefix (resp. suffix) of it. -/
def redF (is_suffix : Bool) : Str → List Str → List Str
  | _, [] => []
  | prev, x :: t =>
    if (if is_suffix then prev.isSuffixOf x else prev.isPrefixOf x) then
      redF is_suffix prev t
    else x :: redF is_suffix x t

/-- Insertion respecting a boolean order, used for the suffix-oriented
sort of `simplify_set`. -/
def insertLeBy (le : Str → Str → Bool) (x : Str) : List Str → List Str
  | [] => [x]
  | y :: t => if le x y then x :: y :: t else y :: insertLeBy le x t

/-- Stable sort by a boolean order. -/
def sortStrBy (le : Str → Str → Bool) : List Str → List Str
  | [] => []
  | x :: t => insertLeBy le x (sortStrBy le t)

/-- Reversed-string order used by `simplify_set` for suffix sets. -/
def revLe (a b : Str) : Bool := lexLe a.reverse b.reverse

/-- `simplify_set` from regexp.rs.  The while loop always performs the
`n = 3` pass and performs the `n = 2` (resp. `n = 1`) pass only while
the set is still larger than `MAX_SET = 20`. -/
def simplify_set (is_suffix : Bool) (s0 : List Str) : List Str :=
  let s := clean_set s0
  let s1 := truncPass is_suffix 3 s
  let s2 := if 20 < s1.length then truncPass is_suffix 2 s1 else s1
  let s3 := if 20 < s1.length ∧ 20 < s2.length then truncPass is_suffix 1 s2 else s2
  let ss := if is_suffix then sortStrBy revLe s3 else sortStr s3
  match ss with
  | [] => []
  | x :: t => x :: redF is_suffix x t

/-- `RegexpInfo::simplify` from regexp.rs. -/
def RegexpInfo.simplify (i : RegexpInfo) (force : Bool) : RegexpInfo :=
  let i1 :=
    match i.exact with
    | some ex0 =>
      let ex := clean_set ex0
      let ml := min_len ex
      if 7 < ex.length ∨ (3 ≤ ml ∧ force) ∨ 4 ≤ ml then
        { i with
          exact := Option.none
          match_q := i.match_q.and_trigrams ex
          prefixS := i.prefixS ++ ex.map (fun (s : Str) => if s.length < 3 then s else s.take 2)
          suffixS := i.suffixS ++
            ex.map (fun (s : Str) => if s.length < 3 then s else s.drop (s.length - 2)) }
      else { i with exact := some ex }
    | Option.none => i
  match i1.exact with
  | Option.none =>
    let p := simplify_set false i1.prefixS
    let sf := simplify_set true i1.suffixS
    { i1 with
      prefixS := p
      suffixS := sf
      match_q := (i1.match_q.and_trigrams p).and_trigrams sf }
  | some _ => i1

/-- `concat_info` from regexp.rs. -/
def concat_info (x y : RegexpInfo) : RegexpInfo :=
  let m0 := x.match_q.and y.match_q
  let xy : RegexpInfo :=
    match x.exact, y.exact with
    | some xe, some ye =>
      { RegexpInfo.new with match_q := m0, exact := some (cross_sets xe ye) }
    | some xe, Option.none =>
      { RegexpInfo.new with
        match_q := m0
        prefixS := cross_sets xe y.prefixS
        suffixS := if y.can_empty then union_sets y.suffixS x.suffixS else y.suffixS }
    | Option.none, some ye =>
      { RegexpInfo.new with
        match_q := m0
        prefixS := if x.can_empty then union_sets x.prefixS y.prefixS else x.prefixS
        suffixS := cross_sets x.suffixS ye }
    | Option.none, Option.none =>
      { RegexpInfo.new with
        match_q := m0
        prefixS := if x.can_empty then union_sets x.prefixS y.prefixS else x.prefixS
        suffixS := if y.can_empty then union_sets y.suffixS x.suffixS else y.suffixS }
  let xy := { xy with can_empty := x.can_empty && y.can_empty }
  let xy :=
    if x.exact.isNone ∧ y.exact.isNone ∧
        x.suffixS.length ≤ 20 ∧ y.prefixS.length ≤ 20 ∧
        3 ≤ min_len x.suffixS + min_len y.prefixS then
      { xy with match_q := xy.match_q.and_trigrams (cross_sets x.suffixS y.prefixS) }
    else xy
  xy.simplify false

/-- `alternate_info` from regexp.rs. -/
def alternate_info (x y : RegexpInfo) : RegexpInfo :=
  let base : RegexpInfo := RegexpInfo.new
  let xy :=
    match x.exact, y.exact with
    | some xe, some ye =>
      { base with
        exact := some (union_sets xe ye)
        match_q := x.match_q.or y.match_q }
    | some xe, Option.none =>
      { base with
        prefixS := union_sets xe y.prefixS
        suffixS := union_sets xe y.suffixS
        match_q := (x.match_q.and_trigrams xe).or y.match_q }
    | Option.none, some ye =>
      { base with
        prefixS := union_sets x.prefixS ye
        suffixS := union_sets x.suffixS ye
        match_q := x.match_q.or (y.match_q.and_trigrams ye) }
    | Option.none, Option.none =>
      { base with
        prefixS := union_sets x.prefixS y.prefixS
        suffixS := union_sets x.suffixS y.suffixS
        match_q := x.match_q.or y.match_q }
  let xy := { xy with can_empty := x.can_empty || y.can_empty }
  xy.simplify false

/-- The regex HIR, as consumed by `analyze_hir`.  Character classes are
modelled as byte ranges (the `Class::Bytes` shape; the default
regex-syntax parser only yields byte classes over ASCII, where one
class element is exactly one byte). -/
inductive Hir where
  | epsilon
  | lit (s : Str)
  | cls (ranges : List (Nat × Nat))
  | look
  | rep (min : Nat) (max : Option Nat) (sub : Hir)
  | capture (sub : Hir)
  | cat (subs : List Hir)
  | alt (subs : List Hir)

/-- Enumeration of a class with the `> 100` abort of the source
(`Option.none` models the early `return any_char`). -/
def classEnum : List (Nat × Nat) → List Nat → Option (List Nat)
  | [], acc => some acc
  | (lo, hi) :: rs, acc =>
    if 100 < acc.length + (hi - lo + 1) then Option.none
    else classEnum rs (acc ++ (List.range (hi - lo + 1)).map (lo + ·))

mutual

/-- `analyze_hir` from regexp.rs.  Every arm that produces its value by
falling through applies `simplify(false)`; the two early `return`s of
the class arm skip it, exactly as in the source. -/
def analyze_hir : Hir → RegexpInfo
  | .epsilon => RegexpInfo.empty_string.simplify false
  | .lit s => ({ RegexpInfo.new with exact := some [s] }).simplify false
  | .cls rs =>
    match classEnum rs [] with
    | Option.none => RegexpInfo.any_char
    | some [] => RegexpInfo.no_match
    | some (c :: cs) =>
      ({ RegexpInfo.new with
         exact := some ((c :: cs).map fun b => [b]) }).simplify false
  | .look => RegexpInfo.empty_string.simplify false
  | .rep 0 _ _ => RegexpInfo.any_match.simplify false
  | .rep (_ + 1) _ sub =>
    let si := analyze_hir sub
    let si2 :=
      match si.exact with
      | some ex => { si with prefixS := ex, suffixS := ex, exact := Option.none }
      | Option.none => si
    si2.simplify false
  | .capture sub => (analyze_hir sub).simplify false
  | .cat subs => (foldInfo concat_info RegexpInfo.empty_string subs).simplify false
  | .alt subs => (foldInfo alternate_info RegexpInfo.no_match subs).simplify false

/-- The `fold` helper of regexp.rs: empty list gives the zero, a single
element is analyzed directly, longer lists fold pairwise from the left. -/
def foldInfo (f : RegexpInfo → RegexpInfo → RegexpInfo) (zero : RegexpInfo) :
    List Hir → RegexpInfo
  | [] => zero
  | [h] => analyze_hir h
  | h1 :: h2 :: t => foldInfoAcc f (f (analyze_hir h1) (analyze_hir h2)) t

/-- The running accumulator of `fold`. -/
def foldInfoAcc (f : RegexpInfo → RegexpInfo → RegexpInfo) (acc : RegexpInfo) :
    List Hir → RegexpInfo
  | [] => acc
  | h :: t => foldInfoAcc f (f acc (analyze_hir h)) t

end

/-- `analyze_regexp` from regexp.rs, applied to the parsed HIR (the
parse step itself lives in the external regex-syntax crate). -/
def analyze_regexp (h : Hir) : Query :=
  (((analyze_hir h).simplify true).add_exact).match_q

/-! ### Language semantics of the embedded HIR -/

mutual

/-- Matching semantics of the HIR: `Lang h s` holds when the byte
string `s` is matched (in full) by `h`.  Anchors and look-arounds
consume nothing, as assumed by the analyzer. -/
inductive Lang : Hir → Str → Prop where
  | eps : Lang .epsilon []
  | lit (s : Str) : Lang (.lit s) s
  | cls (rs : List (Nat × Nat)) (b : Nat) (r : Nat × Nat) :
      r ∈ rs → r.1 ≤ b → b ≤ r.2 → Lang (.cls rs) [b]
  | look : Lang .look []
  | rep (m : Nat) (M : Option Nat) (sub : Hir) (k : Nat) (s : Str) :
      m ≤ k → (∀ b ∈ M, k ≤ b) → LangPow sub k s → Lang (.rep m M sub) s
  | capt (sub : Hir) (s : Str) : Lang sub s → Lang (.capture sub) s
  | cat (subs : List Hir) (s : Str) : LangSeq subs s → Lang (.cat subs) s
  | alt (subs : List Hir) (h : Hir) (s : Str) :
      h ∈ subs → Lang h s → Lang (.alt subs) s

/-- Sequential matching of a list of HIRs. -/
inductive LangSeq : List Hir → Str → Prop where
  | nil : LangSeq [] []
  | cons (h : Hir) (t : List Hir) (a b : Str) :
      Lang h a → LangSeq t b → LangSeq (h :: t) (a ++ b)

/-- `k`-fold repetition of one HIR. -/
inductive LangPow : Hir → Nat → Str → Prop where
  | zero (h : Hir) : LangPow h 0 []
  | succ (h : Hir) (k : Nat) (a b : Str) :
      Lang h a → LangPow h k b → LangPow h (k + 1) (a ++ b)

end

/-- The trigram predicate of a subject string: membership among its
3-byte windows. -/
def triS (s : Str) : Str → Bool := fun t => decide (t ∈ windows3 s)

/-! ### Proof-structuring forms of and_or, simplify, concat and
alternate (each equal to the source definition by plain unfolding), and
the soundness invariant of the analyzer. -/

def and_orStep (n : Nat) (q r : Query) (op : QueryOp) : Query :=
  if q.implies r then (if op = .and then q else r)
  else if r.implies q then (if op = .and then r else q)
  else
    if q.op = op ∧ (r.op = op ∨ (r.trigram.length = 1 ∧ r.sub.isEmpty = true)) then
      .mk op (union_sets q.trigram r.trigram) (q.sub ++ r.sub)
    else if r.op = op ∧ (q.trigram.length = 1 ∧ q.sub.isEmpty = true) then
      .mk op (union_sets r.trigram q.trigram) r.sub
    else if (q.trigram.length = 1 ∧ q.sub.isEmpty = true) ∧
        (r.trigram.length = 1 ∧ r.sub.isEmpty = true) then
      .mk op (q.trigram ++ r.trigram) q.sub
    else if q.op = op then
      .mk q.op q.trigram (q.sub ++ [r])
    else if r.op = op then
      .mk r.op r.trigram (r.sub ++ [q])
    else
      match intersection_split q.trigram r.trigram with
      | (common, qt, rt) =>
        if common ≠ [] then
          and_orF n (.mk (otherOpOf op) common [])
            (and_orF n (.mk q.op qt q.sub) (.mk r.op rt r.sub) op) (otherOpOf op)
        else
          .mk op [] [.mk q.op qt q.sub, .mk r.op rt r.sub]

def InfoSound (L : Str → Prop) (i : RegexpInfo) : Prop :=
  WFQ i.match_q ∧
  ∀ s, L s →
    evalQ (triS s) i.match_q = true ∧
    (∀ ex, i.exact = some ex → s ∈ ex) ∧
    (i.exact = Option.none →
      (∃ p ∈ i.prefixS, p <+: s) ∧ (∃ f ∈ i.suffixS, f <:+ s))

def simplifyPhase1 (i : RegexpInfo) (force : Bool) : RegexpInfo :=
  match i.exact with
  | some ex0 =>
    let ex := clean_set ex0
    let ml := min_len ex
    if 7 < ex.length ∨ (3 ≤ ml ∧ force) ∨ 4 ≤ ml then
      { i with
        exact := Option.none
        match_q := i.match_q.and_trigrams ex
        prefixS := i.prefixS ++ ex.map (fun (s : Str) => if s.length < 3 then s else s.take 2)
        suffixS := i.suffixS ++
          ex.map (fun (s : Str) => if s.length < 3 then s else s.drop (s.length - 2)) }
    else { i with exact := some ex }
  | Option.none => i

def simplifyPhase2 (i1 : RegexpInfo) : RegexpInfo :=
  match i1.exact with
  | Option.none =>
    { i1 with
      prefixS := simplify_set false i1.prefixS
      suffixS := simplify_set true i1.suffixS
      match_q := (i1.match_q.and_trigrams (simplify_set false i1.prefixS)).and_trigrams
        (simplify_set true i1.suffixS) }
  | some _ => i1

def concatBase (x y : RegexpInfo) : RegexpInfo :=
  match x.exact, y.exact with
  | some xe, some ye =>
    { RegexpInfo.new with
      match_q := x.match_q.and y.match_q
      exact := some (cross_sets xe ye) }
  | some xe, Option.none =>
    { RegexpInfo.new with
      match_q := x.match_q.and y.match_q
      prefixS := cross_sets xe y.prefixS
      suffixS := if y.can_empty then union_sets y.suffixS x.suffixS else y.suffixS }
  | Option.none, some ye =>
    { RegexpInfo.new with
      match_q := x.match_q.and y.match_q
      prefixS := if x.can_empty then union_sets x.prefixS y.prefixS else x.prefixS
      suffixS := cross_sets x.suffixS ye }
  | Option.none, Option.none =>
    { RegexpInfo.new with
      match_q := x.match_q.and y.match_q
      prefixS := if x.can_empty then union_sets x.prefixS y.prefixS else x.prefixS
      suffixS := if y.can_empty then union_sets y.suffixS x.suffixS else y.suffixS }

def concatTri (x y : RegexpInfo) : RegexpInfo :=
  if x.exact.isNone ∧ y.exact.isNone ∧
      x.suffixS.length ≤ 20 ∧ y.prefixS.length ≤ 20 ∧
      3 ≤ min_len x.suffixS + min_len y.prefixS then
    { { concatBase x y with can_empty := x.can_empty && y.can_empty } with
      match_q := ({ concatBase x y with
        can_empty := x.can_empty && y.can_empty }).match_q.and_trigrams
        (cross_sets x.suffixS y.prefixS) }
  else { concatBase x y with can_empty := x.can_empty && y.can_empty }

def altBase (x y : RegexpInfo) : RegexpInfo :=
  match x.exact, y.exact with
  | some xe, some ye =>
    { RegexpInfo.new with
      exact := some (union_sets xe ye)
      match_q := x.match_q.or y.match_q }
  | some xe, Option.none =>
    { RegexpInfo.new with
      prefixS := union_sets xe y.prefixS
      suffixS := union_sets xe y.suffixS
      match_q := (x.match_q.and_trigrams xe).or y.match_q }
  | Option.none, some ye =>
    { RegexpInfo.new with
      prefixS := union_sets x.prefixS ye
      suffixS := union_sets x.suffixS ye
      match_q := x.match_q.or (y.match_q.and_trigrams ye) }
  | Option.none, Option.none =>
    { RegexpInfo.new with
      prefixS := union_sets x.prefixS y.prefixS
      suffixS := union_sets x.suffixS y.suffixS
      match_q := x.match_q.or y.match_q }

mutual

/-- Every node of the query tree has a duplicate-free trigram vector. -/
def trigNodup : Query → Prop
  | .mk _ T subs => T.Nodup ∧ trigNodupAll subs

def trigNodupAll : List Query → Prop
  | [] => True
  | q :: qs => trigNodup q ∧ trigNodupAll qs

end

/-! ### Query executor over an index (read.rs) -/

/-- `trigram_u32` from read.rs: pack the first three bytes big-endian. -/
def trigram_u32 (s : Str) : Nat :=
  s.getD 0 0 * 65536 + s.getD 1 0 * 256 + s.getD 2 0

/-- Abstract view of an opened index for the executor: the number of
names and, per trigram, the decoded posting list (C4/C3 verify the
byte-level decoding separately). -/
structure PIndex where
  numName : Nat
  postings : Nat → List Nat

/-- Well-formed index: posting lists are strictly ascending and contain
only valid file ids. -/
def PIndex.WF (ix : PIndex) : Prop :=
  ∀ t, List.Chain' (· < ·) (ix.postings t) ∧ ∀ x ∈ ix.postings t, x < ix.numName

/-- The restrict consumption of `PostReader::next`: entries of the
restrict list below the current file id are discarded; the id is
accepted only when it is the current head. -/
def filterRestrict : List Nat → List Nat → List Nat
  | [], _ => []
  | fid :: l, rest =>
    let r2 := rest.dropWhile (· < fid)
    if r2.head? = some fid then fid :: filterRestrict l r2
    else filterRestrict l r2

/-- `Index::posting_list`: the decoded list, filtered by the restrict. -/
def posting_list (ix : PIndex) (t : Nat) : Option (List Nat) → List Nat
  | some r => filterRestrict (ix.postings t) r
  | Option.none => ix.postings t

/-- `Index::posting_and`: intersect a sorted accumulator with the
(restricted) posting stream, with the source's moving index. -/
def andMerge (l : List Nat) : List Nat → List Nat
  | [] => []
  | fid :: s =>
    let l2 := l.dropWhile (· < fid)
    if l2.head? = some fid then fid :: andMerge (l2.drop 1) s
    else andMerge l2 s

/-- `Index::posting_or`: union a sorted accumulator with the
(restricted) posting stream. -/
def orMerge (l : List Nat) : List Nat → List Nat
  | [] => l
  | fid :: s =>
    l.takeWhile (· < fid) ++
      fid :: orMerge (if (l.dropWhile (· < fid)).head? = some fid
        then (l.dropWhile (· < fid)).drop 1 else l.dropWhile (· < fid)) s

/-- `merge_or` from read.rs, fuelled by the combined length (each
step consumes at least one element, so the budget of `merge_or` is
exact): sorted merge collapsing equal heads. -/
def merge_orF : Nat → List Nat → List Nat → List Nat
  | 0, l1, l2 => l1 ++ l2
  | _ + 1, [], l2 => l2
  | _ + 1, a :: l1, [] => a :: l1
  | n + 1, a :: l1, b :: l2 =>
    if a < b then a :: merge_orF n l1 (b :: l2)
    else if b < a then b :: merge_orF n (a :: l1) l2
    else a :: merge_orF n l1 l2

/-- `merge_or` with its sufficient budget. -/
def merge_or (l1 l2 : List Nat) : List Nat :=
  merge_orF (l1.length + l2.length) l1 l2

/-- The trigram loop of the `And` arm of `posting_query_rec`; the
boolean records the early `return Vec::new()` on an empty running list. -/
def andTriPart (ix : PIndex) (r : Option (List Nat)) :
    List Str → Option (List Nat) → Bool × Option (List Nat)
  | [], acc => (false, acc)
  | t :: ts, acc =>
    let l := match acc with
      | Option.none => posting_list ix (trigram_u32 t) r
      | some l0 => andMerge l0 (posting_list ix (trigram_u32 t) r)
    if l.isEmpty then (true, some l) else andTriPart ix r ts (some l)

/-- The trigram loop of the `Or` arm of `posting_query_rec`. -/
def orTriPart (ix : PIndex) (r : Option (List Nat)) :
    List Str → Option (List Nat) → Option (List Nat)
  | [], acc => acc
  | t :: ts, acc =>
    let l := match acc with
      | Option.none => posting_list ix (trigram_u32 t) r
      | some l0 => orMerge l0 (posting_list ix (trigram_u32 t) r)
    orTriPart ix r ts (some l)

mutual

/-- `Index::posting_query_rec` from read.rs. -/
def posting_query_rec (ix : PIndex) : Query → Option (List Nat) → List Nat
  | .mk .none _ _, _ => []
  | .mk .all _ _, r => r.getD (List.range ix.numName)
  | .mk .and T subs, r =>
    match andTriPart ix r T Option.none with
    | (true, _) => []
    | (false, l0) => andSubLoop ix r subs l0
  | .mk .or T subs, r =>
    orSubLoop ix r subs ((orTriPart ix r T Option.none).getD [])

/-- The sub-query loop of the `And` arm: each sub-query is evaluated
with the running list (or the outer restrict) as its restrict. -/
def andSubLoop (ix : PIndex) (r : Option (List Nat)) :
    List Query → Option (List Nat) → List Nat
  | [], cur =>
    match cur with
    | some l => l
    | Option.none => r.getD (List.range ix.numName)
  | q :: qs, cur =>
    let base := match cur with
      | Option.none => r
      | some l => some l
    let l := posting_query_rec ix q base
    if l.isEmpty then [] else andSubLoop ix r qs (some l)

/-- The sub-query loop of the `Or` arm: each sub-query is evaluated
with the outer restrict and merged into the running union. -/
def orSubLoop (ix : PIndex) (r : Option (List Nat)) :
    List Query → List Nat → List Nat
  | [], cur => cur
  | q :: qs, cur => orSubLoop ix r qs (merge_or cur (posting_query_rec ix q r))

end

/-- `Index::posting_query` from read.rs. -/
def posting_query (ix : PIndex) (q : Query) : List Nat :=
  posting_query_rec ix q Option.none

/-! ### Denotation of a trigram query over an index, and restrict
predicates: spec-side vehicles for the posting-query theorems. -/

/-- Membership in an optional restrict list (`None` restricts nothing). -/
def rmem : Option (List Nat) → Nat → Prop
  | Option.none, _ => True
  | some r0, x => x ∈ r0

/-- A valid restrict argument: strictly ascending, ids in range. -/
def RestrictOK (ix : PIndex) : Option (List Nat) → Prop
  | Option.none => True
  | some r0 => List.Chain' (· < ·) r0 ∧ ∀ x ∈ r0, x < ix.numName

mutual

/-- The set denoted by a query over an index: which file ids satisfy it. -/
def postDen (ix : PIndex) (x : Nat) : Query → Prop
  | .mk .none _ _ => False
  | .mk .all _ _ => x < ix.numName
  | .mk .and T subs => x < ix.numName ∧
      (∀ t ∈ T, x ∈ ix.postings (trigram_u32 t)) ∧ postDenAll ix x subs
  | .mk .or T subs =>
      (∃ t ∈ T, x ∈ ix.postings (trigram_u32 t)) ∨ postDenAny ix x subs

def postDenAll (ix : PIndex) (x : Nat) : List Query → Prop
  | [] => True
  | q :: qs => postDen ix x q ∧ postDenAll ix x qs

def postDenAny (ix : PIndex) (x : Nat) : List Query → Prop
  | [] => False
  | q :: qs => postDen ix x q ∨ postDenAny ix x qs

end

/-! ### Unsigned varint codec (write.rs / read.rs) -/

/-- `IndexBuffer::write_uvarint`, fuelled (the value strictly shrinks
under division by 128, so the budget of `writeUvarint` is sufficient):
little-endian 7-bit groups with a continuation bit. -/
def writeUvarintF : Nat → Nat → List Nat
  | 0, x => [x]
  | n + 1, x =>
    if x < 128 then [x]
    else (x % 128 + 128) :: writeUvarintF n (x / 128)

/-- `write_uvarint` with its sufficient budget. -/
def writeUvarint (x : Nat) : List Nat := writeUvarintF x x

/-- The accumulator loop of `read_uvarint` from read.rs.  Shifts are
performed in u64, modelled by the explicit `% 2 ^ 64`. -/
def readUvarintGo : List Nat → Nat → Nat → Nat → Nat × Nat
  | [], _, _, _ => (0, 0)
  | b :: rest, i, x, s =>
    if b < 128 then
      if 9 < i ∨ (i = 9 ∧ 1 < b) then (0, 0)
      else ((x ||| (b <<< s)) % 2 ^ 64, i + 1)
    else readUvarintGo rest (i + 1) ((x ||| ((b &&& 127) <<< s)) % 2 ^ 64) (s + 7)

/-- `read_uvarint` from read.rs: returns (value, bytes consumed), with
(0,0) signalling truncation or overflow. -/
def read_uvarint (buf : List Nat) : Nat × Nat := readUvarintGo buf 0 0 0

/-! ### Delta codec (write.rs DeltaWriter / read.rs DeltaReader) -/

/-- Bit-buffer state of `DeltaWriter` (`nb` bits pending in `b`). -/
structure DeltaWriter where
  nb : Nat
  b : Nat

/-- Fresh `DeltaWriter`. -/
def DeltaWriter.new : DeltaWriter := ⟨0, 0⟩

/-- `DeltaWriter::write_bits`, fuelled by the bit count (each pass of
the loop consumes at least one bit, so the budget of `write_bits` is
exact): append the low `n` bits of `x` (least-significant first),
emitting completed bytes. -/
def write_bitsF : Nat → DeltaWriter → Nat → Nat → DeltaWriter × List Nat
  | 0, st, _, _ => (st, [])
  | f + 1, st, x, n =>
    if n = 0 then (st, [])
    else
      let space := 8 - st.nb
      if space = 0 then (st, [])
      else
        let w := min n space
        let b2 := st.b ||| ((x % 2 ^ w) <<< st.nb)
        let x2 := x >>> w
        if st.nb + w = 8 then
          match write_bitsF f ⟨0, 0⟩ x2 (n - w) with
          | (st3, out) => (st3, b2 :: out)
        else
          write_bitsF f ⟨st.nb + w, b2⟩ x2 (n - w)

/-- `write_bits` with its sufficient budget. -/
def write_bits (st : DeltaWriter) (x n : Nat) : DeltaWriter × List Nat :=
  write_bitsF n st x n

/-- Bit width of a value (fuelled by the value itself; halving a
nonzero value strictly shrinks it, so the budget of `bitWidth` is
sufficient). -/
def bitWidthF : Nat → Nat → Nat
  | 0, _ => 0
  | f + 1, x => if x = 0 then 0 else bitWidthF f (x / 2) + 1

/-- Bit width with its sufficient budget. -/
def bitWidth (x : Nat) : Nat := bitWidthF x x

/-- Number of leading zero bits of a u32 value. -/
def leadingZeros32 (x : Nat) : Nat := 32 - bitWidth x

/-- Wrapping u32 subtraction (Rust release-mode `a - b`). -/
def wrapSub32 (a b : Nat) : Nat := (a + 2 ^ 32 - b % 2 ^ 32) % 2 ^ 32

/-- `DeltaWriter::write` from write.rs.  0 is stored as 16 and values
of at least 16 are shifted up by one; the increment, the subtraction
`31 - leading_zeros` and the shifts follow Rust's release-mode
(wrapping / shift-masking) u32 semantics. -/
def deltaWrite (st : DeltaWriter) (x0 : Nat) : DeltaWriter × List Nat :=
  let x := if x0 = 0 then 16 else if 16 ≤ x0 then (x0 + 1) % 2 ^ 32 else x0
  let lg := wrapSub32 31 (leadingZeros32 x)
  let val := x &&& ((1 <<< (lg % 32)) % 2 ^ 32 - 1)
  match write_bits st ((1 <<< (lg % 32)) % 2 ^ 32) ((lg + 1) % 2 ^ 32) with
  | (st1, o1) =>
    match write_bits st1 val lg with
    | (st2, o2) => (st2, o1 ++ o2)

/-- `DeltaWriter::finish`: flush the partial byte. -/
def deltaFinish (st : DeltaWriter) : List Nat :=
  if 0 < st.nb then [st.b] else []

/-- Encode one value from a fresh writer, then finish. -/
def deltaEncode1 (x : Nat) : List Nat :=
  match deltaWrite DeltaWriter.new x with
  | (st, o) => o ++ deltaFinish st

/-- Decoder state of `DeltaReader` (read.rs). -/
structure DeltaReader where
  d : List Nat
  b : Nat
  nb : Nat

/-- The `while self.b == 0` refill loop of `next64`: consume zero
bytes, accumulating their widths into `lg`. -/
def refillLoop : List Nat → Nat → Nat → Option (Nat × List Nat × Nat)
  | [], _, _ => Option.none
  | c :: rest, nb, lg =>
    if c = 0 then refillLoop rest 8 (lg + nb)
    else some (c, rest, lg + nb)

/-- Trailing zero bits, fuelled by the value (halving strictly
shrinks a nonzero value, so the budget of `trailZ` is sufficient; the
argument is nonzero at every use). -/
def trailZF : Nat → Nat → Nat
  | 0, _ => 0
  | f + 1, b =>
    if b = 0 then 0
    else if b % 2 = 1 then 0
    else trailZF f (b / 2) + 1

/-- Trailing zero bits with a sufficient budget. -/
def trailZ (b : Nat) : Nat := trailZF b b

/-- The `while self.nb < lg` gather loop of `next64`, followed by the
final bit extraction. -/
def gatherBits (b nb lg x nbAcc : Nat) : List Nat → Option (Nat × Nat × Nat × List Nat)
  | [] =>
    if nb < lg then Option.none
    else some (x ||| ((b &&& ((1 <<< lg) - 1)) <<< nbAcc), b >>> lg, nb - lg, [])
  | c :: rest =>
    if nb < lg then gatherBits c 8 (lg - nb) (x ||| (b <<< nbAcc)) (nbAcc + nb) rest
    else some (x ||| ((b &&& ((1 <<< lg) - 1)) <<< nbAcc), b >>> lg, nb - lg, c :: rest)

/-- `DeltaReader::next64` from read.rs. -/
def DeltaReader.next64 (r : DeltaReader) : Option (Nat × DeltaReader) :=
  let pre := if r.b = 0 then refillLoop r.d r.nb 0 else some (r.b, r.d, 0)
  match pre with
  | Option.none => Option.none
  | some (b, d, lg0) =>
    let nb := if r.b = 0 then 8 else r.nb
    let z := trailZ b
    match gatherBits (b >>> (z + 1)) (nb - (z + 1)) (lg0 + z) (1 <<< (lg0 + z)) 0 d with
    | Option.none => Option.none
    | some (x, b3, nb3, d3) => some (x, ⟨d3, b3, nb3⟩)

/-- `DeltaReader::next` from read.rs: undo the zero-escape. -/
def DeltaReader.next (r : DeltaReader) : Option (Nat × DeltaReader) :=
  match r.next64 with
  | some (i, r2) =>
    some (if i = 16 then 0 else if 16 < i then (i - 1) % 2 ^ 32 else i % 2 ^ 32, r2)
  | Option.none => Option.none

/-- Decode one value from a byte list. -/
def deltaDecode1 (bytes : List Nat) : Option Nat :=
  match (DeltaReader.mk bytes 0 0).next with
  | some (v, _) => some v
  | Option.none => Option.none


/-! ### Bit-stream semantics for the delta codec proofs -/

/-- Little-endian bit view: the low `n` bits of `x`, least significant
first. -/
def toBits : Nat → Nat → List Bool
  | _, 0 => []
  | x, n + 1 => decide (x % 2 = 1) :: toBits (x / 2) n

/-- Value of an LSB-first bit list. -/
def ofBits : List Bool → Nat
  | [] => 0
  | b :: t => (if b then 1 else 0) + 2 * ofBits t

/-- The bit stream of a byte list (8 bits per byte, LSB first). -/
def bytesToBits (l : List Nat) : List Bool := (l.map (fun c => toBits c 8)).flatten

/-! ### Path reader and name lookup (read.rs) -/

/-- `PathReader` state from read.rs (the UTF-8 re-validation of the
suffix bytes is not modelled: paths are kept as raw byte strings). -/
structure PathReader where
  data : List Nat
  limit : Nat
  path : Str

/-- `PathReader::next`. -/
def PathReader.next (r : PathReader) : Option (Str × PathReader) :=
  if r.limit = 0 then Option.none
  else
    let limit2 := r.limit - 1
    let p1 := read_uvarint r.data
    if p1.2 = 0 then Option.none
    else
      let d1 := r.data.drop p1.2
      let p2 := read_uvarint d1
      if p2.2 = 0 then Option.none
      else
        let d2 := d1.drop p2.2
        if r.path.length < p1.1 then Option.none
        else if d2.length < p2.1 then Option.none
        else
          let p := r.path.take p1.1 ++ d2.take p2.1
          some (p, ⟨d2.drop p2.1, limit2, p⟩)

/-- Iterate a `PathReader` to exhaustion (the limit bounds the number
of steps). -/
def pathReaderList (r : PathReader) : List Str :=
  pathReaderGo r.limit r
where
  pathReaderGo : Nat → PathReader → List Str
    | 0, _ => []
    | k + 1, r =>
      match r.next with
      | some (p, r2) => p :: pathReaderGo k r2
      | Option.none => []

/-- Byte-level view of an opened index file (read.rs `Index`): the
mapped bytes plus the trailer-derived offsets and counts. -/
structure IndexModel where
  mmap : List Nat
  path_data : Nat
  num_path : Nat
  name_data : Nat
  num_name : Nat
  post_data : Nat
  num_post : Nat
  name_index : Nat
  post_index : Nat
  num_post_block : Nat

/-- `Index::uint64`: big-endian u64 at an offset, 0 when out of range. -/
def IndexModel.uint64 (ix : IndexModel) (off : Nat) : Nat :=
  if off + 8 ≤ ix.mmap.length then
    ((ix.mmap.drop off).take 8).foldl (fun a b => a * 256 + b) 0
  else 0

/-- The skip loop at the end of `names_at` (breaks on a failing step). -/
def skipN : Nat → PathReader → PathReader
  | 0, r => r
  | k + 1, r =>
    match r.next with
    | some (_, r2) => skipN k r2
    | Option.none => r

/-- `Index::names_at` from read.rs. -/
def IndexModel.names_at (ix : IndexModel) (mn mx : Nat) : PathReader :=
  if ix.num_name ≤ mn ∨ mx ≤ mn then ⟨[], 0, []⟩
  else
    let limit := mx - mn
    let off_idx := ix.name_index + (mn / 16) * 8
    if ix.mmap.length < off_idx + 8 then ⟨[], 0, []⟩
    else
      let off := ix.uint64 off_idx
      let skip := mn % 16
      let limit2 := limit + skip
      let dataStart := ix.name_data + off
      if ix.post_data ≤ dataStart ∨ ix.mmap.length ≤ dataStart ∨
          ix.mmap.length < ix.post_data then ⟨[], 0, []⟩
      else
        let data := (ix.mmap.drop dataStart).take (ix.post_data - dataStart)
        skipN skip ⟨data, limit2, []⟩

/-- `Index::name` from read.rs: first entry of `names_at(fileid,
fileid+1)`, or the empty string. -/
def IndexModel.name (ix : IndexModel) (fileid : Nat) : Str :=
  match (ix.names_at fileid (fileid + 1)).next with
  | some (p, _) => p
  | Option.none => []

/-! ### Posts index blocks (write.rs PostDataWriter / read.rs find_list_v2) -/

/-- Big-endian 3-byte encoding of a trigram (`write_trigram`). -/
def tri3 (t : Nat) : List Nat := [t / 65536 % 256, t / 256 % 256, t % 256]

/-- `read_u24_be` from read.rs (0 when fewer than 3 bytes remain). -/
def u24 : List Nat → Nat
  | a :: b :: c :: _ => a * 65536 + b * 256 + c
  | _ => 0

/-- Zero-pad a block to the fixed 256-byte size. -/
def padTo256 (b : List Nat) : List Nat := b ++ List.replicate (256 - b.length) 0

/-- One `end_trigram` step of the posts-index side of
`PostDataWriter`: append `(trigram, count, Δoffset)`, flushing the
current block first when the record does not fit, in which case the
record is re-encoded relative to the section base. -/
def postIndexStep (base : Nat) (st : List (List Nat) × List Nat × Nat)
    (e : Nat × Nat × Nat) : List (List Nat) × List Nat × Nat :=
  match st, e with
  | (flushed, cur, lastOff), (t, count, off) =>
    let rec0 := tri3 t ++ writeUvarint count ++ writeUvarint (off - lastOff)
    if 256 < cur.length + rec0.length then
      let recB := tri3 t ++ writeUvarint count ++ writeUvarint (off - base)
      (flushed ++ [padTo256 cur], recB, off)
    else (flushed, cur ++ rec0, off)

/-- The posts-index blocks produced after writing the given
`(trigram, count, offset)` records and flushing (write.rs). -/
def postIndexBuild (base : Nat) (es : List (Nat × Nat × Nat)) : List (List Nat) :=
  match es.foldl (postIndexStep base) ([], [], base) with
  | (flushed, cur, _) => if cur.isEmpty then flushed else flushed ++ [padTo256 cur]

/-- The binary search loop of `find_list_v2` over the block array,
fuelled by the width of the search interval (which halves each step,
so the budget of `bsearchBlocks` is sufficient); compares the
big-endian trigram at each block head. -/
def bsearchBlocksF (blocks : List (List Nat)) (trigram : Nat) :
    Nat → Nat → Nat → Nat
  | 0, i, _ => i
  | f + 1, i, j =>
    if i < j then
      let m := i + (j - i) / 2
      if blocks.length ≤ m then i
      else
        let t := u24 (blocks.getD m [])
        if trigram < t then bsearchBlocksF blocks trigram f i m
        else bsearchBlocksF blocks trigram f (m + 1) j
    else i

/-- The binary search loop with its sufficient budget. -/
def bsearchBlocks (blocks : List (List Nat)) (trigram : Nat) (i j : Nat) : Nat :=
  bsearchBlocksF blocks trigram (j - i) i j

/-- The linear scan of one block in `find_list_v2`, fuelled by the
block length (each record is at least 5 bytes, so the budget of
`scanBlock` is sufficient); accumulates the offset deltas. -/
def scanBlockF (trigram : Nat) : Nat → List Nat → Nat → Nat × Nat
  | 0, _, _ => (0, 0)
  | f + 1, block, offset =>
    if block.length < 3 then (0, 0)
    else
      let t := u24 block
      if t = 0 then (0, 0)
      else
        let p1 := read_uvarint (block.drop 3)
        if p1.2 = 0 then (0, 0)
        else if block.length < 3 + p1.2 then (0, 0)
        else
          let p2 := read_uvarint (block.drop (3 + p1.2))
          if p2.2 = 0 then (0, 0)
          else if block.length < 3 + p1.2 + p2.2 then (0, 0)
          else
            let offset2 := offset + p2.1
            if t = trigram then (p1.1, offset2)
            else scanBlockF trigram f (block.drop (3 + p1.2 + p2.2)) offset2

/-- The block scan with its sufficient budget. -/
def scanBlock (trigram : Nat) (block : List Nat) (offset : Nat) : Nat × Nat :=
  scanBlockF trigram block.length block offset

/-- `Index::find_list_v2` from read.rs, over the list of 256-byte
posts-index blocks. -/
def find_list_v2 (blocks : List (List Nat)) (trigram : Nat) : Nat × Nat :=
  if blocks.length = 0 then (0, 0)
  else
    let i := bsearchBlocks blocks trigram 0 blocks.length
    if i = 0 then (0, 0)
    else scanBlock trigram (blocks.getD (i - 1) []) 0


/-- One record of the posts index: big-endian trigram, varint count,
varint offset delta relative to `prev`. -/
def encRec (prev : Nat) (e : Nat × Nat × Nat) : List Nat :=
  tri3 e.1 ++ writeUvarint e.2.1 ++ writeUvarint (e.2.2 - prev)

/-- A posts-index block's record group encoded with chained offsets. -/
def encGroup : Nat → List (Nat × Nat × Nat) → List Nat
  | _, [] => []
  | prev, e :: rest => encRec prev e ++ encGroup e.2.2 rest

/-- Offset of the last record of a group (or the default). -/
def lastOffOf : Nat → List (Nat × Nat × Nat) → Nat
  | b, [] => b
  | _, e :: rest => lastOffOf e.2.2 rest

/-- `postIndexStep` at the record level: the same flush decision,
tracking which records land in which block. -/
def groupStep (base : Nat) (st : List (List (Nat × Nat × Nat)) × List (Nat × Nat × Nat) × Nat)
    (e : Nat × Nat × Nat) : List (List (Nat × Nat × Nat)) × List (Nat × Nat × Nat) × Nat :=
  match st, e with
  | (gs, cg, lastOff), (t, c, o) =>
    if 256 < (encGroup base cg).length + (encRec lastOff (t, c, o)).length then
      (gs ++ [(cg : List (Nat × Nat × Nat))], [(t, c, o)], o)
    else (gs, cg ++ [(t, c, o)], o)

/-! ### Merging the name tables (merge.rs) -/

/-- `is_shadowed` from merge.rs. -/
def is_shadowed (nm : Str) (roots : List Str) : Bool :=
  roots.any fun r => r.isPrefixOf nm

/-- The name-merging loop of `merge` (merge.rs), fuelled by the
combined length (each step consumes at least one name, so the budget
of `mergeNamesGo` is exact): produces the merged name list, the id map
of index A (−1 for dropped entries) and the id map of index B,
threading the running new-name count. -/
def mergeNamesGoF (roots2 : List Str) :
    Nat → Nat → List Str → List Str → List Str × List Int × List Int
  | 0, _, _, _ => ([], [], [])
  | _ + 1, _, [], [] => ([], [], [])
  | f + 1, cnt, n1 :: t1, [] =>
    if is_shadowed n1 roots2 then
      match mergeNamesGoF roots2 f cnt t1 [] with
      | (m, ma, mb) => (m, -1 :: ma, mb)
    else
      match mergeNamesGoF roots2 f (cnt + 1) t1 [] with
      | (m, ma, mb) => (n1 :: m, (cnt : Int) :: ma, mb)
  | f + 1, cnt, [], n2 :: t2 =>
    match mergeNamesGoF roots2 f (cnt + 1) [] t2 with
    | (m, ma, mb) => (n2 :: m, ma, (cnt : Int) :: mb)
  | f + 1, cnt, n1 :: t1, n2 :: t2 =>
    match strCmp n1 n2 with
    | .lt =>
      if is_shadowed n1 roots2 then
        match mergeNamesGoF roots2 f cnt t1 (n2 :: t2) with
        | (m, ma, mb) => (m, -1 :: ma, mb)
      else
        match mergeNamesGoF roots2 f (cnt + 1) t1 (n2 :: t2) with
        | (m, ma, mb) => (n1 :: m, (cnt : Int) :: ma, mb)
    | .gt =>
      match mergeNamesGoF roots2 f (cnt + 1) (n1 :: t1) t2 with
      | (m, ma, mb) => (n2 :: m, ma, (cnt : Int) :: mb)
    | .eq =>
      match mergeNamesGoF roots2 f (cnt + 1) t1 t2 with
      | (m, ma, mb) => (n2 :: m, -1 :: ma, (cnt : Int) :: mb)

/-- The name-merging loop with its sufficient budget (each step
consumes at least one input name). -/
def mergeNamesGo (roots2 : List Str) (cnt : Nat) (l1 l2 : List Str) :
    List Str × List Int × List Int :=
  mergeNamesGoF roots2 (l1.length + l2.length) cnt l1 l2

/-- Entry point: merge the two sorted name tables of A and B under
B's roots. -/
def mergeNames (roots2 namesA namesB : List Str) : List Str × List Int × List Int :=
  mergeNamesGo roots2 0 namesA namesB


/-- The specification of the merged name table: the merged list
contains exactly the B names together with the unshadowed A names, it
is strictly sorted (so duplicates across A and B are collapsed to the
single copy taken from B), an A id maps to −1 exactly when its name is
in B or shadowed by a B root, and every B id maps to the new id of its
name in the merged table. -/
def MergedNamesSpec (roots2 A B : List Str) : Prop :=
  (∀ p, p ∈ (mergeNames roots2 A B).1 ↔
      (p ∈ B ∨ (p ∈ A ∧ is_shadowed p roots2 = false))) ∧
  List.Chain' (fun x y => lexLt x y = true) (mergeNames roots2 A B).1 ∧
  (∀ i p, A.get? i = some p →
      ((mergeNames roots2 A B).2.1.get? i = some (-1) ↔
        (p ∈ B ∨ is_shadowed p roots2 = true))) ∧
  (∀ i p, B.get? i = some p →
      ∃ j : Nat, (mergeNames roots2 A B).2.2.get? i = some ((j : Nat) : Int) ∧
        (mergeNames roots2 A B).1.get? j = some p)

/-! ### The external heap merge of postings (write.rs merge_post) -/

/-- `PostEntry` packing: trigram in the high bits, file id in the low
40 bits. -/
def postEntryPack (e : Nat × Nat) : Nat := e.1 * 2 ^ 40 + e.2

/-- Select the (first) chunk whose head entry is heap-minimal;
returns its index and head. -/
def bestHead : List (List (Nat × Nat)) → Option (Nat × (Nat × Nat))
  | [] => Option.none
  | [] :: rest =>
    match bestHead rest with
    | Option.none => Option.none
    | some (i, e) => some (i + 1, e)
  | (e :: _) :: rest =>
    match bestHead rest with
    | Option.none => some (0, e)
    | some (i, e2) =>
      if postEntryPack e2 < postEntryPack e then some (i + 1, e2) else some (0, e)

/-- Drop the head of the chunk at the given index. -/
def popAt : Nat → List (List (Nat × Nat)) → List (List (Nat × Nat))
  | _, [] => []
  | 0, [] :: rest => [] :: rest
  | 0, (_ :: c) :: rest => c :: rest
  | i + 1, c :: rest => c :: popAt i rest

/-- The k-way heap merge of `merge_post`, fuelled by the total entry
count (each step pops exactly one entry, so the budget of `heapMerge`
is exact): repeatedly emit a minimal head entry.  Equal entries are all
emitted (the source writer performs no deduplication). -/
def heapMergeF : Nat → List (List (Nat × Nat)) → List (Nat × Nat)
  | 0, _ => []
  | k + 1, chunks =>
    match bestHead chunks with
    | Option.none => []
    | some (i, e) => e :: heapMergeF k (popAt i chunks)

/-- The k-way heap merge with its exact budget. -/
def heapMerge (chunks : List (List (Nat × Nat))) : List (Nat × Nat) :=
  heapMergeF ((chunks.map List.length).sum) chunks

/-- The writer-event stream of the merge loop, fuelled by the entry
count (each group consumes at least one entry, so the budget of
`groupEmit` is sufficient): maximal runs of one trigram become one
`trigram … end_trigram` group whose file ids are emitted in pop
order. -/
def groupEmitF : Nat → List (Nat × Nat) → List (Nat × List Nat)
  | 0, _ => []
  | _ + 1, [] => []
  | n + 1, (t, f) :: rest =>
    let run := rest.takeWhile fun e => e.1 = t
    (t, f :: run.map (·.2)) :: groupEmitF n (rest.drop run.length)

/-- The grouping loop with its sufficient budget (each group consumes
at least one entry). -/
def groupEmit (l : List (Nat × Nat)) : List (Nat × List Nat) :=
  groupEmitF l.length l

/-- `IndexWriter::merge_post` (write.rs), viewed as the per-trigram
file-id emission stream fed into `PostDataWriter`. -/
def merge_post_emissions (chunks : List (List (Nat × Nat))) : List (Nat × List Nat) :=
  groupEmit (heapMerge chunks)

/-! ### add_file ingestion checks (write.rs) -/

/-- The sparse set of sparse_set.rs: the dense vector and the (2^24
sized) sparse index vector, modelled functionally. -/
structure SparseSet where
  dense : List Nat
  sparse : Nat → Nat

/-- `Set::add` from sparse_set.rs. -/
def SparseSet.add (s : SparseSet) (x : Nat) : SparseSet :=
  if 2 ^ 24 ≤ x then s
  else
    let v := s.sparse x
    if v < s.dense.length ∧ s.dense.getD v 0 = x then s
    else ⟨s.dense ++ [x], fun i => if i = x then s.dense.length else s.sparse i⟩

/-- The per-byte scan loop of `IndexWriter::add_file`: rolling trigram
accumulator, NUL rejection and the long-line rejection. `Option.none`
models the early `return` that skips the file. -/
def addFileLoop : List Nat → SparseSet → Nat → Nat → Nat → Option SparseSet
  | [], st, _, _, _ => some st
  | c :: rest, st, tv, n, linelen =>
    let tv2 := ((tv <<< 8) &&& 0xFFFFFF) ||| c
    let n2 := n + 1
    let st2 := if 3 ≤ n2 then st.add tv2 else st
    if c = 0 then Option.none
    else if 2000 < linelen then Option.none
    else addFileLoop rest st2 tv2 n2 (if c = 10 then 0 else linelen + 1)

/-- The pure acceptance core of `IndexWriter::add_file`: given the
file bytes, the distinct-trigram list recorded for the new file id, or
`Option.none` when the file is skipped (too large, contains NUL, has a
long line, or has too many distinct trigrams). -/
def add_file_trigrams (contents : List Nat) : Option (List Nat) :=
  if 2 ^ 30 < contents.length then Option.none
  else
    match addFileLoop contents ⟨[], fun _ => 0⟩ 0 0 0 with
    | Option.none => Option.none
    | some st => if 20000 < st.dense.length then Option.none else some st.dense

/-- The running `linelen` counter of `add_file` after processing the
given bytes, starting from `ll`: each byte adds one, a newline resets
to zero.  `tailRunFrom 0 (contents.take i)` is the value of `linelen`
when the scan loop examines position `i`. -/
def tailRunFrom (ll : Nat) : List Nat → Nat
  | [] => ll
  | c :: p => tailRunFrom (if c = 10 then 0 else ll + 1) p

/-! ### Build/update driver (cindex.rs main) -/

/-- The flags examined by `main` in cindex.rs when choosing between a
fresh build and an incremental update. -/
structure CindexFlags where
  reset : Bool
  pathExists : Bool
  indexValid : Bool
  resume : Bool
  hasCheckpoint : Bool

/-- `should_create_new` from cindex.rs `main`. -/
def should_create_new (f : CindexFlags) : Bool :=
  f.reset || !f.pathExists || !f.indexValid || (f.resume && f.hasCheckpoint)

/-- Where the `IndexWriter` output file is opened (with truncation, per
`IndexBuffer::new`). -/
inductive WriteTarget where
  | destination | tempFile
deriving DecidableEq, Repr

/-- The observable I/O plan of one cindex invocation: which path the
writer truncates and writes, and whether the destination is replaced
via a rename of a temp file on success. -/
structure BuildPlan where
  target : WriteTarget
  renameAfter : Bool
deriving DecidableEq, Repr

/-- The plan chosen by `main` (cindex.rs): a fresh build opens the
destination index file directly, an update builds to `.tmp_new`,
merges to `.tmp_merged` and renames that over the destination. -/
def cindexPlan (f : CindexFlags) : BuildPlan :=
  if should_create_new f then ⟨.destination, false⟩ else ⟨.tempFile, true⟩

/-! ## Theorems -/

/-! ### Lexicographic order facts -/

theorem lexLt_irrefl (a : Str) : lexLt a a = false := by
  induction a with
  | nil => rfl
  | cons x s ih => simp [lexLt, ih]

theorem strCmp_eq_iff (a b : Str) : strCmp a b = .eq ↔ a = b := by
  induction a generalizing b with
  | nil => cases b <;> simp [strCmp]
  | cons x s ih =>
    cases b with
    | nil => simp [strCmp]
    | cons y t =>
      by_cases h1 : x < y
      · simp [strCmp, h1]
        omega
      · by_cases h2 : y < x
        · simp [strCmp, h1, h2]
          omega
        · have hxy : x = y := by omega
          simp [strCmp, h1, h2, hxy, ih]

theorem strCmp_lt_iff (a b : Str) : strCmp a b = .lt ↔ lexLt a b = true := by
  induction a generalizing b with
  | nil => cases b <;> simp [strCmp, lexLt]
  | cons x s ih =>
    cases b with
    | nil => simp [strCmp, lexLt]
    | cons y t =>
      by_cases h1 : x < y
      · simp [strCmp, lexLt, h1]
      · by_cases h2 : y < x
        · simp [strCmp, lexLt, h1, h2]
        · simp [strCmp, lexLt, h1, h2, ih]

theorem strCmp_gt_iff (a b : Str) : strCmp a b = .gt ↔ lexLt b a = true := by
  induction a generalizing b with
  | nil => cases b <;> simp [strCmp, lexLt]
  | cons x s ih =>
    cases b with
    | nil => simp [strCmp, lexLt]
    | cons y t =>
      by_cases h1 : x < y
      · have h2 : ¬ y < x := by omega
        simp [strCmp, lexLt, h1, h2]
      · by_cases h2 : y < x
        · simp [strCmp, lexLt, h1, h2]
        · have hxy : ¬ x < y := h1
          simp [strCmp, lexLt, h1, h2, ih]

theorem lexLt_trans {a b c : Str} (h1 : lexLt a b = true) (h2 : lexLt b c = true) :
    lexLt a c = true := by
  induction a generalizing b c with
  | nil =>
    cases b with
    | nil => simp [lexLt] at h1
    | cons y t => cases c <;> simp_all [lexLt]
  | cons x s ih =>
    cases b with
    | nil => simp [lexLt] at h1
    | cons y t =>
      cases c with
      | nil => simp [lexLt] at h2
      | cons z u =>
        simp only [lexLt] at h1 h2 ⊢
        split_ifs at h1 h2 ⊢ <;>
          first
          | rfl
          | omega
          | (exact ih h1 h2)

/-! ### C10: out-of-range name lookups -/

/-- C10: For every fileid at least `num_name`, `Index::name` returns the
empty string, and `names_at(min, max)` with `min ≥ num_name` or
`max ≤ min` yields an iterator producing no paths. -/
theorem c10_names_out_of_range (ix : IndexModel) (fileid mn mx : Nat)
    (hf : ix.num_name ≤ fileid) (hm : ix.num_name ≤ mn ∨ mx ≤ mn) :
    ix.name fileid = [] ∧ pathReaderList (ix.names_at mn mx) = [] := by
  have hempty : ∀ a b, (ix.num_name ≤ a ∨ b ≤ a) →
      ix.names_at a b = ⟨[], 0, []⟩ := by
    intro a b h
    unfold IndexModel.names_at
    rw [if_pos h]
  constructor
  · unfold IndexModel.name
    rw [hempty fileid (fileid + 1) (Or.inl hf)]
    rfl
  · rw [hempty mn mx hm]
    rfl

/-- Witness for C10 at a concrete empty index. -/
theorem c10_names_out_of_range_witness :
    IndexModel.name ⟨[], 0, 0, 0, 0, 0, 0, 0, 0, 0⟩ 3 = [] ∧
    pathReaderList (IndexModel.names_at ⟨[], 0, 0, 0, 0, 0, 0, 0, 0, 0⟩ 2 2) = [] :=
  c10_names_out_of_range ⟨[], 0, 0, 0, 0, 0, 0, 0, 0, 0⟩ 3 2 2 (by decide)
    (Or.inr (by decide))

/-! ### C9: build/update atomicity -/

/-- C9 counterexample: with `--reset` on an existing valid index (and
no resume checkpoint), `main` opens the destination index file itself
for the fresh build — truncating it — and performs no rename, so the
claimed temp-then-rename protocol does not hold on this input. -/
theorem c9_counterexample :
    ¬ ((cindexPlan ⟨true, true, true, false, false⟩).target = WriteTarget.tempFile ∧
       (cindexPlan ⟨true, true, true, false, false⟩).renameAfter = true) := by
  decide

/-- C9 amended: the temp-path-then-rename protocol is used exactly on
the update path, i.e. when `should_create_new` is false (an existing
valid index, no reset, and no resume-with-checkpoint); every fresh
build truncates and writes the destination index file in place. -/
theorem c9_plan_characterization (f : CindexFlags) :
    ((cindexPlan f).target = WriteTarget.tempFile ∧ (cindexPlan f).renameAfter = true)
      ↔ should_create_new f = false := by
  cases h : should_create_new f <;> simp [cindexPlan, h]

/-! ### C7: trigram vectors of smart-constructor outputs -/

/-- C7 counterexample: the analyzer output for the alternation of the
literals "zzzz" and "aaaa" is an `Or` node whose trigram vector is
["zzz", "aaa"] — not sorted, because the atom-with-atom branch of
`and_or` concatenates the two singleton vectors in argument order. -/
theorem c7_counterexample :
    (analyze_regexp (Hir.alt [Hir.lit [122, 122, 122, 122],
        Hir.lit [97, 97, 97, 97]])).trigram = [[122, 122, 122], [97, 97, 97]] ∧
    ¬ List.Chain' (fun a b => lexLt a b = true)
      (analyze_regexp (Hir.alt [Hir.lit [122, 122, 122, 122],
        Hir.lit [97, 97, 97, 97]])).trigram := by
  have h : (analyze_regexp (Hir.alt [Hir.lit [122, 122, 122, 122],
      Hir.lit [97, 97, 97, 97]])).trigram = [[122, 122, 122], [97, 97, 97]] := by
    decide
  refine ⟨h, ?_⟩
  rw [h]
  simp only [List.chain'_cons, List.chain'_singleton, and_true]
  decide

theorem is_subset_self_single (a : Str) : is_subset [a] [a] = true := by
  simp [is_subset, List.dropWhile, lexLt_irrefl]

theorem implies_atom_same (a : Str) (opa opb : QueryOp)
    (ha : opa = .and ∨ opa = .or) (hb : opb = .and ∨ opb = .or) :
    (Query.mk opa [a] []).implies (Query.mk opb [a] []) = true := by
  have hsub := is_subset_self_single a
  rcases ha with h | h <;> rcases hb with h2 | h2 <;> subst h <;> subst h2 <;>
    simp [Query.implies, Query.op, Query.trigram, Query.sub, trigrams_imply,
      trigramsImplyAny, trigramsImplyAll, hsub]

/-- The branch of `and_or` that combines two single-trigram atoms of
the opposite operator concatenates the operands' trigram vectors in
argument order: the result is duplicate-free (the two trigrams are
necessarily distinct) but unsorted whenever the left trigram is the
larger. -/
theorem c7_two_atom_branch (a b : Str) (opa opb op : QueryOp)
    (ha : opa = .and ∨ opa = .or) (hb : opb = .and ∨ opb = .or)
    (hoa : opa ≠ op) (hob : opb ≠ op)
    (h1 : (Query.mk opa [a] []).implies (Query.mk opb [b] []) = false)
    (h2 : (Query.mk opb [b] []).implies (Query.mk opa [a] []) = false) :
    Query.and_or (Query.mk opa [a] []) (Query.mk opb [b] []) op =
      Query.mk op [a, b] [] ∧ a ≠ b := by
  have hab : a ≠ b := by
    intro he
    subst he
    rw [implies_atom_same a opa opb ha hb] at h1
    simp at h1
  refine ⟨?_, hab⟩
  have hu1 : unwrap1 (Query.mk opa [a] []) = Query.mk opa [a] [] := by
    simp [unwrap1]
  have hu2 : unwrap1 (Query.mk opb [b] []) = Query.mk opb [b] [] := by
    simp [unwrap1]
  show and_orF 3 (Query.mk opa [a] []) (Query.mk opb [b] []) op = _
  rw [and_orF]
  simp only [hu1, hu2, h1, h2, Bool.false_eq_true, if_false]
  rw [if_neg, if_neg, if_pos]
  · rfl
  · exact ⟨⟨rfl, rfl⟩, rfl, rfl⟩
  · intro hc
    exact hob hc.1
  · intro hc
    exact hoa hc.1

/-- Witness for C7's amended statement: two distinct And-atoms joined
with `or`, in descending order. -/
theorem c7_two_atom_branch_witness :
    Query.and_or (Query.mk .and [[122, 122, 122]] []) (Query.mk .and [[97, 97, 97]] [])
        QueryOp.or = Query.mk .or [[122, 122, 122], [97, 97, 97]] [] ∧
      ([122, 122, 122] : Str) ≠ [97, 97, 97] :=
  c7_two_atom_branch [122, 122, 122] [97, 97, 97] .and .and .or (Or.inl rfl)
    (Or.inl rfl) (by decide) (by decide) (by decide) (by decide)

/-! ### C6: duplicate postings in the external merge -/

/-- C6 counterexample: when the same `(trigram, fileid)` pair arrives
from two spill chunks, the merge loop pops both and the writer emits
the file id twice for that trigram — there is no deduplication. -/
theorem c6_counterexample :
    merge_post_emissions [[(6381921, 5)], [(6381921, 5)]] = [(6381921, [5, 5])] ∧
    ¬ ∀ p ∈ merge_post_emissions [[(6381921, 5)], [(6381921, 5)]], List.Nodup p.2 := by
  refine ⟨by decide, ?_⟩
  intro hall
  have := hall (6381921, [5, 5]) (by decide)
  simp at this

/-! ### C8: long-line rejection -/

theorem SparseSet.add_add (s : SparseSet) (x : Nat) : (s.add x).add x = s.add x := by
  by_cases h24 : 2 ^ 24 ≤ x
  · have hs : s.add x = s := by
      unfold SparseSet.add
      rw [if_pos h24]
    simp only [hs]
  · by_cases hp : s.sparse x < s.dense.length ∧ s.dense.getD (s.sparse x) 0 = x
    · obtain ⟨hp1, hp2⟩ := hp
      have hg : s.dense[s.sparse x] = x := by
        rwa [List.getD_eq_getElem s.dense 0 hp1] at hp2
      have hs : s.add x = s := by
        unfold SparseSet.add
        rw [if_neg h24]
        simp [hp1, hp2, hg]
      simp only [hs]
    · have hs : s.add x =
          ⟨s.dense ++ [x], fun i => if i = x then s.dense.length else s.sparse i⟩ := by
        unfold SparseSet.add
        rw [if_neg h24]
        simp only [hp, if_false, ite_false]
      rw [hs]
      unfold SparseSet.add
      rw [if_neg h24, if_pos]
      constructor
      · simp
      · simp [List.getD, List.getElem?_concat_length]

theorem addFileLoop_rep97 (m : Nat) : ∀ (st : SparseSet) (n ll : Nat),
    st.add 6381921 = st → ll + m ≤ 2001 →
    addFileLoop (List.replicate m 97) st 6381921 n ll = some st := by
  have htv : ((6381921 <<< 8) &&& 0xFFFFFF) ||| 97 = 6381921 := by decide
  induction m with
  | zero => intro st n ll _ _; rfl
  | succ k ih =>
    intro st n ll hst h
    rw [List.replicate_succ]
    have hll : ¬ 2000 < ll := by omega
    simp only [addFileLoop, htv]
    have hst2 : (if 3 ≤ n + 1 then st.add 6381921 else st) = st := by
      by_cases h3 : 3 ≤ n + 1
      · simp [h3, hst]
      · simp [h3]
    rw [if_neg (by decide), if_neg hll]
    simp only [hst2]
    have h97 : ¬ (97 = 10) := by decide
    rw [if_neg h97]
    exact ih st (n + 1) (ll + 1) hst (by omega)

/-- C8 counterexample: a file that is a single unterminated line of
2001 bytes (longer than 2000 bytes) is NOT skipped: `add_file` accepts
it and records its one distinct trigram, because the length check runs
before the counter reaches 2001 only at a following byte and no byte
follows. -/
theorem c8_counterexample :
    add_file_trigrams (List.replicate 2001 97) = some [6381921] := by
  have hsplit : List.replicate 2001 97 = 97 :: 97 :: 97 :: List.replicate 1998 97 := by
    rw [show (2001 : Nat) = 3 + 1998 from rfl, List.replicate_add]
    rfl
  have hlen : ¬ 2 ^ 30 < (List.replicate 2001 97).length := by
    rw [List.length_replicate]
    decide
  unfold add_file_trigrams
  rw [if_neg hlen, hsplit]
  have h1 : ∀ rest : List Nat, addFileLoop (97 :: 97 :: 97 :: rest)
      ⟨[], fun _ => 0⟩ 0 0 0 =
      addFileLoop rest (SparseSet.add ⟨[], fun _ => 0⟩ 6381921) 6381921 3 3 := by
    intro rest
    rfl
  rw [h1, addFileLoop_rep97 1998 _ 3 3 (SparseSet.add_add ⟨[], fun _ => 0⟩ 6381921)
    (by omega)]
  rfl

theorem addFileLoop_long_line (l : List Nat) : ∀ (st : SparseSet) (tv n ll : Nat),
    (∃ i, i < l.length ∧ 2000 < tailRunFrom ll (l.take i)) →
    addFileLoop l st tv n ll = Option.none := by
  induction l with
  | nil =>
    intro st tv n ll h
    obtain ⟨i, hi, _⟩ := h
    simp at hi
  | cons c rest ih =>
    intro st tv n ll h
    obtain ⟨i, hi, hrun⟩ := h
    show (if c = 0 then Option.none
      else if 2000 < ll then Option.none
      else addFileLoop rest _ _ _ (if c = 10 then 0 else ll + 1)) = Option.none
    by_cases hc0 : c = 0
    · rw [if_pos hc0]
    · rw [if_neg hc0]
      by_cases hll : 2000 < ll
      · rw [if_pos hll]
      · rw [if_neg hll]
        apply ih
        cases i with
        | zero =>
          simp [tailRunFrom] at hrun
          omega
        | succ j =>
          refine ⟨j, by simpa using hi, ?_⟩
          simpa [tailRunFrom] using hrun

/-- C8 amended: `add_file` skips the file whenever some byte position
is preceded by more than 2000 bytes on its line — equivalently, any
line of more than 2000 bytes that is followed by at least one further
byte (its own newline included).  A final unterminated line of exactly
2001 bytes is accepted (see the counterexample). -/
theorem c8_long_line_skip (contents : List Nat)
    (h : ∃ i, i < contents.length ∧ 2000 < tailRunFrom 0 (contents.take i)) :
    add_file_trigrams contents = Option.none := by
  unfold add_file_trigrams
  by_cases hlen : 2 ^ 30 < contents.length
  · rw [if_pos hlen]
  · rw [if_neg hlen, addFileLoop_long_line contents _ 0 0 0 h]

theorem tailRunFrom_rep97 (m : Nat) : ∀ ll, tailRunFrom ll (List.replicate m 97) = ll + m := by
  induction m with
  | zero => intro ll; rfl
  | succ k ih =>
    intro ll
    rw [List.replicate_succ]
    show tailRunFrom (if (97 : Nat) = 10 then 0 else ll + 1) (List.replicate k 97) = _
    rw [if_neg (by decide), ih]
    omega

/-- Witness for C8's amended statement: 2002 bytes on one line are
rejected (the check fires at the 2002nd byte). -/
theorem c8_long_line_skip_witness :
    add_file_trigrams (List.replicate 2002 97) = Option.none :=
  c8_long_line_skip _ ⟨2001, by rw [List.length_replicate]; omega, by
    rw [List.take_replicate]
    rw [show min 2001 2002 = 2001 from by omega, tailRunFrom_rep97]
    omega⟩

theorem bestHead_none : ∀ (chunks : List (List (Nat × Nat))),
    bestHead chunks = Option.none → ∀ c ∈ chunks, c = [] := by
  intro chunks
  induction chunks with
  | nil => intro _ c hc; simp at hc
  | cons c rest ih =>
    intro h c2 hc2
    cases c with
    | nil =>
      cases hb : bestHead rest with
      | none =>
        rcases List.mem_cons.mp hc2 with hc | hc
        · exact hc
        · exact ih hb c2 hc
      | some p =>
        obtain ⟨j, e⟩ := p
        simp only [bestHead, hb] at h
        exact Option.noConfusion h
    | cons hd tl =>
      cases hb : bestHead rest with
      | none =>
        simp only [bestHead, hb] at h
        exact Option.noConfusion h
      | some p =>
        obtain ⟨j, e⟩ := p
        by_cases hlt : postEntryPack e < postEntryPack hd
        · simp only [bestHead, hb, if_pos hlt] at h
          exact Option.noConfusion h
        · simp only [bestHead, hb, if_neg hlt] at h
          exact Option.noConfusion h

theorem bestHead_spec : ∀ (chunks : List (List (Nat × Nat))) (i : Nat) (e : Nat × Nat),
    bestHead chunks = some (i, e) → ∃ tl, chunks.get? i = some (e :: tl) := by
  intro chunks
  induction chunks with
  | nil => intro i e h; simp [bestHead] at h
  | cons c rest ih =>
    intro i e h
    cases c with
    | nil =>
      cases hb : bestHead rest with
      | none =>
        simp only [bestHead, hb] at h
        exact absurd h (by simp)
      | some p =>
        obtain ⟨j, e2⟩ := p
        simp only [bestHead, hb] at h
        obtain ⟨h1, h2⟩ := Prod.ext_iff.mp (Option.some.inj h)
        subst h1
        subst h2
        obtain ⟨tl, htl⟩ := ih j e2 hb
        exact ⟨tl, by simpa using htl⟩
    | cons hd tl =>
      cases hb : bestHead rest with
      | none =>
        simp only [bestHead, hb] at h
        obtain ⟨h1, h2⟩ := Prod.ext_iff.mp (Option.some.inj h)
        subst h1
        subst h2
        exact ⟨tl, rfl⟩
      | some p =>
        obtain ⟨j, e2⟩ := p
        by_cases hlt : postEntryPack e2 < postEntryPack hd
        · simp only [bestHead, hb, if_pos hlt] at h
          obtain ⟨h1, h2⟩ := Prod.ext_iff.mp (Option.some.inj h)
          subst h1
          subst h2
          obtain ⟨tl2, htl⟩ := ih j e2 hb
          exact ⟨tl2, by simpa using htl⟩
        · simp only [bestHead, hb, if_neg hlt] at h
          obtain ⟨h1, h2⟩ := Prod.ext_iff.mp (Option.some.inj h)
          subst h1
          subst h2
          exact ⟨tl, rfl⟩

theorem bestHead_min : ∀ (chunks : List (List (Nat × Nat))) (i : Nat) (e : Nat × Nat),
    bestHead chunks = some (i, e) →
    ∀ hd tl, (hd :: tl) ∈ chunks → postEntryPack e ≤ postEntryPack hd := by
  intro chunks
  induction chunks with
  | nil => intro i e h; simp [bestHead] at h
  | cons c rest ih =>
    intro i e h hd tl hmem
    cases c with
    | nil =>
      cases hb : bestHead rest with
      | none =>
        simp only [bestHead, hb] at h
        exact absurd h (by simp)
      | some p =>
        obtain ⟨j, e2⟩ := p
        simp only [bestHead, hb] at h
        obtain ⟨h1, h2⟩ := Prod.ext_iff.mp (Option.some.inj h)
        subst h2
        rcases List.mem_cons.mp hmem with hc | hc
        · exact absurd hc (by simp)
        · exact ih j e2 hb hd tl hc
    | cons hd0 tl0 =>
      cases hb : bestHead rest with
      | none =>
        simp only [bestHead, hb] at h
        obtain ⟨h1, h2⟩ := Prod.ext_iff.mp (Option.some.inj h)
        subst h2
        rcases List.mem_cons.mp hmem with hc | hc
        · have hh : hd0 = hd := ((List.cons.inj hc).1).symm
          subst hh
          exact le_refl _
        · have := bestHead_none rest hb _ hc
          exact absurd this (List.cons_ne_nil hd tl)
      | some p =>
        obtain ⟨j, e2⟩ := p
        by_cases hlt : postEntryPack e2 < postEntryPack hd0
        · simp only [bestHead, hb, if_pos hlt] at h
          obtain ⟨h1, h2⟩ := Prod.ext_iff.mp (Option.some.inj h)
          subst h2
          rcases List.mem_cons.mp hmem with hc | hc
          · have hh : hd0 = hd := ((List.cons.inj hc).1).symm
            subst hh
            exact le_of_lt hlt
          · exact ih j e2 hb hd tl hc
        · simp only [bestHead, hb, if_neg hlt] at h
          obtain ⟨h1, h2⟩ := Prod.ext_iff.mp (Option.some.inj h)
          subst h2
          rcases List.mem_cons.mp hmem with hc | hc
          · have hh : hd0 = hd := ((List.cons.inj hc).1).symm
            subst hh
            exact le_refl _
          · exact le_trans (le_of_not_lt hlt) (ih j e2 hb hd tl hc)

theorem chain_pack_head_le {hd : Nat × Nat} {tl : List (Nat × Nat)}
    (h : List.Chain' (fun a b => postEntryPack a < postEntryPack b) (hd :: tl)) :
    ∀ x ∈ hd :: tl, postEntryPack hd ≤ postEntryPack x := by
  induction tl generalizing hd with
  | nil =>
    intro x hx
    rcases List.mem_cons.mp hx with hc | hc
    · subst hc; exact le_refl _
    · simp at hc
  | cons b t ih =>
    intro x hx
    rw [List.chain'_cons] at h
    rcases List.mem_cons.mp hx with hc | hc
    · subst hc; exact le_refl _
    · exact le_trans (le_of_lt h.1) (ih h.2 x hc)

theorem popAt_struct : ∀ (i : Nat) (chunks : List (List (Nat × Nat))),
    ∀ c ∈ popAt i chunks, c ∈ chunks ∨ ∃ hd, (hd :: c) ∈ chunks := by
  intro i
  induction i with
  | zero =>
    intro chunks c hc
    cases chunks with
    | nil => simp [popAt] at hc
    | cons c0 rest =>
      cases c0 with
      | nil =>
        rcases List.mem_cons.mp hc with h | h
        · subst h; exact Or.inl (List.mem_cons_self _ _)
        · exact Or.inl (List.mem_cons_of_mem _ h)
      | cons hd tl =>
        rcases List.mem_cons.mp hc with h | h
        · subst h; exact Or.inr ⟨hd, List.mem_cons_self _ _⟩
        · exact Or.inl (List.mem_cons_of_mem _ h)
  | succ j ih =>
    intro chunks c hc
    cases chunks with
    | nil => simp [popAt] at hc
    | cons c0 rest =>
      rcases List.mem_cons.mp hc with h | h
      · subst h; exact Or.inl (List.mem_cons_self _ _)
      · rcases ih rest c h with h2 | ⟨hd, h2⟩
        · exact Or.inl (List.mem_cons_of_mem _ h2)
        · exact Or.inr ⟨hd, List.mem_cons_of_mem _ h2⟩

theorem popAt_flatten_subset (i : Nat) (chunks : List (List (Nat × Nat))) :
    ∀ x ∈ (popAt i chunks).flatten, x ∈ chunks.flatten := by
  intro x hx
  obtain ⟨c, hc, hxc⟩ := List.mem_flatten.mp hx
  rcases popAt_struct i chunks c hc with h | ⟨hd, h⟩
  · exact List.mem_flatten.mpr ⟨c, h, hxc⟩
  · exact List.mem_flatten.mpr ⟨hd :: c, h, List.mem_cons_of_mem _ hxc⟩

theorem popAt_sorted (i : Nat) (chunks : List (List (Nat × Nat)))
    (hs : ∀ c ∈ chunks, List.Chain' (fun a b => postEntryPack a < postEntryPack b) c) :
    ∀ c ∈ popAt i chunks, List.Chain' (fun a b => postEntryPack a < postEntryPack b) c := by
  intro c hc
  rcases popAt_struct i chunks c hc with h | ⟨hd, h⟩
  · exact hs c h
  · exact (hs (hd :: c) h).tail

theorem popAt_all_ge (chunks : List (List (Nat × Nat))) (i : Nat) (e : Nat × Nat)
    (hb : bestHead chunks = some (i, e))
    (hs : ∀ c ∈ chunks, List.Chain' (fun a b => postEntryPack a < postEntryPack b) c) :
    ∀ x ∈ (popAt i chunks).flatten, postEntryPack e ≤ postEntryPack x := by
  intro x hx
  obtain ⟨c, hc, hxc⟩ := List.mem_flatten.mp hx
  rcases popAt_struct i chunks c hc with h | ⟨hd, h⟩
  · cases c with
    | nil => simp at hxc
    | cons ch ct =>
      exact le_trans (bestHead_min chunks i e hb ch ct h)
        (chain_pack_head_le (hs _ h) x hxc)
  · exact le_trans (bestHead_min chunks i e hb hd c h)
      (chain_pack_head_le (hs _ h) x (List.mem_cons_of_mem _ hxc))

theorem heapMergeF_mem :
    ∀ (k : Nat) (chunks : List (List (Nat × Nat))) (x : Nat × Nat),
    x ∈ heapMergeF k chunks → x ∈ chunks.flatten := by
  intro k
  induction k with
  | zero => intro chunks x hx; simp [heapMergeF] at hx
  | succ j ih =>
    intro chunks x hx
    cases hb : bestHead chunks with
    | none => simp [heapMergeF, hb] at hx
    | some p =>
      obtain ⟨i, e⟩ := p
      obtain ⟨tl, htl⟩ := bestHead_spec chunks i e hb
      simp only [heapMergeF, hb] at hx
      rcases List.mem_cons.mp hx with h | h
      · subst h
        have hcm : (x :: tl) ∈ chunks := List.get?_mem htl
        exact List.mem_flatten.mpr ⟨x :: tl, hcm, List.mem_cons_self _ _⟩
      · exact popAt_flatten_subset i chunks x (ih (popAt i chunks) x h)

theorem heapMergeF_chain :
    ∀ (k : Nat) (chunks : List (List (Nat × Nat))),
    (∀ c ∈ chunks, List.Chain' (fun a b => postEntryPack a < postEntryPack b) c) →
    List.Chain' (fun a b => postEntryPack a ≤ postEntryPack b) (heapMergeF k chunks) := by
  intro k
  induction k with
  | zero => intro chunks _; simp [heapMergeF]
  | succ j ih =>
    intro chunks hs
    cases hb : bestHead chunks with
    | none => simp [heapMergeF, hb]
    | some p =>
      obtain ⟨i, e⟩ := p
      simp only [heapMergeF, hb]
      rw [List.chain'_cons']
      constructor
      · intro b hbm
        have hmem : b ∈ heapMergeF j (popAt i chunks) := by
          cases hh : heapMergeF j (popAt i chunks) with
          | nil => rw [hh] at hbm; simp at hbm
          | cons a t =>
            rw [hh] at hbm
            simp at hbm
            subst hbm
            exact List.mem_cons_self _ _
        exact popAt_all_ge chunks i e hb hs b
          (heapMergeF_mem j (popAt i chunks) b hmem)
      · exact ih (popAt i chunks) (popAt_sorted i chunks hs)

theorem runChain (t : Nat) :
    ∀ (l : List (Nat × Nat)) (f : Nat),
    List.Chain' (fun a b => postEntryPack a < postEntryPack b) ((t, f) :: l) →
    (∀ e ∈ l, e.1 = t) → List.Chain' (· < ·) (f :: l.map (·.2)) := by
  intro l
  induction l with
  | nil => intro f _ _; simp
  | cons b l2 ih =>
    intro f hch hall
    obtain ⟨tb, fb⟩ := b
    have htb : tb = t := hall (tb, fb) (List.mem_cons_self _ _)
    subst htb
    rw [List.chain'_cons] at hch
    have hlt : f < fb := by
      have := hch.1
      simp only [postEntryPack] at this
      omega
    simp only [List.map_cons]
    rw [List.chain'_cons]
    exact ⟨hlt, ih fb hch.2 (fun e he => hall e (List.mem_cons_of_mem _ he))⟩

theorem groupEmitF_chain :
    ∀ (n : Nat) (l : List (Nat × Nat)),
    List.Chain' (fun a b => postEntryPack a < postEntryPack b) l →
    ∀ p ∈ groupEmitF n l, List.Chain' (· < ·) p.2 := by
  intro n
  induction n with
  | zero => intro l _ p hp; simp [groupEmitF] at hp
  | succ j ih =>
    intro l hch p hp
    cases l with
    | nil => simp [groupEmitF] at hp
    | cons hd rest =>
      obtain ⟨t, f⟩ := hd
      simp only [groupEmitF] at hp
      rcases List.mem_cons.mp hp with h | h
      · subst h
        have hpre : ((t, f) :: rest.takeWhile (fun e => e.1 = t)) <+: ((t, f) :: rest) := by
          obtain ⟨u, hu⟩ :=
            (List.takeWhile_prefix (fun e : Nat × Nat => decide (e.1 = t)) :
              rest.takeWhile _ <+: rest)
          exact ⟨u, by rw [List.cons_append]; exact congrArg _ hu⟩
        have hchpre := hch.prefix hpre
        have hall : ∀ e ∈ rest.takeWhile (fun e : Nat × Nat => e.1 = t), e.1 = t := by
          intro e he
          have := List.mem_takeWhile_imp he
          simpa using this
        exact runChain t _ f hchpre hall
      · have hsuf : rest.drop (rest.takeWhile (fun e : Nat × Nat => e.1 = t)).length
            <:+ ((t, f) :: rest) :=
          (List.drop_suffix _ _).trans (List.suffix_cons _ _)
        exact ih _ (hch.suffix hsuf) p h

theorem popAt_flatten_sublist :
    ∀ (i : Nat) (chunks : List (List (Nat × Nat))),
    (popAt i chunks).flatten.Sublist chunks.flatten := by
  intro i
  induction i with
  | zero =>
    intro chunks
    cases chunks with
    | nil => simp [popAt]
    | cons c rest =>
      cases c with
      | nil => simp [popAt]
      | cons hd tl =>
        simp only [popAt, List.flatten_cons]
        exact List.Sublist.append (List.sublist_cons_self hd tl) (List.Sublist.refl _)
  | succ j ih =>
    intro chunks
    cases chunks with
    | nil => simp [popAt]
    | cons c rest =>
      simp only [popAt, List.flatten_cons]
      exact List.Sublist.append (List.Sublist.refl _) (ih rest)

theorem popAt_not_mem_of_nodup :
    ∀ (chunks : List (List (Nat × Nat))) (i : Nat) (e : Nat × Nat) (tl : List (Nat × Nat)),
    chunks.flatten.Nodup → chunks.get? i = some (e :: tl) →
    e ∉ (popAt i chunks).flatten := by
  intro chunks
  induction chunks with
  | nil => intro i e tl _ h; simp at h
  | cons c rest ih =>
    intro i e tl hnd h
    cases i with
    | zero =>
      simp only [List.get?] at h
      have hc : c = e :: tl := Option.some.inj h
      subst hc
      simp only [List.flatten_cons] at hnd
      rw [List.nodup_append] at hnd
      obtain ⟨hnd1, hnd2, hdisj⟩ := hnd
      intro hmem
      simp only [popAt, List.flatten_cons] at hmem
      rcases List.mem_append.mp hmem with hm | hm
      · exact (List.nodup_cons.mp hnd1).1 hm
      · exact hdisj (List.mem_cons_self _ _) hm
    | succ j =>
      simp only [List.get?] at h
      simp only [List.flatten_cons] at hnd
      rw [List.nodup_append] at hnd
      obtain ⟨hnd1, hnd2, hdisj⟩ := hnd
      intro hmem
      simp only [popAt, List.flatten_cons] at hmem
      have hemem : e ∈ rest.flatten := by
        have hcm : (e :: tl) ∈ rest := List.get?_mem h
        exact List.mem_flatten.mpr ⟨e :: tl, hcm, List.mem_cons_self _ _⟩
      rcases List.mem_append.mp hmem with hm | hm
      · exact hdisj hm hemem
      · exact ih j e tl hnd2 h hm

theorem heapMergeF_chainLt :
    ∀ (k : Nat) (chunks : List (List (Nat × Nat))),
    (∀ c ∈ chunks, List.Chain' (fun a b => postEntryPack a < postEntryPack b) c) →
    chunks.flatten.Nodup →
    (∀ e ∈ chunks.flatten, e.2 < 2 ^ 40) →
    List.Chain' (fun a b => postEntryPack a < postEntryPack b) (heapMergeF k chunks) := by
  intro k
  induction k with
  | zero => intro chunks _ _ _; simp [heapMergeF]
  | succ j ih =>
    intro chunks hs hnd hfid
    cases hb : bestHead chunks with
    | none => simp [heapMergeF, hb]
    | some p =>
      obtain ⟨i, e⟩ := p
      obtain ⟨tl, htl⟩ := bestHead_spec chunks i e hb
      simp only [heapMergeF, hb]
      rw [List.chain'_cons']
      constructor
      · intro b hbm
        have hmem : b ∈ heapMergeF j (popAt i chunks) := by
          cases hh : heapMergeF j (popAt i chunks) with
          | nil => rw [hh] at hbm; simp at hbm
          | cons a t =>
            rw [hh] at hbm
            simp at hbm
            subst hbm
            exact List.mem_cons_self _ _
        have hbf : b ∈ (popAt i chunks).flatten :=
          heapMergeF_mem j (popAt i chunks) b hmem
        have hle : postEntryPack e ≤ postEntryPack b :=
          popAt_all_ge chunks i e hb hs b hbf
        have hne : e ≠ b := fun hEq =>
          popAt_not_mem_of_nodup chunks i e tl hnd htl (hEq ▸ hbf)
        rcases lt_or_eq_of_le hle with hlt | hEq
        · exact hlt
        · exfalso
          apply hne
          have hfe : e.2 < 2 ^ 40 := hfid e (by
            have hcm : (e :: tl) ∈ chunks := List.get?_mem htl
            exact List.mem_flatten.mpr ⟨e :: tl, hcm, List.mem_cons_self _ _⟩)
          have hfb : b.2 < 2 ^ 40 :=
            hfid b ((popAt_flatten_sublist i chunks).mem hbf)
          obtain ⟨ta, fa⟩ := e
          obtain ⟨tb, fb⟩ := b
          simp only [postEntryPack] at hEq
          simp only at hfe hfb
          have h1 : ta = tb := by omega
          have h2 : fa = fb := by omega
          rw [h1, h2]
      · exact ih (popAt i chunks) (popAt_sorted i chunks hs)
          ((popAt_flatten_sublist i chunks).nodup hnd)
          (fun x hx => hfid x ((popAt_flatten_sublist i chunks).mem hx))

/-- C6 amended: `merge_post` (write.rs) performs no deduplication, but
whenever the spill chunks it merges are each strictly ascending in
packed order, carry pairwise-distinct (trigram, fileid) entries
overall, and have file ids below 2^40 (so the packing
`trigram << 40 | fileid` is injective), every per-trigram file-id list
it delivers to `PostDataWriter` is strictly ascending. -/
theorem c6_merge_post_strictly_ascending
    (chunks : List (List (Nat × Nat)))
    (hs : ∀ c ∈ chunks, List.Chain' (fun a b => postEntryPack a < postEntryPack b) c)
    (hnd : chunks.flatten.Nodup)
    (hfid : ∀ e ∈ chunks.flatten, e.2 < 2 ^ 40) :
    ∀ p ∈ merge_post_emissions chunks, List.Chain' (· < ·) p.2 := by
  intro p hp
  have hch := heapMergeF_chainLt ((chunks.map List.length).sum) chunks hs hnd hfid
  exact groupEmitF_chain _ _ hch p hp

theorem c6_merge_post_strictly_ascending_witness :
    ((5, [1, 2, 3]) : Nat × List Nat) ∈
      merge_post_emissions [[(5, 1), (5, 3)], [(5, 2), (9, 7)]] ∧
    List.Chain' (· < ·) ([1, 2, 3] : List Nat) := by
  constructor
  · decide
  · exact c6_merge_post_strictly_ascending [[(5, 1), (5, 3)], [(5, 2), (9, 7)]]
      (by
        intro c hc
        simp only [List.mem_cons, List.not_mem_nil, or_false] at hc
        rcases hc with h | h
        · subst h
          simp only [List.chain'_cons, List.chain'_singleton, and_true, postEntryPack]
          decide
        · subst h
          simp only [List.chain'_cons, List.chain'_singleton, and_true, postEntryPack]
          decide)
      (by decide) (by decide) (5, [1, 2, 3]) (by decide)

theorem toBits_length : ∀ (n x : Nat), (toBits x n).length = n := by
  intro n
  induction n with
  | zero => intro x; rfl
  | succ m ih => intro x; simp [toBits, ih]

theorem toBits_eq_map_range : ∀ (n x : Nat), toBits x n = (List.range n).map x.testBit := by
  intro n
  induction n with
  | zero => intro x; rfl
  | succ m ih =>
    intro x
    rw [List.range_succ_eq_map]
    simp only [toBits, List.map_cons, List.map_map]
    congr 1
    · simp [Nat.testBit_zero]
    · rw [ih (x / 2)]
      apply List.map_congr_left
      intro i _
      simp [Function.comp, Nat.testBit_add_one, Nat.succ_eq_add_one, Nat.add_comm]

theorem toBits_mod (n x : Nat) : toBits (x % 2 ^ n) n = toBits x n := by
  rw [toBits_eq_map_range, toBits_eq_map_range]
  apply List.map_congr_left
  intro i hi
  rw [List.mem_range] at hi
  simp [Nat.testBit_mod_two_pow, hi]

theorem toBits_inj {n x y : Nat} (h : toBits x n = toBits y n) : x % 2 ^ n = y % 2 ^ n := by
  apply Nat.eq_of_testBit_eq
  intro i
  rw [toBits_eq_map_range, toBits_eq_map_range] at h
  by_cases hi : i < n
  · have := congrArg (fun l => l.get? i) h
    simp only [List.get?_map, List.get?_range hi] at this
    simp only [Nat.testBit_mod_two_pow, hi, decide_True, Bool.true_and]
    exact Option.some.inj this
  · simp [Nat.testBit_mod_two_pow, hi]

theorem toBits_split (m n x : Nat) : toBits x (m + n) = toBits x m ++ toBits (x >>> m) n := by
  induction m generalizing x with
  | zero => simp [toBits]
  | succ k ih =>
    have : k + 1 + n = (k + n) + 1 := by omega
    rw [this]
    simp only [toBits, List.cons_append]
    congr 1
    rw [ih (x / 2)]
    have h3 : (x / 2) >>> k = x >>> (k + 1) := by
      rw [Nat.shiftRight_eq_div_pow, Nat.shiftRight_eq_div_pow, Nat.div_div_eq_div_mul,
        pow_succ, Nat.mul_comm]
    rw [h3]

theorem toBits_zero (n : Nat) : toBits 0 n = List.replicate n false := by
  induction n with
  | zero => rfl
  | succ m ih => simp [toBits, ih, List.replicate_succ]

theorem ofBits_lt : ∀ (l : List Bool), ofBits l < 2 ^ l.length := by
  intro l
  induction l with
  | nil => simp [ofBits]
  | cons b t ih =>
    simp only [ofBits, List.length_cons, pow_succ]
    cases b <;> simp <;> omega

theorem toBits_ofBits : ∀ (l : List Bool), toBits (ofBits l) l.length = l := by
  intro l
  induction l with
  | nil => rfl
  | cons b t ih =>
    simp only [ofBits, List.length_cons, toBits]
    congr 1
    · cases b <;> simp <;> omega
    · have : ((if b then 1 else 0) + 2 * ofBits t) / 2 = ofBits t := by
        cases b <;> simp <;> omega
      rw [this, ih]

theorem ofBits_toBits (n x : Nat) : ofBits (toBits x n) = x % 2 ^ n := by
  induction n generalizing x with
  | zero => simp [toBits, ofBits, Nat.mod_one]
  | succ m ih =>
    simp only [toBits, ofBits, ih]
    have h2 : x % (2 ^ (m + 1)) = x % 2 + 2 * (x / 2 % 2 ^ m) := by
      have : (2 : Nat) ^ (m + 1) = 2 * 2 ^ m := by ring
      rw [this, Nat.mod_mul]
    rw [h2]
    rcases Nat.mod_two_eq_zero_or_one x with h | h <;> simp [h]

theorem toBits_two_pow (z : Nat) : toBits (2 ^ z) (z + 1) = List.replicate z false ++ [true] := by
  rw [toBits_split z 1]
  have h1 : (2 ^ z) % 2 ^ z = 0 := Nat.mod_self _
  have h2 : toBits (2 ^ z) z = List.replicate z false := by
    rw [← toBits_mod, h1, toBits_zero]
  have h3 : 2 ^ z >>> z = 1 := by
    rw [Nat.shiftRight_eq_div_pow, Nat.div_self (Nat.pos_pow_of_pos z (by norm_num))]
  rw [h2, h3]
  rfl

theorem lor_shift_merge (x a b k n : Nat) :
    x ||| a <<< k ||| b <<< (k + n) = x ||| (a ||| b <<< n) <<< k := by
  apply Nat.eq_of_testBit_eq
  intro j
  simp only [Nat.testBit_or, Nat.testBit_shiftLeft]
  by_cases h1 : k ≤ j
  · by_cases h2 : k + n ≤ j
    · have e1 : j - (k + n) = j - k - n := by omega
      have e2 : n ≤ j - k := by omega
      simp [h1, h2, e1, e2, Bool.or_assoc]
    · have e2 : ¬ n ≤ j - k := by omega
      simp [h1, h2, e2, Bool.or_assoc]
  · have h2 : ¬ k + n ≤ j := by omega
    simp [h1, h2]

theorem mod_lor_split (y nb lg : Nat) (h : nb ≤ lg) :
    y % 2 ^ nb ||| ((y >>> nb) % 2 ^ (lg - nb)) <<< nb = y % 2 ^ lg := by
  apply Nat.eq_of_testBit_eq
  intro j
  simp only [Nat.testBit_or, Nat.testBit_shiftLeft, Nat.testBit_mod_two_pow,
    Nat.testBit_shiftRight]
  by_cases h1 : j < nb
  · have h2 : ¬ nb ≤ j := by omega
    simp [h1, h2, show j < lg by omega]
  · have h2 : nb ≤ j := by omega
    by_cases h3 : j < lg
    · have e1 : j - nb < lg - nb := by omega
      have e2 : nb + (j - nb) = j := by omega
      simp [h1, h2, h3, e1, e2]
    · have e1 : ¬ (j - nb < lg - nb) := by omega
      simp [h1, h2, h3, e1]

theorem lor_low (b m x : Nat) (hb : b < 2 ^ m) : b ||| x <<< m = b + 2 ^ m * x := by
  rw [Nat.shiftLeft_eq, Nat.mul_comm x (2 ^ m), Nat.lor_comm, ← Nat.mul_add_lt_is_or hb x,
    Nat.add_comm]

theorem bytesToBits_append (l1 l2 : List Nat) :
    bytesToBits (l1 ++ l2) = bytesToBits l1 ++ bytesToBits l2 := by
  simp [bytesToBits]

theorem write_bitsF_spec :
    ∀ (f n x nb b : Nat), n ≤ f → nb < 8 → b < 2 ^ nb →
    ∃ out nb2 b2, write_bitsF f ⟨nb, b⟩ x n = (⟨nb2, b2⟩, out) ∧
      nb2 < 8 ∧ b2 < 2 ^ nb2 ∧ (∀ c ∈ out, c < 256) ∧
      bytesToBits out ++ toBits b2 nb2 = toBits b nb ++ toBits x n := by
  intro f
  induction f with
  | zero =>
    intro n x nb b hn hnb hb
    have hn0 : n = 0 := by omega
    subst hn0
    exact ⟨[], nb, b, rfl, hnb, hb, by simp, by simp [bytesToBits, toBits]⟩
  | succ g ih =>
    intro n x nb b hn hnb hb
    by_cases hn0 : n = 0
    · subst hn0
      exact ⟨[], nb, b, rfl, hnb, hb, by simp, by simp [write_bitsF, bytesToBits, toBits]⟩
    · have hsp : ¬ (8 - nb = 0) := by omega
      set w := min n (8 - nb) with hw
      have hw1 : 1 ≤ w := by omega
      have hwle : nb + w ≤ 8 := by omega
      have hnw : n - w ≤ g := by omega
      set b2' := b ||| (x % 2 ^ w) <<< nb with hb2
      have hb2add : b2' = b + 2 ^ nb * (x % 2 ^ w) := lor_low b nb (x % 2 ^ w) hb
      have hxw : x % 2 ^ w < 2 ^ w := Nat.mod_lt _ (Nat.pos_pow_of_pos w (by norm_num))
      have hb2lt : b2' < 2 ^ (nb + w) := by
        have h1 : (0:Nat) < 2 ^ nb := Nat.pos_pow_of_pos nb (by norm_num)
        have h2 : (0:Nat) < 2 ^ w := Nat.pos_pow_of_pos w (by norm_num)
        have h3 : (2:Nat) ^ (nb + w) = 2 ^ nb * 2 ^ w := pow_add 2 nb w
        have h5 : 2 ^ nb * (x % 2 ^ w) ≤ 2 ^ nb * (2 ^ w - 1) :=
          Nat.mul_le_mul_left _ (by omega)
        have h6 : 2 ^ nb * (2 ^ w - 1) + 2 ^ nb = 2 ^ nb * 2 ^ w := by
          rw [← Nat.mul_succ]
          congr 1
          omega
        rw [hb2add, h3]
        omega
      have hbits2 : toBits b2' (nb + w) = toBits b nb ++ toBits x w := by
        rw [toBits_split nb w b2']
        congr 1
        · rw [← toBits_mod nb b2', hb2add, Nat.add_mul_mod_self_left,
            Nat.mod_eq_of_lt hb]
        · have : b2' >>> nb = x % 2 ^ w := by
            rw [Nat.shiftRight_eq_div_pow, hb2add, Nat.add_mul_div_left _ _
              (Nat.pos_pow_of_pos nb (by norm_num)), Nat.div_eq_of_lt hb]
            omega
          rw [this, toBits_mod]
      have hsplitx : toBits x n = toBits x w ++ toBits (x >>> w) (n - w) := by
        have : n = w + (n - w) := by omega
        rw [this, toBits_split w (n - w) x]
        congr 2
        omega
      by_cases hfull : nb + w = 8
      · obtain ⟨out', nb2, bf, heq, h1, h2, h3, h4⟩ :=
          ih (n - w) (x >>> w) 0 0 hnw (by norm_num) (by norm_num)
        refine ⟨b2' :: out', nb2, bf, ?_, h1, h2, ?_, ?_⟩
        · simp only [write_bitsF, hn0, if_neg hn0, hsp, if_neg hsp]
          rw [show min n (8 - nb) = w from rfl]
          simp only [hfull, if_pos hfull, heq]
          simp
        · intro c hc
          rcases List.mem_cons.mp hc with h | h
          · subst h
            calc b2' < 2 ^ (nb + w) := hb2lt
            _ = 256 := by rw [hfull]; norm_num
          · exact h3 c h
        · have hstream : bytesToBits (b2' :: out') = toBits b2' 8 ++ bytesToBits out' := by
            simp [bytesToBits]
          rw [hstream, List.append_assoc, h4, ← hfull, hbits2, hsplitx]
          simp [toBits]
      · obtain ⟨out', nb2, bf, heq, h1, h2, h3, h4⟩ :=
          ih (n - w) (x >>> w) (nb + w) b2' hnw (by omega) hb2lt
        refine ⟨out', nb2, bf, ?_, h1, h2, h3, ?_⟩
        · simp only [write_bitsF, hn0, if_neg hn0, hsp, if_neg hsp]
          rw [show min n (8 - nb) = w from rfl]
          simp only [hfull, if_neg hfull, heq]
          simp
        · rw [h4, hbits2, hsplitx, List.append_assoc]

theorem bitWidthF_spec :
    ∀ (f y : Nat), y ≤ f →
    y < 2 ^ bitWidthF f y ∧ (0 < y → 2 ^ (bitWidthF f y - 1) ≤ y ∧ 0 < bitWidthF f y) := by
  intro f
  induction f with
  | zero =>
    intro y hy
    have : y = 0 := by omega
    subst this
    simp [bitWidthF]
  | succ g ih =>
    intro y hy
    by_cases h0 : y = 0
    · subst h0; simp [bitWidthF]
    · have hrec : bitWidthF (g + 1) y = bitWidthF g (y / 2) + 1 := by
        simp [bitWidthF, h0]
      have hy2 : y / 2 ≤ g := by omega
      obtain ⟨ha, hb⟩ := ih (y / 2) hy2
      rw [hrec]
      constructor
      · have : y < 2 * 2 ^ bitWidthF g (y / 2) := by omega
        calc y < 2 * 2 ^ bitWidthF g (y / 2) := this
        _ = 2 ^ (bitWidthF g (y / 2) + 1) := by ring
      · intro _
        refine ⟨?_, by omega⟩
        by_cases hz : y / 2 = 0
        · have hy1 : y = 1 := by omega
          have hg0 : bitWidthF g 0 = 0 := by cases g <;> simp [bitWidthF]
          rw [hz, hg0]
          simp [hy1]
        · obtain ⟨hc, hd⟩ := hb (by omega)
          have he : 2 ^ bitWidthF g (y / 2) ≤ 2 * (y / 2) := by
            have : 2 ^ bitWidthF g (y / 2) = 2 * 2 ^ (bitWidthF g (y / 2) - 1) := by
              rw [← pow_succ']
              congr 1
              omega
            omega
          have : bitWidthF g (y / 2) + 1 - 1 = bitWidthF g (y / 2) := by omega
          rw [this]
          omega

theorem bitWidth_spec (y : Nat) :
    y < 2 ^ bitWidth y ∧ (0 < y → 2 ^ (bitWidth y - 1) ≤ y ∧ 0 < bitWidth y) :=
  bitWidthF_spec y y (Nat.le_refl y)

theorem deltaEncode1_spec (x0 : Nat) (h : x0 < 2 ^ 32 - 1) :
    ∃ y lg k,
      y = (if x0 = 0 then 16 else if 16 ≤ x0 then x0 + 1 else x0) ∧
      lg ≤ 31 ∧ 2 ^ lg ≤ y ∧ y < 2 ^ (lg + 1) ∧ k ≤ 7 ∧
      (∀ c ∈ deltaEncode1 x0, c < 256) ∧
      bytesToBits (deltaEncode1 x0) =
        List.replicate lg false ++ true :: (toBits y lg ++ List.replicate k false) := by
  set y := (if x0 = 0 then 16 else if 16 ≤ x0 then x0 + 1 else x0) with hy
  have hy1 : 1 ≤ y := by
    rw [hy]
    split
    · omega
    · split <;> omega
  have hy32 : y < 2 ^ 32 := by
    rw [hy]
    have : (2:Nat) ^ 32 = 4294967296 := by norm_num
    rw [this]
    split
    · omega
    · split <;> omega
  obtain ⟨hwlt, hwge⟩ := bitWidth_spec y
  obtain ⟨hlow, hpos⟩ := hwge (by omega)
  set bw := bitWidth y with hbw
  set lg := bw - 1 with hlg
  have hlg1 : lg + 1 = bw := by omega
  have hylow : 2 ^ lg ≤ y := hlow
  have hyhigh : y < 2 ^ (lg + 1) := by rw [hlg1]; exact hwlt
  have hlg31 : lg ≤ 31 := by
    by_contra hc
    have h32 : 32 ≤ lg := by omega
    have : (2:Nat) ^ 32 ≤ 2 ^ lg := Nat.pow_le_pow_right (by norm_num) h32
    omega
  -- unfold deltaWrite on the mapped value
  have hxmap : (if x0 = 0 then 16 else if 16 ≤ x0 then (x0 + 1) % 2 ^ 32 else x0) = y := by
    rw [hy]
    have hm : (x0 + 1) % 2 ^ 32 = x0 + 1 := by
      apply Nat.mod_eq_of_lt
      have : (2:Nat) ^ 32 = 4294967296 := by norm_num
      omega
    rw [hm]
  have hlz : leadingZeros32 y = 32 - bw := rfl
  have hbw32 : bw ≤ 32 := by omega
  have hwrap : wrapSub32 31 (32 - bw) = lg := by
    show (31 + 2 ^ 32 - (32 - bw) % 2 ^ 32) % 2 ^ 32 = lg
    have h232 : (2:Nat) ^ 32 = 4294967296 := by norm_num
    rw [h232]
    omega
  have hlgmod : lg % 32 = lg := Nat.mod_eq_of_lt (by omega)
  have hshift : (1 <<< lg) % 2 ^ 32 = 2 ^ lg := by
    rw [Nat.shiftLeft_eq, one_mul]
    apply Nat.mod_eq_of_lt
    calc (2:Nat) ^ lg ≤ 2 ^ 31 := Nat.pow_le_pow_right (by norm_num) hlg31
    _ < 2 ^ 32 := by norm_num
  have hlgp1 : (lg + 1) % 2 ^ 32 = lg + 1 := by
    apply Nat.mod_eq_of_lt
    have : (2:Nat) ^ 32 = 4294967296 := by norm_num
    omega
  have hval : y &&& 2 ^ lg - 1 = y % 2 ^ lg := Nat.and_pow_two_sub_one_eq_mod y lg
  -- the two write_bits calls
  obtain ⟨out1, nb1, b1, heq1, hnb1, hb1, hout1, hs1⟩ :=
    write_bitsF_spec (lg + 1) (lg + 1) (2 ^ lg) 0 0 (Nat.le_refl _) (by norm_num) (by norm_num)
  obtain ⟨out2, nb2, b2, heq2, hnb2, hb2, hout2, hs2⟩ :=
    write_bitsF_spec lg lg (y % 2 ^ lg) nb1 b1 (Nat.le_refl _) hnb1 hb1
  have hdw : deltaWrite DeltaWriter.new x0 = (⟨nb2, b2⟩, out1 ++ out2) := by
    simp only [deltaWrite, hxmap, hlz, hwrap, hlgmod, hshift, hlgp1, hval, write_bits,
      DeltaWriter.new, heq1, heq2]
  have henc : deltaEncode1 x0 = (out1 ++ out2) ++ deltaFinish ⟨nb2, b2⟩ := by
    simp only [deltaEncode1, hdw]
  have hs1' : bytesToBits out1 ++ toBits b1 nb1 = List.replicate lg false ++ [true] := by
    rw [hs1]
    show toBits 0 0 ++ toBits (2 ^ lg) (lg + 1) = _
    rw [toBits_two_pow]
    rfl
  have hs2' : bytesToBits out2 ++ toBits b2 nb2 = toBits b1 nb1 ++ toBits y lg := by
    rw [hs2, toBits_mod]
  by_cases hnb0 : nb2 = 0
  · refine ⟨y, lg, 0, rfl, hlg31, hylow, hyhigh, by omega, ?_, ?_⟩
    · intro c hc
      rw [henc] at hc
      subst hnb0
      have hfin : deltaFinish ⟨0, b2⟩ = [] := by simp [deltaFinish]
      rw [hfin, List.append_nil] at hc
      rcases List.mem_append.mp hc with h | h
      · exact hout1 c h
      · exact hout2 c h
    · rw [henc]
      subst hnb0
      have hfin : deltaFinish ⟨0, b2⟩ = [] := by simp [deltaFinish]
      have hb20 : b2 = 0 := by
        have := hb2
        simp at this
        omega
      rw [hfin, List.append_nil, bytesToBits_append]
      have ht2 : toBits b2 0 = [] := rfl
      rw [ht2, List.append_nil] at hs2'
      rw [hs2']
      rw [← List.append_assoc, hs1']
      simp
  · refine ⟨y, lg, 8 - nb2, rfl, hlg31, hylow, hyhigh, by omega, ?_, ?_⟩
    · intro c hc
      rw [henc] at hc
      have hfin : deltaFinish ⟨nb2, b2⟩ = [b2] := by
        simp [deltaFinish]
        omega
      rw [hfin] at hc
      rcases List.mem_append.mp hc with h | h
      · rcases List.mem_append.mp h with h2 | h2
        · exact hout1 c h2
        · exact hout2 c h2
      · have : c = b2 := by simpa using h
        subst this
        calc c < 2 ^ nb2 := hb2
        _ ≤ 2 ^ 7 := Nat.pow_le_pow_right (by norm_num) (by omega)
        _ < 256 := by norm_num
    · rw [henc]
      have hfin : deltaFinish ⟨nb2, b2⟩ = [b2] := by
        simp [deltaFinish]
        omega
      rw [hfin, bytesToBits_append, bytesToBits_append]
      have hb28 : bytesToBits [b2] = toBits b2 nb2 ++ List.replicate (8 - nb2) false := by
        show toBits b2 8 ++ [].flatten = _
        have h8 : 8 = nb2 + (8 - nb2) := by omega
        rw [List.flatten_nil, List.append_nil]
        conv_lhs => rw [h8]
        rw [toBits_split]
        congr 1
        have : b2 >>> nb2 = 0 := by
          rw [Nat.shiftRight_eq_div_pow]
          exact Nat.div_eq_of_lt hb2
        rw [this, toBits_zero]
      rw [hb28, List.append_assoc, ← List.append_assoc (bytesToBits out2), hs2',
        List.append_assoc, ← List.append_assoc, hs1']
      simp

theorem bytesToBits_length : ∀ (l : List Nat), (bytesToBits l).length = 8 * l.length := by
  intro l
  induction l with
  | nil => rfl
  | cons c rest ih =>
    show (toBits c 8 ++ bytesToBits rest).length = 8 * (rest.length + 1)
    rw [List.length_append, toBits_length, ih]
    ring
theorem toBits_padded_odd (z m n : Nat) (h : z < n) :
    toBits (2 ^ z * (2 * m + 1)) n = List.replicate z false ++ true :: toBits m (n - z - 1) := by
  have hn : n = z + (n - z) := by omega
  rw [hn, toBits_split z (n - z)]
  congr 1
  · rw [← toBits_mod, Nat.mul_mod_right, toBits_zero]
  · have h1 : (2 ^ z * (2 * m + 1)) >>> z = 2 * m + 1 := by
      rw [Nat.shiftRight_eq_div_pow, Nat.mul_div_cancel_left _
        (Nat.pos_pow_of_pos z (by norm_num))]
    rw [h1]
    have h2 : n - z = (n - z - 1) + 1 := by omega
    rw [h2]
    show decide ((2 * m + 1) % 2 = 1) :: toBits ((2 * m + 1) / 2) (n - z - 1) = _
    have h3 : (2 * m + 1) % 2 = 1 := by omega
    have h4 : (2 * m + 1) / 2 = m := by omega
    rw [h3, h4]
    simp

theorem refillLoop_spec :
    ∀ (D : List Nat) (lg : Nat) (tail : List Bool) (nb0 acc : Nat),
    (∀ c ∈ D, c < 256) →
    bytesToBits D = List.replicate lg false ++ true :: tail →
    ∃ c rest m,
      refillLoop D nb0 acc = some (c, rest, acc + nb0 + 8 * (lg / 8)) ∧
      c = 2 ^ (lg % 8) * (2 * m + 1) ∧ m < 2 ^ (7 - lg % 8) ∧ (∀ e ∈ rest, e < 256) ∧
      toBits m (7 - lg % 8) ++ bytesToBits rest = tail := by
  intro D
  induction D with
  | nil =>
    intro lg tail nb0 acc _ hbits
    exfalso
    have := congrArg List.length hbits
    simp [bytesToBits] at this
    omega
  | cons c rest ih =>
    intro lg tail nb0 acc hlt hbits
    have hc256 : c < 256 := hlt c (List.mem_cons_self _ _)
    have hrest : ∀ e ∈ rest, e < 256 := fun e he => hlt e (List.mem_cons_of_mem _ he)
    have hsplit : bytesToBits (c :: rest) = toBits c 8 ++ bytesToBits rest := by
      simp [bytesToBits]
    rw [hsplit] at hbits
    by_cases hlg : 8 ≤ lg
    · -- the first byte is entirely zero
      have htake : toBits c 8 = List.replicate 8 false := by
        have h1 := congrArg (List.take 8) hbits
        rw [List.take_append_eq_append_take] at h1
        have hl8 : (toBits c 8).length = 8 := toBits_length 8 c
        rw [List.take_of_length_le (by omega), show (8 : Nat) - (toBits c 8).length = 0 by omega,
          List.take_zero, List.append_nil] at h1
        rw [h1, List.take_append_eq_append_take, List.take_replicate,
          show min 8 lg = 8 by omega, List.length_replicate,
          show (8 : Nat) - lg = 0 by omega, List.take_zero, List.append_nil]
      have hc0 : c = 0 := by
        have := toBits_inj (by rw [htake, toBits_zero] : toBits c 8 = toBits 0 8)
        simpa [Nat.mod_eq_of_lt hc256] using this
      have hdrop : bytesToBits rest = List.replicate (lg - 8) false ++ true :: tail := by
        have h1 := congrArg (List.drop 8) hbits
        rw [List.drop_append_eq_append_drop] at h1
        have hl8 : (toBits c 8).length = 8 := toBits_length 8 c
        rw [List.drop_of_length_le (by omega), show (8 : Nat) - (toBits c 8).length = 0 by omega,
          List.drop_zero, List.nil_append] at h1
        rw [h1, List.drop_append_eq_append_drop, List.drop_replicate, List.length_replicate,
          show (8 : Nat) - lg = 0 by omega, List.drop_zero]
      obtain ⟨c', rest', m, heq, hcm, hm, hr, hbits'⟩ :=
        ih (lg - 8) tail 8 (acc + nb0) hrest hdrop
      refine ⟨c', rest', m, ?_, ?_, ?_, hr, ?_⟩
      · have hstep : refillLoop (c :: rest) nb0 acc = refillLoop rest 8 (acc + nb0) := by
          simp [refillLoop, hc0]
        rw [show acc + nb0 + 8 * (lg / 8) = acc + nb0 + 8 + 8 * ((lg - 8) / 8) from by omega,
          hstep]
        exact heq
      · rw [hcm, show (lg - 8) % 8 = lg % 8 from by omega]
      · have : (7 : Nat) - (lg - 8) % 8 = 7 - lg % 8 := by omega
        rw [← this]
        exact hm
      · have : (7 : Nat) - (lg - 8) % 8 = 7 - lg % 8 := by omega
        rw [← this]
        exact hbits'
    · -- the true bit is inside this byte
      push_neg at hlg
      have hlen : tail.length = 7 - lg + 8 * rest.length := by
        have h0 := congrArg List.length hbits
        rw [List.length_append, List.length_append, toBits_length, bytesToBits_length,
          List.length_replicate, List.length_cons] at h0
        omega
      set m := ofBits (tail.take (7 - lg)) with hm
      have htklen : (tail.take (7 - lg)).length = 7 - lg := by
        rw [List.length_take]
        omega
      have hmlt : m < 2 ^ (7 - lg) := by
        have h0 := ofBits_lt (tail.take (7 - lg))
        rw [htklen] at h0
        exact h0
      have hmbits : toBits m (7 - lg) = tail.take (7 - lg) := by
        have h0 := toBits_ofBits (tail.take (7 - lg))
        rw [htklen] at h0
        exact h0
      have hcbits : toBits c 8 = List.replicate lg false ++ true :: tail.take (7 - lg) := by
        have h1 := congrArg (List.take 8) hbits
        rw [List.take_append_eq_append_take] at h1
        have hl8 : (toBits c 8).length = 8 := toBits_length 8 c
        rw [List.take_of_length_le (by omega), show (8 : Nat) - (toBits c 8).length = 0 by omega,
          List.take_zero, List.append_nil] at h1
        rw [h1, List.take_append_eq_append_take, List.take_replicate,
          show min 8 lg = lg by omega, List.length_replicate]
        congr 1
        show List.take (8 - lg) (true :: tail) = true :: List.take (7 - lg) tail
        have : (8 : Nat) - lg = (7 - lg) + 1 := by omega
        rw [this]
        rfl
      have hcval : c = 2 ^ lg * (2 * m + 1) := by
        have hrhs : toBits (2 ^ lg * (2 * m + 1)) 8 =
            List.replicate lg false ++ true :: toBits m (7 - lg) := by
          rw [toBits_padded_odd lg m 8 (by omega),
            show (8:Nat) - lg - 1 = 7 - lg from by omega]
        rw [hmbits] at hrhs
        have := toBits_inj (hcbits.trans hrhs.symm)
        have hlt2 : 2 ^ lg * (2 * m + 1) < 256 := by
          have hfpos : (0:Nat) < 2 ^ (7 - lg) := Nat.pos_pow_of_pos _ (by norm_num)
          have h1 : 2 * m + 1 ≤ 2 * (2 ^ (7 - lg) - 1) + 1 := by omega
          have h2 : 2 ^ lg * (2 * m + 1) ≤ 2 ^ lg * (2 * (2 ^ (7 - lg) - 1) + 1) :=
            Nat.mul_le_mul_left _ h1
          have h3 : 2 ^ lg * (2 * (2 ^ (7 - lg) - 1) + 1) < 2 ^ lg * (2 * 2 ^ (7 - lg)) := by
            apply mul_lt_mul_of_pos_left
            · omega
            · exact Nat.pos_pow_of_pos lg (by norm_num)
          have h4 : 2 ^ lg * (2 * 2 ^ (7 - lg)) = 2 ^ (lg + (7 - lg) + 1) := by
            rw [pow_add, pow_add, pow_one]
            ring
          have h5 : lg + (7 - lg) + 1 = 8 := by omega
          rw [h5] at h4
          have h6 : (2:Nat) ^ 8 = 256 := by norm_num
          omega
        have e8 : (2:Nat) ^ 8 = 256 := by norm_num
        rw [e8] at this
        rwa [Nat.mod_eq_of_lt hc256, Nat.mod_eq_of_lt hlt2] at this
      have hcne : ¬ c = 0 := by
        rw [hcval]
        have : (0:Nat) < 2 ^ lg := Nat.pos_pow_of_pos _ (by norm_num)
        positivity
      refine ⟨c, rest, m, ?_, ?_, ?_, hrest, ?_⟩
      · rw [show acc + nb0 + 8 * (lg / 8) = acc + nb0 from by omega]
        simp [refillLoop, hcne]
      · rw [hcval, show lg % 8 = lg from by omega]
      · rw [show lg % 8 = lg by omega]
        exact hmlt
      · rw [show lg % 8 = lg by omega, hmbits]
        have hdrop : bytesToBits rest = tail.drop (7 - lg) := by
          have h1 := congrArg (List.drop 8) hbits
          rw [List.drop_append_eq_append_drop] at h1
          have hl8 : (toBits c 8).length = 8 := toBits_length 8 c
          rw [List.drop_of_length_le (by omega), show (8 : Nat) - (toBits c 8).length = 0 by omega,
            List.drop_zero, List.nil_append] at h1
          rw [h1, List.drop_append_eq_append_drop, List.drop_replicate, List.length_replicate,
            show (8 : Nat) - lg = (7 - lg) + 1 by omega]
          simp [show lg - 8 = 0 from by omega]
        rw [hdrop, List.take_append_drop]

theorem bytesToBits_cons (c : Nat) (rest : List Nat) :
    bytesToBits (c :: rest) = toBits c 8 ++ bytesToBits rest := by
  simp [bytesToBits]

theorem trailZF_spec : ∀ (f z m : Nat), z < f → trailZF f (2 ^ z * (2 * m + 1)) = z := by
  intro f
  induction f with
  | zero => intro z m h; omega
  | succ g ih =>
    intro z m h
    cases z with
    | zero =>
      have h1 : 2 ^ 0 * (2 * m + 1) = 2 * m + 1 := by ring
      simp only [trailZF, h1]
      have h2 : ¬ (2 * m + 1 = 0) := by omega
      have h3 : (2 * m + 1) % 2 = 1 := by omega
      simp [h2, h3]
    | succ z' =>
      have hval : 2 ^ (z' + 1) * (2 * m + 1) = 2 * (2 ^ z' * (2 * m + 1)) := by ring
      have hpos : (0:Nat) < 2 ^ z' * (2 * m + 1) :=
        Nat.mul_pos (Nat.pos_pow_of_pos _ (by norm_num)) (by omega)
      simp only [trailZF, hval]
      have h2 : ¬ (2 * (2 ^ z' * (2 * m + 1)) = 0) := by omega
      have h3 : ¬ (2 * (2 ^ z' * (2 * m + 1)) % 2 = 1) := by omega
      have h4 : 2 * (2 ^ z' * (2 * m + 1)) / 2 = 2 ^ z' * (2 * m + 1) := by omega
      simp only [h2, h3, h4, if_false]
      rw [ih z' m (by omega)]

theorem trailZ_spec (z m : Nat) : trailZ (2 ^ z * (2 * m + 1)) = z := by
  have hz : z < 2 ^ z * (2 * m + 1) := by
    have h1 : z < 2 ^ z := Nat.lt_two_pow z
    have h2 : 2 ^ z * 1 ≤ 2 ^ z * (2 * m + 1) := Nat.mul_le_mul_left _ (by omega)
    omega
  exact trailZF_spec _ z m hz

theorem shift_odd (z m : Nat) : (2 ^ z * (2 * m + 1)) >>> (z + 1) = m := by
  rw [Nat.shiftRight_eq_div_pow]
  have h1 : 2 ^ z * (2 * m + 1) = 2 ^ z + 2 ^ (z + 1) * m := by ring
  have hpos : (0:Nat) < 2 ^ (z + 1) := Nat.pos_pow_of_pos _ (by norm_num)
  have hlt : (2:Nat) ^ z < 2 ^ (z + 1) := by
    have : (0:Nat) < 2 ^ z := Nat.pos_pow_of_pos _ (by norm_num)
    rw [pow_succ]
    omega
  rw [h1, Nat.add_mul_div_left _ _ hpos, Nat.div_eq_of_lt hlt]
  omega

theorem gatherBits_spec :
    ∀ (d : List Nat) (b nb lg x nbAcc y : Nat) (tail : List Bool),
    b < 2 ^ nb → (∀ c ∈ d, c < 256) →
    toBits b nb ++ bytesToBits d = toBits y lg ++ tail →
    ∃ b3 nb3 d3,
      gatherBits b nb lg x nbAcc d = some (x ||| (y % 2 ^ lg) <<< nbAcc, b3, nb3, d3) := by
  intro d
  induction d with
  | nil =>
    intro b nb lg x nbAcc y tail hb _ hstream
    rw [show bytesToBits [] = ([] : List Bool) from rfl, List.append_nil] at hstream
    have hlen : nb = lg + tail.length := by
      have h0 := congrArg List.length hstream
      rw [toBits_length, List.length_append, toBits_length] at h0
      exact h0
    have hnl : ¬ nb < lg := by omega
    have hsplitb : toBits b nb = toBits b lg ++ toBits (b >>> lg) (nb - lg) := by
      conv_lhs => rw [show nb = lg + (nb - lg) from by omega]
      exact toBits_split lg (nb - lg) b
    have hblg : toBits b lg = toBits y lg := by
      have h2 := congrArg (List.take lg) hstream
      rw [hsplitb, List.take_left' (toBits_length lg b),
        List.take_left' (toBits_length lg y)] at h2
      exact h2
    have hmod : b % 2 ^ lg = y % 2 ^ lg := toBits_inj hblg
    refine ⟨b >>> lg, nb - lg, [], ?_⟩
    simp only [gatherBits, if_neg hnl]
    rw [Nat.shiftLeft_eq 1 lg, one_mul, Nat.and_pow_two_sub_one_eq_mod, hmod]
  | cons c rest ih =>
    intro b nb lg x nbAcc y tail hb hd hstream
    rw [bytesToBits_cons] at hstream
    by_cases hnl : nb < lg
    · have hsplity : toBits y lg = toBits y nb ++ toBits (y >>> nb) (lg - nb) := by
        conv_lhs => rw [show lg = nb + (lg - nb) from by omega]
        exact toBits_split nb (lg - nb) y
      rw [hsplity, List.append_assoc] at hstream
      have hbnb : toBits b nb = toBits y nb := by
        have h2 := congrArg (List.take nb) hstream
        rw [List.take_left' (toBits_length nb b), List.take_left' (toBits_length nb y)] at h2
        exact h2
      have hby : b = y % 2 ^ nb := by
        have h3 := toBits_inj hbnb
        rwa [Nat.mod_eq_of_lt hb] at h3
      have hrest_stream : toBits c 8 ++ bytesToBits rest =
          toBits (y >>> nb) (lg - nb) ++ tail := by
        rw [hbnb] at hstream
        exact List.append_cancel_left hstream
      obtain ⟨b3, nb3, d3, hg⟩ := ih c 8 (lg - nb) (x ||| b <<< nbAcc) (nbAcc + nb)
        (y >>> nb) tail
        (by have := hd c (List.mem_cons_self _ _); norm_num; omega)
        (fun e he => hd e (List.mem_cons_of_mem _ he)) hrest_stream
      have hval : (x ||| b <<< nbAcc) ||| ((y >>> nb) % 2 ^ (lg - nb)) <<< (nbAcc + nb)
          = x ||| (y % 2 ^ lg) <<< nbAcc := by
        rw [hby, lor_shift_merge, mod_lor_split y nb lg (le_of_lt hnl)]
      refine ⟨b3, nb3, d3, ?_⟩
      simp only [gatherBits, hnl, if_pos hnl]
      rw [hg, hval]
      simp
    · have hlen : nb ≥ lg := by omega
      have hsplitb : toBits b nb = toBits b lg ++ toBits (b >>> lg) (nb - lg) := by
        conv_lhs => rw [show nb = lg + (nb - lg) from by omega]
        exact toBits_split lg (nb - lg) b
      rw [hsplitb, List.append_assoc] at hstream
      have hblg : toBits b lg = toBits y lg := by
        have h2 := congrArg (List.take lg) hstream
        rw [List.take_left' (toBits_length lg b), List.take_left' (toBits_length lg y)] at h2
        exact h2
      have hmod : b % 2 ^ lg = y % 2 ^ lg := toBits_inj hblg
      refine ⟨b >>> lg, nb - lg, c :: rest, ?_⟩
      simp only [gatherBits, if_neg hnl]
      rw [Nat.shiftLeft_eq 1 lg, one_mul, Nat.and_pow_two_sub_one_eq_mod, hmod]

theorem next64_decode (D : List Nat) (lg y k : Nat)
    (hD : ∀ c ∈ D, c < 256)
    (hbits : bytesToBits D =
      List.replicate lg false ++ true :: (toBits y lg ++ List.replicate k false)) :
    ∃ r2, DeltaReader.next64 ⟨D, 0, 0⟩ = some (2 ^ lg + y % 2 ^ lg, r2) := by
  obtain ⟨c, rest, m, href, hcm, hmlt, hrest, htail⟩ :=
    refillLoop_spec D lg (toBits y lg ++ List.replicate k false) 0 0 hD hbits
  have hz : trailZ c = lg % 8 := by rw [hcm]; exact trailZ_spec _ _
  have hcs : c >>> (lg % 8 + 1) = m := by rw [hcm]; exact shift_odd _ _
  have h78 : 8 - (lg % 8 + 1) = 7 - lg % 8 := by omega
  have hacc : 0 + 0 + 8 * (lg / 8) = 8 * (lg / 8) := by omega
  have hlgsum : 8 * (lg / 8) + lg % 8 = lg := by omega
  obtain ⟨b3, nb3, d3, hg⟩ := gatherBits_spec rest m (7 - lg % 8) lg (1 <<< lg) 0 y
    (List.replicate k false) hmlt hrest htail
  refine ⟨⟨d3, b3, nb3⟩, ?_⟩
  show (let pre := if (0:Nat) = 0 then refillLoop D 0 0 else some (0, D, 0)
    match pre with
    | Option.none => Option.none
    | some (b, d, lg0) =>
      let nb := if (0:Nat) = 0 then 8 else 0
      let z := trailZ b
      match gatherBits (b >>> (z + 1)) (nb - (z + 1)) (lg0 + z) (1 <<< (lg0 + z)) 0 d with
      | Option.none => Option.none
      | some (x, b5, nb5, d5) => some (x, (⟨d5, b5, nb5⟩ : DeltaReader))) =
    some (2 ^ lg + y % 2 ^ lg, (⟨d3, b3, nb3⟩ : DeltaReader))
  rw [if_pos rfl, href, hacc]
  show (match gatherBits (c >>> (trailZ c + 1)) (8 - (trailZ c + 1)) (8 * (lg / 8) + trailZ c)
      (1 <<< (8 * (lg / 8) + trailZ c)) 0 rest with
    | Option.none => Option.none
    | some (x, b5, nb5, d5) => some (x, (⟨d5, b5, nb5⟩ : DeltaReader))) =
    some (2 ^ lg + y % 2 ^ lg, (⟨d3, b3, nb3⟩ : DeltaReader))
  rw [hz, hcs, hlgsum, show (8:Nat) - (lg % 8 + 1) = 7 - lg % 8 from h78, hg]
  show some ((1 <<< lg) ||| (y % 2 ^ lg) <<< 0, (⟨d3, b3, nb3⟩ : DeltaReader)) = _
  rw [Nat.shiftLeft_zero, Nat.shiftLeft_eq 1 lg, one_mul]
  have hor : 2 ^ lg ||| y % 2 ^ lg = 2 ^ lg + y % 2 ^ lg := by
    have hm : y % 2 ^ lg < 2 ^ lg := Nat.mod_lt _ (Nat.pos_pow_of_pos _ (by norm_num))
    have h0 := Nat.mul_add_lt_is_or hm 1
    rw [Nat.mul_one] at h0
    exact h0.symm
  rw [hor]

/-- C4 amended: for every u32 value strictly below `u32::MAX`,
encoding with `DeltaWriter::write` followed by `finish` and decoding the
produced bytes with `DeltaReader::next` yields the value back. -/
theorem c4_delta_roundtrip (x0 : Nat) (h : x0 < 2 ^ 32 - 1) :
    deltaDecode1 (deltaEncode1 x0) = some x0 := by
  obtain ⟨y, lg, k, hy, hlg31, hylow, hyhigh, hk, hbytes, hbits⟩ := deltaEncode1_spec x0 h
  obtain ⟨r2, h64⟩ := next64_decode (deltaEncode1 x0) lg y k hbytes hbits
  have h232 : (2:Nat) ^ 32 = 4294967296 := by norm_num
  have hval : 2 ^ lg + y % 2 ^ lg = y := by
    have h2 : (2:Nat) ^ (lg + 1) = 2 * 2 ^ lg := by rw [pow_succ]; ring
    have hmod : y % 2 ^ lg = y - 2 ^ lg := by
      rw [Nat.mod_eq_sub_mod hylow, Nat.mod_eq_of_lt (by omega)]
    omega
  rw [hval] at h64
  have hnext : (DeltaReader.mk (deltaEncode1 x0) 0 0).next =
      some ((if y = 16 then 0 else if 16 < y then (y - 1) % 2 ^ 32 else y % 2 ^ 32), r2) := by
    show (match (DeltaReader.mk (deltaEncode1 x0) 0 0).next64 with
      | some (i, r3) =>
        some (if i = 16 then 0 else if 16 < i then (i - 1) % 2 ^ 32 else i % 2 ^ 32, r3)
      | Option.none => Option.none) = _
    rw [h64]
  have hcase : (if y = 16 then 0 else if 16 < y then (y - 1) % 2 ^ 32 else y % 2 ^ 32) = x0 := by
    rw [h232] at h
    by_cases h0 : x0 = 0
    · have hv : y = 16 := by rw [hy, if_pos h0]
      rw [hv, if_pos rfl, h0]
    · by_cases h16 : 16 ≤ x0
      · have hv : y = x0 + 1 := by rw [hy, if_neg h0, if_pos h16]
        have hne : ¬ y = 16 := by omega
        have hgt : 16 < y := by omega
        rw [if_neg hne, if_pos hgt, hv, show x0 + 1 - 1 = x0 from by omega,
          Nat.mod_eq_of_lt (by rw [h232]; omega)]
      · have hv : y = x0 := by rw [hy, if_neg h0, if_neg h16]
        have hne : ¬ y = 16 := by omega
        have hgt : ¬ 16 < y := by omega
        rw [if_neg hne, if_neg hgt, hv, Nat.mod_eq_of_lt (by rw [h232]; omega)]
  show (match (DeltaReader.mk (deltaEncode1 x0) 0 0).next with
    | some (v, _) => some v
    | Option.none => Option.none) = some x0
  rw [hnext, hcase]

theorem c4_delta_roundtrip_witness :
    12345 < 2 ^ 32 - 1 ∧ deltaDecode1 (deltaEncode1 12345) = some 12345 :=
  ⟨by norm_num, c4_delta_roundtrip 12345 (by norm_num)⟩


theorem write_bitsF_zero :
    ∀ (f n nb : Nat), (write_bitsF f ⟨nb, 0⟩ 0 n).1.b = 0 ∧
      ∀ c ∈ (write_bitsF f ⟨nb, 0⟩ 0 n).2, c = 0 := by
  intro f
  induction f with
  | zero => intro n nb; exact ⟨rfl, by simp [write_bitsF]⟩
  | succ g ih =>
    intro n nb
    by_cases hn0 : n = 0
    · subst hn0
      exact ⟨rfl, by simp [write_bitsF]⟩
    · by_cases hsp : 8 - nb = 0
      · refine ⟨?_, ?_⟩ <;> simp [write_bitsF, hn0, hsp]
      · have hb2 : (0 : Nat) ||| (0 % 2 ^ min n (8 - nb)) <<< nb = 0 := by
          simp
        by_cases hfull : nb + min n (8 - nb) = 8
        · obtain ⟨ihb, iho⟩ := ih (n - min n (8 - nb)) 0
          refine ⟨?_, ?_⟩
          · simp only [write_bitsF, hn0, if_neg hn0, if_neg hsp, hb2, hfull, if_pos hfull]
            have : (0:Nat) >>> min n (8 - nb) = 0 := by simp
            rw [this]
            rcases hw : write_bitsF g ⟨0, 0⟩ 0 (n - min n (8 - nb)) with ⟨st3, o3⟩
            rw [hw] at ihb
            exact ihb
          · intro c hc
            simp only [write_bitsF, hn0, if_neg hn0, if_neg hsp, hb2, hfull, if_pos hfull] at hc
            have hz : (0:Nat) >>> min n (8 - nb) = 0 := by simp
            rw [hz] at hc
            rcases hw : write_bitsF g ⟨0, 0⟩ 0 (n - min n (8 - nb)) with ⟨st3, o3⟩
            rw [hw] at hc iho
            simp at hc
            rcases hc with h | h
            · exact h
            · exact iho c h
        · obtain ⟨ihb, iho⟩ := ih (n - min n (8 - nb)) (nb + min n (8 - nb))
          refine ⟨?_, ?_⟩
          · simp only [write_bitsF, hn0, if_neg hn0, if_neg hsp, hb2, hfull, if_neg hfull]
            have hz : (0:Nat) >>> min n (8 - nb) = 0 := by simp
            rw [hz]
            exact ihb
          · intro c hc
            simp only [write_bitsF, hn0, if_neg hn0, if_neg hsp, hb2, hfull, if_neg hfull] at hc
            have hz : (0:Nat) >>> min n (8 - nb) = 0 := by simp
            rw [hz] at hc
            exact iho c hc

theorem refillLoop_zeros :
    ∀ (D : List Nat) (nb acc : Nat), (∀ c ∈ D, c = 0) →
    refillLoop D nb acc = Option.none := by
  intro D
  induction D with
  | nil => intro nb acc _; rfl
  | cons c rest ih =>
    intro nb acc hz
    have hc : c = 0 := hz c (List.mem_cons_self _ _)
    simp only [refillLoop, hc, if_pos rfl]
    exact ih 8 (acc + nb) (fun e he => hz e (List.mem_cons_of_mem _ he))


theorem encode_mapped_zero (x0 : Nat)
    (hmap : (if x0 = 0 then 16 else if 16 ≤ x0 then (x0 + 1) % 2 ^ 32 else x0) = 0) :
    ∀ c ∈ deltaEncode1 x0, c = 0 := by
  have h1 : wrapSub32 31 (leadingZeros32 0) = 4294967295 := by decide
  have h2 : (4294967295 % 32 : Nat) = 31 := by norm_num
  have h3 : ((4294967295 + 1) % 2 ^ 32 : Nat) = 0 := by norm_num
  have h4 : (0 : Nat) &&& ((1 <<< 31) % 2 ^ 32 - 1) = 0 := Nat.zero_and _
  have hfirst : write_bitsF 0 ⟨0, 0⟩ ((1 <<< 31) % 2 ^ 32) 0 = (⟨0, 0⟩, ([] : List Nat)) := rfl
  obtain ⟨hb0, hout0⟩ := write_bitsF_zero 4294967295 4294967295 0
  rcases hw : write_bitsF 4294967295 ⟨0, 0⟩ 0 4294967295 with ⟨st2, o2⟩
  rw [hw] at hb0 hout0
  have hdw : deltaWrite DeltaWriter.new x0 = (st2, [] ++ o2) := by
    simp only [deltaWrite, hmap, h1, h2, h3, h4, write_bits, DeltaWriter.new, hfirst, hw]
  intro c hc
  have henc : deltaEncode1 x0 = ([] ++ o2) ++ deltaFinish st2 := by
    simp only [deltaEncode1, hdw]
  rw [henc] at hc
  simp only [List.nil_append] at hc
  rcases List.mem_append.mp hc with h | h
  · exact hout0 c h
  · by_cases hf : 0 < st2.nb
    · have hfv : deltaFinish st2 = [st2.b] := by simp [deltaFinish, hf]
      rw [hfv] at h
      have : c = st2.b := by simpa using h
      rw [this, hb0]
    · have hfv : deltaFinish st2 = [] := by simp [deltaFinish, hf]
      rw [hfv] at h
      simp at h

theorem decode_none_of_refill_none (E : List Nat) (hrl : refillLoop E 0 0 = Option.none) :
    deltaDecode1 E = Option.none := by
  have h64 : (DeltaReader.mk E 0 0).next64 = Option.none := by
    show (match refillLoop E 0 0 with
      | Option.none => (Option.none : Option (Nat × DeltaReader))
      | some (b, d, lg0) =>
        match gatherBits (b >>> (trailZ b + 1)) (8 - (trailZ b + 1)) (lg0 + trailZ b)
            (1 <<< (lg0 + trailZ b)) 0 d with
        | Option.none => Option.none
        | some (x, b5, nb5, d5) => some (x, (⟨d5, b5, nb5⟩ : DeltaReader))) = Option.none
    rw [hrl]
  have hnext : (DeltaReader.mk E 0 0).next = Option.none := by
    show (match (DeltaReader.mk E 0 0).next64 with
      | some (i, r3) =>
        some (if i = 16 then 0 else if 16 < i then (i - 1) % 2 ^ 32 else i % 2 ^ 32, r3)
      | Option.none => Option.none) = Option.none
    rw [h64]
  show (match (DeltaReader.mk E 0 0).next with
    | some (v, _) => some v
    | Option.none => Option.none) = Option.none
  rw [hnext]

/-- C4 counterexample: at `x = u32::MAX` the escape increment wraps the
encoded value to 0, `31 - leading_zeros` underflows, and the encoder
emits only zero bytes, so the decoder's refill loop runs off the end of
the data and `next` returns `None` instead of the value. -/
theorem c4_counterexample : deltaDecode1 (deltaEncode1 (2 ^ 32 - 1)) = Option.none := by
  have hall : ∀ c ∈ deltaEncode1 (2 ^ 32 - 1), c = 0 :=
    encode_mapped_zero (2 ^ 32 - 1) (by norm_num)
  generalize hE : deltaEncode1 (2 ^ 32 - 1) = E
  rw [hE] at hall
  have hrl : refillLoop E 0 0 = Option.none := refillLoop_zeros _ 0 0 hall
  exact decode_none_of_refill_none E hrl

theorem chainLex_head :
    ∀ (t : List Str) (a q : Str),
    List.Chain' (fun x y => lexLt x y = true) (a :: t) → q ∈ t → lexLt a q = true := by
  intro t
  induction t with
  | nil => intro a q _ hq; simp at hq
  | cons b t2 ih =>
    intro a q hch hq
    rw [List.chain'_cons] at hch
    rcases List.mem_cons.mp hq with h | h
    · subst h; exact hch.1
    · exact lexLt_trans hch.1 (ih b q hch.2 h)

theorem not_mem_of_lt_sorted {p a : Str} {t : List Str}
    (hlt : lexLt p a = true)
    (hch : List.Chain' (fun x y => lexLt x y = true) (a :: t)) : p ∉ a :: t := by
  intro hmem
  rcases List.mem_cons.mp hmem with h | h
  · subst h
    rw [lexLt_irrefl] at hlt
    exact Bool.false_ne_true hlt
  · have h2 := chainLex_head t a p hch h
    have h3 := lexLt_trans h2 hlt
    rw [lexLt_irrefl] at h3
    exact Bool.false_ne_true h3

theorem head_not_mem_sorted {a : Str} {t : List Str}
    (hch : List.Chain' (fun x y => lexLt x y = true) (a :: t)) : a ∉ t := by
  intro hmem
  have h2 := chainLex_head t a a hch hmem
  rw [lexLt_irrefl] at h2
  exact Bool.false_ne_true h2

theorem mergeNamesGoF_bmap (roots2 : List Str) :
    ∀ (f : Nat) (l1 l2 : List Str) (cnt : Nat), l1.length + l2.length ≤ f →
    ∀ (i : Nat) (p : Str), l2.get? i = some p →
    ∃ j : Nat, (mergeNamesGoF roots2 f cnt l1 l2).2.2.get? i = some ((cnt + j : Nat) : Int) ∧
      (mergeNamesGoF roots2 f cnt l1 l2).1.get? j = some p := by
  intro f
  induction f with
  | zero =>
    intro l1 l2 cnt hf i p hp
    have h1 : l2 = [] := by
      cases l2 with
      | nil => rfl
      | cons a b => simp at hf
    subst h1
    simp at hp
  | succ g ih =>
    intro l1 l2 cnt hf i p hp
    cases l1 with
    | nil =>
      cases l2 with
      | nil => simp at hp
      | cons n2 t2 =>
        rcases hrec : mergeNamesGoF roots2 g (cnt + 1) [] t2 with ⟨m, ma, mb⟩
        simp only [mergeNamesGoF, hrec]
        cases i with
        | zero =>
          have hpn : p = n2 := (by simpa using hp : n2 = p).symm
          exact ⟨0, by simp, by simp [hpn]⟩
        | succ i2 =>
          have hp2 : t2.get? i2 = some p := by simpa using hp
          obtain ⟨j, hj1, hj2⟩ := ih [] t2 (cnt + 1) (by simp at hf ⊢; omega) i2 p hp2
          rw [hrec] at hj1 hj2
          refine ⟨j + 1, ?_, ?_⟩
          · simpa [show cnt + (j + 1) = cnt + 1 + j from by omega] using hj1
          · simpa using hj2
    | cons n1 t1 =>
      cases l2 with
      | nil => simp at hp
      | cons n2 t2 =>
        rcases hc : strCmp n1 n2 with _ | _ | _
        · -- lt : take 1
          by_cases hsh : is_shadowed n1 roots2 = true
          · rcases hrec : mergeNamesGoF roots2 g cnt t1 (n2 :: t2) with ⟨m, ma, mb⟩
            simp only [mergeNamesGoF, hc, hsh, if_pos hsh, hrec]
            obtain ⟨j, hj1, hj2⟩ := ih t1 (n2 :: t2) cnt (by simp at hf ⊢; omega) i p hp
            rw [hrec] at hj1 hj2
            exact ⟨j, hj1, hj2⟩
          · rcases hrec : mergeNamesGoF roots2 g (cnt + 1) t1 (n2 :: t2) with ⟨m, ma, mb⟩
            simp only [mergeNamesGoF, hc, hsh, if_neg hsh, hrec]
            obtain ⟨j, hj1, hj2⟩ := ih t1 (n2 :: t2) (cnt + 1) (by simp at hf ⊢; omega) i p hp
            rw [hrec] at hj1 hj2
            refine ⟨j + 1, ?_, ?_⟩
            · simpa [show cnt + (j + 1) = cnt + 1 + j from by omega] using hj1
            · simpa using hj2
        · -- eq : take 2, skip 1
          rcases hrec : mergeNamesGoF roots2 g (cnt + 1) t1 t2 with ⟨m, ma, mb⟩
          simp only [mergeNamesGoF, hc, hrec]
          cases i with
          | zero =>
            have hpn : p = n2 := (by simpa using hp : n2 = p).symm
            exact ⟨0, by simp, by simp [hpn]⟩
          | succ i2 =>
            have hp2 : t2.get? i2 = some p := by simpa using hp
            obtain ⟨j, hj1, hj2⟩ := ih t1 t2 (cnt + 1) (by simp at hf ⊢; omega) i2 p hp2
            rw [hrec] at hj1 hj2
            refine ⟨j + 1, ?_, ?_⟩
            · simpa [show cnt + (j + 1) = cnt + 1 + j from by omega] using hj1
            · simpa using hj2
        · -- gt : take 2
          rcases hrec : mergeNamesGoF roots2 g (cnt + 1) (n1 :: t1) t2 with ⟨m, ma, mb⟩
          simp only [mergeNamesGoF, hc, hrec]
          cases i with
          | zero =>
            have hpn : p = n2 := (by simpa using hp : n2 = p).symm
            exact ⟨0, by simp, by simp [hpn]⟩
          | succ i2 =>
            have hp2 : t2.get? i2 = some p := by simpa using hp
            obtain ⟨j, hj1, hj2⟩ := ih (n1 :: t1) t2 (cnt + 1) (by simp at hf ⊢; omega) i2 p hp2
            rw [hrec] at hj1 hj2
            refine ⟨j + 1, ?_, ?_⟩
            · simpa [show cnt + (j + 1) = cnt + 1 + j from by omega] using hj1
            · simpa using hj2
theorem mergeNamesGoF_mem (roots2 : List Str) :
    ∀ (f : Nat) (l1 l2 : List Str) (cnt : Nat), l1.length + l2.length ≤ f →
    List.Chain' (fun x y => lexLt x y = true) l1 →
    List.Chain' (fun x y => lexLt x y = true) l2 →
    ∀ p, p ∈ (mergeNamesGoF roots2 f cnt l1 l2).1 ↔
      (p ∈ l2 ∨ (p ∈ l1 ∧ is_shadowed p roots2 = false)) := by
  intro f
  induction f with
  | zero =>
    intro l1 l2 cnt hf h1 h2 p
    have e1 : l1 = [] := by cases l1 with | nil => rfl | cons a b => simp at hf
    subst e1
    have e2 : l2 = [] := by cases l2 with | nil => rfl | cons a b => simp at hf
    subst e2
    simp [mergeNamesGoF]
  | succ g ih =>
    intro l1 l2 cnt hf hch1 hch2 p
    cases l1 with
    | nil =>
      cases l2 with
      | nil => simp [mergeNamesGoF]
      | cons n2 t2 =>
        rcases hrec : mergeNamesGoF roots2 g (cnt + 1) [] t2 with ⟨m, ma, mb⟩
        have hstep : mergeNamesGoF roots2 (g + 1) cnt [] (n2 :: t2) =
            (n2 :: m, ma, (cnt : Int) :: mb) := by
          simp [mergeNamesGoF, hrec]
        rw [hstep]
        have ihm := ih [] t2 (cnt + 1) (by simp at hf ⊢; omega) (by simp)
          (List.Chain'.tail hch2) p
        rw [hrec] at ihm
        show p ∈ n2 :: m ↔ _
        simp only [List.mem_cons, List.not_mem_nil, false_and, or_false] at ihm ⊢
        rw [ihm]
    | cons n1 t1 =>
      have hch1t : List.Chain' (fun x y => lexLt x y = true) t1 := List.Chain'.tail hch1
      cases l2 with
      | nil =>
        rcases hsh : is_shadowed n1 roots2 with _ | _
        · rcases hrec : mergeNamesGoF roots2 g (cnt + 1) t1 [] with ⟨m, ma, mb⟩
          have hstep : mergeNamesGoF roots2 (g + 1) cnt (n1 :: t1) [] =
              (n1 :: m, (cnt : Int) :: ma, mb) := by
            simp [mergeNamesGoF, hsh, hrec]
          rw [hstep]
          have ihm := ih t1 [] (cnt + 1) (by simp at hf ⊢; omega) hch1t (by simp) p
          rw [hrec] at ihm
          show p ∈ n1 :: m ↔ _
          simp only [List.not_mem_nil, false_or, List.mem_cons] at ihm ⊢
          constructor
          · intro h
            rcases h with h | h
            · exact ⟨Or.inl h, h ▸ hsh⟩
            · have h2 := ihm.mp h
              exact ⟨Or.inr h2.1, h2.2⟩
          · intro ⟨ha, hb⟩
            rcases ha with h | h
            · exact Or.inl h
            · exact Or.inr (ihm.mpr ⟨h, hb⟩)
        · rcases hrec : mergeNamesGoF roots2 g cnt t1 [] with ⟨m, ma, mb⟩
          have hstep : mergeNamesGoF roots2 (g + 1) cnt (n1 :: t1) [] =
              (m, -1 :: ma, mb) := by
            simp [mergeNamesGoF, hsh, hrec]
          rw [hstep]
          have ihm := ih t1 [] cnt (by simp at hf ⊢; omega) hch1t (by simp) p
          rw [hrec] at ihm
          show p ∈ m ↔ _
          simp only [List.not_mem_nil, false_or, List.mem_cons] at ihm ⊢
          rw [ihm]
          constructor
          · intro ⟨ha, hb⟩; exact ⟨Or.inr ha, hb⟩
          · intro ⟨ha, hb⟩
            rcases ha with h | h
            · subst h; rw [hsh] at hb; exact absurd hb (by simp)
            · exact ⟨h, hb⟩
      | cons n2 t2 =>
        have hch2t : List.Chain' (fun x y => lexLt x y = true) t2 := List.Chain'.tail hch2
        rcases hc : strCmp n1 n2 with _ | _ | _
        · -- lt : take 1
          rcases hsh : is_shadowed n1 roots2 with _ | _
          · rcases hrec : mergeNamesGoF roots2 g (cnt + 1) t1 (n2 :: t2) with ⟨m, ma, mb⟩
            have hstep : mergeNamesGoF roots2 (g + 1) cnt (n1 :: t1) (n2 :: t2) =
                (n1 :: m, (cnt : Int) :: ma, mb) := by
              simp [mergeNamesGoF, hc, hsh, hrec]
            rw [hstep]
            have ihm := ih t1 (n2 :: t2) (cnt + 1) (by simp at hf ⊢; omega) hch1t hch2 p
            rw [hrec] at ihm
            show p ∈ n1 :: m ↔ _
            simp only [List.mem_cons] at ihm ⊢
            constructor
            · intro h
              rcases h with h | h
              · exact Or.inr ⟨Or.inl h, h ▸ hsh⟩
              · rcases ihm.mp h with h2 | ⟨ha, hb⟩
                · exact Or.inl h2
                · exact Or.inr ⟨Or.inr ha, hb⟩
            · intro h
              rcases h with h | ⟨ha, hb⟩
              · exact Or.inr (ihm.mpr (Or.inl h))
              · rcases ha with h2 | h2
                · exact Or.inl h2
                · exact Or.inr (ihm.mpr (Or.inr ⟨h2, hb⟩))
          · rcases hrec : mergeNamesGoF roots2 g cnt t1 (n2 :: t2) with ⟨m, ma, mb⟩
            have hstep : mergeNamesGoF roots2 (g + 1) cnt (n1 :: t1) (n2 :: t2) =
                (m, -1 :: ma, mb) := by
              simp [mergeNamesGoF, hc, hsh, hrec]
            rw [hstep]
            have ihm := ih t1 (n2 :: t2) cnt (by simp at hf ⊢; omega) hch1t hch2 p
            rw [hrec] at ihm
            show p ∈ m ↔ _
            rw [ihm]
            simp only [List.mem_cons]
            constructor
            · intro h
              rcases h with h | ⟨ha, hb⟩
              · exact Or.inl h
              · exact Or.inr ⟨Or.inr ha, hb⟩
            · intro h
              rcases h with h | ⟨ha, hb⟩
              · exact Or.inl h
              · rcases ha with h2 | h2
                · subst h2; rw [hsh] at hb; exact absurd hb (by simp)
                · exact Or.inr ⟨h2, hb⟩
        · -- eq
          have heq : n1 = n2 := (strCmp_eq_iff n1 n2).mp hc
          rcases hrec : mergeNamesGoF roots2 g (cnt + 1) t1 t2 with ⟨m, ma, mb⟩
          have hstep : mergeNamesGoF roots2 (g + 1) cnt (n1 :: t1) (n2 :: t2) =
              (n2 :: m, -1 :: ma, (cnt : Int) :: mb) := by
            simp [mergeNamesGoF, hc, hrec]
          rw [hstep]
          have ihm := ih t1 t2 (cnt + 1) (by simp at hf ⊢; omega) hch1t hch2t p
          rw [hrec] at ihm
          show p ∈ n2 :: m ↔ _
          simp only [List.mem_cons] at ihm ⊢
          constructor
          · intro h
            rcases h with h | h
            · exact Or.inl (Or.inl h)
            · rcases ihm.mp h with h2 | ⟨ha, hb⟩
              · exact Or.inl (Or.inr h2)
              · exact Or.inr ⟨Or.inr ha, hb⟩
          · intro h
            rcases h with (h | h) | ⟨ha, hb⟩
            · exact Or.inl h
            · exact Or.inr (ihm.mpr (Or.inl h))
            · rcases ha with h2 | h2
              · exact Or.inl (h2.trans heq)
              · exact Or.inr (ihm.mpr (Or.inr ⟨h2, hb⟩))
        · -- gt : take 2
          rcases hrec : mergeNamesGoF roots2 g (cnt + 1) (n1 :: t1) t2 with ⟨m, ma, mb⟩
          have hstep : mergeNamesGoF roots2 (g + 1) cnt (n1 :: t1) (n2 :: t2) =
              (n2 :: m, ma, (cnt : Int) :: mb) := by
            simp [mergeNamesGoF, hc, hrec]
          rw [hstep]
          have ihm := ih (n1 :: t1) t2 (cnt + 1) (by simp at hf ⊢; omega) hch1 hch2t p
          rw [hrec] at ihm
          show p ∈ n2 :: m ↔ _
          simp only [List.mem_cons] at ihm ⊢
          constructor
          · intro h
            rcases h with h | h
            · exact Or.inl (Or.inl h)
            · rcases ihm.mp h with h2 | hab
              · exact Or.inl (Or.inr h2)
              · exact Or.inr hab
          · intro h
            rcases h with (h | h) | hab
            · exact Or.inl h
            · exact Or.inr (ihm.mpr (Or.inl h))
            · exact Or.inr (ihm.mpr (Or.inr hab))
theorem mergeNamesGoF_chain (roots2 : List Str) :
    ∀ (f : Nat) (l1 l2 : List Str) (cnt : Nat), l1.length + l2.length ≤ f →
    List.Chain' (fun x y => lexLt x y = true) l1 →
    List.Chain' (fun x y => lexLt x y = true) l2 →
    List.Chain' (fun x y => lexLt x y = true) (mergeNamesGoF roots2 f cnt l1 l2).1 := by
  intro f
  induction f with
  | zero => intro l1 l2 cnt _ _ _; simp [mergeNamesGoF]
  | succ g ih =>
    intro l1 l2 cnt hf hch1 hch2
    cases l1 with
    | nil =>
      cases l2 with
      | nil => simp [mergeNamesGoF]
      | cons n2 t2 =>
        rcases hrec : mergeNamesGoF roots2 g (cnt + 1) [] t2 with ⟨m, ma, mb⟩
        have hstep : mergeNamesGoF roots2 (g + 1) cnt [] (n2 :: t2) =
            (n2 :: m, ma, (cnt : Int) :: mb) := by
          simp [mergeNamesGoF, hrec]
        rw [hstep]
        show List.Chain' _ (n2 :: m)
        rw [List.chain'_cons']
        have hfg : t2.length ≤ g := by simp at hf ⊢; omega
        have hcht := List.Chain'.tail hch2
        refine ⟨?_, ?_⟩
        · intro y hy
          have hym : y ∈ m := List.mem_of_mem_head? hy
          have hmem := mergeNamesGoF_mem roots2 g [] t2 (cnt + 1) (by simpa using hfg)
            (by simp) hcht y
          rw [hrec] at hmem
          rcases hmem.mp hym with h | ⟨h, _⟩
          · exact chainLex_head t2 n2 y hch2 h
          · simp at h
        · have := ih [] t2 (cnt + 1) (by simpa using hfg) (by simp) hcht
          rw [hrec] at this
          exact this
    | cons n1 t1 =>
      have hch1t : List.Chain' (fun x y => lexLt x y = true) t1 := List.Chain'.tail hch1
      cases l2 with
      | nil =>
        rcases hsh : is_shadowed n1 roots2 with _ | _
        · rcases hrec : mergeNamesGoF roots2 g (cnt + 1) t1 [] with ⟨m, ma, mb⟩
          have hstep : mergeNamesGoF roots2 (g + 1) cnt (n1 :: t1) [] =
              (n1 :: m, (cnt : Int) :: ma, mb) := by
            simp [mergeNamesGoF, hsh, hrec]
          rw [hstep]
          show List.Chain' _ (n1 :: m)
          rw [List.chain'_cons']
          have hfg : t1.length ≤ g := by simp at hf ⊢; omega
          refine ⟨?_, ?_⟩
          · intro y hy
            have hym : y ∈ m := List.mem_of_mem_head? hy
            have hmem := mergeNamesGoF_mem roots2 g t1 [] (cnt + 1) (by simpa using hfg)
              hch1t (by simp) y
            rw [hrec] at hmem
            rcases hmem.mp hym with h | ⟨h, _⟩
            · simp at h
            · exact chainLex_head t1 n1 y hch1 h
          · have := ih t1 [] (cnt + 1) (by simpa using hfg) hch1t (by simp)
            rw [hrec] at this
            exact this
        · rcases hrec : mergeNamesGoF roots2 g cnt t1 [] with ⟨m, ma, mb⟩
          have hstep : mergeNamesGoF roots2 (g + 1) cnt (n1 :: t1) [] =
              (m, -1 :: ma, mb) := by
            simp [mergeNamesGoF, hsh, hrec]
          rw [hstep]
          have hfg : t1.length ≤ g := by simp at hf ⊢; omega
          have := ih t1 [] cnt (by simpa using hfg) hch1t (by simp)
          rw [hrec] at this
          exact this
      | cons n2 t2 =>
        have hch2t : List.Chain' (fun x y => lexLt x y = true) t2 := List.Chain'.tail hch2
        rcases hc : strCmp n1 n2 with _ | _ | _
        · have hlt : lexLt n1 n2 = true := (strCmp_lt_iff n1 n2).mp hc
          rcases hsh : is_shadowed n1 roots2 with _ | _
          · rcases hrec : mergeNamesGoF roots2 g (cnt + 1) t1 (n2 :: t2) with ⟨m, ma, mb⟩
            have hstep : mergeNamesGoF roots2 (g + 1) cnt (n1 :: t1) (n2 :: t2) =
                (n1 :: m, (cnt : Int) :: ma, mb) := by
              simp [mergeNamesGoF, hc, hsh, hrec]
            rw [hstep]
            show List.Chain' _ (n1 :: m)
            rw [List.chain'_cons']
            have hfg : t1.length + (n2 :: t2).length ≤ g := by simp at hf ⊢; omega
            refine ⟨?_, ?_⟩
            · intro y hy
              have hym : y ∈ m := List.mem_of_mem_head? hy
              have hmem := mergeNamesGoF_mem roots2 g t1 (n2 :: t2) (cnt + 1) hfg
                hch1t hch2 y
              rw [hrec] at hmem
              rcases hmem.mp hym with h | ⟨h, _⟩
              · rcases List.mem_cons.mp h with h2 | h2
                · exact h2 ▸ hlt
                · exact lexLt_trans hlt (chainLex_head t2 n2 y hch2 h2)
              · exact chainLex_head t1 n1 y hch1 h
            · have := ih t1 (n2 :: t2) (cnt + 1) hfg hch1t hch2
              rw [hrec] at this
              exact this
          · rcases hrec : mergeNamesGoF roots2 g cnt t1 (n2 :: t2) with ⟨m, ma, mb⟩
            have hstep : mergeNamesGoF roots2 (g + 1) cnt (n1 :: t1) (n2 :: t2) =
                (m, -1 :: ma, mb) := by
              simp [mergeNamesGoF, hc, hsh, hrec]
            rw [hstep]
            have hfg : t1.length + (n2 :: t2).length ≤ g := by simp at hf ⊢; omega
            have := ih t1 (n2 :: t2) cnt hfg hch1t hch2
            rw [hrec] at this
            exact this
        · have heq : n1 = n2 := (strCmp_eq_iff n1 n2).mp hc
          rcases hrec : mergeNamesGoF roots2 g (cnt + 1) t1 t2 with ⟨m, ma, mb⟩
          have hstep : mergeNamesGoF roots2 (g + 1) cnt (n1 :: t1) (n2 :: t2) =
              (n2 :: m, -1 :: ma, (cnt : Int) :: mb) := by
            simp [mergeNamesGoF, hc, hrec]
          rw [hstep]
          show List.Chain' _ (n2 :: m)
          rw [List.chain'_cons']
          have hfg : t1.length + t2.length ≤ g := by simp at hf ⊢; omega
          refine ⟨?_, ?_⟩
          · intro y hy
            have hym : y ∈ m := List.mem_of_mem_head? hy
            have hmem := mergeNamesGoF_mem roots2 g t1 t2 (cnt + 1) hfg hch1t hch2t y
            rw [hrec] at hmem
            rcases hmem.mp hym with h | ⟨h, _⟩
            · exact chainLex_head t2 n2 y hch2 h
            · exact heq ▸ chainLex_head t1 n1 y hch1 h
          · have := ih t1 t2 (cnt + 1) hfg hch1t hch2t
            rw [hrec] at this
            exact this
        · have hlt : lexLt n2 n1 = true := (strCmp_gt_iff n1 n2).mp hc
          rcases hrec : mergeNamesGoF roots2 g (cnt + 1) (n1 :: t1) t2 with ⟨m, ma, mb⟩
          have hstep : mergeNamesGoF roots2 (g + 1) cnt (n1 :: t1) (n2 :: t2) =
              (n2 :: m, ma, (cnt : Int) :: mb) := by
            simp [mergeNamesGoF, hc, hrec]
          rw [hstep]
          show List.Chain' _ (n2 :: m)
          rw [List.chain'_cons']
          have hfg : (n1 :: t1).length + t2.length ≤ g := by simp at hf ⊢; omega
          refine ⟨?_, ?_⟩
          · intro y hy
            have hym : y ∈ m := List.mem_of_mem_head? hy
            have hmem := mergeNamesGoF_mem roots2 g (n1 :: t1) t2 (cnt + 1) hfg hch1 hch2t y
            rw [hrec] at hmem
            rcases hmem.mp hym with h | ⟨h, _⟩
            · exact chainLex_head t2 n2 y hch2 h
            · rcases List.mem_cons.mp h with h2 | h2
              · exact h2 ▸ hlt
              · exact lexLt_trans hlt (chainLex_head t1 n1 y hch1 h2)
          · have := ih (n1 :: t1) t2 (cnt + 1) hfg hch1 hch2t
            rw [hrec] at this
            exact this
theorem mergeNamesGoF_amap (roots2 : List Str) :
    ∀ (f : Nat) (l1 l2 : List Str) (cnt : Nat), l1.length + l2.length ≤ f →
    List.Chain' (fun x y => lexLt x y = true) l1 →
    List.Chain' (fun x y => lexLt x y = true) l2 →
    ∀ (i : Nat) (p : Str), l1.get? i = some p →
    ((mergeNamesGoF roots2 f cnt l1 l2).2.1.get? i = some (-1) ↔
      (p ∈ l2 ∨ is_shadowed p roots2 = true)) := by
  intro f
  induction f with
  | zero =>
    intro l1 l2 cnt hf _ _ i p hp
    have e1 : l1 = [] := by cases l1 with | nil => rfl | cons a b => simp at hf
    subst e1
    simp at hp
  | succ g ih =>
    intro l1 l2 cnt hf hch1 hch2 i p hp
    cases l1 with
    | nil => simp at hp
    | cons n1 t1 =>
      have hch1t : List.Chain' (fun x y => lexLt x y = true) t1 := List.Chain'.tail hch1
      have hmemp : p = n1 ∨ p ∈ t1 := by
        have := List.get?_mem hp
        exact List.mem_cons.mp this
      cases l2 with
      | nil =>
        rcases hsh : is_shadowed n1 roots2 with _ | _
        · rcases hrec : mergeNamesGoF roots2 g (cnt + 1) t1 [] with ⟨m, ma, mb⟩
          have hstep : mergeNamesGoF roots2 (g + 1) cnt (n1 :: t1) [] =
              (n1 :: m, (cnt : Int) :: ma, mb) := by
            simp [mergeNamesGoF, hsh, hrec]
          rw [hstep]
          cases i with
          | zero =>
            have hpn : p = n1 := (by simpa using hp : n1 = p).symm
            show some (cnt : Int) = some (-1) ↔ _
            simp only [List.not_mem_nil, false_or, hpn, hsh]
            constructor
            · intro h
              have := Option.some.inj h
              omega
            · intro h; exact absurd h (by simp)
          | succ i2 =>
            have hp2 : t1.get? i2 = some p := by simpa using hp
            have hfg : t1.length ≤ g := by simp at hf ⊢; omega
            have := ih t1 [] (cnt + 1) (by simpa using hfg) hch1t (by simp) i2 p hp2
            rw [hrec] at this
            simpa using this
        · rcases hrec : mergeNamesGoF roots2 g cnt t1 [] with ⟨m, ma, mb⟩
          have hstep : mergeNamesGoF roots2 (g + 1) cnt (n1 :: t1) [] =
              (m, -1 :: ma, mb) := by
            simp [mergeNamesGoF, hsh, hrec]
          rw [hstep]
          cases i with
          | zero =>
            have hpn : p = n1 := (by simpa using hp : n1 = p).symm
            show some (-1 : Int) = some (-1) ↔ _
            simp [hpn, hsh]
          | succ i2 =>
            have hp2 : t1.get? i2 = some p := by simpa using hp
            have hfg : t1.length ≤ g := by simp at hf ⊢; omega
            have := ih t1 [] cnt (by simpa using hfg) hch1t (by simp) i2 p hp2
            rw [hrec] at this
            simpa using this
      | cons n2 t2 =>
        have hch2t : List.Chain' (fun x y => lexLt x y = true) t2 := List.Chain'.tail hch2
        rcases hc : strCmp n1 n2 with _ | _ | _
        · have hlt : lexLt n1 n2 = true := (strCmp_lt_iff n1 n2).mp hc
          rcases hsh : is_shadowed n1 roots2 with _ | _
          · rcases hrec : mergeNamesGoF roots2 g (cnt + 1) t1 (n2 :: t2) with ⟨m, ma, mb⟩
            have hstep : mergeNamesGoF roots2 (g + 1) cnt (n1 :: t1) (n2 :: t2) =
                (n1 :: m, (cnt : Int) :: ma, mb) := by
              simp [mergeNamesGoF, hc, hsh, hrec]
            rw [hstep]
            cases i with
            | zero =>
              have hpn : p = n1 := (by simpa using hp : n1 = p).symm
              show some (cnt : Int) = some (-1) ↔ _
              have hnin : p ∉ n2 :: t2 := hpn ▸ not_mem_of_lt_sorted hlt hch2
              simp only [hpn, hsh]
              constructor
              · intro h
                have := Option.some.inj h
                omega
              · intro h
                rcases h with h | h
                · exact absurd h (hpn ▸ hnin)
                · exact absurd h (by simp)
            | succ i2 =>
              have hp2 : t1.get? i2 = some p := by simpa using hp
              have hfg : t1.length + (n2 :: t2).length ≤ g := by simp at hf ⊢; omega
              have := ih t1 (n2 :: t2) (cnt + 1) hfg hch1t hch2 i2 p hp2
              rw [hrec] at this
              simpa using this
          · rcases hrec : mergeNamesGoF roots2 g cnt t1 (n2 :: t2) with ⟨m, ma, mb⟩
            have hstep : mergeNamesGoF roots2 (g + 1) cnt (n1 :: t1) (n2 :: t2) =
                (m, -1 :: ma, mb) := by
              simp [mergeNamesGoF, hc, hsh, hrec]
            rw [hstep]
            cases i with
            | zero =>
              have hpn : p = n1 := (by simpa using hp : n1 = p).symm
              show some (-1 : Int) = some (-1) ↔ _
              simp [hpn, hsh]
            | succ i2 =>
              have hp2 : t1.get? i2 = some p := by simpa using hp
              have hfg : t1.length + (n2 :: t2).length ≤ g := by simp at hf ⊢; omega
              have := ih t1 (n2 :: t2) cnt hfg hch1t hch2 i2 p hp2
              rw [hrec] at this
              simpa using this
        · have heq : n1 = n2 := (strCmp_eq_iff n1 n2).mp hc
          rcases hrec : mergeNamesGoF roots2 g (cnt + 1) t1 t2 with ⟨m, ma, mb⟩
          have hstep : mergeNamesGoF roots2 (g + 1) cnt (n1 :: t1) (n2 :: t2) =
              (n2 :: m, -1 :: ma, (cnt : Int) :: mb) := by
            simp [mergeNamesGoF, hc, hrec]
          rw [hstep]
          cases i with
          | zero =>
            have hpn : p = n1 := (by simpa using hp : n1 = p).symm
            show some (-1 : Int) = some (-1) ↔ _
            simp [hpn, heq]
          | succ i2 =>
            have hp2 : t1.get? i2 = some p := by simpa using hp
            have hfg : t1.length + t2.length ≤ g := by simp at hf ⊢; omega
            have hpt1 : p ∈ t1 := List.get?_mem hp2
            have hpne : ¬ p = n2 := by
              intro h
              have h2 := chainLex_head t1 n1 p hch1 hpt1
              rw [h, ← heq, lexLt_irrefl] at h2
              exact Bool.false_ne_true h2
            have := ih t1 t2 (cnt + 1) hfg hch1t hch2t i2 p hp2
            rw [hrec] at this
            show ma.get? i2 = some (-1) ↔ _
            rw [this]
            simp only [List.mem_cons]
            constructor
            · intro h
              rcases h with h | h
              · exact Or.inl (Or.inr h)
              · exact Or.inr h
            · intro h
              rcases h with (h | h) | h
              · exact absurd h hpne
              · exact Or.inl h
              · exact Or.inr h
        · have hlt : lexLt n2 n1 = true := (strCmp_gt_iff n1 n2).mp hc
          rcases hrec : mergeNamesGoF roots2 g (cnt + 1) (n1 :: t1) t2 with ⟨m, ma, mb⟩
          have hstep : mergeNamesGoF roots2 (g + 1) cnt (n1 :: t1) (n2 :: t2) =
              (n2 :: m, ma, (cnt : Int) :: mb) := by
            simp [mergeNamesGoF, hc, hrec]
          rw [hstep]
          have hfg : (n1 :: t1).length + t2.length ≤ g := by simp at hf ⊢; omega
          have hpne : ¬ p = n2 := by
            intro h
            rcases hmemp with h2 | h2
            · rw [h2] at h
              rw [← h, lexLt_irrefl] at hlt
              exact Bool.false_ne_true hlt
            · have h3 := chainLex_head t1 n1 p hch1 h2
              have h4 := lexLt_trans hlt h3
              rw [← h, lexLt_irrefl] at h4
              exact Bool.false_ne_true h4
          have := ih (n1 :: t1) t2 (cnt + 1) hfg hch1 hch2t i p hp
          rw [hrec] at this
          show ma.get? i = some (-1) ↔ _
          rw [this]
          simp only [List.mem_cons]
          constructor
          · intro h
            rcases h with h | h
            · exact Or.inl (Or.inr h)
            · exact Or.inr h
          · intro h
            rcases h with (h | h) | h
            · exact absurd h hpne
            · exact Or.inl h
            · exact Or.inr h
/-- C5: in `merge` (merge.rs), under strictly sorted input name
tables, a path occurring in both indexes yields exactly one merged
entry, taken from B (its B id maps to the new id, its A id maps to
−1), and every A name prefixed by a B root maps to −1 and contributes
no A entry to the merged table. -/
theorem c5_merge_equal_prefers_b (roots2 A B : List Str)
    (hA : List.Chain' (fun x y => lexLt x y = true) A)
    (hB : List.Chain' (fun x y => lexLt x y = true) B) :
    MergedNamesSpec roots2 A B := by
  refine ⟨?_, ?_, ?_, ?_⟩
  · exact fun p => mergeNamesGoF_mem roots2 _ A B 0 (le_refl _) hA hB p
  · exact mergeNamesGoF_chain roots2 _ A B 0 (le_refl _) hA hB
  · exact fun i p hp => mergeNamesGoF_amap roots2 _ A B 0 (le_refl _) hA hB i p hp
  · intro i p hp
    obtain ⟨j, h1, h2⟩ := mergeNamesGoF_bmap roots2 _ A B 0 (le_refl _) i p hp
    exact ⟨j, by simpa using h1, h2⟩

theorem c5_merge_equal_prefers_b_witness :
    (List.Chain' (fun x y => lexLt x y = true) [[97], [98, 97], [99]] ∧
     List.Chain' (fun x y => lexLt x y = true) [[98, 97], [98, 98]]) ∧
    MergedNamesSpec [[98]] [[97], [98, 97], [99]] [[98, 97], [98, 98]] := by
  have hA : List.Chain' (fun x y => lexLt x y = true) [[97], [98, 97], [99]] := by
    simp only [List.chain'_cons, List.chain'_singleton]
    decide
  have hB : List.Chain' (fun x y => lexLt x y = true) [[98, 97], [98, 98]] := by
    simp only [List.chain'_cons, List.chain'_singleton]
    decide
  exact ⟨⟨hA, hB⟩, c5_merge_equal_prefers_b [[98]] _ _ hA hB⟩

theorem writeUvarintF_length_pos : ∀ (f v : Nat), 1 ≤ (writeUvarintF f v).length := by
  intro f v
  cases f with
  | zero => simp [writeUvarintF]
  | succ g =>
    by_cases h : v < 128
    · simp [writeUvarintF, h]
    · simp [writeUvarintF, h]

theorem writeUvarintF_length_le : ∀ (k f v : Nat), v < 2 ^ (7 * k) → v ≤ f →
    (writeUvarintF f v).length ≤ k + 1 := by
  intro k
  induction k with
  | zero =>
    intro f v hv _
    have : v = 0 := by simpa using hv
    subst this
    cases f with
    | zero => simp [writeUvarintF]
    | succ g => simp [writeUvarintF]
  | succ j ih =>
    intro f v hv hf
    cases f with
    | zero =>
      have : v = 0 := by omega
      subst this
      simp [writeUvarintF]
    | succ g =>
      by_cases h : v < 128
      · simp [writeUvarintF, h]
      · have hrl : (writeUvarintF (g + 1) v).length = (writeUvarintF g (v / 128)).length + 1 := by
          simp [writeUvarintF, h]
        rw [hrl]
        have h1 : v / 128 < 2 ^ (7 * j) := by
          have h2 : v < 2 ^ (7 * j) * 128 := by
            have : (2:Nat) ^ (7 * (j + 1)) = 2 ^ (7 * j) * 128 := by
              rw [show 7 * (j + 1) = 7 * j + 7 from by ring, pow_add]
              norm_num
            omega
          omega
        have h2 : v / 128 ≤ g := by omega
        have := ih g (v / 128) h1 h2
        omega

theorem readUvarintGo_spec :
    ∀ (f v : Nat), v ≤ f → ∀ (suffix : List Nat) (i x s : Nat),
    s = 7 * i → x < 2 ^ s → x + 2 ^ s * v < 2 ^ 64 → i ≤ 9 → (i = 9 → v ≤ 1) →
    readUvarintGo (writeUvarintF f v ++ suffix) i x s =
      (x + 2 ^ s * v, i + (writeUvarintF f v).length) := by
  intro f
  induction f with
  | zero =>
    intro v hv suffix i x s hs hx hlt hi h9
    have hv0 : v = 0 := by omega
    subst hv0
    show readUvarintGo (0 :: suffix) i x s = _
    simp only [readUvarintGo]
    have hg : ¬ (9 < i ∨ (i = 9 ∧ 1 < 0)) := by omega
    rw [if_pos (by omega : (0:Nat) < 128), if_neg hg]
    have hz : (0:Nat) <<< s = 0 := Nat.zero_shiftLeft s
    rw [hz]
    have hxor : x ||| 0 = x := by simp
    rw [hxor, Nat.mod_eq_of_lt (by omega : x < 2 ^ 64)]
    show (x, i + 1) = _
    simp [writeUvarintF]
  | succ g ih =>
    intro v hv suffix i x s hs hx hlt hi h9
    by_cases h : v < 128
    · have hwv : writeUvarintF (g + 1) v = [v] := by simp [writeUvarintF, h]
      rw [hwv]
      show readUvarintGo (v :: suffix) i x s = (x + 2 ^ s * v, i + [v].length)
      simp only [readUvarintGo]
      have hg : ¬ (9 < i ∨ (i = 9 ∧ 1 < v)) := by
        rcases Nat.lt_or_ge i 9 with h2 | h2
        · omega
        · have : i = 9 := by omega
          have := h9 this
          omega
      rw [if_pos h, if_neg hg]
      have hor : x ||| v <<< s = x + 2 ^ s * v := lor_low x s v hx
      rw [hor, Nat.mod_eq_of_lt hlt]
      rfl
    · have henc : writeUvarintF (g + 1) v = (v % 128 + 128) :: writeUvarintF g (v / 128) := by
        simp [writeUvarintF, h]
      rw [henc]
      show readUvarintGo ((v % 128 + 128) :: (writeUvarintF g (v / 128) ++ suffix)) i x s = _
      simp only [readUvarintGo]
      have hb : ¬ (v % 128 + 128 < 128) := by omega
      rw [if_neg hb]
      have hmask : (v % 128 + 128) &&& 127 = v % 128 := by
        have h127 : (127 : Nat) = 2 ^ 7 - 1 := by norm_num
        rw [h127, Nat.and_pow_two_sub_one_eq_mod]
        omega
      rw [hmask]
      have hor : x ||| (v % 128) <<< s = x + 2 ^ s * (v % 128) := lor_low x s (v % 128) hx
      rw [hor]
      have hx2le : x + 2 ^ s * (v % 128) ≤ x + 2 ^ s * v :=
        Nat.add_le_add_left (Nat.mul_le_mul_left _ (Nat.mod_le v 128)) x
      rw [Nat.mod_eq_of_lt (by omega : x + 2 ^ s * (v % 128) < 2 ^ 64)]
      have hp : (2:Nat) ^ (s + 7) = 2 ^ s * 128 := by rw [pow_add]; norm_num
      have hsplit : v % 128 + 128 * (v / 128) = v := by omega
      have hx2lt : x + 2 ^ s * (v % 128) < 2 ^ (s + 7) := by
        have h1 : 2 ^ s * (v % 128) ≤ 2 ^ s * 127 := Nat.mul_le_mul_left _ (by omega)
        have h2 : (0:Nat) < 2 ^ s := Nat.pos_pow_of_pos _ (by norm_num)
        rw [hp]
        omega
      have hsum : x + 2 ^ s * (v % 128) + 2 ^ (s + 7) * (v / 128) = x + 2 ^ s * v := by
        rw [hp]
        calc x + 2 ^ s * (v % 128) + 2 ^ s * 128 * (v / 128)
            = x + 2 ^ s * (v % 128 + 128 * (v / 128)) := by ring
          _ = x + 2 ^ s * v := by rw [hsplit]
      have h63 : (2:Nat) ^ 63 = 9223372036854775808 := by norm_num
      have h64 : (2:Nat) ^ 64 = 18446744073709551616 := by norm_num
      have hi1 : i + 1 ≤ 9 := by
        by_contra hc
        have hi9 : i = 9 := by omega
        have hs63 : s = 63 := by omega
        rw [hs63, h63] at hlt
        rw [h64] at hlt
        omega
      have h91 : i + 1 = 9 → v / 128 ≤ 1 := by
        intro h9i
        have hs56 : s = 56 := by omega
        have hlt2 : 2 ^ (s + 7) * (v / 128) < 2 ^ 64 := by omega
        have hs63 : s + 7 = 63 := by omega
        rw [hs63, h63] at hlt2
        rw [h64] at hlt2
        omega
      have hrec := ih (v / 128) (by omega) suffix (i + 1) (x + 2 ^ s * (v % 128)) (s + 7)
        (by omega) hx2lt (by omega) hi1 h91
      rw [hrec, hsum]
      show _ = (x + 2 ^ s * v, i + ((v % 128 + 128) :: writeUvarintF g (v / 128)).length)
      rw [List.length_cons]
      congr 1
      omega
theorem read_writeUvarint (v : Nat) (hv : v < 2 ^ 64) (suffix : List Nat) :
    read_uvarint (writeUvarint v ++ suffix) = (v, (writeUvarint v).length) := by
  have h := readUvarintGo_spec v v (Nat.le_refl v) suffix 0 0 0 (by ring) (by norm_num)
    (by simpa using hv) (by norm_num) (by omega)
  show readUvarintGo (writeUvarintF v v ++ suffix) 0 0 0 = _
  rw [h]
  simp [writeUvarint]

theorem writeUvarint_length_le (v : Nat) (hv : v < 2 ^ 64) :
    (writeUvarint v).length ≤ 11 := by
  have h : v < 2 ^ (7 * 10) := by
    calc v < 2 ^ 64 := hv
    _ ≤ 2 ^ 70 := Nat.pow_le_pow_right (by norm_num) (by norm_num)
  exact writeUvarintF_length_le 10 v v h (Nat.le_refl v)

theorem u24_tri3 (t : Nat) (ht : t < 2 ^ 24) (rest : List Nat) :
    u24 (tri3 t ++ rest) = t := by
  show u24 (t / 65536 % 256 :: t / 256 % 256 :: t % 256 :: rest) = t
  show t / 65536 % 256 * 65536 + t / 256 % 256 * 256 + t % 256 = t
  have h : t < 16777216 := by
    have : (2:Nat) ^ 24 = 16777216 := by norm_num
    omega
  omega

theorem encRec_length_ge (prev : Nat) (e : Nat × Nat × Nat) :
    5 ≤ (encRec prev e).length := by
  show 5 ≤ (tri3 e.1 ++ writeUvarint e.2.1 ++ writeUvarint (e.2.2 - prev)).length
  simp only [List.length_append]
  have h1 : (tri3 e.1).length = 3 := by simp [tri3]
  have h2 := writeUvarintF_length_pos e.2.1 e.2.1
  have h3 := writeUvarintF_length_pos (e.2.2 - prev) (e.2.2 - prev)
  show 5 ≤ (tri3 e.1).length + (writeUvarintF e.2.1 e.2.1).length +
    (writeUvarintF (e.2.2 - prev) (e.2.2 - prev)).length
  omega

theorem encRec_length_le (prev : Nat) (e : Nat × Nat × Nat)
    (hc : e.2.1 < 2 ^ 64) (ho : e.2.2 < 2 ^ 64) :
    (encRec prev e).length ≤ 25 := by
  show (tri3 e.1 ++ writeUvarint e.2.1 ++ writeUvarint (e.2.2 - prev)).length ≤ 25
  simp only [List.length_append]
  have h1 : (tri3 e.1).length = 3 := by simp [tri3]
  have h2 := writeUvarint_length_le e.2.1 hc
  have h3 := writeUvarint_length_le (e.2.2 - prev) (by omega)
  omega

theorem scan_step (t prev acc f : Nat) (e : Nat × Nat × Nat) (R : List Nat)
    (ht0 : 0 < e.1) (ht24 : e.1 < 2 ^ 24) (hc : e.2.1 < 2 ^ 64) (ho : e.2.2 < 2 ^ 64) :
    scanBlockF t (f + 1) (encRec prev e ++ R) acc =
      (if e.1 = t then ((e.2.1 : Nat), acc + (e.2.2 - prev))
       else scanBlockF t f R (acc + (e.2.2 - prev))) := by
  obtain ⟨t1, c1, o1⟩ := e
  simp only at ht0 ht24 hc ho
  have hltri : (tri3 t1).length = 3 := by simp [tri3]
  have hrd1 := read_writeUvarint c1 hc (writeUvarint (o1 - prev) ++ R)
  have hrd2 := read_writeUvarint (o1 - prev) (by omega) R
  set n1 := (writeUvarint c1).length with hn1
  set n2 := (writeUvarint (o1 - prev)).length with hn2
  have hn1p : 1 ≤ n1 := writeUvarintF_length_pos _ _
  have hn2p : 1 ≤ n2 := writeUvarintF_length_pos _ _
  have hshape : encRec prev (t1, c1, o1) ++ R =
      tri3 t1 ++ (writeUvarint c1 ++ (writeUvarint (o1 - prev) ++ R)) := by
    show tri3 t1 ++ writeUvarint c1 ++ writeUvarint (o1 - prev) ++ R = _
    simp [List.append_assoc]
  have hlen : (encRec prev (t1, c1, o1) ++ R).length = 3 + n1 + n2 + R.length := by
    rw [hshape]
    simp only [List.length_append, hltri]
    omega
  have hdrop3 : (encRec prev (t1, c1, o1) ++ R).drop 3 =
      writeUvarint c1 ++ (writeUvarint (o1 - prev) ++ R) := by
    rw [hshape]
    exact List.drop_left' hltri
  have hdrop31 : (encRec prev (t1, c1, o1) ++ R).drop (3 + n1) =
      writeUvarint (o1 - prev) ++ R := by
    rw [hshape, ← List.append_assoc (tri3 t1)]
    refine List.drop_left' ?_
    simp only [List.length_append, hltri, hn1]
  have hdrop312 : (encRec prev (t1, c1, o1) ++ R).drop (3 + n1 + n2) = R := by
    rw [hshape, ← List.append_assoc (tri3 t1), ← List.append_assoc]
    refine List.drop_left' ?_
    simp only [List.length_append, List.length_append, hltri, hn1, hn2]
  have hu24 : u24 (encRec prev (t1, c1, o1) ++ R) = t1 := by
    rw [hshape, ← List.append_assoc (writeUvarint c1)]
    exact u24_tri3 t1 ht24 _
  simp only [scanBlockF]
  rw [hlen]
  rw [if_neg (by omega : ¬ (3 + n1 + n2 + R.length < 3))]
  rw [hu24, if_neg (by omega : ¬ t1 = 0)]
  rw [hdrop3, hrd1]
  rw [if_neg (by omega : ¬ n1 = 0), if_neg (by omega : ¬ (3 + n1 + n2 + R.length < 3 + n1))]
  rw [hdrop31, hrd2]
  rw [if_neg (by omega : ¬ n2 = 0),
    if_neg (by omega : ¬ (3 + n1 + n2 + R.length < 3 + n1 + n2))]
  rw [hdrop312]
theorem chainNat_head :
    ∀ (t : List Nat) (a q : Nat), List.Chain' (· ≤ ·) (a :: t) → q ∈ t → a ≤ q := by
  intro t
  induction t with
  | nil => intro a q _ hq; simp at hq
  | cons b t2 ih =>
    intro a q hch hq
    rw [List.chain'_cons] at hch
    rcases List.mem_cons.mp hq with h | h
    · subst h; exact hch.1
    · exact le_trans hch.1 (ih b q hch.2 h)

theorem chainNatLt_head :
    ∀ (t : List Nat) (a q : Nat), List.Chain' (· < ·) (a :: t) → q ∈ t → a < q := by
  intro t
  induction t with
  | nil => intro a q _ hq; simp at hq
  | cons b t2 ih =>
    intro a q hch hq
    rw [List.chain'_cons] at hch
    rcases List.mem_cons.mp hq with h | h
    · subst h; exact hch.1
    · exact lt_trans hch.1 (ih b q hch.2 h)

theorem scan_miss (t : Nat) :
    ∀ (rs : List (Nat × Nat × Nat)) (f prev acc pad : Nat),
    rs.length < f →
    (∀ e ∈ rs, 0 < e.1 ∧ e.1 < 2 ^ 24 ∧ e.2.1 < 2 ^ 64 ∧ e.2.2 < 2 ^ 64) →
    (∀ e ∈ rs, e.1 ≠ t) →
    scanBlockF t f (encGroup prev rs ++ List.replicate pad 0) acc = (0, 0) := by
  intro rs
  induction rs with
  | nil =>
    intro f prev acc pad hf _ _
    cases f with
    | zero => omega
    | succ g =>
      show scanBlockF t (g + 1) (List.replicate pad 0) acc = (0, 0)
      by_cases hp : pad < 3
      · simp only [scanBlockF]
        rw [if_pos (by simpa using hp)]
      · obtain ⟨p3, rfl⟩ : ∃ p3, pad = p3 + 3 := ⟨pad - 3, by omega⟩
        have hrep : List.replicate (p3 + 3) 0 = 0 :: 0 :: 0 :: List.replicate p3 0 := by
          rw [show p3 + 3 = 3 + p3 from by omega, List.replicate_add]
          rfl
        simp only [scanBlockF]
        rw [hrep]
        rw [if_neg (by simp)]
        show (if u24 (0 :: 0 :: 0 :: List.replicate p3 0) = 0 then ((0:Nat), (0:Nat))
          else _) = (0, 0)
        rw [if_pos (by show (0:Nat) * 65536 + 0 * 256 + 0 = 0; omega)]
  | cons e rs2 ih =>
    intro f prev acc pad hf hwf hne
    cases f with
    | zero => simp at hf
    | succ g =>
      obtain ⟨h0, h24, hc, ho⟩ := hwf e (List.mem_cons_self _ _)
      have hstep := scan_step t prev acc g e (encGroup e.2.2 rs2 ++ List.replicate pad 0)
        h0 h24 hc ho
      rw [show encGroup prev (e :: rs2) ++ List.replicate pad 0 =
        encRec prev e ++ (encGroup e.2.2 rs2 ++ List.replicate pad 0) from by
          show (encRec prev e ++ encGroup e.2.2 rs2) ++ _ = _
          simp [List.append_assoc]]
      rw [hstep, if_neg (hne e (List.mem_cons_self _ _))]
      exact ih g e.2.2 (acc + (e.2.2 - prev)) pad (by simp at hf ⊢; omega)
        (fun x hx => hwf x (List.mem_cons_of_mem _ hx))
        (fun x hx => hne x (List.mem_cons_of_mem _ hx))

theorem scan_hit (t c o : Nat) :
    ∀ (rs : List (Nat × Nat × Nat)) (f prev acc pad : Nat),
    rs.length < f →
    (∀ e ∈ rs, 0 < e.1 ∧ e.1 < 2 ^ 24 ∧ e.2.1 < 2 ^ 64 ∧ e.2.2 < 2 ^ 64) →
    List.Chain' (· < ·) (rs.map (fun e => e.1)) →
    List.Chain' (· ≤ ·) (prev :: rs.map (fun e => e.2.2)) →
    (t, c, o) ∈ rs →
    scanBlockF t f (encGroup prev rs ++ List.replicate pad 0) acc = (c, acc + (o - prev)) := by
  intro rs
  induction rs with
  | nil => intro f prev acc pad _ _ _ _ hmem; simp at hmem
  | cons e rs2 ih =>
    intro f prev acc pad hf hwf htasc hoasc hmem
    cases f with
    | zero => simp at hf
    | succ g =>
      obtain ⟨h0, h24, hc, ho⟩ := hwf e (List.mem_cons_self _ _)
      have hstep := scan_step t prev acc g e (encGroup e.2.2 rs2 ++ List.replicate pad 0)
        h0 h24 hc ho
      rw [show encGroup prev (e :: rs2) ++ List.replicate pad 0 =
        encRec prev e ++ (encGroup e.2.2 rs2 ++ List.replicate pad 0) from by
          show (encRec prev e ++ encGroup e.2.2 rs2) ++ _ = _
          simp [List.append_assoc]]
      rw [hstep]
      by_cases hte : e.1 = t
      · rw [if_pos hte]
        have hec : e = (t, c, o) := by
          rcases List.mem_cons.mp hmem with h | h
          · exact h.symm
          · exfalso
            have hmt : t ∈ rs2.map (fun e => e.1) := by
              exact List.mem_map.mpr ⟨(t, c, o), h, rfl⟩
            have := chainNatLt_head _ e.1 t (by simpa using htasc) hmt
            omega
        rw [hec]
      · rw [if_neg hte]
        have hmem2 : (t, c, o) ∈ rs2 := by
          rcases List.mem_cons.mp hmem with h | h
          · exfalso; rw [← h] at hte; simp at hte
          · exact h
        have hrec := ih g e.2.2 (acc + (e.2.2 - prev)) pad (by simp at hf ⊢; omega)
          (fun x hx => hwf x (List.mem_cons_of_mem _ hx))
          (by simpa using (List.Chain'.tail htasc))
          (by
            have := List.Chain'.tail hoasc
            simpa using this)
          hmem2
        rw [hrec]
        have hpo : prev ≤ e.2.2 := by
          rw [List.map_cons, List.chain'_cons] at hoasc
          exact hoasc.1
        have hoo : e.2.2 ≤ o := by
          have hmo : o ∈ rs2.map (fun e => e.2.2) :=
            List.mem_map.mpr ⟨(t, c, o), hmem2, rfl⟩
          rw [List.map_cons] at hoasc
          exact chainNat_head _ e.2.2 o (List.Chain'.tail hoasc) hmo
        congr 1
        omega
theorem bsearchF_spec (blocks : List (List Nat)) (tg : Nat)
    (hasc : ∀ k l, k < l → l < blocks.length →
      u24 (blocks.getD k []) < u24 (blocks.getD l [])) :
    ∀ (f i j : Nat), i ≤ j → j ≤ blocks.length → j - i ≤ f →
    (∀ k, k < i → u24 (blocks.getD k []) ≤ tg) →
    (∀ k, j ≤ k → k < blocks.length → tg < u24 (blocks.getD k [])) →
    (∀ k, k < bsearchBlocksF blocks tg f i j → u24 (blocks.getD k []) ≤ tg) ∧
    (∀ k, bsearchBlocksF blocks tg f i j ≤ k → k < blocks.length →
      tg < u24 (blocks.getD k [])) ∧
    i ≤ bsearchBlocksF blocks tg f i j ∧ bsearchBlocksF blocks tg f i j ≤ j := by
  intro f
  induction f with
  | zero =>
    intro i j hij hjl hf hlo hhi
    have : i = j := by omega
    subst this
    show (∀ k, k < i → _) ∧ _
    refine ⟨hlo, ?_, le_refl _, le_refl _⟩
    intro k hk hkl
    exact hhi k hk hkl
  | succ g ih =>
    intro i j hij hjl hf hlo hhi
    by_cases hlt : i < j
    · have hm : i + (j - i) / 2 < j := by omega
      have hml : ¬ (blocks.length ≤ i + (j - i) / 2) := by omega
      simp only [bsearchBlocksF, if_pos hlt, if_neg hml]
      by_cases hcmp : tg < u24 (blocks.getD (i + (j - i) / 2) [])
      · rw [if_pos hcmp]
        have hupper : ∀ k, i + (j - i) / 2 ≤ k → k < blocks.length →
            tg < u24 (blocks.getD k []) := by
          intro k hk hkl
          rcases Nat.eq_or_lt_of_le hk with h | h
          · rw [← h]; exact hcmp
          · exact lt_trans hcmp (hasc _ k h hkl)
        obtain ⟨a, b, c, d⟩ := ih i (i + (j - i) / 2) (by omega) (by omega) (by omega)
          hlo hupper
        exact ⟨a, b, c, by omega⟩
      · rw [if_neg hcmp]
        have hlower : ∀ k, k < i + (j - i) / 2 + 1 → u24 (blocks.getD k []) ≤ tg := by
          intro k hk
          rcases Nat.lt_or_ge k i with h | h
          · exact hlo k h
          · rcases Nat.lt_or_ge k (i + (j - i) / 2) with h2 | h2
            · have h3 := hasc k (i + (j - i) / 2) h2 (by omega)
              omega
            · have : k = i + (j - i) / 2 := by omega
              rw [this]
              omega
        obtain ⟨a, b, c, d⟩ := ih (i + (j - i) / 2 + 1) j (by omega) hjl (by omega)
          hlower hhi
        exact ⟨a, b, by omega, d⟩
    · simp only [bsearchBlocksF, if_neg hlt]
      have : i = j := by omega
      subst this
      exact ⟨hlo, fun k hk hkl => hhi k hk hkl, le_refl _, le_refl _⟩
theorem lastOffOf_append : ∀ (g : List (Nat × Nat × Nat)) (b : Nat) (e : Nat × Nat × Nat),
    lastOffOf b (g ++ [e]) = e.2.2 := by
  intro g
  induction g with
  | nil => intro b e; rfl
  | cons x g2 ih => intro b e; exact ih x.2.2 e

theorem encGroup_append : ∀ (g : List (Nat × Nat × Nat)) (prev : Nat) (e : Nat × Nat × Nat),
    encGroup prev (g ++ [e]) = encGroup prev g ++ encRec (lastOffOf prev g) e := by
  intro g
  induction g with
  | nil => intro prev e; simp [encGroup, lastOffOf]
  | cons x g2 ih =>
    intro prev e
    show encRec prev x ++ encGroup x.2.2 (g2 ++ [e]) = _
    rw [ih x.2.2 e]
    show _ = (encRec prev x ++ encGroup x.2.2 g2) ++ encRec (lastOffOf x.2.2 g2) e
    rw [List.append_assoc]

theorem fold_corr (base : Nat) :
    ∀ (es : List (Nat × Nat × Nat)) (gs : List (List (Nat × Nat × Nat)))
      (cg : List (Nat × Nat × Nat)) (lastOff : Nat), lastOff = lastOffOf base cg →
    es.foldl (postIndexStep base)
      (gs.map (fun g => padTo256 (encGroup base g)), encGroup base cg, lastOff) =
    ((es.foldl (groupStep base) (gs, cg, lastOff)).1.map
        (fun g => padTo256 (encGroup base g)),
      encGroup base (es.foldl (groupStep base) (gs, cg, lastOff)).2.1,
      (es.foldl (groupStep base) (gs, cg, lastOff)).2.2) := by
  intro es
  induction es with
  | nil => intro gs cg lastOff _; rfl
  | cons e rest ih =>
    intro gs cg lastOff hlast
    obtain ⟨t, c, o⟩ := e
    simp only [List.foldl_cons]
    by_cases hcond : 256 < (encGroup base cg).length +
        (tri3 t ++ writeUvarint c ++ writeUvarint (o - lastOff)).length
    · have hpost : postIndexStep base
          (gs.map (fun g => padTo256 (encGroup base g)), encGroup base cg, lastOff)
          (t, c, o) =
          ((gs ++ [cg]).map (fun g => padTo256 (encGroup base g)),
            encGroup base [(t, c, o)], o) := by
        have hX : (tri3 t ++ writeUvarint c ++ writeUvarint (o - base) : List Nat) =
            encGroup base [(t, c, o)] := by
          show _ = encRec base (t, c, o) ++ []
          rw [List.append_nil]
          rfl
        simp only [postIndexStep, if_pos hcond]
        rw [List.map_append, hX]
        simp
      have hgrp : groupStep base (gs, cg, lastOff) (t, c, o) =
          (gs ++ [cg], [(t, c, o)], o) := by
        simp only [groupStep]
        rw [if_pos ?_]
        show 256 < (encGroup base cg).length + (encRec lastOff (t, c, o)).length
        exact hcond
      rw [hpost, hgrp]
      exact ih (gs ++ [cg]) [(t, c, o)] o rfl
    · have hpost : postIndexStep base
          (gs.map (fun g => padTo256 (encGroup base g)), encGroup base cg, lastOff)
          (t, c, o) =
          (gs.map (fun g => padTo256 (encGroup base g)),
            encGroup base (cg ++ [(t, c, o)]), o) := by
        have hX : encGroup base cg ++ (tri3 t ++ writeUvarint c ++ writeUvarint (o - lastOff)) =
            encGroup base (cg ++ [(t, c, o)]) := by
          rw [encGroup_append, ← hlast]
          rfl
        simp only [postIndexStep, if_neg hcond]
        rw [hX]
      have hgrp : groupStep base (gs, cg, lastOff) (t, c, o) =
          (gs, cg ++ [(t, c, o)], o) := by
        simp only [groupStep]
        rw [if_neg ?_]
        show ¬ 256 < (encGroup base cg).length + (encRec lastOff (t, c, o)).length
        exact hcond
      rw [hpost, hgrp]
      exact ih gs (cg ++ [(t, c, o)]) o (by rw [lastOffOf_append])
theorem groupFold_inv (base : Nat) :
    ∀ (es : List (Nat × Nat × Nat)) (gs : List (List (Nat × Nat × Nat)))
      (cg : List (Nat × Nat × Nat)) (lastOff : Nat),
    (∀ e ∈ es, e.2.1 < 2 ^ 64 ∧ e.2.2 < 2 ^ 64) →
    lastOff = lastOffOf base cg →
    (encGroup base cg).length ≤ 256 →
    (∀ g ∈ gs, g ≠ [] ∧ (encGroup base g).length ≤ 256) →
    (cg = [] → gs = []) →
    (es.foldl (groupStep base) (gs, cg, lastOff)).1.flatten ++
      (es.foldl (groupStep base) (gs, cg, lastOff)).2.1 = gs.flatten ++ cg ++ es ∧
    (∀ g ∈ (es.foldl (groupStep base) (gs, cg, lastOff)).1,
      g ≠ [] ∧ (encGroup base g).length ≤ 256) ∧
    (encGroup base (es.foldl (groupStep base) (gs, cg, lastOff)).2.1).length ≤ 256 ∧
    ((es.foldl (groupStep base) (gs, cg, lastOff)).2.1 = [] → es = [] ∧ cg = []) := by
  intro es
  induction es with
  | nil =>
    intro gs cg lastOff _ _ hsz hgs hne
    refine ⟨by simp, hgs, hsz, fun h => ⟨rfl, h⟩⟩
  | cons e rest ih =>
    intro gs cg lastOff hwf hlast hsz hgs hne
    obtain ⟨t, c, o⟩ := e
    obtain ⟨hc, ho⟩ := hwf (t, c, o) (List.mem_cons_self _ _)
    simp only [List.foldl_cons]
    by_cases hcond : 256 < (encGroup base cg).length + (encRec lastOff (t, c, o)).length
    · have hgrp : groupStep base (gs, cg, lastOff) (t, c, o) =
          (gs ++ [cg], [(t, c, o)], o) := by
        simp only [groupStep]
        rw [if_pos hcond]
      rw [hgrp]
      have hcgne : cg ≠ [] := by
        intro h
        rw [h] at hcond
        have h2 := encRec_length_le lastOff (t, c, o) hc ho
        show False
        have : (encGroup base ([] : List (Nat × Nat × Nat))).length = 0 := by rfl
        omega
      have hsing : (encGroup base [(t, c, o)]).length ≤ 256 := by
        have h1 : encGroup base [(t, c, o)] = encRec base (t, c, o) ++ [] := rfl
        rw [h1, List.append_nil]
        have := encRec_length_le base (t, c, o) hc ho
        omega
      obtain ⟨ha, hb, hc2, hd⟩ := ih (gs ++ [cg]) [(t, c, o)] o
        (fun x hx => hwf x (List.mem_cons_of_mem _ hx)) rfl hsing
        (by
          intro g hg
          rcases List.mem_append.mp hg with h | h
          · exact hgs g h
          · have : g = cg := by simpa using h
            subst this
            exact ⟨hcgne, hsz⟩)
        (by intro h; simp at h)
      refine ⟨?_, hb, hc2, ?_⟩
      · rw [ha]
        simp [List.append_assoc]
      · intro h
        obtain ⟨h1, h2⟩ := hd h
        simp at h2
    · have hgrp : groupStep base (gs, cg, lastOff) (t, c, o) =
          (gs, cg ++ [(t, c, o)], o) := by
        simp only [groupStep]
        rw [if_neg hcond]
      rw [hgrp]
      have hsz2 : (encGroup base (cg ++ [(t, c, o)])).length ≤ 256 := by
        rw [encGroup_append, ← hlast, List.length_append]
        omega
      obtain ⟨ha, hb, hc2, hd⟩ := ih gs (cg ++ [(t, c, o)]) o
        (fun x hx => hwf x (List.mem_cons_of_mem _ hx)) (by rw [lastOffOf_append]) hsz2
        hgs (by intro h; simp at h)
      refine ⟨?_, hb, hc2, ?_⟩
      · rw [ha]
        simp [List.append_assoc]
      · intro h
        obtain ⟨h1, h2⟩ := hd h
        simp at h2
theorem encGroup_length_ge : ∀ (g : List (Nat × Nat × Nat)) (prev : Nat),
    5 * g.length ≤ (encGroup prev g).length := by
  intro g
  induction g with
  | nil => intro prev; simp [encGroup]
  | cons e g2 ih =>
    intro prev
    show 5 * (g2.length + 1) ≤ (encRec prev e ++ encGroup e.2.2 g2).length
    rw [List.length_append]
    have h1 := encRec_length_ge prev e
    have h2 := ih e.2.2
    omega

theorem padTo256_length (b : List Nat) (hb : b.length ≤ 256) :
    (padTo256 b).length = 256 := by
  show (b ++ List.replicate (256 - b.length) 0).length = 256
  rw [List.length_append, List.length_replicate]
  omega

theorem padTo256_eq (b : List Nat) :
    padTo256 b = b ++ List.replicate (256 - b.length) 0 := rfl

theorem u24_block (base : Nat) (e : Nat × Nat × Nat) (g2 : List (Nat × Nat × Nat))
    (ht : e.1 < 2 ^ 24) :
    u24 (padTo256 (encGroup base (e :: g2))) = e.1 := by
  rw [padTo256_eq]
  show u24 ((encRec base e ++ encGroup e.2.2 g2) ++ _) = e.1
  have hshape : (encRec base e ++ encGroup e.2.2 g2) ++
      List.replicate (256 - (encGroup base (e :: g2)).length) 0 =
      tri3 e.1 ++ (writeUvarint e.2.1 ++ writeUvarint (e.2.2 - base) ++ encGroup e.2.2 g2 ++
        List.replicate (256 - (encGroup base (e :: g2)).length) 0) := by
    show (tri3 e.1 ++ writeUvarint e.2.1 ++ writeUvarint (e.2.2 - base) ++ _) ++ _ = _
    simp [List.append_assoc]
  rw [hshape]
  exact u24_tri3 e.1 ht _

theorem scanBlock_group_hit (base t c o : Nat) (g : List (Nat × Nat × Nat))
    (hwf : ∀ e ∈ g, 0 < e.1 ∧ e.1 < 2 ^ 24 ∧ e.2.1 < 2 ^ 64 ∧ e.2.2 < 2 ^ 64)
    (hsz : (encGroup base g).length ≤ 256)
    (htasc : List.Chain' (· < ·) (g.map (fun e => e.1)))
    (hoasc : List.Chain' (· ≤ ·) (base :: g.map (fun e => e.2.2)))
    (hmem : (t, c, o) ∈ g) :
    scanBlock t (padTo256 (encGroup base g)) 0 = (c, o - base) := by
  have hglen : 5 * g.length ≤ 256 := le_trans (encGroup_length_ge g base) hsz
  show scanBlockF t (padTo256 (encGroup base g)).length (padTo256 (encGroup base g)) 0 =
    (c, o - base)
  rw [padTo256_length _ hsz, padTo256_eq]
  have h := scan_hit t c o g 256 base 0 (256 - (encGroup base g).length) (by omega)
    hwf htasc hoasc hmem
  rw [h]
  simp

theorem scanBlock_group_miss (base t : Nat) (g : List (Nat × Nat × Nat))
    (hwf : ∀ e ∈ g, 0 < e.1 ∧ e.1 < 2 ^ 24 ∧ e.2.1 < 2 ^ 64 ∧ e.2.2 < 2 ^ 64)
    (hsz : (encGroup base g).length ≤ 256)
    (hne : ∀ e ∈ g, e.1 ≠ t) :
    scanBlock t (padTo256 (encGroup base g)) 0 = (0, 0) := by
  have hglen : 5 * g.length ≤ 256 := le_trans (encGroup_length_ge g base) hsz
  show scanBlockF t (padTo256 (encGroup base g)).length (padTo256 (encGroup base g)) 0 =
    (0, 0)
  rw [padTo256_length _ hsz, padTo256_eq]
  exact scan_miss t g 256 base 0 (256 - (encGroup base g).length) (by omega) hwf hne

theorem postIndexBuild_eq (base : Nat) (es : List (Nat × Nat × Nat)) (hne : es ≠ [])
    (hwf : ∀ e ∈ es, e.2.1 < 2 ^ 64 ∧ e.2.2 < 2 ^ 64) :
    postIndexBuild base es =
      ((es.foldl (groupStep base) ([], [], base)).1 ++
        [(es.foldl (groupStep base) ([], [], base)).2.1]).map
          (fun g => padTo256 (encGroup base g)) := by
  have hcorr := fold_corr base es [] [] base rfl
  obtain ⟨ha, hb, hc, hd⟩ := groupFold_inv base es [] [] base hwf rfl (by simp [encGroup])
    (by simp) (fun _ => rfl)
  have hcgne : (es.foldl (groupStep base) ([], [], base)).2.1 ≠ [] := by
    intro h
    exact hne (hd h).1
  show (match es.foldl (postIndexStep base) ([], [], base) with
    | (flushed, cur, _) => if cur.isEmpty then flushed else flushed ++ [padTo256 cur]) = _
  have hinit : (([], [], base) : List (List Nat) × List Nat × Nat) =
      (([] : List (List (Nat × Nat × Nat))).map (fun g => padTo256 (encGroup base g)),
        encGroup base [], base) := by
    simp [encGroup]
  rw [hinit, hcorr]
  have hcur_ne : ¬ (encGroup base (es.foldl (groupStep base) ([], [], base)).2.1).isEmpty := by
    rcases hcg : (es.foldl (groupStep base) ([], [], base)).2.1 with _ | ⟨e, g2⟩
    · exact absurd hcg hcgne
    · have h5 := encRec_length_ge base e
      show ¬ (encRec base e ++ encGroup e.2.2 g2).isEmpty
      rw [List.isEmpty_iff]
      intro h
      have hlen := congrArg List.length h
      simp only [List.length_append, List.length_nil] at hlen
      omega
  show (if (encGroup base (es.foldl (groupStep base) ([], [], base)).2.1).isEmpty
    then _ else _) = _
  rw [if_neg hcur_ne, List.map_append]
  rfl
/-- C3: after `PostDataWriter` writes posting-list records for a
strictly ascending sequence of nonzero trigrams (counts and offsets in
u64 range, offsets non-decreasing from the section base),
`find_list_v2 t` over the produced 256-byte posts-index blocks returns
the recorded `(count, offset − base)` pair for every written trigram
`t`, and `(0, 0)` for every trigram that was not written. -/
theorem c3_posts_index_roundtrip (base : Nat) (es : List (Nat × Nat × Nat))
    (hwf : ∀ e ∈ es, 0 < e.1 ∧ e.1 < 2 ^ 24 ∧ e.2.1 < 2 ^ 64 ∧ e.2.2 < 2 ^ 64)
    (htasc : List.Chain' (· < ·) (es.map (fun e => e.1)))
    (hoasc : List.Chain' (· ≤ ·) (base :: es.map (fun e => e.2.2))) :
    (∀ t c o, (t, c, o) ∈ es → find_list_v2 (postIndexBuild base es) t = (c, o - base)) ∧
    (∀ t, (∀ e ∈ es, e.1 ≠ t) → find_list_v2 (postIndexBuild base es) t = (0, 0)) := by
  rcases hes : es with _ | ⟨e1, es2⟩
  · constructor
    · intro t c o hmem; simp at hmem
    · intro t _; rfl
  · rw [← hes]
    have hesne : es ≠ [] := by rw [hes]; simp
    have hbuild := postIndexBuild_eq base es hesne
      (fun e he => ⟨(hwf e he).2.2.1, (hwf e he).2.2.2⟩)
    obtain ⟨hflat', hgood', hszcg, hdempty⟩ := groupFold_inv base es [] [] base
      (fun e he => ⟨(hwf e he).2.2.1, (hwf e he).2.2.2⟩) rfl (by simp [encGroup])
      (by simp) (fun _ => rfl)
    set G : List (List (Nat × Nat × Nat)) :=
      (es.foldl (groupStep base) ([], [], base)).1 ++
        [(es.foldl (groupStep base) ([], [], base)).2.1] with hG
    set blocks : List (List Nat) := G.map (fun g => padTo256 (encGroup base g)) with hblocks
    have hbuild2 : postIndexBuild base es = blocks := hbuild
    have hflat : G.flatten = es := by
      rw [hG, List.flatten_append]
      simpa using hflat'
    have hGood : ∀ g ∈ G, g ≠ [] ∧ (encGroup base g).length ≤ 256 := by
      intro g hg
      rw [hG] at hg
      rcases List.mem_append.mp hg with h | h
      · exact hgood' g h
      · have : g = (es.foldl (groupStep base) ([], [], base)).2.1 := by simpa using h
        subst this
        refine ⟨fun h2 => hesne (hdempty h2).1, hszcg⟩
    have hsub : ∀ g ∈ G, ∀ x ∈ g, x ∈ es := by
      intro g hg x hx
      rw [← hflat]
      exact List.mem_flatten_of_mem hg hx
    -- pairwise structure of trigrams
    have htflat : (G.map (List.map (fun e => e.1))).flatten = es.map (fun e => e.1) := by
      rw [← List.map_flatten, hflat]
    have htpair : List.Pairwise (· < ·) ((G.map (List.map (fun e => e.1))).flatten) := by
      rw [htflat]
      exact List.chain'_iff_pairwise.mp htasc
    obtain ⟨htgrp, htcross⟩ := List.pairwise_flatten.mp htpair
    have hopair : List.Pairwise (· ≤ ·) (es.map (fun e => e.2.2)) :=
      List.chain'_iff_pairwise.mp (List.Chain'.tail hoasc)
    have hogrp : ∀ g ∈ G, List.Pairwise (· ≤ ·) (g.map (fun e => e.2.2)) := by
      intro g hg
      have hof : (G.map (List.map (fun e => e.2.2))).flatten = es.map (fun e => e.2.2) := by
        rw [← List.map_flatten, hflat]
      have := List.pairwise_flatten.mp (hof ▸ hopair)
      exact this.1 _ (List.mem_map_of_mem _ hg)
    have hbasele : ∀ x ∈ es, base ≤ x.2.2 := by
      intro x hx
      exact chainNat_head _ base x.2.2 hoasc (List.mem_map_of_mem _ hx)
    -- per-group scan hypotheses
    have hgwf : ∀ g ∈ G, ∀ e ∈ g, 0 < e.1 ∧ e.1 < 2 ^ 24 ∧ e.2.1 < 2 ^ 64 ∧ e.2.2 < 2 ^ 64 :=
      fun g hg e he => hwf e (hsub g hg e he)
    have hgt : ∀ g ∈ G, List.Chain' (· < ·) (g.map (fun e => e.1)) := by
      intro g hg
      exact List.chain'_iff_pairwise.mpr (htgrp _ (List.mem_map_of_mem _ hg))
    have hgo : ∀ g ∈ G, List.Chain' (· ≤ ·) (base :: g.map (fun e => e.2.2)) := by
      intro g hg
      rw [List.chain'_cons']
      refine ⟨?_, List.chain'_iff_pairwise.mpr (hogrp g hg)⟩
      intro y hy
      have hym : y ∈ g.map (fun e => e.2.2) := List.mem_of_mem_head? hy
      obtain ⟨x, hx, hxy⟩ := List.mem_map.mp hym
      rw [← hxy]
      exact hbasele x (hsub g hg x hx)
    -- block heads
    have hlenGB : blocks.length = G.length := by rw [hblocks, List.length_map]
    have hblockD : ∀ p (hp : p < G.length),
        blocks.getD p [] = padTo256 (encGroup base (G.get ⟨p, hp⟩)) := by
      intro p hp
      rw [hblocks]
      rw [List.getD_eq_getElem _ _ (by rw [List.length_map]; exact hp)]
      rw [List.getElem_map]
      rfl
    have hheadfact : ∀ p (hp : p < G.length), ∃ e0 g2, G.get ⟨p, hp⟩ = e0 :: g2 ∧
        u24 (blocks.getD p []) = e0.1 := by
      intro p hp
      have hmemG : G.get ⟨p, hp⟩ ∈ G := G.get_mem p hp
      have hne := (hGood _ hmemG).1
      obtain ⟨e0, g2, hg⟩ := List.exists_cons_of_ne_nil hne
      refine ⟨e0, g2, hg, ?_⟩
      rw [hblockD p hp, hg]
      exact u24_block base e0 g2 (hgwf _ hmemG e0 (by rw [hg]; simp)).2.1
    have hcross : ∀ p q (hp : p < G.length) (hq : q < G.length), p < q →
        ∀ x ∈ G.get ⟨p, hp⟩, ∀ y ∈ G.get ⟨q, hq⟩, x.1 < y.1 := by
      intro p q hp hq hpq x hx y hy
      have hmap : List.Pairwise (fun l1 l2 => ∀ a ∈ l1, ∀ b ∈ l2, a < b)
          (G.map (List.map (fun e => e.1))) := htcross
      have h2 := List.pairwise_iff_get.mp hmap
        ⟨p, by rw [List.length_map]; exact hp⟩ ⟨q, by rw [List.length_map]; exact hq⟩ hpq
      have hgp : (G.map (List.map (fun e => e.1))).get ⟨p, by rw [List.length_map]; exact hp⟩ =
          (G.get ⟨p, hp⟩).map (fun e => e.1) := by
        simp
      have hgq : (G.map (List.map (fun e => e.1))).get ⟨q, by rw [List.length_map]; exact hq⟩ =
          (G.get ⟨q, hq⟩).map (fun e => e.1) := by
        simp
      rw [hgp, hgq] at h2
      exact h2 x.1 (List.mem_map_of_mem _ hx) y.1 (List.mem_map_of_mem _ hy)
    have hasc : ∀ k l, k < l → l < blocks.length →
        u24 (blocks.getD k []) < u24 (blocks.getD l []) := by
      intro k l hkl hl
      rw [hlenGB] at hl
      have hk : k < G.length := lt_trans hkl hl
      obtain ⟨ek, gk, hgk, huk⟩ := hheadfact k hk
      obtain ⟨el, gl, hgl, hul⟩ := hheadfact l hl
      rw [huk, hul]
      exact hcross k l hk hl hkl ek (by rw [hgk]; simp) el (by rw [hgl]; simp)
    have hGlen1 : 1 ≤ G.length := by
      rw [hG]
      simp
    have hblen0 : ¬ blocks.length = 0 := by omega
    -- the generic bsearch facts
    have hbsearch : ∀ tg,
        (∀ k, k < bsearchBlocks blocks tg 0 blocks.length → u24 (blocks.getD k []) ≤ tg) ∧
        (∀ k, bsearchBlocks blocks tg 0 blocks.length ≤ k → k < blocks.length →
          tg < u24 (blocks.getD k [])) ∧
        bsearchBlocks blocks tg 0 blocks.length ≤ blocks.length := by
      intro tg
      obtain ⟨a, b, _, d⟩ := bsearchF_spec blocks tg hasc (blocks.length - 0) 0 blocks.length
        (by omega) (le_refl _) (by omega) (fun k hk => absurd hk (by omega))
        (fun k hk hkl => absurd (lt_of_le_of_lt hk hkl) (lt_irrefl blocks.length))
      exact ⟨a, b, d⟩
    refine ⟨?_, ?_⟩
    · intro t c o hmem
      have hmemf : (t, c, o) ∈ G.flatten := by rw [hflat]; exact hmem
      obtain ⟨g, hgG, hging⟩ := List.mem_flatten.mp hmemf
      obtain ⟨p, hp⟩ := List.get?_of_mem hgG
      obtain ⟨hplen, hgetp⟩ := List.get?_eq_some.mp hp
      obtain ⟨e0, g2, hg0, hu⟩ := hheadfact p hplen
      have hgg : g = e0 :: g2 := by rw [← hgetp, hg0]
      have hheadle : u24 (blocks.getD p []) ≤ t := by
        rw [hu]
        have hmg : (t, c, o) ∈ e0 :: g2 := by rw [← hgg]; exact hging
        rcases List.mem_cons.mp hmg with h | h
        · rw [← h]
        · have hch := hgt g hgG
          rw [hgg] at hch
          have hmt : t ∈ g2.map (fun e => e.1) :=
            List.mem_map.mpr ⟨(t, c, o), h, rfl⟩
          have := chainNatLt_head _ e0.1 t (by simpa using hch) hmt
          omega
      set r := bsearchBlocks blocks t 0 blocks.length with hr
      obtain ⟨hlo, hhi, hrle⟩ := hbsearch t
      rw [← hr] at hlo hhi hrle
      have hpb : p < blocks.length := by omega
      have hpr : p < r := by
        by_contra hc2
        push_neg at hc2
        have := hhi p hc2 hpb
        omega
      have hrp : r - 1 = p := by
        by_contra hc2
        have hlt2 : p < r - 1 := by omega
        have hr1len : r - 1 < G.length := by omega
        have hle2 := hlo (r - 1) (by omega)
        obtain ⟨f0, f2, hf0, hfu⟩ := hheadfact (r - 1) hr1len
        have hcr := hcross p (r - 1) hplen hr1len hlt2 (t, c, o)
          (by rw [hgetp]; exact hging) f0 (by rw [hf0]; simp)
        rw [hfu] at hle2
        have hcr2 : t < f0.1 := hcr
        omega
      rw [hbuild2]
      simp only [find_list_v2]
      rw [if_neg hblen0, ← hr]
      rw [if_neg (by omega : ¬ r = 0), hrp]
      rw [hblockD p hplen, hgetp]
      exact scanBlock_group_hit base t c o g (hgwf g hgG) (hGood g hgG).2
        (hgt g hgG) (hgo g hgG) hging
    · intro t hne
      rw [hbuild2]
      simp only [find_list_v2]
      rw [if_neg hblen0]
      obtain ⟨hlo, hhi, hrle⟩ := hbsearch t
      by_cases hr0 : bsearchBlocks blocks t 0 blocks.length = 0
      · rw [if_pos hr0]
      · rw [if_neg hr0]
        have hr1 : bsearchBlocks blocks t 0 blocks.length - 1 < G.length := by omega
        rw [hblockD _ hr1]
        have hmem2 := List.get_mem G (bsearchBlocks blocks t 0 blocks.length - 1) hr1
        refine scanBlock_group_miss base t _ (hgwf _ hmem2) ((hGood _ hmem2).2) ?_
        intro e he
        exact hne e (hsub _ hmem2 e he)
theorem c3_posts_index_roundtrip_witness :
    ((∀ e ∈ ([(5, 2, 100), (9, 1, 130)] : List (Nat × Nat × Nat)),
        0 < e.1 ∧ e.1 < 2 ^ 24 ∧ e.2.1 < 2 ^ 64 ∧ e.2.2 < 2 ^ 64) ∧
      List.Chain' (· < ·)
        (([(5, 2, 100), (9, 1, 130)] : List (Nat × Nat × Nat)).map (fun e => e.1)) ∧
      List.Chain' (· ≤ ·)
        (100 :: ([(5, 2, 100), (9, 1, 130)] : List (Nat × Nat × Nat)).map
          (fun e => e.2.2))) ∧
    ((∀ t c o, (t, c, o) ∈ ([(5, 2, 100), (9, 1, 130)] : List (Nat × Nat × Nat)) →
        find_list_v2 (postIndexBuild 100 [(5, 2, 100), (9, 1, 130)]) t = (c, o - 100)) ∧
      (∀ t, (∀ e ∈ ([(5, 2, 100), (9, 1, 130)] : List (Nat × Nat × Nat)), e.1 ≠ t) →
        find_list_v2 (postIndexBuild 100 [(5, 2, 100), (9, 1, 130)]) t = (0, 0))) := by
  have h1 : ∀ e ∈ ([(5, 2, 100), (9, 1, 130)] : List (Nat × Nat × Nat)),
      0 < e.1 ∧ e.1 < 2 ^ 24 ∧ e.2.1 < 2 ^ 64 ∧ e.2.2 < 2 ^ 64 := by decide
  have h2 : List.Chain' (· < ·)
      (([(5, 2, 100), (9, 1, 130)] : List (Nat × Nat × Nat)).map (fun e => e.1)) := by
    show List.Chain' (· < ·) [5, 9]
    simp only [List.chain'_cons, List.chain'_singleton]
    decide
  have h3 : List.Chain' (· ≤ ·)
      (100 :: ([(5, 2, 100), (9, 1, 130)] : List (Nat × Nat × Nat)).map
        (fun e => e.2.2)) := by
    show List.Chain' (· ≤ ·) [100, 100, 130]
    simp only [List.chain'_cons, List.chain'_singleton]
    decide
  exact ⟨⟨h1, h2, h3⟩, c3_posts_index_roundtrip 100 [(5, 2, 100), (9, 1, 130)] h1 h2 h3⟩

theorem sorted_dropWhile_mem (fid x : Nat) :
    ∀ (l : List Nat), List.Chain' (· < ·) l →
    (x ∈ l.dropWhile (· < fid) ↔ (x ∈ l ∧ fid ≤ x)) := by
  intro l
  induction l with
  | nil => intro _; simp
  | cons a t ih =>
    intro hch
    by_cases ha : a < fid
    · rw [List.dropWhile_cons_of_pos (by simpa using ha)]
      rw [ih (List.Chain'.tail hch)]
      constructor
      · intro ⟨h1, h2⟩; exact ⟨List.mem_cons_of_mem _ h1, h2⟩
      · intro ⟨h1, h2⟩
        rcases List.mem_cons.mp h1 with h | h
        · omega
        · exact ⟨h, h2⟩
    · rw [List.dropWhile_cons_of_neg (by simpa using ha)]
      constructor
      · intro h
        refine ⟨h, ?_⟩
        rcases List.mem_cons.mp h with h2 | h2
        · omega
        · have := chainNatLt_head t a x hch h2
          omega
      · intro ⟨h1, _⟩; exact h1

theorem sorted_takeWhile_mem (fid x : Nat) :
    ∀ (l : List Nat), List.Chain' (· < ·) l →
    (x ∈ l.takeWhile (· < fid) ↔ (x ∈ l ∧ x < fid)) := by
  intro l
  induction l with
  | nil => intro _; simp
  | cons a t ih =>
    intro hch
    by_cases ha : a < fid
    · rw [List.takeWhile_cons_of_pos (by simpa using ha)]
      constructor
      · intro h
        rcases List.mem_cons.mp h with h2 | h2
        · subst h2; exact ⟨List.mem_cons_self _ _, ha⟩
        · have := (ih (List.Chain'.tail hch)).mp h2
          exact ⟨List.mem_cons_of_mem _ this.1, this.2⟩
      · intro ⟨h1, h2⟩
        rcases List.mem_cons.mp h1 with h3 | h3
        · subst h3; exact List.mem_cons_self _ _
        · exact List.mem_cons_of_mem _ ((ih (List.Chain'.tail hch)).mpr ⟨h3, h2⟩)
    · rw [List.takeWhile_cons_of_neg (by simpa using ha)]
      constructor
      · intro h; simp at h
      · intro ⟨h1, h2⟩
        rcases List.mem_cons.mp h1 with h3 | h3
        · omega
        · have := chainNatLt_head t a x hch h3
          omega

theorem sorted_dropWhile_head (fid : Nat) :
    ∀ (l : List Nat), List.Chain' (· < ·) l →
    ((l.dropWhile (· < fid)).head? = some fid ↔ fid ∈ l) := by
  intro l
  induction l with
  | nil => intro _; simp
  | cons a t ih =>
    intro hch
    by_cases ha : a < fid
    · rw [List.dropWhile_cons_of_pos (by simpa using ha)]
      rw [ih (List.Chain'.tail hch)]
      constructor
      · intro h; exact List.mem_cons_of_mem _ h
      · intro h
        rcases List.mem_cons.mp h with h2 | h2
        · omega
        · exact h2
    · rw [List.dropWhile_cons_of_neg (by simpa using ha)]
      show ((a :: t).head? = some fid) ↔ fid ∈ a :: t
      simp only [List.head?_cons, Option.some.injEq]
      constructor
      · intro h; subst h; exact List.mem_cons_self _ _
      · intro h
        rcases List.mem_cons.mp h with h2 | h2
        · omega
        · have := chainNatLt_head t a fid hch h2
          omega

theorem chain_append_mid (fid : Nat) (B : List Nat) (hB : List.Chain' (· < ·) B)
    (hBgt : ∀ y ∈ B, fid < y) :
    ∀ (A : List Nat), List.Chain' (· < ·) A → (∀ y ∈ A, y < fid) →
    List.Chain' (· < ·) (A ++ fid :: B) := by
  intro A
  induction A with
  | nil =>
    intro _ _
    show List.Chain' (· < ·) (fid :: B)
    exact List.chain'_cons'.mpr ⟨fun y hy => hBgt y (List.mem_of_mem_head? hy), hB⟩
  | cons a A2 ih =>
    intro hch hlt
    rw [List.cons_append]
    refine List.chain'_cons'.mpr ⟨?_, ih (List.Chain'.tail hch)
      (fun y hy => hlt y (List.mem_cons_of_mem _ hy))⟩
    intro y hy
    cases A2 with
    | nil =>
      simp only [List.nil_append, List.head?_cons, Option.mem_def, Option.some.injEq] at hy
      have := hlt a (List.mem_cons_self _ _)
      omega
    | cons b A3 =>
      simp only [List.cons_append, List.head?_cons, Option.mem_def, Option.some.injEq] at hy
      subst hy
      exact (List.chain'_cons.mp hch).1

theorem filterRestrict_mem (x : Nat) :
    ∀ (l r : List Nat), List.Chain' (· < ·) l → List.Chain' (· < ·) r →
    (x ∈ filterRestrict l r ↔ (x ∈ l ∧ x ∈ r)) := by
  intro l
  induction l with
  | nil => intro r _ _; simp [filterRestrict]
  | cons fid l2 ih =>
    intro r hl hr
    show x ∈ (if (r.dropWhile (· < fid)).head? = some fid
      then fid :: filterRestrict l2 (r.dropWhile (· < fid))
      else filterRestrict l2 (r.dropWhile (· < fid))) ↔ _
    have hr2 : List.Chain' (· < ·) (r.dropWhile (· < fid)) :=
      List.Chain'.sublist hr (List.dropWhile_sublist _)
    by_cases hh : (r.dropWhile (· < fid)).head? = some fid
    · rw [if_pos hh]
      have hfr : fid ∈ r := (sorted_dropWhile_head fid r hr).mp hh
      rw [List.mem_cons, ih (r.dropWhile (· < fid)) (List.Chain'.tail hl) hr2]
      rw [sorted_dropWhile_mem fid x r hr]
      constructor
      · rintro (rfl | ⟨h1, h2, _⟩)
        · exact ⟨List.mem_cons_self _ _, hfr⟩
        · exact ⟨List.mem_cons_of_mem _ h1, h2⟩
      · rintro ⟨h1, h2⟩
        rcases List.mem_cons.mp h1 with h3 | h3
        · exact Or.inl h3
        · exact Or.inr ⟨h3, h2, le_of_lt (chainNatLt_head l2 fid x hl h3)⟩
    · rw [if_neg hh]
      have hfr : fid ∉ r := fun hm => hh ((sorted_dropWhile_head fid r hr).mpr hm)
      rw [ih (r.dropWhile (· < fid)) (List.Chain'.tail hl) hr2]
      rw [sorted_dropWhile_mem fid x r hr]
      constructor
      · rintro ⟨h1, h2, _⟩
        exact ⟨List.mem_cons_of_mem _ h1, h2⟩
      · rintro ⟨h1, h2⟩
        rcases List.mem_cons.mp h1 with h3 | h3
        · subst h3; exact absurd h2 hfr
        · exact ⟨h3, h2, le_of_lt (chainNatLt_head l2 fid x hl h3)⟩

theorem filterRestrict_chain :
    ∀ (l r : List Nat), List.Chain' (· < ·) l → List.Chain' (· < ·) r →
    List.Chain' (· < ·) (filterRestrict l r) := by
  intro l
  induction l with
  | nil => intro r _ _; simp [filterRestrict]
  | cons fid l2 ih =>
    intro r hl hr
    show List.Chain' (· < ·) (if (r.dropWhile (· < fid)).head? = some fid
      then fid :: filterRestrict l2 (r.dropWhile (· < fid))
      else filterRestrict l2 (r.dropWhile (· < fid)))
    have hr2 : List.Chain' (· < ·) (r.dropWhile (· < fid)) :=
      List.Chain'.sublist hr (List.dropWhile_sublist _)
    by_cases hh : (r.dropWhile (· < fid)).head? = some fid
    · rw [if_pos hh]
      refine List.chain'_cons'.mpr ⟨?_, ih _ (List.Chain'.tail hl) hr2⟩
      intro y hy
      have hym : y ∈ filterRestrict l2 (r.dropWhile (· < fid)) := List.mem_of_mem_head? hy
      have := (filterRestrict_mem y l2 (r.dropWhile (· < fid))
        (List.Chain'.tail hl) hr2).mp hym
      exact chainNatLt_head l2 fid y hl this.1
    · rw [if_neg hh]
      exact ih _ (List.Chain'.tail hl) hr2
theorem andMerge_mem (x : Nat) :
    ∀ (s l : List Nat), List.Chain' (· < ·) l → List.Chain' (· < ·) s →
    (x ∈ andMerge l s ↔ (x ∈ l ∧ x ∈ s)) := by
  intro s
  induction s with
  | nil => intro l _ _; simp [andMerge]
  | cons fid s2 ih =>
    intro l hl hs
    show x ∈ (if (l.dropWhile (· < fid)).head? = some fid
      then fid :: andMerge ((l.dropWhile (· < fid)).drop 1) s2
      else andMerge (l.dropWhile (· < fid)) s2) ↔ _
    have hl2 : List.Chain' (· < ·) (l.dropWhile (· < fid)) :=
      List.Chain'.sublist hl (List.dropWhile_sublist _)
    by_cases hh : (l.dropWhile (· < fid)).head? = some fid
    · rw [if_pos hh]
      obtain ⟨tl, htl⟩ : ∃ tl, l.dropWhile (· < fid) = fid :: tl := by
        cases hd : l.dropWhile (· < fid) with
        | nil => rw [hd] at hh; simp at hh
        | cons a t => rw [hd] at hh; simp at hh; exact ⟨t, by rw [hh]⟩
      have htail : List.Chain' (· < ·) tl := by
        rw [htl] at hl2; exact List.Chain'.tail hl2
      rw [List.mem_cons, ih _ (by rw [htl]; exact htail) (List.Chain'.tail hs)]
      have hmemtl : ∀ y, y ∈ tl ↔ (y ∈ l ∧ fid < y) := by
        intro y
        constructor
        · intro hy
          have h1 : y ∈ l.dropWhile (· < fid) := by
            rw [htl]; exact List.mem_cons_of_mem _ hy
          have h2 := (sorted_dropWhile_mem fid y l hl).mp h1
          refine ⟨h2.1, ?_⟩
          rw [htl] at hl2
          exact chainNatLt_head tl fid y hl2 hy
        · intro ⟨hy1, hy2⟩
          have h1 : y ∈ l.dropWhile (· < fid) :=
            (sorted_dropWhile_mem fid y l hl).mpr ⟨hy1, le_of_lt hy2⟩
          rw [htl] at h1
          rcases List.mem_cons.mp h1 with h2 | h2
          · omega
          · exact h2
      rw [htl]
      show x = fid ∨ (x ∈ tl ∧ x ∈ s2) ↔ _
      have hfl : fid ∈ l := by
        have : fid ∈ l.dropWhile (· < fid) := by rw [htl]; exact List.mem_cons_self _ _
        exact ((sorted_dropWhile_mem fid fid l hl).mp this).1
      constructor
      · rintro (rfl | ⟨h1, h2⟩)
        · exact ⟨hfl, List.mem_cons_self _ _⟩
        · exact ⟨((hmemtl x).mp h1).1, List.mem_cons_of_mem _ h2⟩
      · rintro ⟨h1, h2⟩
        rcases List.mem_cons.mp h2 with h3 | h3
        · exact Or.inl h3
        · refine Or.inr ⟨(hmemtl x).mpr ⟨h1, chainNatLt_head s2 fid x hs h3⟩, h3⟩
    · rw [if_neg hh]
      have hfl : fid ∉ l := fun hm => hh ((sorted_dropWhile_head fid l hl).mpr hm)
      rw [ih _ hl2 (List.Chain'.tail hs)]
      rw [sorted_dropWhile_mem fid x l hl]
      constructor
      · rintro ⟨⟨h1, h2⟩, h3⟩
        exact ⟨h1, List.mem_cons_of_mem _ h3⟩
      · rintro ⟨h1, h2⟩
        rcases List.mem_cons.mp h2 with h3 | h3
        · subst h3; exact absurd h1 hfl
        · exact ⟨⟨h1, le_of_lt (chainNatLt_head s2 fid x hs h3)⟩, h3⟩

theorem andMerge_chain :
    ∀ (s l : List Nat), List.Chain' (· < ·) l → List.Chain' (· < ·) s →
    List.Chain' (· < ·) (andMerge l s) := by
  intro s
  induction s with
  | nil => intro l _ _; simp [andMerge]
  | cons fid s2 ih =>
    intro l hl hs
    show List.Chain' (· < ·) (if (l.dropWhile (· < fid)).head? = some fid
      then fid :: andMerge ((l.dropWhile (· < fid)).drop 1) s2
      else andMerge (l.dropWhile (· < fid)) s2)
    have hl2 : List.Chain' (· < ·) (l.dropWhile (· < fid)) :=
      List.Chain'.sublist hl (List.dropWhile_sublist _)
    by_cases hh : (l.dropWhile (· < fid)).head? = some fid
    · rw [if_pos hh]
      obtain ⟨tl, htl⟩ : ∃ tl, l.dropWhile (· < fid) = fid :: tl := by
        cases hd : l.dropWhile (· < fid) with
        | nil => rw [hd] at hh; simp at hh
        | cons a t => rw [hd] at hh; simp at hh; exact ⟨t, by rw [hh]⟩
      have htail : List.Chain' (· < ·) tl := by
        rw [htl] at hl2; exact List.Chain'.tail hl2
      rw [htl]
      show List.Chain' (· < ·) (fid :: andMerge tl s2)
      refine List.chain'_cons'.mpr ⟨?_, ih _ htail (List.Chain'.tail hs)⟩
      intro y hy
      have hym : y ∈ andMerge tl s2 := List.mem_of_mem_head? hy
      have := (andMerge_mem y s2 tl htail (List.Chain'.tail hs)).mp hym
      rw [htl] at hl2
      exact chainNatLt_head tl fid y hl2 this.1
    · rw [if_neg hh]
      exact ih _ hl2 (List.Chain'.tail hs)

theorem orMerge_mem (x : Nat) :
    ∀ (s l : List Nat), List.Chain' (· < ·) l → List.Chain' (· < ·) s →
    (x ∈ orMerge l s ↔ (x ∈ l ∨ x ∈ s)) := by
  intro s
  induction s with
  | nil => intro l _ _; simp [orMerge]
  | cons fid s2 ih =>
    intro l hl hs
    show x ∈ l.takeWhile (· < fid) ++
      fid :: orMerge (if (l.dropWhile (· < fid)).head? = some fid
        then (l.dropWhile (· < fid)).drop 1 else l.dropWhile (· < fid)) s2 ↔ _
    have hl2 : List.Chain' (· < ·) (l.dropWhile (· < fid)) :=
      List.Chain'.sublist hl (List.dropWhile_sublist _)
    have hrest : ∀ ll, ll = (if (l.dropWhile (· < fid)).head? = some fid
        then (l.dropWhile (· < fid)).drop 1 else l.dropWhile (· < fid)) →
        List.Chain' (· < ·) ll ∧ (∀ y, y ∈ ll ↔ (y ∈ l ∧ fid < y)) := by
      intro ll hll
      by_cases hh : (l.dropWhile (· < fid)).head? = some fid
      · rw [if_pos hh] at hll
        obtain ⟨tl, htl⟩ : ∃ tl, l.dropWhile (· < fid) = fid :: tl := by
          cases hd : l.dropWhile (· < fid) with
          | nil => rw [hd] at hh; simp at hh
          | cons a t => rw [hd] at hh; simp at hh; exact ⟨t, by rw [hh]⟩
        rw [htl] at hll
        rw [htl] at hl2
        subst hll
        refine ⟨List.Chain'.tail hl2, ?_⟩
        intro y
        constructor
        · intro hy
          have h1 : y ∈ l.dropWhile (· < fid) := by
            rw [htl]; exact List.mem_cons_of_mem _ hy
          have h2 := (sorted_dropWhile_mem fid y l hl).mp h1
          exact ⟨h2.1, chainNatLt_head _ fid y hl2 hy⟩
        · intro ⟨hy1, hy2⟩
          have h1 : y ∈ l.dropWhile (· < fid) :=
            (sorted_dropWhile_mem fid y l hl).mpr ⟨hy1, le_of_lt hy2⟩
          rw [htl] at h1
          rcases List.mem_cons.mp h1 with h2 | h2
          · omega
          · exact h2
      · rw [if_neg hh] at hll
        subst hll
        have hfl : fid ∉ l := fun hm => hh ((sorted_dropWhile_head fid l hl).mpr hm)
        refine ⟨hl2, ?_⟩
        intro y
        rw [sorted_dropWhile_mem fid y l hl]
        constructor
        · intro ⟨h1, h2⟩
          refine ⟨h1, ?_⟩
          rcases Nat.lt_or_ge fid y with h | h
          · exact h
          · have : y = fid := by omega
            subst this; exact absurd h1 hfl
        · intro ⟨h1, h2⟩; exact ⟨h1, le_of_lt h2⟩
    obtain ⟨hllc, hllm⟩ := hrest _ rfl
    rw [List.mem_append, List.mem_cons, ih _ hllc (List.Chain'.tail hs)]
    rw [sorted_takeWhile_mem fid x l hl, hllm x]
    constructor
    · rintro (⟨h1, _⟩ | rfl | ⟨h1, _⟩ | h1)
      · exact Or.inl h1
      · exact Or.inr (List.mem_cons_self _ _)
      · exact Or.inl h1
      · exact Or.inr (List.mem_cons_of_mem _ h1)
    · rintro (h1 | h1)
      · rcases Nat.lt_trichotomy x fid with h | h | h
        · exact Or.inl ⟨h1, h⟩
        · subst h; exact Or.inr (Or.inl rfl)
        · exact Or.inr (Or.inr (Or.inl ⟨h1, h⟩))
      · rcases List.mem_cons.mp h1 with h2 | h2
        · exact Or.inr (Or.inl h2)
        · exact Or.inr (Or.inr (Or.inr h2))

theorem orMerge_chain :
    ∀ (s l : List Nat), List.Chain' (· < ·) l → List.Chain' (· < ·) s →
    List.Chain' (· < ·) (orMerge l s) := by
  intro s
  induction s with
  | nil => intro l hl _; simpa [orMerge] using hl
  | cons fid s2 ih =>
    intro l hl hs
    show List.Chain' (· < ·) (l.takeWhile (· < fid) ++
      fid :: orMerge (if (l.dropWhile (· < fid)).head? = some fid
        then (l.dropWhile (· < fid)).drop 1 else l.dropWhile (· < fid)) s2)
    have hl2 : List.Chain' (· < ·) (l.dropWhile (· < fid)) :=
      List.Chain'.sublist hl (List.dropWhile_sublist _)
    have hrest : List.Chain' (· < ·) (if (l.dropWhile (· < fid)).head? = some fid
        then (l.dropWhile (· < fid)).drop 1 else l.dropWhile (· < fid)) ∧
        (∀ y, y ∈ (if (l.dropWhile (· < fid)).head? = some fid
          then (l.dropWhile (· < fid)).drop 1 else l.dropWhile (· < fid)) →
          fid < y) := by
      by_cases hh : (l.dropWhile (· < fid)).head? = some fid
      · rw [if_pos hh]
        obtain ⟨tl, htl⟩ : ∃ tl, l.dropWhile (· < fid) = fid :: tl := by
          cases hd : l.dropWhile (· < fid) with
          | nil => rw [hd] at hh; simp at hh
          | cons a t => rw [hd] at hh; simp at hh; exact ⟨t, by rw [hh]⟩
        rw [htl] at hl2 ⊢
        exact ⟨List.Chain'.tail hl2, fun y hy => chainNatLt_head _ fid y hl2 hy⟩
      · rw [if_neg hh]
        have hfl : fid ∉ l := fun hm => hh ((sorted_dropWhile_head fid l hl).mpr hm)
        refine ⟨hl2, ?_⟩
        intro y hy
        have := (sorted_dropWhile_mem fid y l hl).mp hy
        rcases Nat.lt_or_ge fid y with h | h
        · exact h
        · have : y = fid := by omega
          subst this; exact absurd this.1 hfl
    refine chain_append_mid fid _ (ih _ hrest.1 (List.Chain'.tail hs)) ?_ _
      (List.Chain'.sublist hl (List.takeWhile_sublist _)) ?_
    · intro y hy
      rcases (orMerge_mem y s2 _ hrest.1 (List.Chain'.tail hs)).mp hy with h | h
      · exact hrest.2 y h
      · exact chainNatLt_head s2 fid y hs h
    · intro y hy
      exact ((sorted_takeWhile_mem fid y l hl).mp hy).2

theorem merge_orF_mem (x : Nat) :
    ∀ (f : Nat) (l1 l2 : List Nat),
    (x ∈ merge_orF f l1 l2 ↔ (x ∈ l1 ∨ x ∈ l2)) := by
  intro f
  induction f with
  | zero => intro l1 l2; simp [merge_orF]
  | succ n ih =>
    intro l1 l2
    match l1, l2 with
    | [], l2 => simp [merge_orF]
    | a :: l1, [] => simp [merge_orF]
    | a :: l1, b :: l2 =>
      show x ∈ (if a < b then a :: merge_orF n l1 (b :: l2)
        else if b < a then b :: merge_orF n (a :: l1) l2
        else a :: merge_orF n l1 l2) ↔ _
      rcases Nat.lt_trichotomy a b with h | h | h
      · rw [if_pos h, List.mem_cons, ih]
        simp only [List.mem_cons]
        tauto
      · rw [if_neg (by omega), if_neg (by omega), List.mem_cons, ih]
        subst h
        simp only [List.mem_cons]
        tauto
      · rw [if_neg (by omega), if_pos h, List.mem_cons, ih]
        simp only [List.mem_cons]
        tauto

theorem merge_orF_chain :
    ∀ (f : Nat) (l1 l2 : List Nat), l1.length + l2.length ≤ f →
    List.Chain' (· < ·) l1 → List.Chain' (· < ·) l2 →
    List.Chain' (· < ·) (merge_orF f l1 l2) := by
  intro f
  induction f with
  | zero =>
    intro l1 l2 hf h1 h2
    match l1, l2 with
    | [], [] => simp [merge_orF]
    | [], b :: l2 => simp at hf
    | a :: l1, _ => simp at hf
  | succ n ih =>
    intro l1 l2 hf h1 h2
    match l1, l2 with
    | [], l2 => simpa [merge_orF] using h2
    | a :: l1, [] => simpa [merge_orF] using h1
    | a :: l1, b :: l2 =>
      show List.Chain' (· < ·) (if a < b then a :: merge_orF n l1 (b :: l2)
        else if b < a then b :: merge_orF n (a :: l1) l2
        else a :: merge_orF n l1 l2)
      simp only [List.length_cons] at hf
      rcases Nat.lt_trichotomy a b with h | h | h
      · rw [if_pos h]
        refine List.chain'_cons'.mpr ⟨?_, ih l1 (b :: l2) (by simp only [List.length_cons]; omega)
          (List.Chain'.tail h1) h2⟩
        intro y hy
        rcases (merge_orF_mem y n l1 (b :: l2)).mp (List.mem_of_mem_head? hy) with hm | hm
        · exact chainNatLt_head l1 a y h1 hm
        · rcases List.mem_cons.mp hm with h3 | h3
          · omega
          · have := chainNatLt_head l2 b y h2 h3
            omega
      · rw [if_neg (by omega), if_neg (by omega)]
        subst h
        refine List.chain'_cons'.mpr ⟨?_, ih l1 l2 (by omega)
          (List.Chain'.tail h1) (List.Chain'.tail h2)⟩
        intro y hy
        rcases (merge_orF_mem y n l1 l2).mp (List.mem_of_mem_head? hy) with hm | hm
        · exact chainNatLt_head l1 a y h1 hm
        · exact chainNatLt_head l2 a y h2 hm
      · rw [if_neg (by omega), if_pos h]
        refine List.chain'_cons'.mpr ⟨?_, ih (a :: l1) l2 (by simp only [List.length_cons]; omega)
          h1 (List.Chain'.tail h2)⟩
        intro y hy
        rcases (merge_orF_mem y n (a :: l1) l2).mp (List.mem_of_mem_head? hy) with hm | hm
        · rcases List.mem_cons.mp hm with h3 | h3
          · omega
          · have := chainNatLt_head l1 a y h1 h3
            omega
        · exact chainNatLt_head l2 b y h2 hm

theorem merge_or_mem (x : Nat) (l1 l2 : List Nat) :
    x ∈ merge_or l1 l2 ↔ (x ∈ l1 ∨ x ∈ l2) :=
  merge_orF_mem x _ l1 l2

theorem merge_or_chain (l1 l2 : List Nat) (h1 : List.Chain' (· < ·) l1)
    (h2 : List.Chain' (· < ·) l2) : List.Chain' (· < ·) (merge_or l1 l2) :=
  merge_orF_chain _ l1 l2 (le_refl _) h1 h2
theorem posting_list_chain (ix : PIndex) (hWF : ix.WF) (t : Nat)
    (r : Option (List Nat)) (hr : RestrictOK ix r) :
    List.Chain' (· < ·) (posting_list ix t r) := by
  cases r with
  | none => exact (hWF t).1
  | some r0 => exact filterRestrict_chain _ r0 (hWF t).1 hr.1

theorem posting_list_mem (ix : PIndex) (hWF : ix.WF) (t : Nat)
    (r : Option (List Nat)) (hr : RestrictOK ix r) (x : Nat) :
    x ∈ posting_list ix t r ↔ (x ∈ ix.postings t ∧ rmem r x) := by
  cases r with
  | none => show x ∈ ix.postings t ↔ x ∈ ix.postings t ∧ True; simp
  | some r0 =>
    show x ∈ filterRestrict (ix.postings t) r0 ↔ _
    exact filterRestrict_mem x _ r0 (hWF t).1 hr.1

theorem andTriPart_spec (ix : PIndex) (hWF : ix.WF) (r : Option (List Nat))
    (hr : RestrictOK ix r) :
    ∀ (T : List Str) (acc : List Nat), List.Chain' (· < ·) acc →
    ∃ b acc2, andTriPart ix r T (some acc) = (b, some acc2) ∧
      List.Chain' (· < ·) acc2 ∧ (b = true → acc2 = []) ∧
      (∀ x, x ∈ acc2 ↔ (x ∈ acc ∧
        ∀ t ∈ T, (x ∈ ix.postings (trigram_u32 t) ∧ rmem r x))) := by
  intro T
  induction T with
  | nil =>
    intro acc hacc
    refine ⟨false, acc, rfl, hacc, by simp, ?_⟩
    intro x; simp
  | cons t ts ih =>
    intro acc hacc
    have hpl := posting_list_chain ix hWF (trigram_u32 t) r hr
    have hl : List.Chain' (· < ·) (andMerge acc (posting_list ix (trigram_u32 t) r)) :=
      andMerge_chain _ acc hacc hpl
    have hlm : ∀ x, x ∈ andMerge acc (posting_list ix (trigram_u32 t) r) ↔
        (x ∈ acc ∧ (x ∈ ix.postings (trigram_u32 t) ∧ rmem r x)) := by
      intro x
      rw [andMerge_mem x _ acc hacc hpl, posting_list_mem ix hWF _ r hr x]
    have hstep : andTriPart ix r (t :: ts) (some acc) =
        if (andMerge acc (posting_list ix (trigram_u32 t) r)).isEmpty
        then (true, some (andMerge acc (posting_list ix (trigram_u32 t) r)))
        else andTriPart ix r ts (some (andMerge acc (posting_list ix (trigram_u32 t) r))) := by
      simp [andTriPart]
    by_cases he : (andMerge acc (posting_list ix (trigram_u32 t) r)).isEmpty
    · rw [hstep, if_pos he]
      have hemp : andMerge acc (posting_list ix (trigram_u32 t) r) = [] :=
        List.isEmpty_iff.mp he
      refine ⟨true, _, rfl, hl, fun _ => hemp, ?_⟩
      intro x
      rw [hemp]
      constructor
      · intro h; simp at h
      · rintro ⟨hx, hT⟩
        have := (hlm x).mpr ⟨hx, hT t (List.mem_cons_self _ _)⟩
        rw [hemp] at this
        simp at this
    · rw [hstep, if_neg he]
      obtain ⟨b, acc2, heq, hch, hbt, hmem⟩ := ih _ hl
      refine ⟨b, acc2, heq, hch, hbt, ?_⟩
      intro x
      rw [hmem x, hlm x]
      constructor
      · rintro ⟨⟨h1, h2⟩, h3⟩
        refine ⟨h1, ?_⟩
        intro u hu
        rcases List.mem_cons.mp hu with h4 | h4
        · subst h4; exact h2
        · exact h3 u h4
      · rintro ⟨h1, h2⟩
        exact ⟨⟨h1, h2 t (List.mem_cons_self _ _)⟩,
          fun u hu => h2 u (List.mem_cons_of_mem _ hu)⟩

theorem andTriPart_none_spec (ix : PIndex) (hWF : ix.WF) (r : Option (List Nat))
    (hr : RestrictOK ix r) (t0 : Str) (ts : List Str) :
    ∃ b acc2, andTriPart ix r (t0 :: ts) Option.none = (b, some acc2) ∧
      List.Chain' (· < ·) acc2 ∧ (b = true → acc2 = []) ∧
      (∀ x, x ∈ acc2 ↔
        ((∀ t ∈ t0 :: ts, x ∈ ix.postings (trigram_u32 t)) ∧ rmem r x)) := by
  have hpl := posting_list_chain ix hWF (trigram_u32 t0) r hr
  have hplm := posting_list_mem ix hWF (trigram_u32 t0) r hr
  have hstep : andTriPart ix r (t0 :: ts) Option.none =
      if (posting_list ix (trigram_u32 t0) r).isEmpty
      then (true, some (posting_list ix (trigram_u32 t0) r))
      else andTriPart ix r ts (some (posting_list ix (trigram_u32 t0) r)) := by
    simp [andTriPart]
  by_cases he : (posting_list ix (trigram_u32 t0) r).isEmpty
  · rw [hstep, if_pos he]
    have hemp : posting_list ix (trigram_u32 t0) r = [] := List.isEmpty_iff.mp he
    refine ⟨true, _, rfl, hpl, fun _ => hemp, ?_⟩
    intro x
    rw [hemp]
    constructor
    · intro h; simp at h
    · rintro ⟨hT, hrm⟩
      have := (hplm x).mpr ⟨hT t0 (List.mem_cons_self _ _), hrm⟩
      rw [hemp] at this
      simp at this
  · rw [hstep, if_neg he]
    obtain ⟨b, acc2, heq, hch, hbt, hmem⟩ := andTriPart_spec ix hWF r hr ts _ hpl
    refine ⟨b, acc2, heq, hch, hbt, ?_⟩
    intro x
    rw [hmem x, hplm x]
    constructor
    · rintro ⟨⟨h1, h2⟩, h3⟩
      refine ⟨?_, h2⟩
      intro u hu
      rcases List.mem_cons.mp hu with h4 | h4
      · subst h4; exact h1
      · exact (h3 u h4).1
    · rintro ⟨h1, h2⟩
      exact ⟨⟨h1 t0 (List.mem_cons_self _ _), h2⟩,
        fun u hu => ⟨h1 u (List.mem_cons_of_mem _ hu), h2⟩⟩

theorem orTriPart_spec (ix : PIndex) (hWF : ix.WF) (r : Option (List Nat))
    (hr : RestrictOK ix r) :
    ∀ (T : List Str) (acc : List Nat), List.Chain' (· < ·) acc →
    ∃ acc2, orTriPart ix r T (some acc) = some acc2 ∧
      List.Chain' (· < ·) acc2 ∧
      (∀ x, x ∈ acc2 ↔ (x ∈ acc ∨
        ∃ t ∈ T, (x ∈ ix.postings (trigram_u32 t) ∧ rmem r x))) := by
  intro T
  induction T with
  | nil =>
    intro acc hacc
    refine ⟨acc, rfl, hacc, ?_⟩
    intro x; simp
  | cons t ts ih =>
    intro acc hacc
    have hpl := posting_list_chain ix hWF (trigram_u32 t) r hr
    have hl : List.Chain' (· < ·) (orMerge acc (posting_list ix (trigram_u32 t) r)) :=
      orMerge_chain _ acc hacc hpl
    have hlm : ∀ x, x ∈ orMerge acc (posting_list ix (trigram_u32 t) r) ↔
        (x ∈ acc ∨ (x ∈ ix.postings (trigram_u32 t) ∧ rmem r x)) := by
      intro x
      rw [orMerge_mem x _ acc hacc hpl, posting_list_mem ix hWF _ r hr x]
    have hstep : orTriPart ix r (t :: ts) (some acc) =
        orTriPart ix r ts (some (orMerge acc (posting_list ix (trigram_u32 t) r))) := by
      simp [orTriPart]
    rw [hstep]
    obtain ⟨acc2, heq, hch, hmem⟩ := ih _ hl
    refine ⟨acc2, heq, hch, ?_⟩
    intro x
    rw [hmem x, hlm x]
    constructor
    · rintro ((h1 | h1) | ⟨u, hu, h2⟩)
      · exact Or.inl h1
      · exact Or.inr ⟨t, List.mem_cons_self _ _, h1⟩
      · exact Or.inr ⟨u, List.mem_cons_of_mem _ hu, h2⟩
    · rintro (h1 | ⟨u, hu, h2⟩)
      · exact Or.inl (Or.inl h1)
      · rcases List.mem_cons.mp hu with h3 | h3
        · subst h3; exact Or.inl (Or.inr h2)
        · exact Or.inr ⟨u, h3, h2⟩

theorem orTriPart_none_spec (ix : PIndex) (hWF : ix.WF) (r : Option (List Nat))
    (hr : RestrictOK ix r) (t0 : Str) (ts : List Str) :
    ∃ acc2, orTriPart ix r (t0 :: ts) Option.none = some acc2 ∧
      List.Chain' (· < ·) acc2 ∧
      (∀ x, x ∈ acc2 ↔
        ∃ t ∈ t0 :: ts, (x ∈ ix.postings (trigram_u32 t) ∧ rmem r x)) := by
  have hpl := posting_list_chain ix hWF (trigram_u32 t0) r hr
  have hplm := posting_list_mem ix hWF (trigram_u32 t0) r hr
  have hstep : orTriPart ix r (t0 :: ts) Option.none =
      orTriPart ix r ts (some (posting_list ix (trigram_u32 t0) r)) := by
    simp [orTriPart]
  rw [hstep]
  obtain ⟨acc2, heq, hch, hmem⟩ := orTriPart_spec ix hWF r hr ts _ hpl
  refine ⟨acc2, heq, hch, ?_⟩
  intro x
  rw [hmem x, hplm x]
  constructor
  · rintro (⟨h1, h2⟩ | ⟨u, hu, h2⟩)
    · exact ⟨t0, List.mem_cons_self _ _, h1, h2⟩
    · exact ⟨u, List.mem_cons_of_mem _ hu, h2⟩
  · rintro ⟨u, hu, h2⟩
    rcases List.mem_cons.mp hu with h3 | h3
    · subst h3; exact Or.inl h2
    · exact Or.inr ⟨u, h3, h2⟩
mutual

theorem pqr_spec (ix : PIndex) (hWF : ix.WF) :
    ∀ (q : Query) (r : Option (List Nat)), RestrictOK ix r →
    List.Chain' (· < ·) (posting_query_rec ix q r) ∧
    (∀ x ∈ posting_query_rec ix q r, x < ix.numName) ∧
    (∀ x, x ∈ posting_query_rec ix q r ↔ (postDen ix x q ∧ rmem r x))
  | .mk .none T subs, r, hr => by
    have h : posting_query_rec ix (Query.mk .none T subs) r = [] := by
      simp [posting_query_rec]
    rw [h]
    refine ⟨by simp, by simp, ?_⟩
    intro x
    simp [postDen]
  | .mk .all T subs, r, hr => by
    have h : posting_query_rec ix (Query.mk .all T subs) r =
        r.getD (List.range ix.numName) := by
      simp [posting_query_rec]
    rw [h]
    cases r with
    | none =>
      simp only [Option.getD_none]
      refine ⟨List.Pairwise.chain' (List.pairwise_lt_range _), ?_, ?_⟩
      · intro x hx; exact List.mem_range.mp hx
      · intro x
        show x ∈ List.range ix.numName ↔ postDen ix x (Query.mk .all T subs) ∧ True
        simp [postDen, List.mem_range]
    | some r0 =>
      simp only [Option.getD_some]
      refine ⟨hr.1, hr.2, ?_⟩
      intro x
      show x ∈ r0 ↔ postDen ix x (Query.mk .all T subs) ∧ x ∈ r0
      simp only [postDen]
      constructor
      · intro hx; exact ⟨hr.2 x hx, hx⟩
      · intro hx; exact hx.2
  | .mk .and T subs, r, hr => by
    cases T with
    | nil =>
      have h : posting_query_rec ix (Query.mk .and [] subs) r =
          andSubLoop ix r subs Option.none := by
        simp [posting_query_rec, andTriPart]
      rw [h]
      obtain ⟨hch, hbd, hmem⟩ := andSub_spec ix hWF subs r hr Option.none trivial
      refine ⟨hch, hbd, ?_⟩
      intro x
      rw [hmem x]
      simp only [postDen]
      have hT : ∀ t ∈ ([] : List Str), x ∈ ix.postings (trigram_u32 t) := by simp
      constructor
      · rintro ⟨⟨h1, h2⟩, h3⟩; exact ⟨⟨h2, hT, h3⟩, h1⟩
      · rintro ⟨⟨h1, _, h3⟩, h2⟩; exact ⟨⟨h2, h1⟩, h3⟩
    | cons t0 ts =>
      obtain ⟨b, acc2, heq, hch2, hbt, hmem2⟩ := andTriPart_none_spec ix hWF r hr t0 ts
      have h0 : posting_query_rec ix (Query.mk .and (t0 :: ts) subs) r =
          (match andTriPart ix r (t0 :: ts) Option.none with
            | (true, _) => []
            | (false, l0) => andSubLoop ix r subs l0) := by
        simp [posting_query_rec]
      rw [heq] at h0
      cases b with
      | true =>
        have h1 : posting_query_rec ix (Query.mk .and (t0 :: ts) subs) r = [] := h0
        rw [h1]
        refine ⟨by simp, by simp, ?_⟩
        intro x
        constructor
        · intro hx; simp at hx
        · rintro ⟨hd, hrm⟩
          simp only [postDen] at hd
          have hx2 : x ∈ acc2 := (hmem2 x).mpr ⟨hd.2.1, hrm⟩
          rw [hbt rfl] at hx2
          simp at hx2
      | false =>
        have h1 : posting_query_rec ix (Query.mk .and (t0 :: ts) subs) r =
            andSubLoop ix r subs (some acc2) := h0
        rw [h1]
        have hbd2 : ∀ x ∈ acc2, x < ix.numName := by
          intro x hx
          have := ((hmem2 x).mp hx).1 t0 (List.mem_cons_self _ _)
          exact (hWF (trigram_u32 t0)).2 x this
        obtain ⟨hch, hbd, hmem⟩ :=
          andSub_spec ix hWF subs r hr (some acc2) ⟨hch2, hbd2⟩
        refine ⟨hch, hbd, ?_⟩
        intro x
        rw [hmem x]
        simp only [postDen]
        constructor
        · rintro ⟨h1, h3⟩
          obtain ⟨h4, h5⟩ := (hmem2 x).mp h1
          exact ⟨⟨hbd2 x h1, h4, h3⟩, h5⟩
        · rintro ⟨⟨h1, h4, h3⟩, h5⟩
          exact ⟨(hmem2 x).mpr ⟨h4, h5⟩, h3⟩
  | .mk .or T subs, r, hr => by
    cases T with
    | nil =>
      have h : posting_query_rec ix (Query.mk .or [] subs) r =
          orSubLoop ix r subs [] := by
        simp [posting_query_rec, orTriPart]
      rw [h]
      obtain ⟨hch, hbd, hmem⟩ := orSub_spec ix hWF subs r hr [] (by simp) (by simp)
      refine ⟨hch, hbd, ?_⟩
      intro x
      rw [hmem x]
      simp only [postDen]
      constructor
      · rintro (hx | ⟨h1, h2⟩)
        · simp at hx
        · exact ⟨Or.inr h1, h2⟩
      · rintro ⟨h1 | h1, h2⟩
        · obtain ⟨u, hu, _⟩ := h1; simp at hu
        · exact Or.inr ⟨h1, h2⟩
    | cons t0 ts =>
      obtain ⟨acc2, heq, hch2, hmem2⟩ := orTriPart_none_spec ix hWF r hr t0 ts
      have h0 : posting_query_rec ix (Query.mk .or (t0 :: ts) subs) r =
          orSubLoop ix r subs ((orTriPart ix r (t0 :: ts) Option.none).getD []) := by
        simp [posting_query_rec]
      rw [heq] at h0
      have h1 : posting_query_rec ix (Query.mk .or (t0 :: ts) subs) r =
          orSubLoop ix r subs acc2 := h0
      rw [h1]
      have hbd2 : ∀ x ∈ acc2, x < ix.numName := by
        intro x hx
        obtain ⟨u, hu, h2, _⟩ := (hmem2 x).mp hx
        exact (hWF (trigram_u32 u)).2 x h2
      obtain ⟨hch, hbd, hmem⟩ := orSub_spec ix hWF subs r hr acc2 hch2 hbd2
      refine ⟨hch, hbd, ?_⟩
      intro x
      rw [hmem x]
      simp only [postDen]
      constructor
      · rintro (hx | ⟨h1, h2⟩)
        · obtain ⟨u, hu, h2, h3⟩ := (hmem2 x).mp hx
          exact ⟨Or.inl ⟨u, hu, h2⟩, h3⟩
        · exact ⟨Or.inr h1, h2⟩
      · rintro ⟨h1 | h1, h2⟩
        · obtain ⟨u, hu, h3⟩ := h1
          exact Or.inl ((hmem2 x).mpr ⟨u, hu, h3, h2⟩)
        · exact Or.inr ⟨h1, h2⟩

theorem andSub_spec (ix : PIndex) (hWF : ix.WF) :
    ∀ (qs : List Query) (r : Option (List Nat)), RestrictOK ix r →
    ∀ (curO : Option (List Nat)), RestrictOK ix curO →
    List.Chain' (· < ·) (andSubLoop ix r qs curO) ∧
    (∀ x ∈ andSubLoop ix r qs curO, x < ix.numName) ∧
    (∀ x, x ∈ andSubLoop ix r qs curO ↔
      ((match curO with
        | Option.none => rmem r x ∧ x < ix.numName
        | some c => x ∈ c) ∧ postDenAll ix x qs))
  | [], r, hr, curO, hcur => by
    cases curO with
    | some c =>
      have h : andSubLoop ix r [] (some c) = c := by simp [andSubLoop]
      rw [h]
      refine ⟨hcur.1, hcur.2, ?_⟩
      intro x
      show x ∈ c ↔ x ∈ c ∧ postDenAll ix x []
      simp [postDenAll]
    | none =>
      have h : andSubLoop ix r [] Option.none = r.getD (List.range ix.numName) := by
        simp [andSubLoop]
      rw [h]
      cases r with
      | none =>
        simp only [Option.getD_none]
        refine ⟨List.Pairwise.chain' (List.pairwise_lt_range _), ?_, ?_⟩
        · intro x hx; exact List.mem_range.mp hx
        · intro x
          show x ∈ List.range ix.numName ↔ (rmem Option.none x ∧ x < ix.numName) ∧
            postDenAll ix x []
          simp [rmem, postDenAll, List.mem_range]
      | some r0 =>
        simp only [Option.getD_some]
        refine ⟨hr.1, hr.2, ?_⟩
        intro x
        show x ∈ r0 ↔ (rmem (some r0) x ∧ x < ix.numName) ∧ postDenAll ix x []
        simp only [rmem, postDenAll, and_true]
        constructor
        · intro hx; exact ⟨hx, hr.2 x hx⟩
        · intro hx; exact hx.1
  | q :: qs, r, hr, curO, hcur => by
    cases curO with
    | some c =>
      have h0 : andSubLoop ix r (q :: qs) (some c) =
          if (posting_query_rec ix q (some c)).isEmpty then []
          else andSubLoop ix r qs (some (posting_query_rec ix q (some c))) := by
        simp [andSubLoop]
      obtain ⟨hqch, hqbd, hqmem⟩ := pqr_spec ix hWF q (some c) hcur
      by_cases he : (posting_query_rec ix q (some c)).isEmpty
      · rw [h0, if_pos he]
        have hemp : posting_query_rec ix q (some c) = [] := List.isEmpty_iff.mp he
        refine ⟨by simp, by simp, ?_⟩
        intro x
        constructor
        · intro hx; simp at hx
        · rintro ⟨hxc, hdq, _⟩
          have : x ∈ posting_query_rec ix q (some c) := (hqmem x).mpr ⟨hdq, hxc⟩
          rw [hemp] at this
          simp at this
      · rw [h0, if_neg he]
        obtain ⟨hch, hbd, hmem⟩ :=
          andSub_spec ix hWF qs r hr (some (posting_query_rec ix q (some c)))
            ⟨hqch, hqbd⟩
        refine ⟨hch, hbd, ?_⟩
        intro x
        rw [hmem x]
        show x ∈ posting_query_rec ix q (some c) ∧ postDenAll ix x qs ↔
          x ∈ c ∧ postDenAll ix x (q :: qs)
        rw [hqmem x]
        simp only [postDenAll]
        show (postDen ix x q ∧ rmem (some c) x) ∧ postDenAll ix x qs ↔ _
        simp only [rmem]
        tauto
    | none =>
      have h0 : andSubLoop ix r (q :: qs) Option.none =
          if (posting_query_rec ix q r).isEmpty then []
          else andSubLoop ix r qs (some (posting_query_rec ix q r)) := by
        simp [andSubLoop]
      obtain ⟨hqch, hqbd, hqmem⟩ := pqr_spec ix hWF q r hr
      by_cases he : (posting_query_rec ix q r).isEmpty
      · rw [h0, if_pos he]
        have hemp : posting_query_rec ix q r = [] := List.isEmpty_iff.mp he
        refine ⟨by simp, by simp, ?_⟩
        intro x
        constructor
        · intro hx; simp at hx
        · rintro ⟨⟨hrm, hxn⟩, hdq, _⟩
          have : x ∈ posting_query_rec ix q r := (hqmem x).mpr ⟨hdq, hrm⟩
          rw [hemp] at this
          simp at this
      · rw [h0, if_neg he]
        obtain ⟨hch, hbd, hmem⟩ :=
          andSub_spec ix hWF qs r hr (some (posting_query_rec ix q r))
            ⟨hqch, hqbd⟩
        refine ⟨hch, hbd, ?_⟩
        intro x
        rw [hmem x]
        show x ∈ posting_query_rec ix q r ∧ postDenAll ix x qs ↔
          (rmem r x ∧ x < ix.numName) ∧ postDenAll ix x (q :: qs)
        simp only [postDenAll]
        constructor
        · rintro ⟨h1, h2⟩
          have hb := hqbd x h1
          obtain ⟨h3, h4⟩ := (hqmem x).mp h1
          exact ⟨⟨h4, hb⟩, h3, h2⟩
        · rintro ⟨⟨h1, h2⟩, h3, h4⟩
          exact ⟨(hqmem x).mpr ⟨h3, h1⟩, h4⟩

theorem orSub_spec (ix : PIndex) (hWF : ix.WF) :
    ∀ (qs : List Query) (r : Option (List Nat)), RestrictOK ix r →
    ∀ (cur : List Nat), List.Chain' (· < ·) cur → (∀ x ∈ cur, x < ix.numName) →
    List.Chain' (· < ·) (orSubLoop ix r qs cur) ∧
    (∀ x ∈ orSubLoop ix r qs cur, x < ix.numName) ∧
    (∀ x, x ∈ orSubLoop ix r qs cur ↔
      (x ∈ cur ∨ (postDenAny ix x qs ∧ rmem r x)))
  | [], r, hr, cur, hchc, hbdc => by
    have h : orSubLoop ix r [] cur = cur := by simp [orSubLoop]
    rw [h]
    refine ⟨hchc, hbdc, ?_⟩
    intro x
    simp [postDenAny]
  | q :: qs, r, hr, cur, hchc, hbdc => by
    have h : orSubLoop ix r (q :: qs) cur =
        orSubLoop ix r qs (merge_or cur (posting_query_rec ix q r)) := by
      simp [orSubLoop]
    rw [h]
    obtain ⟨hqch, hqbd, hqmem⟩ := pqr_spec ix hWF q r hr
    have hmch : List.Chain' (· < ·) (merge_or cur (posting_query_rec ix q r)) :=
      merge_or_chain cur _ hchc hqch
    have hmbd : ∀ x ∈ merge_or cur (posting_query_rec ix q r), x < ix.numName := by
      intro x hx
      rcases (merge_or_mem x cur _).mp hx with h1 | h1
      · exact hbdc x h1
      · exact hqbd x h1
    obtain ⟨hch, hbd, hmem⟩ := orSub_spec ix hWF qs r hr _ hmch hmbd
    refine ⟨hch, hbd, ?_⟩
    intro x
    rw [hmem x]
    simp only [postDenAny]
    rw [merge_or_mem x cur _, hqmem x]
    tauto

end
/-- C2: over any well-formed index, `posting_query` of the `Or` node of two
queries returns the strictly ascending list whose members are exactly the
union of the members of the two sub-query results, and `posting_query` of
the `And` node returns the strictly ascending list whose members are
exactly the intersection (a strictly ascending list is determined by its
members, so these are the ascending sorted union and intersection). -/
theorem c2_posting_query_or_and (ix : PIndex) (hWF : ix.WF) (q1 q2 : Query) :
    (List.Chain' (· < ·) (posting_query ix (Query.mk .or [] [q1, q2])) ∧
      ∀ x, x ∈ posting_query ix (Query.mk .or [] [q1, q2]) ↔
        (x ∈ posting_query ix q1 ∨ x ∈ posting_query ix q2)) ∧
    (List.Chain' (· < ·) (posting_query ix (Query.mk .and [] [q1, q2])) ∧
      ∀ x, x ∈ posting_query ix (Query.mk .and [] [q1, q2]) ↔
        (x ∈ posting_query ix q1 ∧ x ∈ posting_query ix q2)) := by
  have hnone : RestrictOK ix Option.none := trivial
  obtain ⟨hch1, hbd1, hmem1⟩ := pqr_spec ix hWF q1 Option.none hnone
  obtain ⟨hch2, hbd2, hmem2⟩ := pqr_spec ix hWF q2 Option.none hnone
  obtain ⟨hchO, hbdO, hmemO⟩ :=
    pqr_spec ix hWF (Query.mk .or [] [q1, q2]) Option.none hnone
  obtain ⟨hchA, hbdA, hmemA⟩ :=
    pqr_spec ix hWF (Query.mk .and [] [q1, q2]) Option.none hnone
  have hq1 : ∀ x, x ∈ posting_query ix q1 ↔ postDen ix x q1 := by
    intro x
    show x ∈ posting_query_rec ix q1 Option.none ↔ _
    rw [hmem1 x]
    show postDen ix x q1 ∧ True ↔ _
    simp
  have hq2 : ∀ x, x ∈ posting_query ix q2 ↔ postDen ix x q2 := by
    intro x
    show x ∈ posting_query_rec ix q2 Option.none ↔ _
    rw [hmem2 x]
    show postDen ix x q2 ∧ True ↔ _
    simp
  constructor
  · refine ⟨hchO, ?_⟩
    intro x
    show x ∈ posting_query_rec ix (Query.mk .or [] [q1, q2]) Option.none ↔ _
    rw [hmemO x, hq1 x, hq2 x]
    show postDen ix x (Query.mk .or [] [q1, q2]) ∧ True ↔ _
    simp [postDen, postDenAny]
  · refine ⟨hchA, ?_⟩
    intro x
    show x ∈ posting_query_rec ix (Query.mk .and [] [q1, q2]) Option.none ↔ _
    rw [hmemA x, hq1 x, hq2 x]
    show postDen ix x (Query.mk .and [] [q1, q2]) ∧ True ↔ _
    simp only [postDen, postDenAll, and_true]
    constructor
    · rintro ⟨h1, h2, h3, h4⟩
      exact ⟨h3, h4⟩
    · rintro ⟨h1, h2⟩
      have hxn : x < ix.numName := hbd1 x ((hq1 x).mpr h1)
      exact ⟨hxn, by simp, h1, h2⟩

theorem c2_posting_query_or_and_witness :
    PIndex.WF ⟨1, fun _ => [0]⟩ ∧
    ((List.Chain' (· < ·)
        (posting_query ⟨1, fun _ => [0]⟩ (Query.mk .or [] [Query.allQ, Query.noneQ])) ∧
      ∀ x, x ∈ posting_query ⟨1, fun _ => [0]⟩ (Query.mk .or [] [Query.allQ, Query.noneQ]) ↔
        (x ∈ posting_query ⟨1, fun _ => [0]⟩ Query.allQ ∨
          x ∈ posting_query ⟨1, fun _ => [0]⟩ Query.noneQ)) ∧
    (List.Chain' (· < ·)
        (posting_query ⟨1, fun _ => [0]⟩ (Query.mk .and [] [Query.allQ, Query.noneQ])) ∧
      ∀ x, x ∈ posting_query ⟨1, fun _ => [0]⟩ (Query.mk .and [] [Query.allQ, Query.noneQ]) ↔
        (x ∈ posting_query ⟨1, fun _ => [0]⟩ Query.allQ ∧
          x ∈ posting_query ⟨1, fun _ => [0]⟩ Query.noneQ))) :=
  ⟨fun t => ⟨by simp, by simp⟩,
    c2_posting_query_or_and ⟨1, fun _ => [0]⟩ (fun t => ⟨by simp, by simp⟩)
      Query.allQ Query.noneQ⟩

theorem insertLe_mem (x y : Str) : ∀ (l : List Str), (y ∈ insertLe x l ↔ (y = x ∨ y ∈ l)) := by
  intro l
  induction l with
  | nil => simp [insertLe]
  | cons a t ih =>
    show y ∈ (if lexLe x a then x :: a :: t else a :: insertLe x t) ↔ _
    by_cases h : lexLe x a
    · rw [if_pos h]; simp
    · rw [if_neg h]
      simp only [List.mem_cons, ih]
      tauto

theorem sortStr_mem (y : Str) : ∀ (l : List Str), (y ∈ sortStr l ↔ y ∈ l) := by
  intro l
  induction l with
  | nil => simp [sortStr]
  | cons a t ih =>
    show y ∈ insertLe a (sortStr t) ↔ _
    rw [insertLe_mem, ih]
    simp

theorem dedupAdj_mem (y : Str) : ∀ (l : List Str), (y ∈ dedupAdj l ↔ y ∈ l) := by
  intro l
  induction l with
  | nil => simp [dedupAdj]
  | cons a t ih =>
    cases t with
    | nil => simp [dedupAdj]
    | cons b t2 =>
      show y ∈ (if a = b then dedupAdj (b :: t2) else a :: dedupAdj (b :: t2)) ↔ _
      by_cases h : a = b
      · rw [if_pos h, ih]
        subst h
        simp
      · rw [if_neg h]
        simp only [List.mem_cons, ih]

theorem clean_set_mem (y : Str) (l : List Str) : y ∈ clean_set l ↔ y ∈ l := by
  show y ∈ dedupAdj (sortStr l) ↔ _
  rw [dedupAdj_mem, sortStr_mem]

theorem union_sets_mem (y : Str) (s t : List Str) :
    y ∈ union_sets s t ↔ (y ∈ s ∨ y ∈ t) := by
  show y ∈ clean_set (s ++ t) ↔ _
  rw [clean_set_mem]
  simp

theorem cross_sets_mem_of (a b : Str) (s t : List Str) (ha : a ∈ s) (hb : b ∈ t) :
    a ++ b ∈ cross_sets s t := by
  show a ++ b ∈ clean_set _
  rw [clean_set_mem]
  simp only [List.mem_flatMap, List.mem_map]
  exact ⟨a, ha, b, hb, rfl⟩

theorem insertLeBy_mem (le : Str → Str → Bool) (x y : Str) :
    ∀ (l : List Str), (y ∈ insertLeBy le x l ↔ (y = x ∨ y ∈ l)) := by
  intro l
  induction l with
  | nil => simp [insertLeBy]
  | cons a t ih =>
    show y ∈ (if le x a then x :: a :: t else a :: insertLeBy le x t) ↔ _
    by_cases h : le x a
    · rw [if_pos h]; simp
    · rw [if_neg h]
      simp only [List.mem_cons, ih]
      tauto

theorem sortStrBy_mem (le : Str → Str → Bool) (y : Str) :
    ∀ (l : List Str), (y ∈ sortStrBy le l ↔ y ∈ l) := by
  intro l
  induction l with
  | nil => simp [sortStrBy]
  | cons a t ih =>
    show y ∈ insertLeBy le a (sortStrBy le t) ↔ _
    rw [insertLeBy_mem, ih]
    simp

theorem is_subset_sound (x : Str) :
    ∀ (s t : List Str), is_subset s t = true → x ∈ s → x ∈ t := by
  intro s
  induction s with
  | nil => intro t _ hx; simp at hx
  | cons ss s2 ih =>
    intro t hsub hx
    have hstep : is_subset (ss :: s2) t =
        (match t.dropWhile (fun u => lexLt u ss) with
        | [] => false
        | u :: t3 => if u = ss then is_subset s2 (t.dropWhile (fun u => lexLt u ss))
          else false) := by
      simp [is_subset]
    rw [hstep] at hsub
    cases hd : t.dropWhile (fun u => lexLt u ss) with
    | nil => rw [hd] at hsub; simp at hsub
    | cons u t3 =>
      have hsub2 : (if u = ss then is_subset s2 (u :: t3) else false) = true := by
        rw [hd] at hsub
        exact hsub
      have hmem : ∀ y, y ∈ u :: t3 → y ∈ t := by
        intro y hy
        rw [← hd] at hy
        exact List.Sublist.mem hy (List.dropWhile_sublist _)
      by_cases hu : u = ss
      · rw [if_pos hu] at hsub2
        rcases List.mem_cons.mp hx with h | h
        · subst h
          subst hu
          exact hmem _ (List.mem_cons_self _ _)
        · exact hmem _ (ih _ hsub2 h)
      · rw [if_neg hu] at hsub2; simp at hsub2

theorem intersection_splitF_parts :
    ∀ (f : Nat) (s t : List Str),
    (∀ x ∈ s, x ∈ (intersection_splitF f s t).1 ∨ x ∈ (intersection_splitF f s t).2.1) ∧
    (∀ x ∈ t, x ∈ (intersection_splitF f s t).1 ∨ x ∈ (intersection_splitF f s t).2.2) ∧
    (∀ x ∈ (intersection_splitF f s t).1, x ∈ s ∧ x ∈ t) ∧
    (∀ x ∈ (intersection_splitF f s t).2.1, x ∈ s) ∧
    (∀ x ∈ (intersection_splitF f s t).2.2, x ∈ t) := by
  intro f
  induction f with
  | zero =>
    intro s t
    refine ⟨?_, ?_, ?_, ?_, ?_⟩ <;> intro x hx <;> simp [intersection_splitF] at hx ⊢ <;>
      tauto
  | succ n ih =>
    intro s t
    match s, t with
    | [], t =>
      refine ⟨?_, ?_, ?_, ?_, ?_⟩ <;> intro x hx <;> simp [intersection_splitF] at hx ⊢ <;>
        tauto
    | a :: s, [] =>
      refine ⟨?_, ?_, ?_, ?_, ?_⟩ <;> intro x hx <;> simp [intersection_splitF] at hx ⊢ <;>
        tauto
    | a :: s, b :: t =>
      rcases hc : strCmp a b with _ | _ | _
      · rcases hrec : intersection_splitF n s (b :: t) with ⟨c, so, ro⟩
        obtain ⟨ih1, ih2, ih3, ih4, ih5⟩ := ih s (b :: t)
        simp only [hrec] at ih1 ih2 ih3 ih4 ih5
        have hstep : intersection_splitF (n + 1) (a :: s) (b :: t) = (c, a :: so, ro) := by
          simp only [intersection_splitF, hc, hrec]
        rw [hstep]
        refine ⟨?_, ?_, ?_, ?_, ?_⟩
        · intro x hx
          rcases List.mem_cons.mp hx with h | h
          · exact Or.inr (h ▸ List.mem_cons_self _ _)
          · rcases ih1 x h with h2 | h2
            · exact Or.inl h2
            · exact Or.inr (List.mem_cons_of_mem _ h2)
        · intro x hx
          exact ih2 x hx
        · intro x hx
          obtain ⟨h1, h2⟩ := ih3 x hx
          exact ⟨List.mem_cons_of_mem _ h1, h2⟩
        · intro x hx
          rcases List.mem_cons.mp hx with h | h
          · exact h ▸ List.mem_cons_self _ _
          · exact List.mem_cons_of_mem _ (ih4 x h)
        · intro x hx
          exact ih5 x hx
      · rcases hrec : intersection_splitF n s t with ⟨c, so, ro⟩
        obtain ⟨kh1, kh2, kh3, kh4, kh5⟩ := ih s t
        simp only [hrec] at kh1 kh2 kh3 kh4 kh5
        have hstep : intersection_splitF (n + 1) (a :: s) (b :: t) = (a :: c, so, ro) := by
          simp only [intersection_splitF, hc, hrec]
        rw [hstep]
        have hab : a = b := (strCmp_eq_iff a b).mp hc
        refine ⟨?_, ?_, ?_, ?_, ?_⟩
        · intro x hx
          rcases List.mem_cons.mp hx with h | h
          · exact Or.inl (h ▸ List.mem_cons_self _ _)
          · rcases kh1 x h with h2 | h2
            · exact Or.inl (List.mem_cons_of_mem _ h2)
            · exact Or.inr h2
        · intro x hx
          rcases List.mem_cons.mp hx with h | h
          · subst h
            exact Or.inl (hab ▸ List.mem_cons_self _ _)
          · rcases kh2 x h with h2 | h2
            · exact Or.inl (List.mem_cons_of_mem _ h2)
            · exact Or.inr h2
        · intro x hx
          rcases List.mem_cons.mp hx with h | h
          · subst h
            exact ⟨List.mem_cons_self _ _, hab ▸ List.mem_cons_self _ _⟩
          · obtain ⟨h1, h2⟩ := kh3 x h
            exact ⟨List.mem_cons_of_mem _ h1, List.mem_cons_of_mem _ h2⟩
        · intro x hx
          exact List.mem_cons_of_mem _ (kh4 x hx)
        · intro x hx
          exact List.mem_cons_of_mem _ (kh5 x hx)
      · rcases hrec : intersection_splitF n (a :: s) t with ⟨c, so, ro⟩
        obtain ⟨jh1, jh2, jh3, jh4, jh5⟩ := ih (a :: s) t
        simp only [hrec] at jh1 jh2 jh3 jh4 jh5
        have hstep : intersection_splitF (n + 1) (a :: s) (b :: t) = (c, so, b :: ro) := by
          simp only [intersection_splitF, hc, hrec]
        rw [hstep]
        refine ⟨?_, ?_, ?_, ?_, ?_⟩
        · intro x hx
          exact jh1 x hx
        · intro x hx
          rcases List.mem_cons.mp hx with h | h
          · exact Or.inr (h ▸ List.mem_cons_self _ _)
          · rcases jh2 x h with h2 | h2
            · exact Or.inl h2
            · exact Or.inr (List.mem_cons_of_mem _ h2)
        · intro x hx
          obtain ⟨h1, h2⟩ := jh3 x hx
          exact ⟨h1, List.mem_cons_of_mem _ h2⟩
        · intro x hx
          exact jh4 x hx
        · intro x hx
          rcases List.mem_cons.mp hx with h | h
          · exact h ▸ List.mem_cons_self _ _
          · exact List.mem_cons_of_mem _ (jh5 x h)

theorem evalAllQ_append (S : Str → Bool) (l1 l2 : List Query) :
    evalAllQ S (l1 ++ l2) = (evalAllQ S l1 && evalAllQ S l2) := by
  induction l1 with
  | nil => simp [evalAllQ]
  | cons q qs ih =>
    show evalAllQ S (q :: (qs ++ l2)) = _
    simp only [evalAllQ, ih, Bool.and_assoc]

theorem evalAnyQ_append (S : Str → Bool) (l1 l2 : List Query) :
    evalAnyQ S (l1 ++ l2) = (evalAnyQ S l1 || evalAnyQ S l2) := by
  induction l1 with
  | nil => simp [evalAnyQ]
  | cons q qs ih =>
    show evalAnyQ S (q :: (qs ++ l2)) = _
    simp only [evalAnyQ, ih, Bool.or_assoc]

theorem evalAllQ_mem (S : Str → Bool) :
    ∀ (l : List Query), evalAllQ S l = true ↔ (∀ q ∈ l, evalQ S q = true) := by
  intro l
  induction l with
  | nil => simp [evalAllQ]
  | cons q qs ih =>
    show (evalQ S q && evalAllQ S qs) = true ↔ _
    rw [Bool.and_eq_true, ih]
    simp

theorem evalAnyQ_mem (S : Str → Bool) :
    ∀ (l : List Query), evalAnyQ S l = true ↔ (∃ q ∈ l, evalQ S q = true) := by
  intro l
  induction l with
  | nil => simp [evalAnyQ]
  | cons q qs ih =>
    show (evalQ S q || evalAnyQ S qs) = true ↔ _
    rw [Bool.or_eq_true, ih]
    simp

mutual

theorem evalQ_mono (S T : Str → Bool) (hST : ∀ t, S t = true → T t = true) :
    ∀ (q : Query), evalQ S q = true → evalQ T q = true
  | .mk .all A B, h => by
    show evalQ T (.mk .all A B) = true
    simp [evalQ]
  | .mk .none A B, h => by
    rw [show evalQ S (.mk .none A B) = false from by simp [evalQ]] at h
    cases h
  | .mk .and A B, h => by
    show (A.all T && evalAllQ T B) = true
    have h2 : (A.all S && evalAllQ S B) = true := h
    rw [Bool.and_eq_true] at h2 ⊢
    refine ⟨?_, evalAllQ_mono S T hST B h2.2⟩
    rw [List.all_eq_true] at h2 ⊢
    intro t ht
    exact hST t (h2.1 t ht)
  | .mk .or A B, h => by
    show (A.any T || evalAnyQ T B) = true
    have h2 : (A.any S || evalAnyQ S B) = true := h
    rw [Bool.or_eq_true] at h2 ⊢
    rcases h2 with h2 | h2
    · rw [List.any_eq_true] at h2 ⊢
      obtain ⟨t, ht, hs⟩ := h2
      exact Or.inl ⟨t, ht, hST t hs⟩
    · exact Or.inr (evalAnyQ_mono S T hST B h2)

theorem evalAllQ_mono (S T : Str → Bool) (hST : ∀ t, S t = true → T t = true) :
    ∀ (l : List Query), evalAllQ S l = true → evalAllQ T l = true
  | [], _ => rfl
  | q :: qs, h => by
    show (evalQ T q && evalAllQ T qs) = true
    have h2 : (evalQ S q && evalAllQ S qs) = true := h
    rw [Bool.and_eq_true] at h2 ⊢
    exact ⟨evalQ_mono S T hST q h2.1, evalAllQ_mono S T hST qs h2.2⟩

theorem evalAnyQ_mono (S T : Str → Bool) (hST : ∀ t, S t = true → T t = true) :
    ∀ (l : List Query), evalAnyQ S l = true → evalAnyQ T l = true
  | q :: qs, h => by
    show (evalQ T q || evalAnyQ T qs) = true
    have h2 : (evalQ S q || evalAnyQ S qs) = true := h
    rw [Bool.or_eq_true] at h2 ⊢
    rcases h2 with h2 | h2
    · exact Or.inl (evalQ_mono S T hST q h2)
    · exact Or.inr (evalAnyQ_mono S T hST qs h2)

end

mutual

theorem trigrams_imply_sound (S : Str → Bool) (T : List Str)
    (hT : ∀ t ∈ T, S t = true) :
    ∀ (r : Query), trigrams_imply T r = true → evalQ S r = true
  | .mk .or A B, h => by
    have h2 : (trigramsImplyAny T B || T.any fun s => is_subset [s] A) = true := h
    show (A.any S || evalAnyQ S B) = true
    rw [Bool.or_eq_true] at h2 ⊢
    rcases h2 with h2 | h2
    · exact Or.inr (trigramsImplyAny_sound S T hT B h2)
    · rw [List.any_eq_true] at h2
      obtain ⟨t, ht, hsub⟩ := h2
      refine Or.inl ?_
      rw [List.any_eq_true]
      exact ⟨t, is_subset_sound t [t] A hsub (List.mem_cons_self _ _), hT t ht⟩
  | .mk .and A B, h => by
    have h2 : (trigramsImplyAll T B && is_subset A T) = true := h
    show (A.all S && evalAllQ S B) = true
    rw [Bool.and_eq_true] at h2 ⊢
    refine ⟨?_, trigramsImplyAll_sound S T hT B h2.1⟩
    rw [List.all_eq_true]
    intro t ht
    exact hT t (is_subset_sound t A T h2.2 ht)
  | .mk .all A B, h => by
    rw [show trigrams_imply T (.mk .all A B) = false from by simp [trigrams_imply]] at h
    cases h
  | .mk .none A B, h => by
    rw [show trigrams_imply T (.mk .none A B) = false from by simp [trigrams_imply]] at h
    cases h

theorem trigramsImplyAny_sound (S : Str → Bool) (T : List Str)
    (hT : ∀ t ∈ T, S t = true) :
    ∀ (l : List Query), trigramsImplyAny T l = true → evalAnyQ S l = true
  | q :: qs, h => by
    have h2 : (trigrams_imply T q || trigramsImplyAny T qs) = true := h
    show (evalQ S q || evalAnyQ S qs) = true
    rw [Bool.or_eq_true] at h2 ⊢
    rcases h2 with h2 | h2
    · exact Or.inl (trigrams_imply_sound S T hT q h2)
    · exact Or.inr (trigramsImplyAny_sound S T hT qs h2)

theorem trigramsImplyAll_sound (S : Str → Bool) (T : List Str)
    (hT : ∀ t ∈ T, S t = true) :
    ∀ (l : List Query), trigramsImplyAll T l = true → evalAllQ S l = true
  | [], _ => rfl
  | q :: qs, h => by
    have h2 : (trigrams_imply T q && trigramsImplyAll T qs) = true := h
    show (evalQ S q && evalAllQ S qs) = true
    rw [Bool.and_eq_true] at h2 ⊢
    exact ⟨trigrams_imply_sound S T hT q h2.1, trigramsImplyAll_sound S T hT qs h2.2⟩

end

theorem implies_sound (S : Str → Bool) (q r : Query) (h : Query.implies q r = true)
    (hq : evalQ S q = true) : evalQ S r = true := by
  rcases q with ⟨qop, qT, qs⟩
  rcases r with ⟨rop, rT, rs⟩
  rw [Query.implies] at h
  by_cases h1 : Query.op (.mk qop qT qs) = .none ∨ Query.op (.mk rop rT rs) = .all
  · rcases h1 with h1 | h1
    · rw [show qop = QueryOp.none from h1] at hq
      rw [show evalQ S (.mk QueryOp.none qT qs) = false from by simp [evalQ]] at hq
      cases hq
    · rw [show rop = QueryOp.all from h1]
      simp [evalQ]
  · rw [if_neg h1] at h
    by_cases h2 : Query.op (.mk qop qT qs) = .all ∨ Query.op (.mk rop rT rs) = .none
    · rw [if_pos h2] at h
      cases h
    · rw [if_neg h2] at h
      by_cases h3 : Query.op (.mk qop qT qs) = .and ∨
          (Query.op (.mk qop qT qs) = .or ∧ (Query.trigram (.mk qop qT qs)).length = 1 ∧
            (Query.sub (.mk qop qT qs)).isEmpty = true)
      · rw [if_pos h3] at h
        have hall : ∀ t ∈ Query.trigram (.mk qop qT qs), S t = true := by
          rcases h3 with h3 | h3
          · have hq2 : (qT.all S && evalAllQ S qs) = true := by
              rw [show qop = QueryOp.and from h3] at hq
              exact hq
            rw [Bool.and_eq_true, List.all_eq_true] at hq2
            exact hq2.1
          · obtain ⟨h3o, h3len, h3e⟩ := h3
            have hq2 : (qT.any S || evalAnyQ S qs) = true := by
              rw [show qop = QueryOp.or from h3o] at hq
              exact hq
            have hqe : qs = [] := List.isEmpty_iff.mp h3e
            subst hqe
            rw [show evalAnyQ S [] = false from rfl, Bool.or_false,
              List.any_eq_true] at hq2
            obtain ⟨t, ht, hst⟩ := hq2
            intro u hu
            rcases qT with _ | ⟨t1, qT2⟩
            · simp at ht
            · rcases qT2 with _ | ⟨t2, qT3⟩
              · have hu1 : u = t1 := by
                  rcases List.mem_cons.mp hu with hh | hh
                  · exact hh
                  · simp at hh
                have ht1 : t = t1 := by
                  rcases List.mem_cons.mp ht with hh | hh
                  · exact hh
                  · simp at hh
                rw [hu1, ← ht1]
                exact hst
              · exfalso
                have hlen2 : (t1 :: t2 :: qT3).length = 1 := h3len
                simp only [List.length_cons] at hlen2
                omega
        exact trigrams_imply_sound S _ hall _ h
      · rw [if_neg h3] at h
        by_cases h4 : Query.op (.mk qop qT qs) = .or ∧ Query.op (.mk rop rT rs) = .or ∧
            Query.trigram (.mk qop qT qs) ≠ [] ∧ (Query.sub (.mk qop qT qs)).isEmpty = true ∧
            is_subset (Query.trigram (.mk qop qT qs)) (Query.trigram (.mk rop rT rs)) = true
        · obtain ⟨h4q, h4r, h4ne, h4e, h4sub⟩ := h4
          have hq2 : (qT.any S || evalAnyQ S qs) = true := by
            rw [show qop = QueryOp.or from h4q] at hq
            exact hq
          have hqe : qs = [] := List.isEmpty_iff.mp h4e
          subst hqe
          rw [show evalAnyQ S [] = false from rfl, Bool.or_false, List.any_eq_true] at hq2
          obtain ⟨t, ht, hst⟩ := hq2
          rw [show rop = QueryOp.or from h4r]
          show (rT.any S || evalAnyQ S rs) = true
          rw [Bool.or_eq_true, List.any_eq_true]
          exact Or.inl ⟨t, is_subset_sound t qT rT h4sub ht, hst⟩
        · rw [if_neg h4] at h
          cases h

theorem and_orF_succ (n : Nat) (q0 r0 : Query) (op : QueryOp) :
    and_orF (n + 1) q0 r0 op = and_orStep n (unwrap1 q0) (unwrap1 r0) op := rfl

theorem WFQ_sub (op : QueryOp) (T : List Str) (subs : List Query)
    (h : WFQ (.mk op T subs)) : ∀ q ∈ subs, WFQ q := by
  cases h with
  | mk _ _ _ _ hsub => exact hsub

theorem WFQ_allnone (op : QueryOp) (T : List Str) (subs : List Query)
    (h : WFQ (.mk op T subs)) (hop : op = .all ∨ op = .none) : T = [] ∧ subs = [] := by
  cases h with
  | mk _ _ _ hc _ => exact hc hop

theorem WFQ_allQ : WFQ Query.allQ := WFQ.mk _ _ _ (fun _ => ⟨rfl, rfl⟩) (by simp)

theorem WFQ_noneQ : WFQ Query.noneQ := WFQ.mk _ _ _ (fun _ => ⟨rfl, rfl⟩) (by simp)

theorem unwrap1_WFQ (q : Query) (h : WFQ q) : WFQ (unwrap1 q) := by
  rcases q with ⟨op, T, subs⟩
  by_cases hT : T = []
  · rcases subs with _ | ⟨x, rest⟩
    · have he : unwrap1 (Query.mk op T []) = Query.mk op T [] := by simp [unwrap1, hT]
      rw [he]
      exact h
    · rcases rest with _ | ⟨y, rest2⟩
      · have he : unwrap1 (Query.mk op T [x]) = x := by simp [unwrap1, hT]
        rw [he]
        exact WFQ_sub op T _ h x (List.mem_cons_self _ _)
      · have he : unwrap1 (Query.mk op T (x :: y :: rest2)) =
            Query.mk op T (x :: y :: rest2) := by simp [unwrap1, hT]
        rw [he]
        exact h
  · have he : unwrap1 (Query.mk op T subs) = Query.mk op T subs := by simp [unwrap1, hT]
    rw [he]
    exact h

theorem unwrap1_eval (S : Str → Bool) (q : Query) (h : WFQ q) :
    evalQ S (unwrap1 q) = evalQ S q := by
  rcases q with ⟨op, T, subs⟩
  by_cases hT : T = []
  · rcases subs with _ | ⟨x, rest⟩
    · rw [show unwrap1 (Query.mk op T []) = Query.mk op T [] from by simp [unwrap1, hT]]
    · rcases rest with _ | ⟨y, rest2⟩
      · rw [show unwrap1 (Query.mk op T [x]) = x from by simp [unwrap1, hT]]
        subst hT
        cases op with
        | all =>
          obtain ⟨_, hs⟩ := WFQ_allnone _ _ _ h (Or.inl rfl)
          cases hs
        | none =>
          obtain ⟨_, hs⟩ := WFQ_allnone _ _ _ h (Or.inr rfl)
          cases hs
        | and =>
          show evalQ S x = evalQ S (.mk .and [] [x])
          rw [show evalQ S (.mk .and [] [x]) = (List.all [] S && evalAllQ S [x]) from rfl]
          rw [show evalAllQ S [x] = (evalQ S x && evalAllQ S []) from rfl]
          rw [show evalAllQ S ([] : List Query) = true from rfl]
          simp
        | or =>
          show evalQ S x = evalQ S (.mk .or [] [x])
          rw [show evalQ S (.mk .or [] [x]) = (List.any [] S || evalAnyQ S [x]) from rfl]
          rw [show evalAnyQ S [x] = (evalQ S x || evalAnyQ S []) from rfl]
          rw [show evalAnyQ S ([] : List Query) = false from rfl]
          simp
      · rw [show unwrap1 (Query.mk op T (x :: y :: rest2)) =
            Query.mk op T (x :: y :: rest2) from by simp [unwrap1, hT]]
  · rw [show unwrap1 (Query.mk op T subs) = Query.mk op T subs from by simp [unwrap1, hT]]

theorem and_orF_WFQ :
    ∀ (n : Nat) (q0 r0 : Query) (op : QueryOp), (op = .and ∨ op = .or) →
    WFQ q0 → WFQ r0 → WFQ (and_orF n q0 r0 op) := by
  intro n
  induction n with
  | zero => intro q0 r0 op _ _ _; exact WFQ_allQ
  | succ n ih =>
    intro q0 r0 op hop hq0 hr0
    rw [and_orF_succ]
    have hq : WFQ (unwrap1 q0) := unwrap1_WFQ q0 hq0
    have hr : WFQ (unwrap1 r0) := unwrap1_WFQ r0 hr0
    rcases hqe : unwrap1 q0 with ⟨qop, qT, qsubs⟩
    rcases hre : unwrap1 r0 with ⟨rop, rT, rsubs⟩
    rw [hqe] at hq
    rw [hre] at hr
    have hopn : op ≠ .all ∧ op ≠ .none := by
      rcases hop with h | h <;> subst h <;> exact ⟨by simp, by simp⟩
    rw [and_orStep]
    by_cases h1 : Query.implies (.mk qop qT qsubs) (.mk rop rT rsubs) = true
    · rw [if_pos h1]
      by_cases ho : op = .and
      · rw [if_pos ho]; exact hq
      · rw [if_neg ho]; exact hr
    · rw [if_neg h1]
      by_cases h2 : Query.implies (.mk rop rT rsubs) (.mk qop qT qsubs) = true
      · rw [if_pos h2]
        by_cases ho : op = .and
        · rw [if_pos ho]; exact hr
        · rw [if_neg ho]; exact hq
      · rw [if_neg h2]
        by_cases h3 : Query.op (.mk qop qT qsubs) = op ∧
            (Query.op (.mk rop rT rsubs) = op ∨
              ((Query.trigram (.mk rop rT rsubs)).length = 1 ∧
                (Query.sub (.mk rop rT rsubs)).isEmpty = true))
        · rw [if_pos h3]
          refine WFQ.mk _ _ _ (fun hc => absurd hc (by tauto)) ?_
          intro x hx
          rcases List.mem_append.mp hx with h | h
          · exact WFQ_sub _ _ _ hq x h
          · exact WFQ_sub _ _ _ hr x h
        · rw [if_neg h3]
          by_cases h4 : Query.op (.mk rop rT rsubs) = op ∧
              ((Query.trigram (.mk qop qT qsubs)).length = 1 ∧
                (Query.sub (.mk qop qT qsubs)).isEmpty = true)
          · rw [if_pos h4]
            refine WFQ.mk _ _ _ (fun hc => absurd hc (by tauto)) ?_
            intro x hx
            exact WFQ_sub _ _ _ hr x hx
          · rw [if_neg h4]
            by_cases h5 : ((Query.trigram (.mk qop qT qsubs)).length = 1 ∧
                  (Query.sub (.mk qop qT qsubs)).isEmpty = true) ∧
                ((Query.trigram (.mk rop rT rsubs)).length = 1 ∧
                  (Query.sub (.mk rop rT rsubs)).isEmpty = true)
            · rw [if_pos h5]
              refine WFQ.mk _ _ _ (fun hc => absurd hc (by tauto)) ?_
              intro x hx
              exact WFQ_sub _ _ _ hq x hx
            · rw [if_neg h5]
              by_cases h6 : Query.op (.mk qop qT qsubs) = op
              · rw [if_pos h6]
                refine WFQ.mk _ _ _ ?_ ?_
                · intro hc
                  exfalso
                  have : qop = op := h6
                  subst this
                  rcases hc with hc | hc <;> [exact hopn.1 hc; exact hopn.2 hc]
                · intro x hx
                  rcases List.mem_append.mp hx with h | h
                  · exact WFQ_sub _ _ _ hq x h
                  · rcases List.mem_cons.mp h with h | h
                    · subst h; exact hr
                    · simp at h
              · rw [if_neg h6]
                by_cases h7 : Query.op (.mk rop rT rsubs) = op
                · rw [if_pos h7]
                  refine WFQ.mk _ _ _ ?_ ?_
                  · intro hc
                    exfalso
                    have : rop = op := h7
                    subst this
                    rcases hc with hc | hc <;> [exact hopn.1 hc; exact hopn.2 hc]
                  · intro x hx
                    rcases List.mem_append.mp hx with h | h
                    · exact WFQ_sub _ _ _ hr x h
                    · rcases List.mem_cons.mp h with h | h
                      · subst h; exact hq
                      · simp at h
                · rw [if_neg h7]
                  rcases hsp : intersection_split (Query.trigram (.mk qop qT qsubs))
                      (Query.trigram (.mk rop rT rsubs)) with ⟨common, qt, rt⟩
                  obtain ⟨p1, p2, p3, p4, p5⟩ :=
                    intersection_splitF_parts (qT.length + rT.length) qT rT
                  have hspr : intersection_splitF (qT.length + rT.length) qT rT =
                      (common, qt, rt) := hsp
                  rw [hspr] at p1 p2 p3 p4 p5
                  have hqtw : WFQ (Query.mk qop qt qsubs) := by
                    refine WFQ.mk _ _ _ ?_ (WFQ_sub _ _ _ hq)
                    intro hc
                    obtain ⟨hT, hs⟩ := WFQ_allnone _ _ _ hq hc
                    subst hT
                    refine ⟨List.eq_nil_iff_forall_not_mem.mpr ?_, hs⟩
                    intro x hx
                    exact absurd (p4 x hx) (by simp)
                  have hrtw : WFQ (Query.mk rop rt rsubs) := by
                    refine WFQ.mk _ _ _ ?_ (WFQ_sub _ _ _ hr)
                    intro hc
                    obtain ⟨hT, hs⟩ := WFQ_allnone _ _ _ hr hc
                    subst hT
                    refine ⟨List.eq_nil_iff_forall_not_mem.mpr ?_, hs⟩
                    intro x hx
                    exact absurd (p5 x hx) (by simp)
                  show WFQ (match (common, qt, rt) with
                    | (common, qt, rt) =>
                      if common ≠ [] then
                        and_orF n (.mk (otherOpOf op) common [])
                          (and_orF n (.mk qop qt qsubs) (.mk rop rt rsubs) op)
                          (otherOpOf op)
                      else .mk op [] [.mk qop qt qsubs, .mk rop rt rsubs])
                  show WFQ (if common ≠ [] then
                      and_orF n (.mk (otherOpOf op) common [])
                        (and_orF n (.mk qop qt qsubs) (.mk rop rt rsubs) op)
                        (otherOpOf op)
                    else .mk op [] [.mk qop qt qsubs, .mk rop rt rsubs])
                  have hother : otherOpOf op = .and ∨ otherOpOf op = .or := by
                    rw [otherOpOf]
                    by_cases ho : op = .and
                    · rw [if_pos ho]; exact Or.inr rfl
                    · rw [if_neg ho]; exact Or.inl rfl
                  by_cases hc : common ≠ []
                  · rw [if_pos hc]
                    refine ih _ _ _ hother ?_ ?_
                    · refine WFQ.mk _ _ _ ?_ (by simp)
                      intro hco
                      exfalso
                      rcases hother with ho | ho <;> rw [ho] at hco <;>
                        rcases hco with hco | hco <;> cases hco
                    · exact ih _ _ _ hop hqtw hrtw
                  · rw [if_neg hc]
                    refine WFQ.mk _ _ _ (fun hco => absurd hco (by tauto)) ?_
                    intro x hx
                    rcases List.mem_cons.mp hx with h | h
                    · subst h; exact hqtw
                    · rcases List.mem_cons.mp h with h | h
                      · subst h; exact hrtw
                      · simp at h

theorem implies_of_none (T : List Str) (subs : List Query) (r : Query) :
    Query.implies (.mk .none T subs) r = true := by
  rw [Query.implies]
  rw [if_pos (show (Query.mk QueryOp.none T subs).op = QueryOp.none ∨ r.op = QueryOp.all
    from Or.inl rfl)]

theorem implies_of_all (T : List Str) (subs : List Query) (q : Query) :
    Query.implies q (.mk .all T subs) = true := by
  rw [Query.implies]
  rw [if_pos (show q.op = QueryOp.none ∨ (Query.mk QueryOp.all T subs).op = QueryOp.all
    from Or.inr rfl)]

theorem atom_eval (S : Str → Bool) (rop : QueryOp) (t : Str)
    (h : WFQ (.mk rop [t] [])) : evalQ S (.mk rop [t] []) = S t := by
  cases rop with
  | all =>
    obtain ⟨hT, _⟩ := WFQ_allnone _ _ _ h (Or.inl rfl)
    cases hT
  | none =>
    obtain ⟨hT, _⟩ := WFQ_allnone _ _ _ h (Or.inr rfl)
    cases hT
  | and =>
    show (List.all [t] S && evalAllQ S []) = S t
    simp [evalAllQ]
  | or =>
    show (List.any [t] S || evalAnyQ S []) = S t
    simp [evalAnyQ]

theorem and_orF_sound (S : Str → Bool) :
    ∀ (n : Nat) (q0 r0 : Query) (op : QueryOp), (op = .and ∨ op = .or) →
    WFQ q0 → WFQ r0 →
    (op = .and → evalQ S q0 = true → evalQ S r0 = true →
      evalQ S (and_orF n q0 r0 op) = true) ∧
    (op = .or → (evalQ S q0 = true ∨ evalQ S r0 = true) →
      evalQ S (and_orF n q0 r0 op) = true) := by
  intro n
  induction n with
  | zero =>
    intro q0 r0 op _ _ _
    constructor
    · intro _ _ _
      show evalQ S Query.allQ = true
      simp [Query.allQ, evalQ]
    · intro _ _
      show evalQ S Query.allQ = true
      simp [Query.allQ, evalQ]
  | succ n ih =>
    intro q0 r0 op hop hq0 hr0
    rw [and_orF_succ]
    have hq : WFQ (unwrap1 q0) := unwrap1_WFQ q0 hq0
    have hr : WFQ (unwrap1 r0) := unwrap1_WFQ r0 hr0
    have hqev : evalQ S (unwrap1 q0) = evalQ S q0 := unwrap1_eval S q0 hq0
    have hrev : evalQ S (unwrap1 r0) = evalQ S r0 := unwrap1_eval S r0 hr0
    rcases hqe : unwrap1 q0 with ⟨qop, qT, qsubs⟩
    rcases hre : unwrap1 r0 with ⟨rop, rT, rsubs⟩
    rw [hqe] at hq hqev
    rw [hre] at hr hrev
    rw [← hqev, ← hrev]
    have hopn : op ≠ .all ∧ op ≠ .none := by
      rcases hop with h | h <;> subst h <;> exact ⟨by simp, by simp⟩
    rw [and_orStep]
    by_cases h1 : Query.implies (.mk qop qT qsubs) (.mk rop rT rsubs) = true
    · rw [if_pos h1]
      constructor
      · intro ho hsq hsr
        rw [if_pos ho]
        exact hsq
      · intro ho hs
        rw [if_neg (by rw [ho]; simp)]
        rcases hs with hs | hs
        · exact implies_sound S _ _ h1 hs
        · exact hs
    · rw [if_neg h1]
      by_cases h2 : Query.implies (.mk rop rT rsubs) (.mk qop qT qsubs) = true
      · rw [if_pos h2]
        constructor
        · intro ho hsq hsr
          rw [if_pos ho]
          exact hsr
        · intro ho hs
          rw [if_neg (by rw [ho]; simp)]
          rcases hs with hs | hs
          · exact hs
          · exact implies_sound S _ _ h2 hs
      · rw [if_neg h2]
        have hqopn : qop ≠ .none := by
          intro hcon
          subst hcon
          exact h1 (implies_of_none qT qsubs _)
        have hqopa : qop ≠ .all := by
          intro hcon
          subst hcon
          exact h2 (implies_of_all qT qsubs _)
        have hropn : rop ≠ .none := by
          intro hcon
          subst hcon
          exact h2 (implies_of_none rT rsubs _)
        have hropa : rop ≠ .all := by
          intro hcon
          subst hcon
          exact h1 (implies_of_all rT rsubs _)
        by_cases h3 : Query.op (.mk qop qT qsubs) = op ∧
            (Query.op (.mk rop rT rsubs) = op ∨
              ((Query.trigram (.mk rop rT rsubs)).length = 1 ∧
                (Query.sub (.mk rop rT rsubs)).isEmpty = true))
        · rw [if_pos h3]
          have hqop : qop = op := h3.1
          constructor
          · intro ho hsq hsr
            subst ho
            subst hqop
            show ((union_sets qT rT).all S && evalAllQ S (qsubs ++ rsubs)) = true
            have hsq2 : (qT.all S && evalAllQ S qsubs) = true := hsq
            rw [Bool.and_eq_true, List.all_eq_true] at hsq2
            have hrfacts : (∀ x ∈ rT, S x = true) ∧ evalAllQ S rsubs = true := by
              rcases h3.2 with hcase | hcase
              · have hrop : rop = .and := hcase
                subst hrop
                have hsr2 : (rT.all S && evalAllQ S rsubs) = true := hsr
                rw [Bool.and_eq_true, List.all_eq_true] at hsr2
                exact hsr2
              · obtain ⟨hlen, hemp⟩ := hcase
                have hre2 : rsubs = [] := List.isEmpty_iff.mp hemp
                subst hre2
                rcases rT with _ | ⟨t, rT2⟩
                · simp [Query.trigram] at hlen
                · rcases rT2 with _ | ⟨t2, rT3⟩
                  · rw [atom_eval S rop t hr] at hsr
                    refine ⟨?_, rfl⟩
                    intro x hx
                    rcases List.mem_cons.mp hx with hh | hh
                    · rw [hh]; exact hsr
                    · simp at hh
                  · have : (t :: t2 :: rT3).length = 1 := hlen
                    simp only [List.length_cons] at this
                    omega
            rw [Bool.and_eq_true, List.all_eq_true, evalAllQ_append, Bool.and_eq_true]
            refine ⟨?_, hsq2.2, hrfacts.2⟩
            intro x hx
            rcases (union_sets_mem x qT rT).mp hx with hh | hh
            · exact hsq2.1 x hh
            · exact hrfacts.1 x hh
          · intro ho hs
            subst ho
            subst hqop
            show ((union_sets qT rT).any S || evalAnyQ S (qsubs ++ rsubs)) = true
            rw [Bool.or_eq_true, List.any_eq_true, evalAnyQ_append, Bool.or_eq_true]
            rcases hs with hs | hs
            · have hs2 : (qT.any S || evalAnyQ S qsubs) = true := hs
              rw [Bool.or_eq_true, List.any_eq_true] at hs2
              rcases hs2 with ⟨t, ht, hst⟩ | hs2
              · exact Or.inl ⟨t, (union_sets_mem t qT rT).mpr (Or.inl ht), hst⟩
              · exact Or.inr (Or.inl hs2)
            · rcases h3.2 with hcase | hcase
              · have hrop : rop = .or := hcase
                subst hrop
                have hs2 : (rT.any S || evalAnyQ S rsubs) = true := hs
                rw [Bool.or_eq_true, List.any_eq_true] at hs2
                rcases hs2 with ⟨t, ht, hst⟩ | hs2
                · exact Or.inl ⟨t, (union_sets_mem t qT rT).mpr (Or.inr ht), hst⟩
                · exact Or.inr (Or.inr hs2)
              · obtain ⟨hlen, hemp⟩ := hcase
                have hre2 : rsubs = [] := List.isEmpty_iff.mp hemp
                subst hre2
                rcases rT with _ | ⟨t, rT2⟩
                · simp [Query.trigram] at hlen
                · rcases rT2 with _ | ⟨t2, rT3⟩
                  · rw [atom_eval S rop t hr] at hs
                    exact Or.inl ⟨t, (union_sets_mem t qT _).mpr
                      (Or.inr (List.mem_cons_self _ _)), hs⟩
                  · have : (t :: t2 :: rT3).length = 1 := hlen
                    simp only [List.length_cons] at this
                    omega
        · rw [if_neg h3]
          by_cases h4 : Query.op (.mk rop rT rsubs) = op ∧
              ((Query.trigram (.mk qop qT qsubs)).length = 1 ∧
                (Query.sub (.mk qop qT qsubs)).isEmpty = true)
          · rw [if_pos h4]
            have hrop : rop = op := h4.1
            obtain ⟨hlen, hemp⟩ := h4.2
            have hqe2 : qsubs = [] := List.isEmpty_iff.mp hemp
            subst hqe2
            have hqT : ∃ t, qT = [t] := by
              rcases qT with _ | ⟨t, qT2⟩
              · simp [Query.trigram] at hlen
              · rcases qT2 with _ | ⟨t2, qT3⟩
                · exact ⟨t, rfl⟩
                · have : (t :: t2 :: qT3).length = 1 := hlen
                  simp only [List.length_cons] at this
                  omega
            obtain ⟨t, rfl⟩ := hqT
            constructor
            · intro ho hsq hsr
              subst ho
              subst hrop
              show ((union_sets rT [t]).all S && evalAllQ S rsubs) = true
              rw [atom_eval S qop t hq] at hsq
              have hsr2 : (rT.all S && evalAllQ S rsubs) = true := hsr
              rw [Bool.and_eq_true, List.all_eq_true] at hsr2
              rw [Bool.and_eq_true, List.all_eq_true]
              refine ⟨?_, hsr2.2⟩
              intro x hx
              rcases (union_sets_mem x rT [t]).mp hx with hh | hh
              · exact hsr2.1 x hh
              · rcases List.mem_cons.mp hh with hh2 | hh2
                · rw [hh2]; exact hsq
                · simp at hh2
            · intro ho hs
              subst ho
              subst hrop
              show ((union_sets rT [t]).any S || evalAnyQ S rsubs) = true
              rw [Bool.or_eq_true, List.any_eq_true]
              rcases hs with hs | hs
              · rw [atom_eval S qop t hq] at hs
                exact Or.inl ⟨t, (union_sets_mem t rT [t]).mpr
                  (Or.inr (List.mem_cons_self _ _)), hs⟩
              · have hs2 : (rT.any S || evalAnyQ S rsubs) = true := hs
                rw [Bool.or_eq_true, List.any_eq_true] at hs2
                rcases hs2 with ⟨u, hu, hsu⟩ | hs2
                · exact Or.inl ⟨u, (union_sets_mem u rT [t]).mpr (Or.inl hu), hsu⟩
                · exact Or.inr hs2
          · rw [if_neg h4]
            by_cases h5 : ((Query.trigram (.mk qop qT qsubs)).length = 1 ∧
                  (Query.sub (.mk qop qT qsubs)).isEmpty = true) ∧
                ((Query.trigram (.mk rop rT rsubs)).length = 1 ∧
                  (Query.sub (.mk rop rT rsubs)).isEmpty = true)
            · rw [if_pos h5]
              have hqe2 : qsubs = [] := List.isEmpty_iff.mp h5.1.2
              have hre2 : rsubs = [] := List.isEmpty_iff.mp h5.2.2
              subst hqe2
              subst hre2
              have hqT : ∃ t, qT = [t] := by
                have hlen := h5.1.1
                rcases qT with _ | ⟨t, qT2⟩
                · simp [Query.trigram] at hlen
                · rcases qT2 with _ | ⟨t2, qT3⟩
                  · exact ⟨t, rfl⟩
                  · have : (t :: t2 :: qT3).length = 1 := hlen
                    simp only [List.length_cons] at this
                    omega
              have hrT : ∃ u, rT = [u] := by
                have hlen := h5.2.1
                rcases rT with _ | ⟨u, rT2⟩
                · simp [Query.trigram] at hlen
                · rcases rT2 with _ | ⟨u2, rT3⟩
                  · exact ⟨u, rfl⟩
                  · have : (u :: u2 :: rT3).length = 1 := hlen
                    simp only [List.length_cons] at this
                    omega
              obtain ⟨t, rfl⟩ := hqT
              obtain ⟨u, rfl⟩ := hrT
              constructor
              · intro ho hsq hsr
                subst ho
                show (([t] ++ [u]).all S && evalAllQ S []) = true
                rw [atom_eval S qop t hq] at hsq
                rw [atom_eval S rop u hr] at hsr
                rw [show evalAllQ S [] = true from rfl]
                simp [hsq, hsr]
              · intro ho hs
                subst ho
                show (([t] ++ [u]).any S || evalAnyQ S []) = true
                rw [show evalAnyQ S [] = false from rfl]
                rcases hs with hs | hs
                · rw [atom_eval S qop t hq] at hs
                  simp [hs]
                · rw [atom_eval S rop u hr] at hs
                  simp [hs]
            · rw [if_neg h5]
              by_cases h6 : Query.op (.mk qop qT qsubs) = op
              · rw [if_pos h6]
                have hqop : qop = op := h6
                constructor
                · intro ho hsq hsr
                  subst ho
                  subst hqop
                  show (qT.all S && evalAllQ S (qsubs ++ [.mk rop rT rsubs])) = true
                  have hsq2 : (qT.all S && evalAllQ S qsubs) = true := hsq
                  rw [Bool.and_eq_true] at hsq2
                  rw [Bool.and_eq_true, evalAllQ_append, Bool.and_eq_true]
                  refine ⟨hsq2.1, hsq2.2, ?_⟩
                  show (evalQ S (.mk rop rT rsubs) && evalAllQ S []) = true
                  rw [show evalAllQ S [] = true from rfl]
                  simp [hsr]
                · intro ho hs
                  subst ho
                  subst hqop
                  show (qT.any S || evalAnyQ S (qsubs ++ [.mk rop rT rsubs])) = true
                  rw [Bool.or_eq_true, evalAnyQ_append, Bool.or_eq_true]
                  rcases hs with hs | hs
                  · have hs2 : (qT.any S || evalAnyQ S qsubs) = true := hs
                    rw [Bool.or_eq_true] at hs2
                    rcases hs2 with hs2 | hs2
                    · exact Or.inl hs2
                    · exact Or.inr (Or.inl hs2)
                  · refine Or.inr (Or.inr ?_)
                    show (evalQ S (.mk rop rT rsubs) || evalAnyQ S []) = true
                    rw [show evalAnyQ S [] = false from rfl]
                    simp [hs]
              · rw [if_neg h6]
                by_cases h7 : Query.op (.mk rop rT rsubs) = op
                · rw [if_pos h7]
                  have hrop : rop = op := h7
                  constructor
                  · intro ho hsq hsr
                    subst ho
                    subst hrop
                    show (rT.all S && evalAllQ S (rsubs ++ [.mk qop qT qsubs])) = true
                    have hsr2 : (rT.all S && evalAllQ S rsubs) = true := hsr
                    rw [Bool.and_eq_true] at hsr2
                    rw [Bool.and_eq_true, evalAllQ_append, Bool.and_eq_true]
                    refine ⟨hsr2.1, hsr2.2, ?_⟩
                    show (evalQ S (.mk qop qT qsubs) && evalAllQ S []) = true
                    rw [show evalAllQ S [] = true from rfl]
                    simp [hsq]
                  · intro ho hs
                    subst ho
                    subst hrop
                    show (rT.any S || evalAnyQ S (rsubs ++ [.mk qop qT qsubs])) = true
                    rw [Bool.or_eq_true, evalAnyQ_append, Bool.or_eq_true]
                    rcases hs with hs | hs
                    · refine Or.inr (Or.inr ?_)
                      show (evalQ S (.mk qop qT qsubs) || evalAnyQ S []) = true
                      rw [show evalAnyQ S [] = false from rfl]
                      simp [hs]
                    · have hs2 : (rT.any S || evalAnyQ S rsubs) = true := hs
                      rw [Bool.or_eq_true] at hs2
                      rcases hs2 with hs2 | hs2
                      · exact Or.inl hs2
                      · exact Or.inr (Or.inl hs2)
                · rw [if_neg h7]
                  rcases hsp : intersection_split (Query.trigram (.mk qop qT qsubs))
                      (Query.trigram (.mk rop rT rsubs)) with ⟨common, qt, rt⟩
                  obtain ⟨p1, p2, p3, p4, p5⟩ :=
                    intersection_splitF_parts (qT.length + rT.length) qT rT
                  have hspr : intersection_splitF (qT.length + rT.length) qT rT =
                      (common, qt, rt) := hsp
                  rw [hspr] at p1 p2 p3 p4 p5
                  have hqtw : WFQ (Query.mk qop qt qsubs) := by
                    refine WFQ.mk _ _ _ ?_ (WFQ_sub _ _ _ hq)
                    intro hc
                    rcases hc with hc | hc
                    · exact absurd hc hqopa
                    · exact absurd hc hqopn
                  have hrtw : WFQ (Query.mk rop rt rsubs) := by
                    refine WFQ.mk _ _ _ ?_ (WFQ_sub _ _ _ hr)
                    intro hc
                    rcases hc with hc | hc
                    · exact absurd hc hropa
                    · exact absurd hc hropn
                  show (op = .and → evalQ S (.mk qop qT qsubs) = true →
                      evalQ S (.mk rop rT rsubs) = true →
                      evalQ S (if common ≠ [] then
                        and_orF n (.mk (otherOpOf op) common [])
                          (and_orF n (.mk qop qt qsubs) (.mk rop rt rsubs) op)
                          (otherOpOf op)
                        else .mk op [] [.mk qop qt qsubs, .mk rop rt rsubs]) = true) ∧
                    (op = .or → (evalQ S (.mk qop qT qsubs) = true ∨
                      evalQ S (.mk rop rT rsubs) = true) →
                      evalQ S (if common ≠ [] then
                        and_orF n (.mk (otherOpOf op) common [])
                          (and_orF n (.mk qop qt qsubs) (.mk rop rt rsubs) op)
                          (otherOpOf op)
                        else .mk op [] [.mk qop qt qsubs, .mk rop rt rsubs]) = true)
                  constructor
                  · intro ho hsq hsr
                    subst ho
                    have hqop : qop = .or := by
                      cases qop with
                      | all => exact absurd rfl hqopa
                      | none => exact absurd rfl hqopn
                      | and => exact absurd rfl h6
                      | or => rfl
                    have hrop : rop = .or := by
                      cases rop with
                      | all => exact absurd rfl hropa
                      | none => exact absurd rfl hropn
                      | and => exact absurd rfl h7
                      | or => rfl
                    subst hqop
                    subst hrop
                    have hwcomm : WFQ (Query.mk (otherOpOf .and) common []) := by
                      refine WFQ.mk _ _ _ ?_ (by simp)
                      intro hc
                      rw [otherOpOf] at hc
                      simp at hc
                    have hws : WFQ (and_orF n (.mk .or qt qsubs) (.mk .or rt rsubs) .and) :=
                      and_orF_WFQ n _ _ .and (Or.inl rfl) hqtw hrtw
                    have hother : otherOpOf .and = .or := by
                      rw [otherOpOf]
                      simp
                    by_cases hc : common ≠ []
                    · rw [if_pos hc]
                      have houter := (ih (.mk (otherOpOf .and) common [])
                        (and_orF n (.mk .or qt qsubs) (.mk .or rt rsubs) .and)
                        (otherOpOf .and) (by rw [hother]; exact Or.inr rfl)
                        hwcomm hws).2 hother
                      refine houter ?_
                      by_cases hcs : common.any S = true
                      · refine Or.inl ?_
                        rw [hother]
                        show (common.any S || evalAnyQ S []) = true
                        rw [show evalAnyQ S [] = false from rfl]
                        simp [hcs]
                      · refine Or.inr ?_
                        have hsqt : evalQ S (.mk .or qt qsubs) = true := by
                          have hsq2 : (qT.any S || evalAnyQ S qsubs) = true := hsq
                          rw [Bool.or_eq_true] at hsq2
                          show (qt.any S || evalAnyQ S qsubs) = true
                          rw [Bool.or_eq_true]
                          rcases hsq2 with hs2 | hs2
                          · rw [List.any_eq_true] at hs2
                            obtain ⟨t, ht, hst⟩ := hs2
                            rcases p1 t ht with hh | hh
                            · exfalso
                              apply hcs
                              rw [List.any_eq_true]
                              exact ⟨t, hh, hst⟩
                            · refine Or.inl ?_
                              rw [List.any_eq_true]
                              exact ⟨t, hh, hst⟩
                          · exact Or.inr hs2
                        have hsrt : evalQ S (.mk .or rt rsubs) = true := by
                          have hsr2 : (rT.any S || evalAnyQ S rsubs) = true := hsr
                          rw [Bool.or_eq_true] at hsr2
                          show (rt.any S || evalAnyQ S rsubs) = true
                          rw [Bool.or_eq_true]
                          rcases hsr2 with hs2 | hs2
                          · rw [List.any_eq_true] at hs2
                            obtain ⟨t, ht, hst⟩ := hs2
                            rcases p2 t ht with hh | hh
                            · exfalso
                              apply hcs
                              rw [List.any_eq_true]
                              exact ⟨t, hh, hst⟩
                            · refine Or.inl ?_
                              rw [List.any_eq_true]
                              exact ⟨t, hh, hst⟩
                          · exact Or.inr hs2
                        exact (ih _ _ .and (Or.inl rfl) hqtw hrtw).1 rfl hsqt hsrt
                    · rw [if_neg hc]
                      show (List.all [] S &&
                        evalAllQ S [.mk .or qt qsubs, .mk .or rt rsubs]) = true
                      have hce : common = [] := by
                        by_contra hcon
                        exact hc hcon
                      subst hce
                      have hsqt : evalQ S (.mk .or qt qsubs) = true := by
                        have hsq2 : (qT.any S || evalAnyQ S qsubs) = true := hsq
                        rw [Bool.or_eq_true] at hsq2
                        show (qt.any S || evalAnyQ S qsubs) = true
                        rw [Bool.or_eq_true]
                        rcases hsq2 with hs2 | hs2
                        · rw [List.any_eq_true] at hs2
                          obtain ⟨t, ht, hst⟩ := hs2
                          rcases p1 t ht with hh | hh
                          · simp at hh
                          · refine Or.inl ?_
                            rw [List.any_eq_true]
                            exact ⟨t, hh, hst⟩
                        · exact Or.inr hs2
                      have hsrt : evalQ S (.mk .or rt rsubs) = true := by
                        have hsr2 : (rT.any S || evalAnyQ S rsubs) = true := hsr
                        rw [Bool.or_eq_true] at hsr2
                        show (rt.any S || evalAnyQ S rsubs) = true
                        rw [Bool.or_eq_true]
                        rcases hsr2 with hs2 | hs2
                        · rw [List.any_eq_true] at hs2
                          obtain ⟨t, ht, hst⟩ := hs2
                          rcases p2 t ht with hh | hh
                          · simp at hh
                          · refine Or.inl ?_
                            rw [List.any_eq_true]
                            exact ⟨t, hh, hst⟩
                        · exact Or.inr hs2
                      rw [show evalAllQ S [Query.mk .or qt qsubs, Query.mk .or rt rsubs] =
                        (evalQ S (.mk .or qt qsubs) &&
                          (evalQ S (.mk .or rt rsubs) && true)) from rfl]
                      simp [hsqt, hsrt]
                  · intro ho hs
                    subst ho
                    have hqop : qop = .and := by
                      cases qop with
                      | all => exact absurd rfl hqopa
                      | none => exact absurd rfl hqopn
                      | or => exact absurd rfl h6
                      | and => rfl
                    have hrop : rop = .and := by
                      cases rop with
                      | all => exact absurd rfl hropa
                      | none => exact absurd rfl hropn
                      | or => exact absurd rfl h7
                      | and => rfl
                    subst hqop
                    subst hrop
                    have hother : otherOpOf .or = .and := by
                      rw [otherOpOf]
                      simp
                    have hwcomm : WFQ (Query.mk (otherOpOf .or) common []) := by
                      refine WFQ.mk _ _ _ ?_ (by simp)
                      intro hc
                      rw [hother] at hc
                      rcases hc with hc | hc <;> cases hc
                    have hws : WFQ (and_orF n (.mk .and qt qsubs) (.mk .and rt rsubs) .or) :=
                      and_orF_WFQ n _ _ .or (Or.inr rfl) hqtw hrtw
                    have hparts : ∀ (xT xt : List Str) (xsubs : List Query),
                        (∀ x ∈ xT, x ∈ common ∨ x ∈ xt) →
                        (∀ x ∈ common, x ∈ xT) →
                        (∀ x ∈ xt, x ∈ xT) →
                        evalQ S (.mk .and xT xsubs) = true →
                        evalQ S (.mk .and common []) = true ∧
                        evalQ S (.mk .and xt xsubs) = true := by
                      intro xT xt xsubs hp hpc hpt hsx
                      have hsx2 : (xT.all S && evalAllQ S xsubs) = true := hsx
                      rw [Bool.and_eq_true, List.all_eq_true] at hsx2
                      constructor
                      · show (common.all S && evalAllQ S []) = true
                        rw [show evalAllQ S [] = true from rfl]
                        rw [Bool.and_true, List.all_eq_true]
                        intro x hx
                        exact hsx2.1 x (hpc x hx)
                      · show (xt.all S && evalAllQ S xsubs) = true
                        rw [Bool.and_eq_true, List.all_eq_true]
                        exact ⟨fun x hx => hsx2.1 x (hpt x hx), hsx2.2⟩
                    by_cases hc : common ≠ []
                    · rw [if_pos hc]
                      have houter := (ih (.mk (otherOpOf .or) common [])
                        (and_orF n (.mk .and qt qsubs) (.mk .and rt rsubs) .or)
                        (otherOpOf .or) (by rw [hother]; exact Or.inl rfl)
                        hwcomm hws).1 hother
                      rcases hs with hs | hs
                      · obtain ⟨hcm, hqt⟩ := hparts qT qt qsubs p1
                          (fun x hx => (p3 x hx).1) p4 hs
                        refine houter ?_ ?_
                        · rw [hother]
                          exact hcm
                        · exact (ih _ _ .or (Or.inr rfl) hqtw hrtw).2 rfl (Or.inl hqt)
                      · obtain ⟨hcm, hrt⟩ := hparts rT rt rsubs p2
                          (fun x hx => (p3 x hx).2) p5 hs
                        refine houter ?_ ?_
                        · rw [hother]
                          exact hcm
                        · exact (ih _ _ .or (Or.inr rfl) hqtw hrtw).2 rfl (Or.inr hrt)
                    · rw [if_neg hc]
                      show (List.any [] S ||
                        evalAnyQ S [.mk .and qt qsubs, .mk .and rt rsubs]) = true
                      rw [show evalAnyQ S [Query.mk .and qt qsubs, Query.mk .and rt rsubs] =
                        (evalQ S (.mk .and qt qsubs) ||
                          (evalQ S (.mk .and rt rsubs) || false)) from rfl]
                      rcases hs with hs | hs
                      · obtain ⟨hcm, hqt⟩ := hparts qT qt qsubs p1
                          (fun x hx => (p3 x hx).1) p4 hs
                        simp [hqt]
                      · obtain ⟨hcm, hrt⟩ := hparts rT rt rsubs p2
                          (fun x hx => (p3 x hx).2) p5 hs
                        simp [hrt]

theorem Query_and_WFQ (q r : Query) (hq : WFQ q) (hr : WFQ r) : WFQ (q.and r) :=
  and_orF_WFQ _ q r .and (Or.inl rfl) hq hr

theorem Query_or_WFQ (q r : Query) (hq : WFQ q) (hr : WFQ r) : WFQ (q.or r) :=
  and_orF_WFQ _ q r .or (Or.inr rfl) hq hr

theorem Query_and_sound (S : Str → Bool) (q r : Query) (hq : WFQ q) (hr : WFQ r)
    (h1 : evalQ S q = true) (h2 : evalQ S r = true) : evalQ S (q.and r) = true :=
  (and_orF_sound S _ q r .and (Or.inl rfl) hq hr).1 rfl h1 h2

theorem Query_or_sound (S : Str → Bool) (q r : Query) (hq : WFQ q) (hr : WFQ r)
    (h : evalQ S q = true ∨ evalQ S r = true) : evalQ S (q.or r) = true :=
  (and_orF_sound S _ q r .or (Or.inr rfl) hq hr).2 rfl h

theorem windows3_mem_iff (t s : Str) :
    t ∈ windows3 s ↔ (t.length = 3 ∧ t <:+: s) := by
  by_cases h3 : 3 ≤ s.length
  · rw [windows3, if_pos h3]
    rw [List.mem_map]
    constructor
    · rintro ⟨i, hi, rfl⟩
      rw [List.mem_range] at hi
      constructor
      · rw [List.length_take, List.length_drop]
        omega
      · exact ((List.take_prefix 3 (s.drop i)).isInfix).trans
          ((List.drop_suffix i s).isInfix)
    · rintro ⟨hlen, u, v, huv⟩
      refine ⟨u.length, ?_, ?_⟩
      · rw [List.mem_range]
        have : s.length = u.length + (t.length + v.length) := by
          rw [← huv, List.length_append, List.length_append]
          omega
        omega
      · have hdrop : s.drop u.length = t ++ v := by
          rw [← huv, List.append_assoc, List.drop_left]
        rw [hdrop]
        rw [← hlen, List.take_left]
  · rw [windows3, if_neg h3]
    simp only [List.not_mem_nil, false_iff, not_and]
    intro hlen hinf
    have := hinf.length_le
    omega

theorem triS_mono (a s : Str) (hinf : a <:+: s) :
    ∀ w, triS a w = true → triS s w = true := by
  intro w hw
  rw [triS, decide_eq_true_eq] at hw ⊢
  rw [windows3_mem_iff] at hw ⊢
  exact ⟨hw.1, hw.2.trans hinf⟩

theorem foldOr_WFQ :
    ∀ (T : List Str) (acc : Query), WFQ acc →
    WFQ (T.foldl (fun acc tt => acc.or (.mk .and (clean_set (windows3 tt)) [])) acc) := by
  intro T
  induction T with
  | nil => intro acc h; exact h
  | cons t ts ih =>
    intro acc h
    show WFQ (ts.foldl _ (acc.or (.mk .and (clean_set (windows3 t)) [])))
    refine ih _ (Query_or_WFQ _ _ h ?_)
    exact WFQ.mk _ _ _ (fun hc => by rcases hc with hc | hc <;> cases hc) (by simp)

theorem foldOr_sound (S : Str → Bool) :
    ∀ (T : List Str) (acc : Query), WFQ acc →
    (evalQ S acc = true ∨
      ∃ t ∈ T, evalQ S (.mk .and (clean_set (windows3 t)) []) = true) →
    evalQ S (T.foldl (fun acc tt => acc.or (.mk .and (clean_set (windows3 tt)) [])) acc)
      = true := by
  intro T
  induction T with
  | nil =>
    intro acc hw hs
    rcases hs with hs | ⟨t, ht, _⟩
    · exact hs
    · simp at ht
  | cons t ts ih =>
    intro acc hw hs
    show evalQ S (ts.foldl _ (acc.or (.mk .and (clean_set (windows3 t)) []))) = true
    have hwn : WFQ (Query.mk .and (clean_set (windows3 t)) []) :=
      WFQ.mk _ _ _ (fun hc => by rcases hc with hc | hc <;> cases hc) (by simp)
    refine ih _ (Query_or_WFQ _ _ hw hwn) ?_
    rcases hs with hs | ⟨u, hu, hsu⟩
    · exact Or.inl (Query_or_sound S _ _ hw hwn (Or.inl hs))
    · rcases List.mem_cons.mp hu with hh | hh
      · subst hh
        exact Or.inl (Query_or_sound S _ _ hw hwn (Or.inr hsu))
      · exact Or.inr ⟨u, hh, hsu⟩

theorem and_trigrams_WFQ (q : Query) (T : List Str) (hq : WFQ q) :
    WFQ (q.and_trigrams T) := by
  rw [Query.and_trigrams]
  by_cases h : min_len T < 3
  · rw [if_pos h]
    exact hq
  · rw [if_neg h]
    exact Query_and_WFQ _ _ hq (foldOr_WFQ T _ WFQ_noneQ)

theorem and_trigrams_sound (S : Str → Bool) (q : Query) (T : List Str)
    (hq : WFQ q) (hsq : evalQ S q = true)
    (hwit : ∃ t ∈ T, ∀ w ∈ windows3 t, S w = true) :
    evalQ S (q.and_trigrams T) = true := by
  rw [Query.and_trigrams]
  by_cases h : min_len T < 3
  · rw [if_pos h]
    exact hsq
  · rw [if_neg h]
    refine Query_and_sound S _ _ hq (foldOr_WFQ T _ WFQ_noneQ) hsq ?_
    obtain ⟨t, ht, hwin⟩ := hwit
    refine foldOr_sound S T _ WFQ_noneQ (Or.inr ⟨t, ht, ?_⟩)
    show ((clean_set (windows3 t)).all S && evalAllQ S []) = true
    rw [show evalAllQ S [] = true from rfl, Bool.and_true, List.all_eq_true]
    intro w hw
    exact hwin w ((clean_set_mem w _).mp hw)

theorem InfoSound_mono (L1 L2 : Str → Prop) (i : RegexpInfo)
    (h : InfoSound L1 i) (h12 : ∀ s, L2 s → L1 s) : InfoSound L2 i :=
  ⟨h.1, fun s hs => h.2 s (h12 s hs)⟩

theorem truncPass_cover (su : Bool) (n : Nat) (s0 : Str) :
    ∀ (l : List Str),
    (∃ p ∈ l, if su then p <:+ s0 else p <+: s0) →
    (∃ p ∈ truncPass su n l, if su then p <:+ s0 else p <+: s0) := by
  intro l ⟨p, hp, hc⟩
  refine ⟨if n ≤ p.length then (if su then p.drop (p.length - (n - 1)) else p.take (n - 1))
    else p, ?_, ?_⟩
  · rw [truncPass, clean_set_mem, List.mem_map]
    exact ⟨p, hp, rfl⟩
  · by_cases hn : n ≤ p.length
    · rw [if_pos hn]
      cases su with
      | true =>
        have hc2 : p <:+ s0 := hc
        show p.drop (p.length - (n - 1)) <:+ s0
        exact (List.drop_suffix _ p).trans hc2
      | false =>
        have hc2 : p <+: s0 := hc
        show p.take (n - 1) <+: s0
        exact (List.take_prefix _ p).trans hc2
    · rw [if_neg hn]
      exact hc

theorem redF_cover (su : Bool) :
    ∀ (t : List Str) (prev y : Str), y ∈ t →
    ∃ z ∈ prev :: redF su prev t,
      (if su then z.isSuffixOf y = true else z.isPrefixOf y = true) := by
  intro t
  induction t with
  | nil => intro prev y hy; simp at hy
  | cons x t2 ih =>
    intro prev y hy
    show ∃ z ∈ prev :: (if (if su then prev.isSuffixOf x else prev.isPrefixOf x)
      then redF su prev t2 else x :: redF su x t2), _
    by_cases hp : (if su then prev.isSuffixOf x else prev.isPrefixOf x) = true
    · rw [if_pos hp]
      rcases List.mem_cons.mp hy with hh | hh
      · subst hh
        refine ⟨prev, List.mem_cons_self _ _, ?_⟩
        cases su with
        | true => simpa using hp
        | false => simpa using hp
      · exact ih prev y hh
    · rw [if_neg hp]
      rcases List.mem_cons.mp hy with hh | hh
      · subst hh
        refine ⟨y, List.mem_cons_of_mem _ (List.mem_cons_self _ _), ?_⟩
        cases su with
        | true => simp [List.isSuffixOf_iff_suffix]
        | false => simp [List.isPrefixOf_iff_prefix]
      · obtain ⟨z, hz, hzc⟩ := ih x y hh
        rcases List.mem_cons.mp hz with hh2 | hh2
        · subst hh2
          exact ⟨z, List.mem_cons_of_mem _ (List.mem_cons_self _ _), hzc⟩
        · exact ⟨z, List.mem_cons_of_mem _ (List.mem_cons_of_mem _ hh2), hzc⟩

theorem simplify_set_cover (su : Bool) (s0 : Str) (l : List Str)
    (h : ∃ p ∈ l, if su then p <:+ s0 else p <+: s0) :
    ∃ p ∈ simplify_set su l, if su then p <:+ s0 else p <+: s0 := by
  rw [simplify_set]
  have h1 : ∃ p ∈ clean_set l, if su then p <:+ s0 else p <+: s0 := by
    obtain ⟨p, hp, hc⟩ := h
    exact ⟨p, (clean_set_mem p l).mpr hp, hc⟩
  have h2 := truncPass_cover su 3 s0 _ h1
  have h3 : ∃ p ∈ (if 20 < (truncPass su 3 (clean_set l)).length
      then truncPass su 2 (truncPass su 3 (clean_set l))
      else truncPass su 3 (clean_set l)), if su then p <:+ s0 else p <+: s0 := by
    by_cases hc : 20 < (truncPass su 3 (clean_set l)).length
    · rw [if_pos hc]
      exact truncPass_cover su 2 s0 _ h2
    · rw [if_neg hc]
      exact h2
  have h4 : ∃ p ∈ (if 20 < (truncPass su 3 (clean_set l)).length ∧
      20 < (if 20 < (truncPass su 3 (clean_set l)).length
        then truncPass su 2 (truncPass su 3 (clean_set l))
        else truncPass su 3 (clean_set l)).length
      then truncPass su 1 (if 20 < (truncPass su 3 (clean_set l)).length
        then truncPass su 2 (truncPass su 3 (clean_set l))
        else truncPass su 3 (clean_set l))
      else (if 20 < (truncPass su 3 (clean_set l)).length
        then truncPass su 2 (truncPass su 3 (clean_set l))
        else truncPass su 3 (clean_set l))),
      if su then p <:+ s0 else p <+: s0 := by
    by_cases hc : 20 < (truncPass su 3 (clean_set l)).length ∧
        20 < (if 20 < (truncPass su 3 (clean_set l)).length
          then truncPass su 2 (truncPass su 3 (clean_set l))
          else truncPass su 3 (clean_set l)).length
    · rw [if_pos hc]
      exact truncPass_cover su 1 s0 _ h3
    · rw [if_neg hc]
      exact h3
  obtain ⟨p, hp, hc⟩ := h4
  have h5 : p ∈ (if su then sortStrBy revLe
      (if 20 < (truncPass su 3 (clean_set l)).length ∧
        20 < (if 20 < (truncPass su 3 (clean_set l)).length
          then truncPass su 2 (truncPass su 3 (clean_set l))
          else truncPass su 3 (clean_set l)).length
      then truncPass su 1 (if 20 < (truncPass su 3 (clean_set l)).length
        then truncPass su 2 (truncPass su 3 (clean_set l))
        else truncPass su 3 (clean_set l))
      else (if 20 < (truncPass su 3 (clean_set l)).length
        then truncPass su 2 (truncPass su 3 (clean_set l))
        else truncPass su 3 (clean_set l)))
      else sortStr
      (if 20 < (truncPass su 3 (clean_set l)).length ∧
        20 < (if 20 < (truncPass su 3 (clean_set l)).length
          then truncPass su 2 (truncPass su 3 (clean_set l))
          else truncPass su 3 (clean_set l)).length
      then truncPass su 1 (if 20 < (truncPass su 3 (clean_set l)).length
        then truncPass su 2 (truncPass su 3 (clean_set l))
        else truncPass su 3 (clean_set l))
      else (if 20 < (truncPass su 3 (clean_set l)).length
        then truncPass su 2 (truncPass su 3 (clean_set l))
        else truncPass su 3 (clean_set l)))) := by
    by_cases hsu : su = true
    · rw [if_pos hsu]
      rw [sortStrBy_mem]
      exact hp
    · rw [if_neg hsu]
      rw [sortStr_mem]
      exact hp
  revert h5 hc
  generalize (if su then sortStrBy revLe _ else sortStr _) = ss
  intro hc h5
  cases ss with
  | nil => simp at h5
  | cons x t =>
    rcases List.mem_cons.mp h5 with hh | hh
    · subst hh
      exact ⟨p, List.mem_cons_self _ _, hc⟩
    · obtain ⟨z, hz, hzc⟩ := redF_cover su t x p hh
      refine ⟨z, hz, ?_⟩
      cases su with
      | true =>
        have hc2 : p <:+ s0 := hc
        have hzc2 : z.isSuffixOf p = true := hzc
        rw [List.isSuffixOf_iff_suffix] at hzc2
        show z <:+ s0
        exact hzc2.trans hc2
      | false =>
        have hc2 : p <+: s0 := hc
        have hzc2 : z.isPrefixOf p = true := hzc
        rw [List.isPrefixOf_iff_prefix] at hzc2
        show z <+: s0
        exact hzc2.trans hc2

theorem simplify_eq_phases (i : RegexpInfo) (force : Bool) :
    i.simplify force = simplifyPhase2 (simplifyPhase1 i force) := rfl

theorem infix_windows (t s : Str) (h : t <:+: s) :
    ∀ w ∈ windows3 t, triS s w = true := by
  intro w hw
  rw [triS, decide_eq_true_eq, windows3_mem_iff]
  rw [windows3_mem_iff] at hw
  exact ⟨hw.1, hw.2.trans h⟩

theorem simplify_set_cover_pre (s0 : Str) (l : List Str) (h : ∃ p ∈ l, p <+: s0) :
    ∃ p ∈ simplify_set false l, p <+: s0 := by
  obtain ⟨p, hp, hc⟩ := h
  obtain ⟨z, hz, hzc⟩ := simplify_set_cover false s0 l ⟨p, hp, hc⟩
  exact ⟨z, hz, hzc⟩

theorem simplify_set_cover_suf (s0 : Str) (l : List Str) (h : ∃ p ∈ l, p <:+ s0) :
    ∃ p ∈ simplify_set true l, p <:+ s0 := by
  obtain ⟨p, hp, hc⟩ := h
  obtain ⟨z, hz, hzc⟩ := simplify_set_cover true s0 l ⟨p, hp, hc⟩
  exact ⟨z, hz, hzc⟩

theorem phase1_sound (L : Str → Prop) (i : RegexpInfo) (force : Bool)
    (h : InfoSound L i) : InfoSound L (simplifyPhase1 i force) := by
  obtain ⟨hwf, hsnd⟩ := h
  rcases hex : i.exact with _ | ex0
  · have he : simplifyPhase1 i force = i := by
      rw [simplifyPhase1]
      rw [hex]
    rw [he]
    exact ⟨hwf, hsnd⟩
  · by_cases hcond : 7 < (clean_set ex0).length ∨
        (3 ≤ min_len (clean_set ex0) ∧ force = true) ∨ 4 ≤ min_len (clean_set ex0)
    · have he : simplifyPhase1 i force = { i with
          exact := Option.none
          match_q := i.match_q.and_trigrams (clean_set ex0)
          prefixS := i.prefixS ++ (clean_set ex0).map
            (fun (s : Str) => if s.length < 3 then s else s.take 2)
          suffixS := i.suffixS ++ (clean_set ex0).map
            (fun (s : Str) => if s.length < 3 then s else s.drop (s.length - 2)) } := by
        rw [simplifyPhase1]
        rw [hex]
        show (if 7 < (clean_set ex0).length ∨
          (3 ≤ min_len (clean_set ex0) ∧ force) ∨ 4 ≤ min_len (clean_set ex0) then _
          else _) = _
        rw [if_pos hcond]
      rw [he]
      refine ⟨and_trigrams_WFQ _ _ hwf, ?_⟩
      intro s hs
      obtain ⟨hmq, hexact, _⟩ := hsnd s hs
      have hsex : s ∈ clean_set ex0 := (clean_set_mem s ex0).mpr (hexact ex0 hex)
      refine ⟨?_, ?_, ?_⟩
      · exact and_trigrams_sound _ _ _ hwf hmq
          ⟨s, hsex, infix_windows s s List.infix_rfl⟩
      · intro ex hcon
        simp at hcon
      · intro _
        constructor
        · refine ⟨if s.length < 3 then s else s.take 2, ?_, ?_⟩
          · refine List.mem_append_right _ ?_
            exact List.mem_map.mpr ⟨s, hsex, rfl⟩
          · by_cases hl : s.length < 3
            · rw [if_pos hl]
            · rw [if_neg hl]
              exact List.take_prefix 2 s
        · refine ⟨if s.length < 3 then s else s.drop (s.length - 2), ?_, ?_⟩
          · refine List.mem_append_right _ ?_
            exact List.mem_map.mpr ⟨s, hsex, rfl⟩
          · by_cases hl : s.length < 3
            · rw [if_pos hl]
            · rw [if_neg hl]
              exact List.drop_suffix _ s
    · have he : simplifyPhase1 i force = { i with exact := some (clean_set ex0) } := by
        rw [simplifyPhase1]
        rw [hex]
        show (if 7 < (clean_set ex0).length ∨
          (3 ≤ min_len (clean_set ex0) ∧ force) ∨ 4 ≤ min_len (clean_set ex0) then _
          else _) = _
        rw [if_neg hcond]
      rw [he]
      refine ⟨hwf, ?_⟩
      intro s hs
      obtain ⟨hmq, hexact, _⟩ := hsnd s hs
      refine ⟨hmq, ?_, ?_⟩
      · intro ex hcon
        simp only [Option.some.injEq] at hcon
        rw [← hcon]
        exact (clean_set_mem s ex0).mpr (hexact ex0 hex)
      · intro hcon
        simp at hcon

theorem phase2_sound (L : Str → Prop) (i1 : RegexpInfo)
    (h : InfoSound L i1) : InfoSound L (simplifyPhase2 i1) := by
  obtain ⟨hwf, hsnd⟩ := h
  rcases hex : i1.exact with _ | ex
  · have he : simplifyPhase2 i1 = { i1 with
        prefixS := simplify_set false i1.prefixS
        suffixS := simplify_set true i1.suffixS
        match_q := (i1.match_q.and_trigrams
          (simplify_set false i1.prefixS)).and_trigrams
            (simplify_set true i1.suffixS) } := by
      rw [simplifyPhase2]
      rw [hex]
    rw [he]
    refine ⟨and_trigrams_WFQ _ _ (and_trigrams_WFQ _ _ hwf), ?_⟩
    intro s hs
    obtain ⟨hmq, hexact, hcov⟩ := hsnd s hs
    obtain ⟨hpcov, hfcov⟩ := hcov hex
    have hp2 := simplify_set_cover_pre s _ hpcov
    have hf2 := simplify_set_cover_suf s _ hfcov
    refine ⟨?_, ?_, ?_⟩
    · obtain ⟨f, hf, hfc⟩ := hf2
      refine and_trigrams_sound _ _ _ (and_trigrams_WFQ _ _ hwf) ?_
        ⟨f, hf, infix_windows f s hfc.isInfix⟩
      obtain ⟨p, hp, hpc⟩ := hp2
      exact and_trigrams_sound _ _ _ hwf hmq ⟨p, hp, infix_windows p s hpc.isInfix⟩
    · intro ex hcon
      exact hexact ex (by rw [← hcon, hex])
    · intro _
      exact ⟨hp2, hf2⟩
  · have he : simplifyPhase2 i1 = i1 := by
      rw [simplifyPhase2]
      rw [hex]
    rw [he]
    exact ⟨hwf, hsnd⟩

theorem simplify_sound (L : Str → Prop) (i : RegexpInfo) (force : Bool)
    (h : InfoSound L i) : InfoSound L (i.simplify force) := by
  rw [simplify_eq_phases]
  exact phase2_sound L _ (phase1_sound L i force h)

theorem concat_eq_phases (x y : RegexpInfo) :
    concat_info x y = (concatTri x y).simplify false := rfl

theorem alternate_eq_phases (x y : RegexpInfo) :
    alternate_info x y =
      ({ altBase x y with can_empty := x.can_empty || y.can_empty }).simplify false := rfl

theorem prefix_append_left (a p b : Str) (h : p <+: b) : (a ++ p) <+: (a ++ b) := by
  obtain ⟨t, rfl⟩ := h
  exact ⟨t, by rw [List.append_assoc]⟩

theorem suffix_append_right (a f b : Str) (h : f <:+ b) : f <:+ (a ++ b) :=
  h.trans (List.suffix_append a b)

theorem infix_glue (f p a b : Str) (hf : f <:+ a) (hp : p <+: b) :
    (f ++ p) <:+: (a ++ b) := by
  obtain ⟨a0, rfl⟩ := hf
  obtain ⟨b1, rfl⟩ := hp
  exact ⟨a0, b1, by simp [List.append_assoc]⟩

theorem sat_concat_mq (x y : RegexpInfo) (a b : Str)
    (hwx : WFQ x.match_q) (hwy : WFQ y.match_q)
    (hsx : evalQ (triS a) x.match_q = true) (hsy : evalQ (triS b) y.match_q = true) :
    evalQ (triS (a ++ b)) (x.match_q.and y.match_q) = true := by
  refine Query_and_sound _ _ _ hwx hwy ?_ ?_
  · exact evalQ_mono (triS a) (triS (a ++ b))
      (triS_mono a (a ++ b) (List.prefix_append a b).isInfix) _ hsx
  · exact evalQ_mono (triS b) (triS (a ++ b))
      (triS_mono b (a ++ b) (List.suffix_append a b).isInfix) _ hsy

theorem concatBase_sound (Lx Ly : Str → Prop) (x y : RegexpInfo)
    (hx : InfoSound Lx x) (hy : InfoSound Ly y) :
    InfoSound (fun s => ∃ a b, s = a ++ b ∧ Lx a ∧ Ly b) (concatBase x y) := by
  obtain ⟨hwx, hsx⟩ := hx
  obtain ⟨hwy, hsy⟩ := hy
  rcases hxe : x.exact with _ | xe <;> rcases hye : y.exact with _ | ye
  · have he : concatBase x y =
        { RegexpInfo.new with
          match_q := x.match_q.and y.match_q
          prefixS := if x.can_empty then union_sets x.prefixS y.prefixS else x.prefixS
          suffixS := if y.can_empty then union_sets y.suffixS x.suffixS
            else y.suffixS } := by
      rw [concatBase, hxe, hye]
    rw [he]
    refine ⟨Query_and_WFQ _ _ hwx hwy, ?_⟩
    rintro s ⟨a, b, rfl, hla, hlb⟩
    obtain ⟨hma, hea, hca⟩ := hsx a hla
    obtain ⟨hmb, heb, hcb⟩ := hsy b hlb
    obtain ⟨hpa, hfa⟩ := hca hxe
    obtain ⟨hpb, hfb⟩ := hcb hye
    refine ⟨sat_concat_mq x y a b hwx hwy hma hmb, ?_, ?_⟩
    · intro ex hcon
      simp [RegexpInfo.new] at hcon
    · intro _
      constructor
      · obtain ⟨p, hp, hpc⟩ := hpa
        refine ⟨p, ?_, hpc.trans (List.prefix_append a b)⟩
        by_cases hce : x.can_empty = true
        · rw [if_pos hce]
          exact (union_sets_mem p _ _).mpr (Or.inl hp)
        · rw [if_neg hce]
          exact hp
      · obtain ⟨f, hf, hfc⟩ := hfb
        refine ⟨f, ?_, hfc.trans (List.suffix_append a b)⟩
        by_cases hce : y.can_empty = true
        · rw [if_pos hce]
          exact (union_sets_mem f _ _).mpr (Or.inl hf)
        · rw [if_neg hce]
          exact hf
  · have he : concatBase x y =
        { RegexpInfo.new with
          match_q := x.match_q.and y.match_q
          prefixS := if x.can_empty then union_sets x.prefixS y.prefixS else x.prefixS
          suffixS := cross_sets x.suffixS ye } := by
      rw [concatBase, hxe, hye]
    rw [he]
    refine ⟨Query_and_WFQ _ _ hwx hwy, ?_⟩
    rintro s ⟨a, b, rfl, hla, hlb⟩
    obtain ⟨hma, hea, hca⟩ := hsx a hla
    obtain ⟨hmb, heb, hcb⟩ := hsy b hlb
    obtain ⟨hpa, hfa⟩ := hca hxe
    refine ⟨sat_concat_mq x y a b hwx hwy hma hmb, ?_, ?_⟩
    · intro ex hcon
      simp [RegexpInfo.new] at hcon
    · intro _
      constructor
      · obtain ⟨p, hp, hpc⟩ := hpa
        refine ⟨p, ?_, hpc.trans (List.prefix_append a b)⟩
        by_cases hce : x.can_empty = true
        · rw [if_pos hce]
          exact (union_sets_mem p _ _).mpr (Or.inl hp)
        · rw [if_neg hce]
          exact hp
      · obtain ⟨f, hf, hfc⟩ := hfa
        refine ⟨f ++ b, cross_sets_mem_of f b _ _ hf (heb ye hye), ?_⟩
        obtain ⟨a0, rfl⟩ := hfc
        exact ⟨a0, by rw [List.append_assoc]⟩
  · have he : concatBase x y =
        { RegexpInfo.new with
          match_q := x.match_q.and y.match_q
          prefixS := cross_sets xe y.prefixS
          suffixS := if y.can_empty then union_sets y.suffixS x.suffixS
            else y.suffixS } := by
      rw [concatBase, hxe, hye]
    rw [he]
    refine ⟨Query_and_WFQ _ _ hwx hwy, ?_⟩
    rintro s ⟨a, b, rfl, hla, hlb⟩
    obtain ⟨hma, hea, hca⟩ := hsx a hla
    obtain ⟨hmb, heb, hcb⟩ := hsy b hlb
    obtain ⟨hpb, hfb⟩ := hcb hye
    refine ⟨sat_concat_mq x y a b hwx hwy hma hmb, ?_, ?_⟩
    · intro ex hcon
      simp [RegexpInfo.new] at hcon
    · intro _
      constructor
      · obtain ⟨p, hp, hpc⟩ := hpb
        refine ⟨a ++ p, cross_sets_mem_of a p _ _ (hea xe hxe) hp, ?_⟩
        exact prefix_append_left a p b hpc
      · obtain ⟨f, hf, hfc⟩ := hfb
        refine ⟨f, ?_, hfc.trans (List.suffix_append a b)⟩
        by_cases hce : y.can_empty = true
        · rw [if_pos hce]
          exact (union_sets_mem f _ _).mpr (Or.inl hf)
        · rw [if_neg hce]
          exact hf
  · have he : concatBase x y =
        { RegexpInfo.new with
          match_q := x.match_q.and y.match_q
          exact := some (cross_sets xe ye) } := by
      rw [concatBase, hxe, hye]
    rw [he]
    refine ⟨Query_and_WFQ _ _ hwx hwy, ?_⟩
    rintro s ⟨a, b, rfl, hla, hlb⟩
    obtain ⟨hma, hea, hca⟩ := hsx a hla
    obtain ⟨hmb, heb, hcb⟩ := hsy b hlb
    refine ⟨sat_concat_mq x y a b hwx hwy hma hmb, ?_, ?_⟩
    · intro ex hcon
      simp only [Option.some.injEq] at hcon
      rw [← hcon]
      exact cross_sets_mem_of a b _ _ (hea xe hxe) (heb ye hye)
    · intro hcon
      simp [RegexpInfo.new] at hcon

theorem concat_info_sound (Lx Ly : Str → Prop) (x y : RegexpInfo)
    (hx : InfoSound Lx x) (hy : InfoSound Ly y) :
    InfoSound (fun s => ∃ a b, s = a ++ b ∧ Lx a ∧ Ly b) (concat_info x y) := by
  rw [concat_eq_phases]
  refine simplify_sound _ _ false ?_
  have hbase := concatBase_sound Lx Ly x y hx hy
  have hmid : InfoSound (fun s => ∃ a b, s = a ++ b ∧ Lx a ∧ Ly b)
      { concatBase x y with can_empty := x.can_empty && y.can_empty } :=
    ⟨hbase.1, fun s hs => hbase.2 s hs⟩
  rw [concatTri]
  by_cases hcond : x.exact.isNone = true ∧ y.exact.isNone = true ∧
      x.suffixS.length ≤ 20 ∧ y.prefixS.length ≤ 20 ∧
      3 ≤ min_len x.suffixS + min_len y.prefixS
  · rw [if_pos hcond]
    obtain ⟨hxn, hyn, _, _, _⟩ := hcond
    have hxe : x.exact = Option.none := Option.isNone_iff_eq_none.mp hxn
    have hye : y.exact = Option.none := Option.isNone_iff_eq_none.mp hyn
    refine ⟨and_trigrams_WFQ _ _ hmid.1, ?_⟩
    rintro s hls
    obtain ⟨hm, hex2, hcov2⟩ := hmid.2 s hls
    obtain ⟨a, b, rfl, hla, hlb⟩ := hls
    obtain ⟨_, _, hca⟩ := hx.2 a hla
    obtain ⟨_, _, hcb⟩ := hy.2 b hlb
    obtain ⟨_, hfa⟩ := hca hxe
    obtain ⟨hpb, _⟩ := hcb hye
    refine ⟨?_, hex2, hcov2⟩
    obtain ⟨f, hf, hfc⟩ := hfa
    obtain ⟨p, hp, hpc⟩ := hpb
    refine and_trigrams_sound _ _ _ hmid.1 hm
      ⟨f ++ p, cross_sets_mem_of f p _ _ hf hp, ?_⟩
    exact infix_windows _ _ (infix_glue f p a b hfc hpc)
  · rw [if_neg hcond]
    exact hmid

theorem altBase_sound (Lx Ly : Str → Prop) (x y : RegexpInfo)
    (hx : InfoSound Lx x) (hy : InfoSound Ly y) :
    InfoSound (fun s => Lx s ∨ Ly s) (altBase x y) := by
  obtain ⟨hwx, hsx⟩ := hx
  obtain ⟨hwy, hsy⟩ := hy
  rcases hxe : x.exact with _ | xe <;> rcases hye : y.exact with _ | ye
  · have he : altBase x y =
        { RegexpInfo.new with
          prefixS := union_sets x.prefixS y.prefixS
          suffixS := union_sets x.suffixS y.suffixS
          match_q := x.match_q.or y.match_q } := by
      rw [altBase, hxe, hye]
    rw [he]
    refine ⟨Query_or_WFQ _ _ hwx hwy, ?_⟩
    rintro s (hls | hls)
    · obtain ⟨hm, _, hcov⟩ := hsx s hls
      obtain ⟨hpc, hfc⟩ := hcov hxe
      refine ⟨Query_or_sound _ _ _ hwx hwy (Or.inl hm), ?_, ?_⟩
      · intro ex hcon
        simp [RegexpInfo.new] at hcon
      · intro _
        obtain ⟨p, hp, hc⟩ := hpc
        obtain ⟨f, hf, hc2⟩ := hfc
        exact ⟨⟨p, (union_sets_mem p _ _).mpr (Or.inl hp), hc⟩,
          ⟨f, (union_sets_mem f _ _).mpr (Or.inl hf), hc2⟩⟩
    · obtain ⟨hm, _, hcov⟩ := hsy s hls
      obtain ⟨hpc, hfc⟩ := hcov hye
      refine ⟨Query_or_sound _ _ _ hwx hwy (Or.inr hm), ?_, ?_⟩
      · intro ex hcon
        simp [RegexpInfo.new] at hcon
      · intro _
        obtain ⟨p, hp, hc⟩ := hpc
        obtain ⟨f, hf, hc2⟩ := hfc
        exact ⟨⟨p, (union_sets_mem p _ _).mpr (Or.inr hp), hc⟩,
          ⟨f, (union_sets_mem f _ _).mpr (Or.inr hf), hc2⟩⟩
  · have he : altBase x y =
        { RegexpInfo.new with
          prefixS := union_sets x.prefixS ye
          suffixS := union_sets x.suffixS ye
          match_q := x.match_q.or (y.match_q.and_trigrams ye) } := by
      rw [altBase, hxe, hye]
    rw [he]
    have hwr : WFQ (y.match_q.and_trigrams ye) := and_trigrams_WFQ _ _ hwy
    refine ⟨Query_or_WFQ _ _ hwx hwr, ?_⟩
    rintro s (hls | hls)
    · obtain ⟨hm, _, hcov⟩ := hsx s hls
      obtain ⟨hpc, hfc⟩ := hcov hxe
      refine ⟨Query_or_sound _ _ _ hwx hwr (Or.inl hm), ?_, ?_⟩
      · intro ex hcon
        simp [RegexpInfo.new] at hcon
      · intro _
        obtain ⟨p, hp, hc⟩ := hpc
        obtain ⟨f, hf, hc2⟩ := hfc
        exact ⟨⟨p, (union_sets_mem p _ _).mpr (Or.inl hp), hc⟩,
          ⟨f, (union_sets_mem f _ _).mpr (Or.inl hf), hc2⟩⟩
    · obtain ⟨hm, hexy, _⟩ := hsy s hls
      have hse : s ∈ ye := hexy ye hye
      refine ⟨?_, ?_, ?_⟩
      · refine Query_or_sound _ _ _ hwx hwr (Or.inr ?_)
        exact and_trigrams_sound _ _ _ hwy hm ⟨s, hse, infix_windows s s List.infix_rfl⟩
      · intro ex hcon
        simp [RegexpInfo.new] at hcon
      · intro _
        exact ⟨⟨s, (union_sets_mem s _ _).mpr (Or.inr hse), List.prefix_rfl⟩,
          ⟨s, (union_sets_mem s _ _).mpr (Or.inr hse), List.suffix_rfl⟩⟩
  · have he : altBase x y =
        { RegexpInfo.new with
          prefixS := union_sets xe y.prefixS
          suffixS := union_sets xe y.suffixS
          match_q := (x.match_q.and_trigrams xe).or y.match_q } := by
      rw [altBase, hxe, hye]
    rw [he]
    have hwl : WFQ (x.match_q.and_trigrams xe) := and_trigrams_WFQ _ _ hwx
    refine ⟨Query_or_WFQ _ _ hwl hwy, ?_⟩
    rintro s (hls | hls)
    · obtain ⟨hm, hexx, _⟩ := hsx s hls
      have hse : s ∈ xe := hexx xe hxe
      refine ⟨?_, ?_, ?_⟩
      · refine Query_or_sound _ _ _ hwl hwy (Or.inl ?_)
        exact and_trigrams_sound _ _ _ hwx hm ⟨s, hse, infix_windows s s List.infix_rfl⟩
      · intro ex hcon
        simp [RegexpInfo.new] at hcon
      · intro _
        exact ⟨⟨s, (union_sets_mem s _ _).mpr (Or.inl hse), List.prefix_rfl⟩,
          ⟨s, (union_sets_mem s _ _).mpr (Or.inl hse), List.suffix_rfl⟩⟩
    · obtain ⟨hm, _, hcov⟩ := hsy s hls
      obtain ⟨hpc, hfc⟩ := hcov hye
      refine ⟨Query_or_sound _ _ _ hwl hwy (Or.inr hm), ?_, ?_⟩
      · intro ex hcon
        simp [RegexpInfo.new] at hcon
      · intro _
        obtain ⟨p, hp, hc⟩ := hpc
        obtain ⟨f, hf, hc2⟩ := hfc
        exact ⟨⟨p, (union_sets_mem p _ _).mpr (Or.inr hp), hc⟩,
          ⟨f, (union_sets_mem f _ _).mpr (Or.inr hf), hc2⟩⟩
  · have he : altBase x y =
        { RegexpInfo.new with
          exact := some (union_sets xe ye)
          match_q := x.match_q.or y.match_q } := by
      rw [altBase, hxe, hye]
    rw [he]
    refine ⟨Query_or_WFQ _ _ hwx hwy, ?_⟩
    rintro s (hls | hls)
    · obtain ⟨hm, hexx, _⟩ := hsx s hls
      refine ⟨Query_or_sound _ _ _ hwx hwy (Or.inl hm), ?_, ?_⟩
      · intro ex hcon
        simp only [Option.some.injEq] at hcon
        rw [← hcon]
        exact (union_sets_mem s _ _).mpr (Or.inl (hexx xe hxe))
      · intro hcon
        simp [RegexpInfo.new] at hcon
    · obtain ⟨hm, hexy, _⟩ := hsy s hls
      refine ⟨Query_or_sound _ _ _ hwx hwy (Or.inr hm), ?_, ?_⟩
      · intro ex hcon
        simp only [Option.some.injEq] at hcon
        rw [← hcon]
        exact (union_sets_mem s _ _).mpr (Or.inr (hexy ye hye))
      · intro hcon
        simp [RegexpInfo.new] at hcon

theorem alternate_info_sound (Lx Ly : Str → Prop) (x y : RegexpInfo)
    (hx : InfoSound Lx x) (hy : InfoSound Ly y) :
    InfoSound (fun s => Lx s ∨ Ly s) (alternate_info x y) := by
  rw [alternate_eq_phases]
  refine simplify_sound _ _ false ?_
  have hbase := altBase_sound Lx Ly x y hx hy
  exact ⟨hbase.1, fun s hs => hbase.2 s hs⟩

theorem Lang_eps_inv (s : Str) (h : Lang .epsilon s) : s = [] := by cases h; rfl

theorem Lang_lit_inv (u s : Str) (h : Lang (.lit u) s) : s = u := by cases h; rfl

theorem Lang_look_inv (s : Str) (h : Lang .look s) : s = [] := by cases h; rfl

theorem Lang_cls_inv (rs : List (Nat × Nat)) (s : Str) (h : Lang (.cls rs) s) :
    ∃ b r, s = [b] ∧ r ∈ rs ∧ r.1 ≤ b ∧ b ≤ r.2 := by
  cases h with
  | cls _ b r hr h1 h2 => exact ⟨b, r, rfl, hr, h1, h2⟩

theorem Lang_rep_inv (m : Nat) (M : Option Nat) (sub : Hir) (s : Str)
    (h : Lang (.rep m M sub) s) : ∃ k, m ≤ k ∧ LangPow sub k s := by
  cases h with
  | rep _ _ _ k _ hk _ hp => exact ⟨k, hk, hp⟩

theorem Lang_capt_inv (sub : Hir) (s : Str) (h : Lang (.capture sub) s) : Lang sub s := by
  cases h with
  | capt _ _ hs => exact hs

theorem Lang_cat_inv (subs : List Hir) (s : Str) (h : Lang (.cat subs) s) :
    LangSeq subs s := by
  cases h with
  | cat _ _ hs => exact hs

theorem Lang_alt_inv (subs : List Hir) (s : Str) (h : Lang (.alt subs) s) :
    ∃ hh ∈ subs, Lang hh s := by
  cases h with
  | alt _ hh _ hmem hs => exact ⟨hh, hmem, hs⟩

theorem LangSeq_nil_inv (s : Str) (h : LangSeq [] s) : s = [] := by cases h; rfl

theorem LangSeq_cons_inv (h0 : Hir) (t : List Hir) (s : Str) (h : LangSeq (h0 :: t) s) :
    ∃ a b, s = a ++ b ∧ Lang h0 a ∧ LangSeq t b := by
  cases h with
  | cons _ _ a b ha hb => exact ⟨a, b, rfl, ha, hb⟩

theorem LangPow_first (k : Nat) (h : Hir) (s : Str) (hp : LangPow h k s) (hk : 1 ≤ k) :
    ∃ a b, s = a ++ b ∧ Lang h a := by
  cases hp with
  | zero => omega
  | succ _ _ a b hla hpb => exact ⟨a, b, rfl, hla⟩

theorem LangPow_last :
    ∀ (k : Nat) (h : Hir) (s : Str), LangPow h k s → 1 ≤ k →
    ∃ a b, s = a ++ b ∧ Lang h b := by
  intro k
  induction k with
  | zero => intro h s _ hk; omega
  | succ kk ih =>
    intro h s hp _
    cases hp with
    | succ _ _ a b hla hpb =>
      by_cases hk : 1 ≤ kk
      · obtain ⟨c, d, rfl, hld⟩ := ih h b hpb hk
        exact ⟨a ++ c, d, by rw [List.append_assoc], hld⟩
      · have hk0 : kk = 0 := by omega
        subst hk0
        cases hpb
        exact ⟨[], a, by simp, hla⟩

theorem classEnum_sound :
    ∀ (rs : List (Nat × Nat)) (acc l : List Nat), classEnum rs acc = some l →
    ∀ b, ((∃ r ∈ rs, r.1 ≤ b ∧ b ≤ r.2) ∨ b ∈ acc) → b ∈ l := by
  intro rs
  induction rs with
  | nil =>
    intro acc l h b hb
    have hacc : acc = l := by
      have h2 : some acc = some l := h
      simpa using h2
    subst hacc
    rcases hb with ⟨r, hr, _⟩ | hb
    · simp at hr
    · exact hb
  | cons r rs2 ih =>
    intro acc l h b hb
    rcases r with ⟨lo, hi⟩
    by_cases hc : 100 < acc.length + (hi - lo + 1)
    · have h2 : (Option.none : Option (List Nat)) = some l := by
        rw [← h]
        simp [classEnum, hc]
      cases h2
    · have h2 : classEnum rs2 (acc ++ (List.range (hi - lo + 1)).map (lo + ·)) = some l := by
        rw [← h]
        simp [classEnum, hc]
      refine ih _ l h2 b ?_
      rcases hb with ⟨rr, hrr, h1, h2b⟩ | hb
      · rcases List.mem_cons.mp hrr with hh | hh
        · refine Or.inr (List.mem_append_right _ ?_)
          rw [List.mem_map]
          refine ⟨b - lo, ?_, ?_⟩
          · rw [List.mem_range]
            have hrl : rr = (lo, hi) := hh
            rw [hrl] at h1 h2b
            simp at h1 h2b
            omega
          · have hrl : rr = (lo, hi) := hh
            rw [hrl] at h1 h2b
            simp at h1 h2b
            omega
        · exact Or.inl ⟨rr, hh, h1, h2b⟩
      · exact Or.inr (List.mem_append_left _ hb)

theorem evalQ_allQ (S : Str → Bool) : evalQ S Query.allQ = true := rfl

theorem empty_string_sound : InfoSound (fun s : Str => s = []) RegexpInfo.empty_string := by
  refine ⟨WFQ_allQ, ?_⟩
  rintro s rfl
  refine ⟨evalQ_allQ _, ?_, ?_⟩
  · intro ex hcon
    have h2 : some [([] : Str)] = some ex := hcon
    simp only [Option.some.injEq] at h2
    rw [← h2]
    exact List.mem_cons_self _ _
  · intro hcon
    have h2 : some [([] : Str)] = (Option.none : Option (List Str)) := hcon
    cases h2

theorem any_match_sound (L : Str → Prop) : InfoSound L RegexpInfo.any_match := by
  refine ⟨WFQ_allQ, ?_⟩
  intro s _
  refine ⟨evalQ_allQ _, ?_, ?_⟩
  · intro ex hcon
    have h2 : (Option.none : Option (List Str)) = some ex := hcon
    cases h2
  · intro _
    exact ⟨⟨[], List.mem_cons_self _ _, List.nil_prefix⟩,
      ⟨[], List.mem_cons_self _ _, List.nil_suffix⟩⟩

theorem any_char_sound (L : Str → Prop) : InfoSound L RegexpInfo.any_char := by
  refine ⟨WFQ_allQ, ?_⟩
  intro s _
  refine ⟨evalQ_allQ _, ?_, ?_⟩
  · intro ex hcon
    have h2 : (Option.none : Option (List Str)) = some ex := hcon
    cases h2
  · intro _
    exact ⟨⟨[], List.mem_cons_self _ _, List.nil_prefix⟩,
      ⟨[], List.mem_cons_self _ _, List.nil_suffix⟩⟩

theorem no_match_sound (L : Str → Prop) (h : ∀ s, ¬ L s) :
    InfoSound L RegexpInfo.no_match := by
  refine ⟨WFQ_noneQ, ?_⟩
  intro s hs
  exact absurd hs (h s)

theorem add_exact_sound (L : Str → Prop) (i : RegexpInfo) (h : InfoSound L i) :
    InfoSound L i.add_exact := by
  rcases hex : i.exact with _ | ex
  · have he : i.add_exact = i := by
      rw [RegexpInfo.add_exact, hex]
    rw [he]
    exact h
  · have he : i.add_exact = { i with match_q := i.match_q.and_trigrams ex } := by
      rw [RegexpInfo.add_exact, hex]
    rw [he]
    refine ⟨and_trigrams_WFQ _ _ h.1, ?_⟩
    intro s hs
    obtain ⟨hm, hexx, hcov⟩ := h.2 s hs
    refine ⟨?_, ?_, ?_⟩
    · exact and_trigrams_sound _ _ _ h.1 hm
        ⟨s, hexx ex hex, infix_windows s s List.infix_rfl⟩
    · intro e hcon
      exact hexx e hcon
    · intro hcon
      exact hcov hcon

mutual

theorem analyze_hir_sound : ∀ (h : Hir), InfoSound (Lang h) (analyze_hir h)
  | .epsilon => by
    have he : analyze_hir .epsilon = RegexpInfo.empty_string.simplify false := by
      simp [analyze_hir]
    rw [he]
    refine simplify_sound _ _ _ ?_
    exact InfoSound_mono _ _ _ empty_string_sound (fun s hs => Lang_eps_inv s hs)
  | .lit u => by
    have he : analyze_hir (.lit u) =
        ({ RegexpInfo.new with exact := some [u] }).simplify false := by
      simp [analyze_hir]
    rw [he]
    refine simplify_sound _ _ _ ?_
    refine ⟨WFQ_allQ, ?_⟩
    intro s hs
    have hsu : s = u := Lang_lit_inv u s hs
    subst hsu
    refine ⟨evalQ_allQ _, ?_, ?_⟩
    · intro ex hcon
      have h2 : some [s] = some ex := hcon
      simp only [Option.some.injEq] at h2
      rw [← h2]
      exact List.mem_cons_self _ _
    · intro hcon
      have h2 : some [s] = (Option.none : Option (List Str)) := hcon
      cases h2
  | .cls rs => by
    rcases hce : classEnum rs [] with _ | l
    · have he : analyze_hir (.cls rs) = RegexpInfo.any_char := by
        simp [analyze_hir, hce]
      rw [he]
      exact any_char_sound _
    · rcases l with _ | ⟨c, cs⟩
      · have he : analyze_hir (.cls rs) = RegexpInfo.no_match := by
          simp [analyze_hir, hce]
        rw [he]
        refine no_match_sound _ ?_
        intro s hs
        obtain ⟨b, r, rfl, hr, h1, h2⟩ := Lang_cls_inv rs s hs
        have := classEnum_sound rs [] [] hce b (Or.inl ⟨r, hr, h1, h2⟩)
        simp at this
      · have he : analyze_hir (.cls rs) =
            ({ RegexpInfo.new with
              exact := some ((c :: cs).map fun b => [b]) }).simplify false := by
          simp [analyze_hir, hce]
        rw [he]
        refine simplify_sound _ _ _ ?_
        refine ⟨WFQ_allQ, ?_⟩
        intro s hs
        obtain ⟨b, r, rfl, hr, h1, h2⟩ := Lang_cls_inv rs s hs
        have hbm := classEnum_sound rs [] (c :: cs) hce b (Or.inl ⟨r, hr, h1, h2⟩)
        refine ⟨evalQ_allQ _, ?_, ?_⟩
        · intro ex hcon
          have h3 : some ((c :: cs).map fun b => [b]) = some ex := hcon
          simp only [Option.some.injEq] at h3
          rw [← h3]
          exact List.mem_map.mpr ⟨b, hbm, rfl⟩
        · intro hcon
          have h3 : some ((c :: cs).map fun b => [b]) =
            (Option.none : Option (List Str)) := hcon
          cases h3
  | .look => by
    have he : analyze_hir .look = RegexpInfo.empty_string.simplify false := by
      simp [analyze_hir]
    rw [he]
    refine simplify_sound _ _ _ ?_
    exact InfoSound_mono _ _ _ empty_string_sound (fun s hs => Lang_look_inv s hs)
  | .rep 0 M sub => by
    have he : analyze_hir (.rep 0 M sub) = RegexpInfo.any_match.simplify false := by
      simp [analyze_hir]
    rw [he]
    exact simplify_sound _ _ _ (any_match_sound _)
  | .rep (m + 1) M sub => by
    have hsub := analyze_hir_sound sub
    rcases hex : (analyze_hir sub).exact with _ | ex
    · have he : analyze_hir (.rep (m + 1) M sub) =
          (analyze_hir sub).simplify false := by
        simp [analyze_hir, hex]
      rw [he]
      refine simplify_sound _ _ _ ?_
      refine ⟨hsub.1, ?_⟩
      intro s hs
      obtain ⟨k, hk, hpow⟩ := Lang_rep_inv _ _ _ _ hs
      obtain ⟨a, b, rfl, hla⟩ := LangPow_first k sub _ hpow (by omega)
      obtain ⟨c, d, hcd, hld⟩ := LangPow_last k sub _ hpow (by omega)
      obtain ⟨hma, _, hcova⟩ := hsub.2 a hla
      obtain ⟨_, _, hcovd⟩ := hsub.2 d hld
      refine ⟨?_, ?_, ?_⟩
      · exact evalQ_mono (triS a) (triS (a ++ b))
          (triS_mono a (a ++ b) (List.prefix_append a b).isInfix) _ hma
      · intro e hcon
        rw [hex] at hcon
        cases hcon
      · intro _
        obtain ⟨hpa, _⟩ := hcova hex
        obtain ⟨_, hfd⟩ := hcovd hex
        constructor
        · obtain ⟨p, hp, hpc⟩ := hpa
          exact ⟨p, hp, hpc.trans (List.prefix_append a b)⟩
        · obtain ⟨f, hf, hfc⟩ := hfd
          refine ⟨f, hf, ?_⟩
          rw [hcd]
          exact hfc.trans (List.suffix_append c d)
    · have he : analyze_hir (.rep (m + 1) M sub) =
          ({ analyze_hir sub with
            prefixS := ex
            suffixS := ex
            exact := Option.none }).simplify false := by
        simp [analyze_hir, hex]
      rw [he]
      refine simplify_sound _ _ _ ?_
      refine ⟨hsub.1, ?_⟩
      intro s hs
      obtain ⟨k, hk, hpow⟩ := Lang_rep_inv _ _ _ _ hs
      obtain ⟨a, b, rfl, hla⟩ := LangPow_first k sub _ hpow (by omega)
      obtain ⟨c, d, hcd, hld⟩ := LangPow_last k sub _ hpow (by omega)
      obtain ⟨hma, hexa, _⟩ := hsub.2 a hla
      obtain ⟨_, hexd, _⟩ := hsub.2 d hld
      refine ⟨?_, ?_, ?_⟩
      · exact evalQ_mono (triS a) (triS (a ++ b))
          (triS_mono a (a ++ b) (List.prefix_append a b).isInfix) _ hma
      · intro e hcon
        have h2 : (Option.none : Option (List Str)) = some e := hcon
        cases h2
      · intro _
        constructor
        · exact ⟨a, hexa ex hex, List.prefix_append a b⟩
        · refine ⟨d, hexd ex hex, ?_⟩
          rw [hcd]
          exact List.suffix_append c d
  | .capture sub => by
    have he : analyze_hir (.capture sub) = (analyze_hir sub).simplify false := by
      simp [analyze_hir]
    rw [he]
    refine simplify_sound _ _ _ ?_
    exact InfoSound_mono _ _ _ (analyze_hir_sound sub)
      (fun s hs => Lang_capt_inv sub s hs)
  | .cat subs => by
    have he : analyze_hir (.cat subs) =
        (foldInfo concat_info RegexpInfo.empty_string subs).simplify false := by
      simp [analyze_hir]
    rw [he]
    refine simplify_sound _ _ _ ?_
    rcases subs with _ | ⟨h1, rest⟩
    · have hf : foldInfo concat_info RegexpInfo.empty_string [] =
          RegexpInfo.empty_string := by
        simp [foldInfo]
      rw [hf]
      refine InfoSound_mono _ _ _ empty_string_sound ?_
      intro s hs
      exact LangSeq_nil_inv s (Lang_cat_inv [] s hs)
    · rcases rest with _ | ⟨h2, t⟩
      · have hf : foldInfo concat_info RegexpInfo.empty_string [h1] =
            analyze_hir h1 := by
          simp [foldInfo]
        rw [hf]
        refine InfoSound_mono _ _ _ (analyze_hir_sound h1) ?_
        intro s hs
        obtain ⟨a, b, rfl, hla, hsb⟩ := LangSeq_cons_inv h1 [] _ (Lang_cat_inv _ _ hs)
        have hb : b = [] := LangSeq_nil_inv b hsb
        subst hb
        rw [List.append_nil]
        exact hla
      · have hf : foldInfo concat_info RegexpInfo.empty_string (h1 :: h2 :: t) =
            foldInfoAcc concat_info (concat_info (analyze_hir h1) (analyze_hir h2)) t := by
          simp [foldInfo]
        rw [hf]
        have hacc := concat_info_sound (Lang h1) (Lang h2) _ _
          (analyze_hir_sound h1) (analyze_hir_sound h2)
        have hrec := foldInfoAcc_cat_sound t _ _ hacc
        refine InfoSound_mono _ _ _ hrec ?_
        intro s hs
        obtain ⟨a, b, rfl, hla, hsb⟩ := LangSeq_cons_inv h1 _ _ (Lang_cat_inv _ _ hs)
        obtain ⟨c, d, rfl, hlc, hsd⟩ := LangSeq_cons_inv h2 _ _ hsb
        exact ⟨a ++ c, d, by rw [List.append_assoc], ⟨a, c, rfl, hla, hlc⟩, hsd⟩
  | .alt subs => by
    have he : analyze_hir (.alt subs) =
        (foldInfo alternate_info RegexpInfo.no_match subs).simplify false := by
      simp [analyze_hir]
    rw [he]
    refine simplify_sound _ _ _ ?_
    rcases subs with _ | ⟨h1, rest⟩
    · have hf : foldInfo alternate_info RegexpInfo.no_match [] =
          RegexpInfo.no_match := by
        simp [foldInfo]
      rw [hf]
      refine no_match_sound _ ?_
      intro s hs
      obtain ⟨hh, hmem, _⟩ := Lang_alt_inv [] s hs
      simp at hmem
    · rcases rest with _ | ⟨h2, t⟩
      · have hf : foldInfo alternate_info RegexpInfo.no_match [h1] =
            analyze_hir h1 := by
          simp [foldInfo]
        rw [hf]
        refine InfoSound_mono _ _ _ (analyze_hir_sound h1) ?_
        intro s hs
        obtain ⟨hh, hmem, hls⟩ := Lang_alt_inv [h1] s hs
        rcases List.mem_cons.mp hmem with h | h
        · rw [← h]
          exact hls
        · simp at h
      · have hf : foldInfo alternate_info RegexpInfo.no_match (h1 :: h2 :: t) =
            foldInfoAcc alternate_info
              (alternate_info (analyze_hir h1) (analyze_hir h2)) t := by
          simp [foldInfo]
        rw [hf]
        have hacc := alternate_info_sound (Lang h1) (Lang h2) _ _
          (analyze_hir_sound h1) (analyze_hir_sound h2)
        have hrec := foldInfoAcc_alt_sound t _ _ hacc
        refine InfoSound_mono _ _ _ hrec ?_
        intro s hs
        obtain ⟨hh, hmem, hls⟩ := Lang_alt_inv _ s hs
        rcases List.mem_cons.mp hmem with h | h
        · exact Or.inl (Or.inl (h ▸ hls))
        · rcases List.mem_cons.mp h with h3 | h3
          · exact Or.inl (Or.inr (h3 ▸ hls))
          · exact Or.inr ⟨hh, h3, hls⟩

theorem foldInfoAcc_cat_sound :
    ∀ (t : List Hir) (acc : RegexpInfo) (Lacc : Str → Prop),
    InfoSound Lacc acc →
    InfoSound (fun s => ∃ a b, s = a ++ b ∧ Lacc a ∧ LangSeq t b)
      (foldInfoAcc concat_info acc t)
  | [], acc, Lacc, hacc => by
    have he : foldInfoAcc concat_info acc [] = acc := by
      simp [foldInfoAcc]
    rw [he]
    refine InfoSound_mono _ _ _ hacc ?_
    rintro s ⟨a, b, rfl, hla, hsb⟩
    have hb : b = [] := LangSeq_nil_inv b hsb
    subst hb
    rw [List.append_nil]
    exact hla
  | h0 :: t, acc, Lacc, hacc => by
    have he : foldInfoAcc concat_info acc (h0 :: t) =
        foldInfoAcc concat_info (concat_info acc (analyze_hir h0)) t := by
      simp [foldInfoAcc]
    rw [he]
    have hcc := concat_info_sound Lacc (Lang h0) acc _ hacc (analyze_hir_sound h0)
    have hrec := foldInfoAcc_cat_sound t _ _ hcc
    refine InfoSound_mono _ _ _ hrec ?_
    rintro s ⟨a, b, rfl, hla, hsb⟩
    obtain ⟨c, d, rfl, hlc, hsd⟩ := LangSeq_cons_inv h0 _ _ hsb
    exact ⟨a ++ c, d, by rw [List.append_assoc], ⟨a, c, rfl, hla, hlc⟩, hsd⟩

theorem foldInfoAcc_alt_sound :
    ∀ (t : List Hir) (acc : RegexpInfo) (Lacc : Str → Prop),
    InfoSound Lacc acc →
    InfoSound (fun s => Lacc s ∨ ∃ hh ∈ t, Lang hh s)
      (foldInfoAcc alternate_info acc t)
  | [], acc, Lacc, hacc => by
    have he : foldInfoAcc alternate_info acc [] = acc := by
      simp [foldInfoAcc]
    rw [he]
    refine InfoSound_mono _ _ _ hacc ?_
    rintro s (hs | ⟨hh, hmem, _⟩)
    · exact hs
    · simp at hmem
  | h0 :: t, acc, Lacc, hacc => by
    have he : foldInfoAcc alternate_info acc (h0 :: t) =
        foldInfoAcc alternate_info (alternate_info acc (analyze_hir h0)) t := by
      simp [foldInfoAcc]
    rw [he]
    have hcc := alternate_info_sound Lacc (Lang h0) acc _ hacc (analyze_hir_sound h0)
    have hrec := foldInfoAcc_alt_sound t _ _ hcc
    refine InfoSound_mono _ _ _ hrec ?_
    rintro s (hs | ⟨hh, hmem, hls⟩)
    · exact Or.inl (Or.inl hs)
    · rcases List.mem_cons.mp hmem with h | h
      · exact Or.inl (Or.inr (h ▸ hls))
      · exact Or.inr ⟨hh, h, hls⟩

end

/-- C1: soundness of the analyzer. For every HIR and every string `s`
it matches, the trigram query produced by `analyze_regexp` evaluates
to true under the predicate that holds for exactly the 3-byte windows
of `s`: the query is a necessary condition for a match. -/

theorem c1_analyze_regexp_sound (h : Hir) (s : Str) (hm : Lang h s) :
    evalQ (triS s) (analyze_regexp h) = true := by
  have h1 := analyze_hir_sound h
  have h2 := simplify_sound _ _ true h1
  have h3 := add_exact_sound _ _ h2
  show evalQ (triS s) ((((analyze_hir h).simplify true).add_exact).match_q) = true
  exact (h3.2 s hm).1

theorem c1_analyze_regexp_sound_witness :
    evalQ (triS [97, 98, 99]) (analyze_regexp (Hir.lit [97, 98, 99])) = true :=
  c1_analyze_regexp_sound (Hir.lit [97, 98, 99]) [97, 98, 99] (Lang.lit [97, 98, 99])

theorem trigNodup_mk (op : QueryOp) (T : List Str) (subs : List Query) :
    trigNodup (.mk op T subs) ↔ (T.Nodup ∧ trigNodupAll subs) := by
  rw [trigNodup]

theorem trigNodupAll_mem :
    ∀ (l : List Query), trigNodupAll l → ∀ q ∈ l, trigNodup q := by
  intro l
  induction l with
  | nil => intro _ q hq; simp at hq
  | cons a t ih =>
    intro h q hq
    rw [trigNodupAll] at h
    rcases List.mem_cons.mp hq with hh | hh
    · exact hh ▸ h.1
    · exact ih h.2 q hh

theorem trigNodupAll_of_mem :
    ∀ (l : List Query), (∀ q ∈ l, trigNodup q) → trigNodupAll l := by
  intro l
  induction l with
  | nil => intro _; rw [trigNodupAll]; trivial
  | cons a t ih =>
    intro h
    rw [trigNodupAll]
    exact ⟨h a (List.mem_cons_self _ _), ih (fun q hq => h q (List.mem_cons_of_mem _ hq))⟩

theorem trigNodupAll_append (l1 l2 : List Query)
    (h1 : trigNodupAll l1) (h2 : trigNodupAll l2) : trigNodupAll (l1 ++ l2) := by
  refine trigNodupAll_of_mem _ ?_
  intro q hq
  rcases List.mem_append.mp hq with h | h
  · exact trigNodupAll_mem l1 h1 q h
  · exact trigNodupAll_mem l2 h2 q h

theorem trigNodup_allQ : trigNodup Query.allQ := by
  rw [Query.allQ, trigNodup, trigNodupAll]
  exact ⟨List.nodup_nil, trivial⟩

theorem trigNodup_noneQ : trigNodup Query.noneQ := by
  rw [Query.noneQ, trigNodup, trigNodupAll]
  exact ⟨List.nodup_nil, trivial⟩

theorem lexLe_total : ∀ (a b : Str), lexLe a b = true ∨ lexLe b a = true := by
  intro a
  induction a with
  | nil => intro b; exact Or.inl rfl
  | cons x s ih =>
    intro b
    cases b with
    | nil => exact Or.inr rfl
    | cons y t =>
      show (if x < y then true else if y < x then false else lexLe s t) = true ∨
        (if y < x then true else if x < y then false else lexLe t s) = true
      rcases Nat.lt_trichotomy x y with h | h | h
      · rw [if_pos h]
        exact Or.inl rfl
      · subst h
        rw [if_neg (by omega), if_neg (by omega), if_neg (by omega), if_neg (by omega)]
        exact ih t
      · rw [if_neg (by omega), if_pos h]
        exact Or.inr (by rw [if_pos h])

theorem lexLt_iff_le_ne : ∀ (a b : Str), lexLt a b = true ↔ (lexLe a b = true ∧ a ≠ b) := by
  intro a
  induction a with
  | nil =>
    intro b
    cases b with
    | nil => simp [lexLt, lexLe]
    | cons y t => simp [lexLt, lexLe]
  | cons x s ih =>
    intro b
    cases b with
    | nil => simp [lexLt, lexLe]
    | cons y t =>
      show (if x < y then true else if y < x then false else lexLt s t) = true ↔
        ((if x < y then true else if y < x then false else lexLe s t) = true ∧ _)
      rcases Nat.lt_trichotomy x y with h | h | h
      · rw [if_pos h, if_pos h]
        constructor
        · intro _
          refine ⟨rfl, ?_⟩
          intro hc
          injection hc with h1 _
          omega
        · intro _
          rfl
      · subst h
        rw [if_neg (by omega), if_neg (by omega), if_neg (by omega), if_neg (by omega)]
        rw [ih t]
        constructor
        · intro ⟨h1, h2⟩
          refine ⟨h1, ?_⟩
          intro hc
          injection hc with _ h3
          exact h2 h3
        · intro ⟨h1, h2⟩
          refine ⟨h1, ?_⟩
          intro hc
          exact h2 (by rw [hc])
      · rw [if_neg (by omega), if_pos h, if_neg (by omega), if_pos h]
        constructor
        · intro hc; cases hc
        · intro ⟨hc, _⟩; cases hc

theorem lexLe_trans_str : ∀ {a b c : Str}, lexLe a b = true → lexLe b c = true →
    lexLe a c = true := by
  intro a
  induction a with
  | nil => intro b c _ _; rfl
  | cons x s ih =>
    intro b c h1 h2
    cases b with
    | nil => simp [lexLe] at h1
    | cons y t =>
      cases c with
      | nil => simp [lexLe] at h2
      | cons z u =>
        have h1b : (if x < y then true else if y < x then false else lexLe s t) = true := h1
        have h2b : (if y < z then true else if z < y then false else lexLe t u) = true := h2
        show (if x < z then true else if z < x then false else lexLe s u) = true
        rcases Nat.lt_trichotomy x y with hxy | hxy | hxy
        · rcases Nat.lt_trichotomy y z with hyz | hyz | hyz
          · rw [if_pos (by omega)]
          · subst hyz
            rw [if_pos (by omega)]
          · rw [if_neg (by omega), if_pos hyz] at h2b
            cases h2b
        · subst hxy
          rcases Nat.lt_trichotomy x z with hyz | hyz | hyz
          · rw [if_pos hyz]
          · subst hyz
            rw [if_neg (by omega), if_neg (by omega)] at h1b h2b ⊢
            exact ih h1b h2b
          · rw [if_neg (by omega), if_pos hyz] at h2b
            cases h2b
        · rw [if_neg (by omega), if_pos hxy] at h1b
          cases h1b

theorem chainLeStr_head :
    ∀ (t : List Str) (a q : Str),
    List.Chain' (fun x y => lexLe x y = true) (a :: t) → q ∈ t → lexLe a q = true := by
  intro t
  induction t with
  | nil => intro a q _ hq; simp at hq
  | cons b t2 ih =>
    intro a q hch hq
    rw [List.chain'_cons] at hch
    rcases List.mem_cons.mp hq with h | h
    · exact h ▸ hch.1
    · exact lexLe_trans_str hch.1 (ih b q hch.2 h)

theorem insertLe_chain (x : Str) :
    ∀ (l : List Str), List.Chain' (fun a b => lexLe a b = true) l →
    List.Chain' (fun a b => lexLe a b = true) (insertLe x l) := by
  intro l
  induction l with
  | nil => intro _; simp [insertLe]
  | cons y t ih =>
    intro hch
    show List.Chain' _ (if lexLe x y then x :: y :: t else y :: insertLe x t)
    by_cases h : lexLe x y = true
    · rw [if_pos h]
      exact List.chain'_cons.mpr ⟨h, hch⟩
    · rw [if_neg h]
      have hyx : lexLe y x = true := by
        rcases lexLe_total x y with h2 | h2
        · exact absurd h2 h
        · exact h2
      refine List.chain'_cons'.mpr ⟨?_, ih (List.Chain'.tail hch)⟩
      intro z hz
      have hzm : z ∈ insertLe x t := List.mem_of_mem_head? hz
      rcases (insertLe_mem x z t).mp hzm with hh | hh
      · exact hh ▸ hyx
      · cases t with
        | nil => simp at hh
        | cons w t2 =>
          have hle : lexLe y w = true := (List.chain'_cons.mp hch).1
          rcases List.mem_cons.mp hh with h3 | h3
          · exact h3 ▸ hle
          · have := chainLeStr_head t2 w z (List.Chain'.tail hch) h3
            exact lexLe_trans_str hle this

theorem sortStr_chain :
    ∀ (l : List Str), List.Chain' (fun a b => lexLe a b = true) (sortStr l) := by
  intro l
  induction l with
  | nil => simp [sortStr]
  | cons x t ih =>
    show List.Chain' _ (insertLe x (sortStr t))
    exact insertLe_chain x _ ih
theorem dedupAdj_cons_head :
    ∀ (t : List Str) (b : Str), ∃ tl, dedupAdj (b :: t) = b :: tl := by
  intro t
  induction t with
  | nil => intro b; exact ⟨[], rfl⟩
  | cons c t2 ih =>
    intro b
    show ∃ tl, (if b = c then dedupAdj (c :: t2) else b :: dedupAdj (c :: t2)) = b :: tl
    by_cases h : b = c
    · rw [if_pos h]
      subst h
      exact ih b
    · rw [if_neg h]
      exact ⟨dedupAdj (c :: t2), rfl⟩

theorem dedupAdj_chain_lt :
    ∀ (l : List Str), List.Chain' (fun a b => lexLe a b = true) l →
    List.Chain' (fun a b => lexLt a b = true) (dedupAdj l) := by
  intro l
  induction l with
  | nil => intro _; simp [dedupAdj]
  | cons a t ih =>
    intro hch
    cases t with
    | nil => simp [dedupAdj]
    | cons b t2 =>
      show List.Chain' _ (if a = b then dedupAdj (b :: t2) else a :: dedupAdj (b :: t2))
      have htail := ih (List.Chain'.tail hch)
      by_cases h : a = b
      · rw [if_pos h]
        exact htail
      · rw [if_neg h]
        obtain ⟨tl, htl⟩ := dedupAdj_cons_head t2 b
        rw [htl] at htail ⊢
        refine List.chain'_cons.mpr ⟨?_, htail⟩
        exact (lexLt_iff_le_ne a b).mpr ⟨(List.chain'_cons.mp hch).1, h⟩

theorem nodup_of_chainLt :
    ∀ (l : List Str), List.Chain' (fun a b => lexLt a b = true) l → l.Nodup := by
  intro l
  induction l with
  | nil => intro _; exact List.nodup_nil
  | cons a t ih =>
    intro hch
    refine List.Nodup.cons ?_ (ih (List.Chain'.tail hch))
    intro hmem
    have := chainLex_head t a a hch hmem
    rw [lexLt_irrefl] at this
    cases this

theorem clean_set_chain_lt (l : List Str) :
    List.Chain' (fun a b => lexLt a b = true) (clean_set l) := by
  show List.Chain' _ (dedupAdj (sortStr l))
  exact dedupAdj_chain_lt _ (sortStr_chain l)

theorem clean_set_nodup (l : List Str) : (clean_set l).Nodup :=
  nodup_of_chainLt _ (clean_set_chain_lt l)

theorem union_sets_nodup (s t : List Str) : (union_sets s t).Nodup :=
  clean_set_nodup _

theorem intersection_splitF_sublist :
    ∀ (f : Nat) (s t : List Str),
    List.Sublist (intersection_splitF f s t).1 s ∧
    List.Sublist (intersection_splitF f s t).2.1 s ∧
    List.Sublist (intersection_splitF f s t).2.2 t := by
  intro f
  induction f with
  | zero =>
    intro s t
    show List.Sublist ([] : List Str) s ∧ List.Sublist s s ∧ List.Sublist t t
    exact ⟨List.nil_sublist s, List.Sublist.refl s, List.Sublist.refl t⟩
  | succ n ih =>
    intro s t
    match s, t with
    | [], t =>
      show List.Sublist ([] : List Str) [] ∧ List.Sublist ([] : List Str) [] ∧
        List.Sublist t t
      exact ⟨List.Sublist.refl _, List.Sublist.refl _, List.Sublist.refl t⟩
    | a :: s, [] =>
      show List.Sublist ([] : List Str) (a :: s) ∧ List.Sublist (a :: s) (a :: s) ∧
        List.Sublist ([] : List Str) []
      exact ⟨List.nil_sublist _, List.Sublist.refl _, List.Sublist.refl _⟩
    | a :: s, b :: t =>
      rcases hc : strCmp a b with _ | _ | _
      · rcases hrec : intersection_splitF n s (b :: t) with ⟨c, so, ro⟩
        obtain ⟨ih1, ih2, ih3⟩ := ih s (b :: t)
        rw [hrec] at ih1 ih2 ih3
        have hstep : intersection_splitF (n + 1) (a :: s) (b :: t) = (c, a :: so, ro) := by
          simp only [intersection_splitF, hc, hrec]
        rw [hstep]
        exact ⟨List.Sublist.cons a ih1, List.Sublist.cons₂ a ih2, ih3⟩
      · rcases hrec : intersection_splitF n s t with ⟨c, so, ro⟩
        obtain ⟨ih1, ih2, ih3⟩ := ih s t
        rw [hrec] at ih1 ih2 ih3
        have hstep : intersection_splitF (n + 1) (a :: s) (b :: t) = (a :: c, so, ro) := by
          simp only [intersection_splitF, hc, hrec]
        rw [hstep]
        exact ⟨List.Sublist.cons₂ a ih1, List.Sublist.cons a ih2, List.Sublist.cons b ih3⟩
      · rcases hrec : intersection_splitF n (a :: s) t with ⟨c, so, ro⟩
        obtain ⟨ih1, ih2, ih3⟩ := ih (a :: s) t
        rw [hrec] at ih1 ih2 ih3
        have hstep : intersection_splitF (n + 1) (a :: s) (b :: t) = (c, so, b :: ro) := by
          simp only [intersection_splitF, hc, hrec]
        rw [hstep]
        exact ⟨ih1, ih2, List.Sublist.cons₂ b ih3⟩
theorem unwrap1_trigNodup (q : Query) (h : trigNodup q) : trigNodup (unwrap1 q) := by
  rcases q with ⟨op, T, subs⟩
  by_cases hT : T = []
  · rcases subs with _ | ⟨x, rest⟩
    · have he : unwrap1 (Query.mk op T []) = Query.mk op T [] := by simp [unwrap1, hT]
      rw [he]
      exact h
    · rcases rest with _ | ⟨y, rest2⟩
      · have he : unwrap1 (Query.mk op T [x]) = x := by simp [unwrap1, hT]
        rw [he]
        have h2 := (trigNodup_mk op T [x]).mp h
        exact trigNodupAll_mem [x] h2.2 x (List.mem_cons_self _ _)
      · have he : unwrap1 (Query.mk op T (x :: y :: rest2)) =
            Query.mk op T (x :: y :: rest2) := by simp [unwrap1, hT]
        rw [he]
        exact h
  · have he : unwrap1 (Query.mk op T subs) = Query.mk op T subs := by simp [unwrap1, hT]
    rw [he]
    exact h

theorem and_orF_trigNodup :
    ∀ (n : Nat) (q0 r0 : Query) (op : QueryOp),
    trigNodup q0 → trigNodup r0 → trigNodup (and_orF n q0 r0 op) := by
  intro n
  induction n with
  | zero => intro q0 r0 op _ _; exact trigNodup_allQ
  | succ n ih =>
    intro q0 r0 op hq0 hr0
    rw [and_orF_succ]
    have hq : trigNodup (unwrap1 q0) := unwrap1_trigNodup q0 hq0
    have hr : trigNodup (unwrap1 r0) := unwrap1_trigNodup r0 hr0
    rcases hqe : unwrap1 q0 with ⟨qop, qT, qsubs⟩
    rcases hre : unwrap1 r0 with ⟨rop, rT, rsubs⟩
    rw [hqe] at hq
    rw [hre] at hr
    obtain ⟨hqT, hqs⟩ := (trigNodup_mk _ _ _).mp hq
    obtain ⟨hrT, hrs⟩ := (trigNodup_mk _ _ _).mp hr
    rw [and_orStep]
    by_cases h1 : Query.implies (.mk qop qT qsubs) (.mk rop rT rsubs) = true
    · rw [if_pos h1]
      by_cases ho : op = .and
      · rw [if_pos ho]; exact hq
      · rw [if_neg ho]; exact hr
    · rw [if_neg h1]
      by_cases h2 : Query.implies (.mk rop rT rsubs) (.mk qop qT qsubs) = true
      · rw [if_pos h2]
        by_cases ho : op = .and
        · rw [if_pos ho]; exact hr
        · rw [if_neg ho]; exact hq
      · rw [if_neg h2]
        have hqopn : qop ≠ .none := by
          intro hcon
          subst hcon
          exact h1 (implies_of_none qT qsubs _)
        have hqopa : qop ≠ .all := by
          intro hcon
          subst hcon
          exact h2 (implies_of_all qT qsubs _)
        have hropn : rop ≠ .none := by
          intro hcon
          subst hcon
          exact h2 (implies_of_none rT rsubs _)
        have hropa : rop ≠ .all := by
          intro hcon
          subst hcon
          exact h1 (implies_of_all rT rsubs _)
        by_cases h3 : Query.op (.mk qop qT qsubs) = op ∧
            (Query.op (.mk rop rT rsubs) = op ∨
              ((Query.trigram (.mk rop rT rsubs)).length = 1 ∧
                (Query.sub (.mk rop rT rsubs)).isEmpty = true))
        · rw [if_pos h3]
          refine (trigNodup_mk _ _ _).mpr ⟨union_sets_nodup _ _, ?_⟩
          exact trigNodupAll_append _ _ hqs hrs
        · rw [if_neg h3]
          by_cases h4 : Query.op (.mk rop rT rsubs) = op ∧
              ((Query.trigram (.mk qop qT qsubs)).length = 1 ∧
                (Query.sub (.mk qop qT qsubs)).isEmpty = true)
          · rw [if_pos h4]
            exact (trigNodup_mk _ _ _).mpr ⟨union_sets_nodup _ _, hrs⟩
          · rw [if_neg h4]
            by_cases h5 : ((Query.trigram (.mk qop qT qsubs)).length = 1 ∧
                  (Query.sub (.mk qop qT qsubs)).isEmpty = true) ∧
                ((Query.trigram (.mk rop rT rsubs)).length = 1 ∧
                  (Query.sub (.mk rop rT rsubs)).isEmpty = true)
            · rw [if_pos h5]
              have hqe2 : qsubs = [] := List.isEmpty_iff.mp h5.1.2
              have hre2 : rsubs = [] := List.isEmpty_iff.mp h5.2.2
              subst hqe2
              subst hre2
              have hqT1 : ∃ a, qT = [a] := by
                have hlen := h5.1.1
                rcases qT with _ | ⟨a, qT2⟩
                · simp [Query.trigram] at hlen
                · rcases qT2 with _ | ⟨a2, qT3⟩
                  · exact ⟨a, rfl⟩
                  · have : (a :: a2 :: qT3).length = 1 := hlen
                    simp only [List.length_cons] at this
                    omega
              have hrT1 : ∃ b, rT = [b] := by
                have hlen := h5.2.1
                rcases rT with _ | ⟨b, rT2⟩
                · simp [Query.trigram] at hlen
                · rcases rT2 with _ | ⟨b2, rT3⟩
                  · exact ⟨b, rfl⟩
                  · have : (b :: b2 :: rT3).length = 1 := hlen
                    simp only [List.length_cons] at this
                    omega
              obtain ⟨a, rfl⟩ := hqT1
              obtain ⟨b, rfl⟩ := hrT1
              have hab : a ≠ b := by
                intro he
                subst he
                have hqo : qop = .and ∨ qop = .or := by
                  cases qop with
                  | all => exact absurd rfl hqopa
                  | none => exact absurd rfl hqopn
                  | and => exact Or.inl rfl
                  | or => exact Or.inr rfl
                have hro : rop = .and ∨ rop = .or := by
                  cases rop with
                  | all => exact absurd rfl hropa
                  | none => exact absurd rfl hropn
                  | and => exact Or.inl rfl
                  | or => exact Or.inr rfl
                exact h1 (implies_atom_same a qop rop hqo hro)
              refine (trigNodup_mk _ _ _).mpr ⟨?_, hqs⟩
              show ([a] ++ [b]).Nodup
              simp [hab]
            · rw [if_neg h5]
              by_cases h6 : Query.op (.mk qop qT qsubs) = op
              · rw [if_pos h6]
                refine (trigNodup_mk _ _ _).mpr ⟨hqT, ?_⟩
                refine trigNodupAll_append _ _ hqs ?_
                exact trigNodupAll_of_mem _ (fun q hqm => by
                  rcases List.mem_cons.mp hqm with hh | hh
                  · exact hh ▸ hr
                  · simp at hh)
              · rw [if_neg h6]
                by_cases h7 : Query.op (.mk rop rT rsubs) = op
                · rw [if_pos h7]
                  refine (trigNodup_mk _ _ _).mpr ⟨hrT, ?_⟩
                  refine trigNodupAll_append _ _ hrs ?_
                  exact trigNodupAll_of_mem _ (fun q hqm => by
                    rcases List.mem_cons.mp hqm with hh | hh
                    · exact hh ▸ hq
                    · simp at hh)
                · rw [if_neg h7]
                  rcases hsp : intersection_split (Query.trigram (.mk qop qT qsubs))
                      (Query.trigram (.mk rop rT rsubs)) with ⟨common, qt, rt⟩
                  obtain ⟨p1, p2, p3⟩ :=
                    intersection_splitF_sublist (qT.length + rT.length) qT rT
                  have hspr : intersection_splitF (qT.length + rT.length) qT rT =
                      (common, qt, rt) := hsp
                  rw [hspr] at p1 p2 p3
                  have hqtn : trigNodup (Query.mk qop qt qsubs) :=
                    (trigNodup_mk _ _ _).mpr ⟨p2.nodup hqT, hqs⟩
                  have hrtn : trigNodup (Query.mk rop rt rsubs) :=
                    (trigNodup_mk _ _ _).mpr ⟨p3.nodup hrT, hrs⟩
                  show trigNodup (if common ≠ [] then
                      and_orF n (.mk (otherOpOf op) common [])
                        (and_orF n (.mk qop qt qsubs) (.mk rop rt rsubs) op)
                        (otherOpOf op)
                    else .mk op [] [.mk qop qt qsubs, .mk rop rt rsubs])
                  by_cases hc : common ≠ []
                  · rw [if_pos hc]
                    refine ih _ _ _ ?_ (ih _ _ _ hqtn hrtn)
                    refine (trigNodup_mk _ _ _).mpr ⟨p1.nodup hqT, ?_⟩
                    rw [trigNodupAll]
                    trivial
                  · rw [if_neg hc]
                    refine (trigNodup_mk _ _ _).mpr ⟨List.nodup_nil, ?_⟩
                    exact trigNodupAll_of_mem _ (fun q hqm => by
                      rcases List.mem_cons.mp hqm with hh | hh
                      · exact hh ▸ hqtn
                      · rcases List.mem_cons.mp hh with h3 | h3
                        · exact h3 ▸ hrtn
                        · simp at h3)
theorem Query_and_trigNodup (q r : Query) (hq : trigNodup q) (hr : trigNodup r) :
    trigNodup (q.and r) :=
  and_orF_trigNodup _ q r .and hq hr

theorem Query_or_trigNodup (q r : Query) (hq : trigNodup q) (hr : trigNodup r) :
    trigNodup (q.or r) :=
  and_orF_trigNodup _ q r .or hq hr

theorem foldOr_trigNodup :
    ∀ (T : List Str) (acc : Query), trigNodup acc →
    trigNodup (T.foldl (fun acc tt => acc.or (.mk .and (clean_set (windows3 tt)) [])) acc) := by
  intro T
  induction T with
  | nil => intro acc h; exact h
  | cons t ts ih =>
    intro acc h
    show trigNodup (ts.foldl _ (acc.or (.mk .and (clean_set (windows3 t)) [])))
    refine ih _ (Query_or_trigNodup _ _ h ?_)
    refine (trigNodup_mk _ _ _).mpr ⟨clean_set_nodup _, ?_⟩
    rw [trigNodupAll]
    trivial

theorem and_trigrams_trigNodup (q : Query) (T : List Str) (hq : trigNodup q) :
    trigNodup (q.and_trigrams T) := by
  rw [Query.and_trigrams]
  by_cases h : min_len T < 3
  · rw [if_pos h]
    exact hq
  · rw [if_neg h]
    exact Query_and_trigNodup _ _ hq (foldOr_trigNodup T _ trigNodup_noneQ)

theorem phase1_trigNodup (i : RegexpInfo) (force : Bool)
    (h : trigNodup i.match_q) : trigNodup ((simplifyPhase1 i force).match_q) := by
  rcases hex : i.exact with _ | ex0
  · have he : simplifyPhase1 i force = i := by
      rw [simplifyPhase1]
      rw [hex]
    rw [he]
    exact h
  · by_cases hcond : 7 < (clean_set ex0).length ∨
        (3 ≤ min_len (clean_set ex0) ∧ force = true) ∨ 4 ≤ min_len (clean_set ex0)
    · have he : simplifyPhase1 i force = { i with
          exact := Option.none
          match_q := i.match_q.and_trigrams (clean_set ex0)
          prefixS := i.prefixS ++ (clean_set ex0).map
            (fun (s : Str) => if s.length < 3 then s else s.take 2)
          suffixS := i.suffixS ++ (clean_set ex0).map
            (fun (s : Str) => if s.length < 3 then s else s.drop (s.length - 2)) } := by
        rw [simplifyPhase1]
        rw [hex]
        show (if 7 < (clean_set ex0).length ∨
          (3 ≤ min_len (clean_set ex0) ∧ force) ∨ 4 ≤ min_len (clean_set ex0) then _
          else _) = _
        rw [if_pos hcond]
      rw [he]
      exact and_trigrams_trigNodup _ _ h
    · have he : simplifyPhase1 i force = { i with exact := some (clean_set ex0) } := by
        rw [simplifyPhase1]
        rw [hex]
        show (if 7 < (clean_set ex0).length ∨
          (3 ≤ min_len (clean_set ex0) ∧ force) ∨ 4 ≤ min_len (clean_set ex0) then _
          else _) = _
        rw [if_neg hcond]
      rw [he]
      exact h

theorem phase2_trigNodup (i1 : RegexpInfo) (h : trigNodup i1.match_q) :
    trigNodup ((simplifyPhase2 i1).match_q) := by
  rcases hex : i1.exact with _ | ex
  · have he : simplifyPhase2 i1 = { i1 with
        prefixS := simplify_set false i1.prefixS
        suffixS := simplify_set true i1.suffixS
        match_q := (i1.match_q.and_trigrams
          (simplify_set false i1.prefixS)).and_trigrams
            (simplify_set true i1.suffixS) } := by
      rw [simplifyPhase2]
      rw [hex]
    rw [he]
    exact and_trigrams_trigNodup _ _ (and_trigrams_trigNodup _ _ h)
  · have he : simplifyPhase2 i1 = i1 := by
      rw [simplifyPhase2]
      rw [hex]
    rw [he]
    exact h

theorem simplify_trigNodup (i : RegexpInfo) (force : Bool)
    (h : trigNodup i.match_q) : trigNodup ((i.simplify force).match_q) := by
  rw [simplify_eq_phases]
  exact phase2_trigNodup _ (phase1_trigNodup i force h)

theorem add_exact_trigNodup (i : RegexpInfo) (h : trigNodup i.match_q) :
    trigNodup (i.add_exact.match_q) := by
  rcases hex : i.exact with _ | ex
  · have he : i.add_exact = i := by
      rw [RegexpInfo.add_exact, hex]
    rw [he]
    exact h
  · have he : i.add_exact = { i with match_q := i.match_q.and_trigrams ex } := by
      rw [RegexpInfo.add_exact, hex]
    rw [he]
    exact and_trigrams_trigNodup _ _ h

theorem concatBase_trigNodup (x y : RegexpInfo)
    (hx : trigNodup x.match_q) (hy : trigNodup y.match_q) :
    trigNodup ((concatBase x y).match_q) := by
  rcases hxe : x.exact with _ | xe <;> rcases hye : y.exact with _ | ye <;>
    rw [concatBase, hxe, hye] <;>
    exact Query_and_trigNodup _ _ hx hy

theorem concat_info_trigNodup (x y : RegexpInfo)
    (hx : trigNodup x.match_q) (hy : trigNodup y.match_q) :
    trigNodup ((concat_info x y).match_q) := by
  rw [concat_eq_phases]
  refine simplify_trigNodup _ false ?_
  rw [concatTri]
  have hmid : trigNodup (({ concatBase x y with
      can_empty := x.can_empty && y.can_empty }).match_q) :=
    concatBase_trigNodup x y hx hy
  by_cases hcond : x.exact.isNone = true ∧ y.exact.isNone = true ∧
      x.suffixS.length ≤ 20 ∧ y.prefixS.length ≤ 20 ∧
      3 ≤ min_len x.suffixS + min_len y.prefixS
  · rw [if_pos hcond]
    exact and_trigrams_trigNodup _ _ hmid
  · rw [if_neg hcond]
    exact hmid

theorem altBase_trigNodup (x y : RegexpInfo)
    (hx : trigNodup x.match_q) (hy : trigNodup y.match_q) :
    trigNodup ((altBase x y).match_q) := by
  rcases hxe : x.exact with _ | xe <;> rcases hye : y.exact with _ | ye <;>
    rw [altBase, hxe, hye]
  · exact Query_or_trigNodup _ _ hx hy
  · exact Query_or_trigNodup _ _ hx (and_trigrams_trigNodup _ _ hy)
  · exact Query_or_trigNodup _ _ (and_trigrams_trigNodup _ _ hx) hy
  · exact Query_or_trigNodup _ _ hx hy

theorem alternate_info_trigNodup (x y : RegexpInfo)
    (hx : trigNodup x.match_q) (hy : trigNodup y.match_q) :
    trigNodup ((alternate_info x y).match_q) := by
  rw [alternate_eq_phases]
  refine simplify_trigNodup _ false ?_
  exact altBase_trigNodup x y hx hy

mutual

theorem analyze_hir_trigNodup : ∀ (h : Hir), trigNodup ((analyze_hir h).match_q)
  | .epsilon => by
    have he : analyze_hir .epsilon = RegexpInfo.empty_string.simplify false := by
      simp [analyze_hir]
    rw [he]
    exact simplify_trigNodup _ _ trigNodup_allQ
  | .lit u => by
    have he : analyze_hir (.lit u) =
        ({ RegexpInfo.new with exact := some [u] }).simplify false := by
      simp [analyze_hir]
    rw [he]
    exact simplify_trigNodup _ _ trigNodup_allQ
  | .cls rs => by
    rcases hce : classEnum rs [] with _ | l
    · have he : analyze_hir (.cls rs) = RegexpInfo.any_char := by
        simp [analyze_hir, hce]
      rw [he]
      exact trigNodup_allQ
    · rcases l with _ | ⟨c, cs⟩
      · have he : analyze_hir (.cls rs) = RegexpInfo.no_match := by
          simp [analyze_hir, hce]
        rw [he]
        exact trigNodup_noneQ
      · have he : analyze_hir (.cls rs) =
            ({ RegexpInfo.new with
              exact := some ((c :: cs).map fun b => [b]) }).simplify false := by
          simp [analyze_hir, hce]
        rw [he]
        exact simplify_trigNodup _ _ trigNodup_allQ
  | .look => by
    have he : analyze_hir .look = RegexpInfo.empty_string.simplify false := by
      simp [analyze_hir]
    rw [he]
    exact simplify_trigNodup _ _ trigNodup_allQ
  | .rep 0 M sub => by
    have he : analyze_hir (.rep 0 M sub) = RegexpInfo.any_match.simplify false := by
      simp [analyze_hir]
    rw [he]
    exact simplify_trigNodup _ _ trigNodup_allQ
  | .rep (m + 1) M sub => by
    have hsub := analyze_hir_trigNodup sub
    rcases hex : (analyze_hir sub).exact with _ | ex
    · have he : analyze_hir (.rep (m + 1) M sub) =
          (analyze_hir sub).simplify false := by
        simp [analyze_hir, hex]
      rw [he]
      exact simplify_trigNodup _ _ hsub
    · have he : analyze_hir (.rep (m + 1) M sub) =
          ({ analyze_hir sub with
            prefixS := ex
            suffixS := ex
            exact := Option.none }).simplify false := by
        simp [analyze_hir, hex]
      rw [he]
      exact simplify_trigNodup _ _ hsub
  | .capture sub => by
    have he : analyze_hir (.capture sub) = (analyze_hir sub).simplify false := by
      simp [analyze_hir]
    rw [he]
    exact simplify_trigNodup _ _ (analyze_hir_trigNodup sub)
  | .cat subs => by
    have he : analyze_hir (.cat subs) =
        (foldInfo concat_info RegexpInfo.empty_string subs).simplify false := by
      simp [analyze_hir]
    rw [he]
    refine simplify_trigNodup _ _ ?_
    rcases subs with _ | ⟨h1, rest⟩
    · have hf : foldInfo concat_info RegexpInfo.empty_string [] =
          RegexpInfo.empty_string := by
        simp [foldInfo]
      rw [hf]
      exact trigNodup_allQ
    · rcases rest with _ | ⟨h2, t⟩
      · have hf : foldInfo concat_info RegexpInfo.empty_string [h1] =
            analyze_hir h1 := by
          simp [foldInfo]
        rw [hf]
        exact analyze_hir_trigNodup h1
      · have hf : foldInfo concat_info RegexpInfo.empty_string (h1 :: h2 :: t) =
            foldInfoAcc concat_info (concat_info (analyze_hir h1) (analyze_hir h2)) t := by
          simp [foldInfo]
        rw [hf]
        exact foldInfoAcc_cat_trigNodup t _
          (concat_info_trigNodup _ _ (analyze_hir_trigNodup h1) (analyze_hir_trigNodup h2))
  | .alt subs => by
    have he : analyze_hir (.alt subs) =
        (foldInfo alternate_info RegexpInfo.no_match subs).simplify false := by
      simp [analyze_hir]
    rw [he]
    refine simplify_trigNodup _ _ ?_
    rcases subs with _ | ⟨h1, rest⟩
    · have hf : foldInfo alternate_info RegexpInfo.no_match [] =
          RegexpInfo.no_match := by
        simp [foldInfo]
      rw [hf]
      exact trigNodup_noneQ
    · rcases rest with _ | ⟨h2, t⟩
      · have hf : foldInfo alternate_info RegexpInfo.no_match [h1] =
            analyze_hir h1 := by
          simp [foldInfo]
        rw [hf]
        exact analyze_hir_trigNodup h1
      · have hf : foldInfo alternate_info RegexpInfo.no_match (h1 :: h2 :: t) =
            foldInfoAcc alternate_info
              (alternate_info (analyze_hir h1) (analyze_hir h2)) t := by
          simp [foldInfo]
        rw [hf]
        exact foldInfoAcc_alt_trigNodup t _
          (alternate_info_trigNodup _ _ (analyze_hir_trigNodup h1)
            (analyze_hir_trigNodup h2))

theorem foldInfoAcc_cat_trigNodup :
    ∀ (t : List Hir) (acc : RegexpInfo), trigNodup acc.match_q →
    trigNodup ((foldInfoAcc concat_info acc t).match_q)
  | [], acc, hacc => by
    have he : foldInfoAcc concat_info acc [] = acc := by
      simp [foldInfoAcc]
    rw [he]
    exact hacc
  | h0 :: t, acc, hacc => by
    have he : foldInfoAcc concat_info acc (h0 :: t) =
        foldInfoAcc concat_info (concat_info acc (analyze_hir h0)) t := by
      simp [foldInfoAcc]
    rw [he]
    exact foldInfoAcc_cat_trigNodup t _
      (concat_info_trigNodup _ _ hacc (analyze_hir_trigNodup h0))

theorem foldInfoAcc_alt_trigNodup :
    ∀ (t : List Hir) (acc : RegexpInfo), trigNodup acc.match_q →
    trigNodup ((foldInfoAcc alternate_info acc t).match_q)
  | [], acc, hacc => by
    have he : foldInfoAcc alternate_info acc [] = acc := by
      simp [foldInfoAcc]
    rw [he]
    exact hacc
  | h0 :: t, acc, hacc => by
    have he : foldInfoAcc alternate_info acc (h0 :: t) =
        foldInfoAcc alternate_info (alternate_info acc (analyze_hir h0)) t := by
      simp [foldInfoAcc]
    rw [he]
    exact foldInfoAcc_alt_trigNodup t _
      (alternate_info_trigNodup _ _ hacc (analyze_hir_trigNodup h0))

end

/-- C7 amended: duplicate-freedom of the trigram vectors is a true
invariant of the and/or smart constructors (at every recursion budget,
hence for `Query.and_or` itself) and of the whole analyzer: every node
of every query they build has a `Nodup` trigram vector, here stated for
the root (`trigNodup` recurses into all sub-queries).  Sortedness is
not: the branch combining two single-trigram atoms of the opposite
operator emits the two trigrams in argument order, and `analyze_regexp`
can return such a node with the larger trigram first. -/
theorem c7_trigram_nodup :
    (∀ (n : Nat) (q r : Query) (op : QueryOp),
      trigNodup q → trigNodup r → trigNodup (and_orF n q r op)) ∧
    (∀ h : Hir, trigNodup (analyze_regexp h)) := by
  constructor
  · exact and_orF_trigNodup
  · intro h
    show trigNodup ((((analyze_hir h).simplify true).add_exact).match_q)
    exact add_exact_trigNodup _ (simplify_trigNodup _ true (analyze_hir_trigNodup h))

theorem c7_trigram_nodup_witness :
    trigNodup Query.allQ ∧
    trigNodup (and_orF 1 Query.allQ Query.allQ .and) ∧
    trigNodup (analyze_regexp (Hir.alt [Hir.lit [122, 122, 122, 122],
      Hir.lit [97, 97, 97, 97]])) :=
  ⟨trigNodup_allQ,
    c7_trigram_nodup.1 1 Query.allQ Query.allQ .and trigNodup_allQ trigNodup_allQ,
    c7_trigram_nodup.2 (Hir.alt [Hir.lit [122, 122, 122, 122],
      Hir.lit [97, 97, 97, 97]])⟩
